import Mathlib

/-! A verification development for the persistent HAMT of `go-immutable`.

Shallow embedding of `hamt.go`, `set.go` and `value.go`, in two forms.

The value embedding.

Nodes are values of an inductive type; `Insert` and `remove` return new
values.  Conventions:
* Go `uint` (64 bit, the platform of `hash_64.go`) is `Nat`; every shift
  amount that reaches the left-shift operator is below 64, so no left shift
  overflows, and a right shift of a 64-bit key by 64 or more is 0 in both.
* Go `int` (the element counters) is `Int`; a counter only wraps after `2^63`
  stored elements.
* `interface{}` slot contents (`Value | *HAMT | hcollision`) are the three
  constructors of `Entry`.
* A Go `nil` result of `Lookup` is `none`.
* Reference identity of the node returned by `remove` with its receiver is
  made explicit: `remove` yields `none` exactly on the path `return m`.
* The out-parameters `*resized` and `*hasCollision` are threaded through as
  an argument and an extra result.
* A slice index outside the slice is a run-time panic in Go; the embedding
  reads slots with `entries[i]?` and takes the `none` arm there.  Theorems
  `Inv.Bitindex_lt`, `Inv.Bitindex_le` and `Inv.child` show that arm is never
  taken on a node that satisfies the invariant `Inv`, which every reachable
  trie does (`Reachable.inv`).

The store embedding.

The same functions with the heap explicit (`Store`): objects, addresses,
allocation and assignment to `entries[i]`.  It is the form in which mutation
of an existing node can be expressed at all, and is used for the persistence
property.  The recursion over addresses takes a fuel argument; a panic and
exhausted fuel are `none`.
-/

namespace Immutable

/-! ## value.go -/

/-- Operations every stored element provides (`type Value interface`). -/
class Value (α : Type) where
  /-- `Hash() uint` -/
  Hash : α → Nat
  /-- `Equal(Value) bool` -/
  Equal : α → α → Bool

export Value (Hash Equal)

/-- The hash/equality contract of the element type: `Equal` is an equivalence
and elements with different hashes are never equal. -/
class Contract (α : Type) [Value α] : Prop where
  equal_refl : ∀ a : α, Equal a a = true
  equal_symm : ∀ a b : α, Equal a b = true → Equal b a = true
  equal_trans : ∀ a b c : α, Equal a b = true → Equal b c = true → Equal a c = true
  equal_hash : ∀ a b : α, Equal a b = true → Hash a = Hash b

/-- `type StrValue struct { H uint; K string }` -/
structure StrValue where
  H : Nat
  K : String
deriving DecidableEq, Repr

/-- `StrValue.Hash` and `StrValue.Equal`. -/
instance : Value StrValue where
  Hash e := e.H
  Equal e v2 := decide (e.H = v2.H) && decide (e.K = v2.K)

/-- `type StrKeyValue struct { StrValue; V interface{} }`; the payload `V` has
type `β`. -/
structure StrKeyValue (β : Type) where
  H : Nat
  K : String
  V : β

/-- `StrKeyValue.Hash` (promoted from `StrValue`) and `StrKeyValue.Equal`,
which compares hash and key only. -/
instance (β : Type) : Value (StrKeyValue β) where
  Hash e := e.H
  Equal e v2 := decide (e.H = v2.H) && decide (e.K = v2.K)

/-- `StrValue` obeys the hash/equality contract. -/
instance : Contract StrValue where
  equal_refl a := by simp [Equal]
  equal_symm a b h := by
    simp only [Equal, Bool.and_eq_true, decide_eq_true_eq] at h ⊢
    exact ⟨h.1.symm, h.2.symm⟩
  equal_trans a b c h1 h2 := by
    simp only [Equal, Bool.and_eq_true, decide_eq_true_eq] at h1 h2 ⊢
    exact ⟨h1.1.trans h2.1, h1.2.trans h2.2⟩
  equal_hash a b h := by
    simp only [Equal, Bool.and_eq_true, decide_eq_true_eq] at h
    exact h.1

/-- `StrKeyValue` obeys the hash/equality contract. -/
instance (β : Type) : Contract (StrKeyValue β) where
  equal_refl a := by simp [Equal]
  equal_symm a b h := by
    simp only [Equal, Bool.and_eq_true, decide_eq_true_eq] at h ⊢
    exact ⟨h.1.symm, h.2.symm⟩
  equal_trans a b c h1 h2 := by
    simp only [Equal, Bool.and_eq_true, decide_eq_true_eq] at h1 h2 ⊢
    exact ⟨h1.1.trans h2.1, h1.2.trans h2.2⟩
  equal_hash a b h := by
    simp only [Equal, Bool.and_eq_true, decide_eq_true_eq] at h
    exact h.1

/-! ## hamt.go: constants -/

/-- `const intSize uint = 32 << (^uint(0) >> 63)` on a 64-bit platform. -/
def intSize : Nat := 64

/-- `const uintMax uint = ^uint(0)` -/
def uintMax : Nat := 2 ^ intSize - 1

/-- `const hamtBranches = uint(intSize)` -/
def hamtBranches : Nat := intSize

/-- `const hamtBits = uint(7 - (64 / hamtBranches))` -/
def hamtBits : Nat := 7 - (64 / hamtBranches)

/-- `const hamtMask = uint(hamtBranches) - 1` -/
def hamtMask : Nat := hamtBranches - 1

/-! ## The rank primitive (package `go-bits`) -/

/-- Population count of a machine word (`math/bits.OnesCount`). -/
def OnesCount (x : Nat) : Nat :=
  ((List.range intSize).filter (fun i => x.testBit i)).length

/-- Modelled from the spec: `bits.Bitindex` of the imported package
`github.com/rsms/go-bits`, whose source is not part of the repository.
Spec 4.1: the number of set bits in `bitmap` strictly below `bitpos`. -/
def Bitindex (bitmap bitpos : Nat) : Nat :=
  OnesCount (bitmap &&& (bitpos - 1))

/-! ## hamt.go: data -/

mutual
/-- Content of one slot of `entries []interface{}`: `Value | *HAMT | hcollision`. -/
inductive Entry (α : Type) where
  | value (v : α) : Entry α
  | hamt (m : HAMT α) : Entry α
  | collision (c : List α) : Entry α
/-- `type HAMT struct { bmap uint; entries []interface{} }` -/
inductive HAMT (α : Type) where
  | mk (bmap : Nat) (entries : List (Entry α)) : HAMT α
end

/-- Field `bmap`. -/
def HAMT.bmap {α : Type} : HAMT α → Nat
  | .mk b _ => b

/-- Field `entries`. -/
def HAMT.entries {α : Type} : HAMT α → List (Entry α)
  | .mk _ es => es

/-- `var EmptyHAMT = &HAMT{}` -/
def EmptyHAMT {α : Type} : HAMT α := .mk 0 []

/-- `func (m *HAMT) Empty() bool` (for a non-nil receiver). -/
def HAMT.Empty {α : Type} (m : HAMT α) : Bool := m.entries.length == 0

/-! ## hamt.go: operations -/

section Ops
variable {α : Type} [Value α]

/-- Chunk of `key` that routes at level `shift`: `(key >> shift) & hamtMask`. -/
def chunk (key shift : Nat) : Nat := (key >>> shift) &&& hamtMask

/-- Loop of `Lookup`: one iteration per level, `m` and `shift` are the loop
variables. -/
def lookupLoop (m : HAMT α) (shift key : Nat) (v : α) : Option α :=
  let bitpos := 1 <<< ((key >>> shift) &&& hamtMask)
  if m.bmap &&& bitpos = 0 then
    none
  else
    match h : m.entries[Bitindex m.bmap bitpos]? with
    | some (.hamt e) => lookupLoop e (shift + hamtBits) key v
    | some (.collision e) => e.find? (fun v1 => Equal v1 v)
    | some (.value e) => if Equal e v then some e else none
    | none => none
termination_by sizeOf m
decreasing_by
  have h1 := List.sizeOf_lt_of_mem (List.getElem?_mem h)
  cases m
  simp only [HAMT.entries] at h1
  simp only [HAMT.mk.sizeOf_spec, Entry.hamt.sizeOf_spec] at h1 ⊢
  omega

/-- `func (m *HAMT) Lookup(key uint, v Value) Value` -/
def Lookup (m : HAMT α) (key : Nat) (v : α) : Option α :=
  lookupLoop m 0 key v

/-- `func (c1 hcollision) withValue(v2 Value, resized *int) hcollision`.
The loop leaves `i` at the first index whose element equals `v2`, or at
`len(c1)`; the result is a fresh copy with `v2` written at index `i`. -/
def withValue (c1 : List α) (v2 : α) (resized : Int) : List α × Int :=
  let l := c1.length
  let i := c1.findIdx (fun x => Equal x v2)
  if i < l then
    (c1.set i v2, resized - 1)
  else
    (c1 ++ [v2], resized)

/-- `func (c1 hcollision) withoutValue(v2 Value) (hcollision, bool)` -/
def withoutValue (c1 : List α) (v2 : α) : List α × Bool :=
  let i := c1.findIdx (fun v1 => Equal v1 v2)
  if i < c1.length then
    (c1.take i ++ c1.drop (i + 1), true)
  else
    (c1, false)

/-- `func makeHamtBranch(shift, key1, key2 uint, v1, v2 Value) interface{}`.
The Go loop appends one single-slot node per iteration to the chain
`mHead … mTail` and finally stores the terminating bucket or two-slot node in
`mTail.entries[0]`; the recursion below builds the same chain head first. -/
def makeHamtBranch (shift key1 key2 : Nat) (v1 v2 : α) : Entry α :=
  let index1 := (key1 >>> shift) &&& hamtMask
  let index2 := (key2 >>> shift) &&& hamtMask
  if index1 = index2 then
    if shift ≥ hamtBranches then
      .collision [v1, v2]
    else
      .hamt (.mk (1 <<< index1) [makeHamtBranch (shift + hamtBits) key1 key2 v1 v2])
  else
    let bmap := (1 <<< index1) ||| (1 <<< index2)
    if index1 < index2 then
      .hamt (.mk bmap [.value v1, .value v2])
    else
      .hamt (.mk bmap [.value v2, .value v1])
termination_by hamtBranches - shift
decreasing_by
  simp only [hamtBranches, hamtBits, intSize] at *
  omega

/-- `func (m *HAMT) Insert(shift, key uint, v Value, resized *int) *HAMT`;
the second component is the final value of `*resized`. -/
def Insert (m : HAMT α) (shift key : Nat) (v : α) (resized : Int) : HAMT α × Int :=
  let bitpos := 1 <<< ((key >>> shift) &&& hamtMask)
  let bi := Bitindex m.bmap bitpos
  if m.bmap &&& bitpos = 0 then
    (.mk (m.bmap ||| bitpos) (m.entries.take bi ++ .value v :: m.entries.drop bi), resized)
  else
    match h : m.entries[bi]? with
    | some (.hamt e) =>
      let r := Insert e (shift + hamtBits) key v resized
      (.mk m.bmap (m.entries.set bi (.hamt r.1)), r.2)
    | some (.collision e) =>
      let r := withValue e v resized
      (.mk m.bmap (m.entries.set bi (.collision r.1)), r.2)
    | some (.value e) =>
      let key1 := Hash e
      if key1 = key ∧ Equal e v = true then
        (.mk m.bmap (m.entries.set bi (.value v)), resized - 1)
      else
        (.mk m.bmap (m.entries.set bi (makeHamtBranch (shift + hamtBits) key1 key e v)), resized)
    | none => (.mk m.bmap m.entries, resized)
termination_by sizeOf m
decreasing_by
  have h1 := List.sizeOf_lt_of_mem (List.getElem?_mem h)
  cases m
  simp only [HAMT.entries] at h1
  simp only [HAMT.mk.sizeOf_spec, Entry.hamt.sizeOf_spec] at h1 ⊢
  omega

/-- `a &^ b` on `uint`. -/
def andNot (a b : Nat) : Nat := a &&& (uintMax ^^^ b)

/-- `func (m *HAMT) remove(shift, key uint, v2 Value, hasCollision *bool) *HAMT`.
First component: `none` when the receiver itself is returned (`return m`),
`some m2` when a different node is returned.  Second component: the final value
of `*hasCollision`. -/
def remove (m : HAMT α) (shift key : Nat) (v2 : α) (hasCollision : Bool) :
    Option (HAMT α) × Bool :=
  let bitpos := 1 <<< ((key >>> shift) &&& hamtMask)
  if m.bmap &&& bitpos ≠ 0 then
    let bi := Bitindex m.bmap bitpos
    match h : m.entries[bi]? with
    | some (.hamt e) =>
      match remove e (shift + hamtBits) key v2 hasCollision with
      | (some m3, hc) =>
        if m3.entries.length = 1 ∧ hc = false then
          match m3.entries with
          | [.hamt _] => (some (.mk m.bmap (m.entries.set bi (.hamt m3))), hc)
          | [x] => (some (.mk m.bmap (m.entries.set bi x)), hc)
          | _ => (some (.mk m.bmap (m.entries.set bi (.hamt m3))), hc)
        else
          (some (.mk m.bmap (m.entries.set bi (.hamt m3))), hc)
      | (none, hc) => (none, hc)
    | some (.collision e) =>
      match withoutValue e v2 with
      | (c2, true) =>
        match c2 with
        | [x] => (some (.mk m.bmap (m.entries.set bi (.value x))), hasCollision)
        | _ => (some (.mk m.bmap (m.entries.set bi (.collision c2))), true)
      | (_, false) => (none, hasCollision)
    | some (.value e) =>
      if Equal e v2 = true then
        let z := m.entries.length
        if z = 1 then
          (some EmptyHAMT, hasCollision)
        else
          (some (.mk (andNot m.bmap bitpos) (m.entries.take bi ++ m.entries.drop (bi + 1))),
            hasCollision)
      else
        (none, hasCollision)
    | none => (none, hasCollision)
  else
    (none, hasCollision)
termination_by sizeOf m
decreasing_by
  have h1 := List.sizeOf_lt_of_mem (List.getElem?_mem h)
  cases m
  simp only [HAMT.entries] at h1
  simp only [HAMT.mk.sizeOf_spec, Entry.hamt.sizeOf_spec] at h1 ⊢
  omega

/-- `func (m *HAMT) Remove(key uint, v Value) *HAMT`: the receiver when `remove`
returns the receiver, the new node otherwise. -/
def Remove (m : HAMT α) (key : Nat) (v : α) : HAMT α :=
  ((remove m 0 key v false).1).getD m

/-- The inner loop `for _, v := range e` of `Range` over a collision bucket. -/
def rangeCollision {σ : Type} (c : List α) (f : σ → α → σ × Bool) (s : σ) : σ × Bool :=
  match c with
  | [] => (s, true)
  | v :: rest =>
    let r := f s v
    if r.2 = false then (r.1, false) else rangeCollision rest f r.1

mutual
/-- `func (m *HAMT) Range(f func(Value) bool) bool`.  The visitor may have
state in Go (a closure); it is a state transformer `f : σ → α → σ × Bool` here,
and `Range` returns the final visitor state with the boolean result. -/
def Range {σ : Type} (m : HAMT α) (f : σ → α → σ × Bool) (s : σ) : σ × Bool :=
  match m with
  | .mk _ entries => rangeEntries entries f s
/-- The loop `for i := 0; i < len(m.entries); i++` of `Range`, from index `i`
on (`es` is `m.entries[i:]`). -/
def rangeEntries {σ : Type} (es : List (Entry α)) (f : σ → α → σ × Bool) (s : σ) : σ × Bool :=
  match es with
  | [] => (s, true)
  | .hamt e :: rest =>
    let r := Range e f s
    if r.2 = false then (r.1, false) else rangeEntries rest f r.1
  | .collision c :: rest =>
    let r := rangeCollision c f s
    if r.2 = false then (r.1, false) else rangeEntries rest f r.1
  | .value e :: rest =>
    let r := f s e
    if r.2 = false then (r.1, false) else rangeEntries rest f r.1
end

end Ops

/-! ## set.go -/

section SetOps
variable {α : Type} [Value α]

/-- `type Set struct { l int; m *HAMT }` -/
structure Set (α : Type) where
  l : Int
  m : HAMT α

/-- `var EmptySet = &Set{0, EmptyHAMT}` -/
def EmptySet : Set α := ⟨0, EmptyHAMT⟩

/-- `func (s *Set) Len() int` -/
def Set.Len (s : Set α) : Int := s.l

/-- `func (s *Set) Get(v Value) Value` -/
def Set.Get (s : Set α) (v : α) : Option α := Lookup s.m (Hash v) v

/-- `func (s *Set) Has(v Value) bool` -/
def Set.Has (s : Set α) (v : α) : Bool := (s.Get v).isSome

/-- `func (s *Set) Add(v Value) *Set` -/
def Set.Add (s : Set α) (v : α) : Set α :=
  let len2 := s.l + 1
  let r := Insert s.m 0 (Hash v) v len2
  ⟨r.2, r.1⟩

/-- `func (s *Set) Del(v Value) *Set`: the receiver when `Remove` returned the
root it was given (`m2 == s.m`). -/
def Set.Del (s : Set α) (v : α) : Set α :=
  match (remove s.m 0 (Hash v) v false).1 with
  | none => s
  | some m2 => ⟨s.l - 1, m2⟩

/-- `func (s *Set) Range(f func(Value) bool)` -/
def Set.Range {σ : Type} (s : Set α) (f : σ → α → σ × Bool) (st : σ) : σ :=
  (Immutable.Range s.m f st).1

end SetOps

/-! ## Specification-level notions -/

section SpecDefs
variable {α : Type} [Value α]

/-- Number of set bits of `b` strictly below bit position `i`. -/
def rank (b i : Nat) : Nat := (List.range i).countP (fun j => b.testBit j)

/-- The content a node routes chunk value `i` to: the slot of the set bit `i`,
nothing when the bit is clear. -/
def HAMT.slot (m : HAMT α) (i : Nat) : Option (Entry α) :=
  if m.bmap.testBit i then m.entries[rank m.bmap i]? else none

mutual
/-- Elements stored below a node, in slot order. -/
def HAMT.elements : HAMT α → List α
  | .mk _ es => elementsOf es
/-- Elements stored below a sequence of slots, in slot order. -/
def elementsOf : List (Entry α) → List α
  | [] => []
  | e :: rest => e.elements ++ elementsOf rest
/-- Elements stored below one slot. -/
def Entry.elements : Entry α → List α
  | .value v => [v]
  | .hamt m => m.elements
  | .collision c => c
end

/-- What `Lookup` does once it has read slot content `e`; `shift` is the level
below the slot. -/
def lookupEntry (e : Entry α) (shift key : Nat) (v : α) : Option α :=
  match e with
  | .hamt m => lookupLoop m shift key v
  | .collision c => c.find? (fun v1 => Equal v1 v)
  | .value e => if Equal e v then some e else none

/-- Invariant of a node at level `shift`: one slot per set bit; every element
below the slot of bit `i` has chunk `i` at this level; the elements of a
bucket are pairwise not equal; child nodes satisfy the invariant one level
down. -/
inductive Inv : Nat → HAMT α → Prop where
  | mk (shift : Nat) (m : HAMT α)
      (hlen : OnesCount m.bmap = m.entries.length)
      (hpath : ∀ i < 64, ∀ e, m.slot i = some e →
        ∀ v ∈ e.elements, chunk (Hash v) shift = i)
      (hcoll : ∀ i < 64, ∀ c, m.slot i = some (.collision c) →
        c.Pairwise (fun a b => Equal a b = false))
      (hsub : ∀ i < 64, ∀ c, m.slot i = some (.hamt c) → Inv (shift + hamtBits) c) :
      Inv shift m

/-- The invariant a slot content must satisfy when the level below the slot
is `shift`. -/
def EntryInv (shift : Nat) : Entry α → Prop
  | .value _ => True
  | .collision c => c.Pairwise (fun a b => Equal a b = false)
  | .hamt m => Inv shift m

/-- What `Insert` at level `shift` stores in an occupied slot whose content
is `e` (the `switch` of `Insert`), with the final value of `*resized`. -/
def insertEntry (e : Entry α) (shift key : Nat) (v : α) (resized : Int) : Entry α × Int :=
  match e with
  | .hamt c => (.hamt (Insert c (shift + hamtBits) key v resized).1,
      (Insert c (shift + hamtBits) key v resized).2)
  | .collision c => (.collision (withValue c v resized).1, (withValue c v resized).2)
  | .value e =>
    if Hash e = key ∧ Equal e v = true then (.value v, resized - 1)
    else (makeHamtBranch (shift + hamtBits) (Hash e) key e v, resized)

/-- Effect of `remove` on the slot it visits. -/
inductive SlotChange (α : Type) where
  /-- nothing removed: `remove` returns its receiver -/
  | same : SlotChange α
  /-- the slot content is replaced -/
  | put (x : Entry α) : SlotChange α
  /-- the slot is excised and its bit cleared -/
  | delete : SlotChange α

/-- What `remove` at level `shift` does to an occupied slot whose content is `e`
(the `switch` of `remove`), with the final value of `*hasCollision`. -/
def removeEntry (e : Entry α) (shift key : Nat) (v2 : α) (hasCollision : Bool) :
    SlotChange α × Bool :=
  match e with
  | .hamt c =>
    match remove c (shift + hamtBits) key v2 hasCollision with
    | (some m3, hc) =>
      if m3.entries.length = 1 ∧ hc = false then
        match m3.entries with
        | [.hamt _] => (.put (.hamt m3), hc)
        | [x] => (.put x, hc)
        | _ => (.put (.hamt m3), hc)
      else
        (.put (.hamt m3), hc)
    | (none, hc) => (.same, hc)
  | .collision c =>
    match withoutValue c v2 with
    | (c2, true) =>
      match c2 with
      | [x] => (.put (.value x), hasCollision)
      | _ => (.put (.collision c2), true)
    | (_, false) => (.same, hasCollision)
  | .value e => if Equal e v2 = true then (.delete, hasCollision) else (.same, hasCollision)

/-- The visitor that counts its calls and never stops. -/
def countVisitor (n : Nat) (_ : α) : Nat × Bool := (n + 1, true)

/-- Number of elements `Range` visits when the visitor never stops. -/
def HAMT.count (m : HAMT α) : Nat := (Range m countVisitor 0).1

/-- A visitor `f` instrumented to record every call with the value `f`
returned; the visitor state is paired with the record. -/
def visitLog {σ : Type} (f : σ → α → σ × Bool) (s : σ × List (α × Bool)) (v : α) :
    (σ × List (α × Bool)) × Bool :=
  (((f s.1 v).1, s.2 ++ [(v, (f s.1 v).2)]), (f s.1 v).2)

/-- Sample element: key `"k"` with hash 7 and payload 1. -/
def sampleA : StrKeyValue Nat := ⟨7, "k", 1⟩

/-- Sample element equal to `sampleA` (same hash and key) with another payload. -/
def sampleB : StrKeyValue Nat := ⟨7, "k", 2⟩

/-- Sample element colliding with `sampleA`: same hash, different key. -/
def sampleC : StrKeyValue Nat := ⟨7, "c", 3⟩

/-- Sample element with a hash of its own. -/
def sampleD : StrKeyValue Nat := ⟨8, "d", 4⟩

/-- Tries reachable from the empty trie by `Insert` and `Remove`, each called
with the hash of the element as key. -/
inductive Reachable : HAMT α → Prop where
  | empty : Reachable EmptyHAMT
  | insert (t : HAMT α) (v : α) (n : Int) :
      Reachable t → Reachable (Insert t 0 (Hash v) v n).1
  | remove (t : HAMT α) (v : α) : Reachable t → Reachable (Remove t (Hash v) v)

/-- Sets reachable from `EmptySet` by `Add` and `Del`. -/
inductive Set.Reachable : Set α → Prop where
  | empty : Set.Reachable EmptySet
  | add (s : Set α) (v : α) : Set.Reachable s → Set.Reachable (s.Add v)
  | del (s : Set α) (v : α) : Set.Reachable s → Set.Reachable (s.Del v)

/-- The trie holding `sampleA` only. -/
def sampleT : HAMT (StrKeyValue Nat) := (Insert EmptyHAMT 0 (Hash sampleA) sampleA 1).1

/-- The set holding `sampleA` only. -/
def sampleS : Set (StrKeyValue Nat) := EmptySet.Add sampleA

end SpecDefs

/-! ## hamt.go on an explicit store

The same operations once more, with the Go heap made explicit: nodes and
bucket arrays are objects of a store, slots hold addresses, allocation appends
an object and an assignment to `entries[i]` overwrites a word of an existing
object.  The unit of a run-time panic or of exhausted fuel is `none`. -/

section StoreOps
variable {α : Type} [Value α]

/-- One word of an `entries []interface{}` array in the store. -/
inductive HEntry (α : Type) where
  /-- the nil interface, content of a slot fresh from `make` -/
  | nil : HEntry α
  /-- a `Value` -/
  | value (v : α) : HEntry α
  /-- a `*HAMT`: address of a node -/
  | hamt (p : Nat) : HEntry α
  /-- an `hcollision`: address of its backing array -/
  | collision (p : Nat) : HEntry α

/-- An object of the store. -/
inductive Obj (α : Type) where
  /-- a `HAMT` struct together with the backing array of its `entries` -/
  | node (bmap : Nat) (entries : List (HEntry α)) : Obj α
  /-- the backing array of an `hcollision` -/
  | bucket (c : List α) : Obj α

/-- The store: the object at address `a` is the `a`-th element. -/
abbrev Store (α : Type) := List (Obj α)

/-- Allocation: the new object gets the next free address. -/
def Store.alloc (h : Store α) (o : Obj α) : Store α × Nat := (h ++ [o], h.length)

/-- Reading the node at address `p`. -/
def Store.node (h : Store α) (p : Nat) : Option (Nat × List (HEntry α)) :=
  match h[p]? with
  | some (.node b es) => some (b, es)
  | _ => none

/-- Reading the bucket array at address `p`. -/
def Store.bucket (h : Store α) (p : Nat) : Option (List α) :=
  match h[p]? with
  | some (.bucket c) => some c
  | _ => none

/-- The assignment `p.entries[i] = x`. -/
def Store.setEntry (h : Store α) (p i : Nat) (x : HEntry α) : Option (Store α) :=
  match h[p]? with
  | some (.node b es) => if i < es.length then some (h.set p (.node b (es.set i x))) else none
  | _ => none

/-- Address of the global `EmptyHAMT`. -/
def Store.emptyAddr : Nat := 0

/-- The store at program start: only `EmptyHAMT` is allocated. -/
def Store.init : Store α := [.node 0 []]

/-- `Lookup` on the store, from the loop state `m`, `shift`. -/
def Store.lookupLoop (h : Store α) : Nat → Nat → Nat → Nat → α → Option (Option α)
  | 0, _, _, _, _ => none
  | fuel + 1, m, shift, key, v =>
    match h.node m with
    | none => none
    | some (bmap, entries) =>
      let bitpos := 1 <<< ((key >>> shift) &&& hamtMask)
      if bmap &&& bitpos = 0 then
        some none
      else
        match entries[Bitindex bmap bitpos]? with
        | none => none
        | some (.hamt e) => Store.lookupLoop h fuel e (shift + hamtBits) key v
        | some (.collision p) =>
          match h.bucket p with
          | none => none
          | some e => some (e.find? (fun v1 => Equal v1 v))
        | some (.value e) => some (if Equal e v then some e else none)
        | some .nil => Store.lookupLoop h fuel m (shift + hamtBits) key v

/-- `func (m *HAMT) Lookup(key uint, v Value) Value` on the store. -/
def Store.Lookup (h : Store α) (fuel m key : Nat) (v : α) : Option (Option α) :=
  h.lookupLoop fuel m 0 key v

/-- `hcollision.withValue` on the store: reads `c1`, allocates `c2`. -/
def Store.withValue (h : Store α) (c1 : Nat) (v2 : α) (resized : Int) :
    Option (Store α × Nat × Int) :=
  match h.bucket c1 with
  | none => none
  | some c =>
    let r := Immutable.withValue c v2 resized
    let a := h.alloc (.bucket r.1)
    some (a.1, a.2, r.2)

/-- `hcollision.withoutValue` on the store: allocates `c2` when the element is
found and returns `c1` itself otherwise. -/
def Store.withoutValue (h : Store α) (c1 : Nat) (v2 : α) : Option (Store α × Nat × Bool) :=
  match h.bucket c1 with
  | none => none
  | some c =>
    let r := Immutable.withoutValue c v2
    if r.2 = true then
      let a := h.alloc (.bucket r.1)
      some (a.1, a.2, true)
    else
      some (h, c1, false)

/-- The loop of `makeHamtBranch` on the store, with its variables `shift`,
`mHead` and `mTail`, followed by the code after the loop. -/
def Store.makeHamtBranchLoop (h : Store α) (shift key1 key2 : Nat) (v1 v2 : α)
    (mHead mTail : Option Nat) : Option (Store α × HEntry α) :=
  let index1 := (key1 >>> shift) &&& hamtMask
  let index2 := (key2 >>> shift) &&& hamtMask
  if index1 = index2 then
    if shift ≥ hamtBranches then
      let a := h.alloc (.bucket [v1, v2])
      match mHead, mTail with
      | none, _ => some (a.1, .collision a.2)
      | some hd, some tl =>
        match a.1.setEntry tl 0 (.collision a.2) with
        | none => none
        | some h2 => some (h2, .hamt hd)
      | some _, none => none
    else
      let a := h.alloc (.node (1 <<< index1) [.nil])
      match mTail with
      | none =>
        Store.makeHamtBranchLoop a.1 (shift + hamtBits) key1 key2 v1 v2 (some a.2) (some a.2)
      | some tl =>
        match a.1.setEntry tl 0 (.hamt a.2) with
        | none => none
        | some h2 =>
          Store.makeHamtBranchLoop h2 (shift + hamtBits) key1 key2 v1 v2 mHead (some a.2)
  else
    let bmap := (1 <<< index1) ||| (1 <<< index2)
    let a := h.alloc (.node bmap
      (if index1 < index2 then [.value v1, .value v2] else [.value v2, .value v1]))
    match mHead, mTail with
    | none, _ => some (a.1, .hamt a.2)
    | some hd, some tl =>
      match a.1.setEntry tl 0 (.hamt a.2) with
      | none => none
      | some h2 => some (h2, .hamt hd)
    | some _, none => none
termination_by hamtBranches - shift
decreasing_by
  all_goals simp only [hamtBranches, hamtBits, intSize] at *
  all_goals omega

/-- `func makeHamtBranch(shift, key1, key2 uint, v1, v2 Value) interface{}` on
the store. -/
def Store.makeHamtBranch (h : Store α) (shift key1 key2 : Nat) (v1 v2 : α) :
    Option (Store α × HEntry α) :=
  h.makeHamtBranchLoop shift key1 key2 v1 v2 none none

/-- `func (m *HAMT) Insert(shift, key uint, v Value, resized *int) *HAMT` on
the store: the new store, the address of the returned node and the final
value of `*resized`. -/
def Store.Insert (h : Store α) : Nat → Nat → Nat → Nat → α → Int →
    Option (Store α × Nat × Int)
  | 0, _, _, _, _, _ => none
  | fuel + 1, m, shift, key, v, resized =>
    match h.node m with
    | none => none
    | some (bmap, entries) =>
      let bitpos := 1 <<< ((key >>> shift) &&& hamtMask)
      let bi := Bitindex bmap bitpos
      if bmap &&& bitpos = 0 then
        if bi ≤ entries.length then
          let a := h.alloc (.node (bmap ||| bitpos) (entries.take bi ++ .nil :: entries.drop bi))
          match a.1.setEntry a.2 bi (.value v) with
          | none => none
          | some h2 => some (h2, a.2, resized)
        else
          none
      else
        let a := h.alloc (.node bmap entries)
        match entries[bi]? with
        | none => none
        | some (.hamt e) =>
          match Store.Insert a.1 fuel e (shift + hamtBits) key v resized with
          | none => none
          | some (h2, e2, r) =>
            match h2.setEntry a.2 bi (.hamt e2) with
            | none => none
            | some h3 => some (h3, a.2, r)
        | some (.collision e) =>
          match a.1.withValue e v resized with
          | none => none
          | some (h2, c2, r) =>
            match h2.setEntry a.2 bi (.collision c2) with
            | none => none
            | some h3 => some (h3, a.2, r)
        | some (.value e) =>
          let key1 := Hash e
          if key1 = key ∧ Equal e v = true then
            match a.1.setEntry a.2 bi (.value v) with
            | none => none
            | some h2 => some (h2, a.2, resized - 1)
          else
            match a.1.makeHamtBranch (shift + hamtBits) key1 key e v with
            | none => none
            | some (h2, x) =>
              match h2.setEntry a.2 bi x with
              | none => none
              | some h3 => some (h3, a.2, resized)
        | some .nil => some (a.1, a.2, resized)

/-- `func (m *HAMT) remove(shift, key uint, v2 Value, hasCollision *bool) *HAMT`
on the store: the new store, the address of the returned node (`m` itself when
nothing was removed) and the final value of `*hasCollision`. -/
def Store.remove (h : Store α) : Nat → Nat → Nat → Nat → α → Bool →
    Option (Store α × Nat × Bool)
  | 0, _, _, _, _, _ => none
  | fuel + 1, m, shift, key, v2, hasCollision =>
    match h.node m with
    | none => none
    | some (bmap, entries) =>
      let bitpos := 1 <<< ((key >>> shift) &&& hamtMask)
      if bmap &&& bitpos ≠ 0 then
        let bi := Bitindex bmap bitpos
        match entries[bi]? with
        | none => none
        | some (.hamt e) =>
          match Store.remove h fuel e (shift + hamtBits) key v2 hasCollision with
          | none => none
          | some (h1, m3, hc) =>
            if m3 ≠ e then
              let a := h1.alloc (.node bmap entries)
              match a.1.node m3 with
              | none => none
              | some (_, entries3) =>
                if entries3.length = 1 ∧ hc = false then
                  match entries3 with
                  | [.hamt _] =>
                    match a.1.setEntry a.2 bi (.hamt m3) with
                    | none => none
                    | some h3 => some (h3, a.2, hc)
                  | [x] =>
                    match a.1.setEntry a.2 bi x with
                    | none => none
                    | some h3 => some (h3, a.2, hc)
                  | _ =>
                    match a.1.setEntry a.2 bi (.hamt m3) with
                    | none => none
                    | some h3 => some (h3, a.2, hc)
                else
                  match a.1.setEntry a.2 bi (.hamt m3) with
                  | none => none
                  | some h3 => some (h3, a.2, hc)
            else
              some (h1, m, hc)
        | some (.collision e) =>
          match h.withoutValue e v2 with
          | none => none
          | some (h1, c2, true) =>
            let a := h1.alloc (.node bmap entries)
            match a.1.bucket c2 with
            | none => none
            | some [x] =>
              match a.1.setEntry a.2 bi (.value x) with
              | none => none
              | some h3 => some (h3, a.2, hasCollision)
            | some _ =>
              match a.1.setEntry a.2 bi (.collision c2) with
              | none => none
              | some h3 => some (h3, a.2, true)
          | some (h1, _, false) => some (h1, m, hasCollision)
        | some (.value e) =>
          if Equal e v2 = true then
            let z := entries.length
            if z = 1 then
              some (h, Store.emptyAddr, hasCollision)
            else
              let a := h.alloc (.node (andNot bmap bitpos) (entries.take bi ++ entries.drop (bi + 1)))
              some (a.1, a.2, hasCollision)
          else
            some (h, m, hasCollision)
        | some .nil => some (h, m, hasCollision)
      else
        some (h, m, hasCollision)

/-- `func (m *HAMT) Remove(key uint, v Value) *HAMT` on the store. -/
def Store.Remove (h : Store α) (fuel m key : Nat) (v : α) : Option (Store α × Nat) :=
  match h.remove fuel m 0 key v false with
  | none => none
  | some (h1, m2, _) => some (h1, m2)

/-- The loop over `m.entries` of `Range` on the store; `child` is the
recursive call of `Range` on a child node. -/
def Store.rangeEntries {σ : Type} (h : Store α) (child : Nat → σ → Option (σ × Bool))
    (es : List (HEntry α)) (f : σ → α → σ × Bool) (s : σ) : Option (σ × Bool) :=
  match es with
  | [] => some (s, true)
  | .hamt e :: rest =>
    match child e s with
    | none => none
    | some r => if r.2 = false then some (r.1, false) else Store.rangeEntries h child rest f r.1
  | .collision p :: rest =>
    match h.bucket p with
    | none => none
    | some c =>
      let r := rangeCollision c f s
      if r.2 = false then some (r.1, false) else Store.rangeEntries h child rest f r.1
  | .value e :: rest =>
    let r := f s e
    if r.2 = false then some (r.1, false) else Store.rangeEntries h child rest f r.1
  | .nil :: rest => Store.rangeEntries h child rest f s

/-- `func (m *HAMT) Range(f func(Value) bool) bool` on the store. -/
def Store.Range {σ : Type} (h : Store α) : Nat → Nat → (σ → α → σ × Bool) → σ →
    Option (σ × Bool)
  | 0, _, _, _ => none
  | fuel + 1, m, f, s =>
    match h.node m with
    | none => none
    | some (_, entries) =>
      Store.rangeEntries h (fun e s1 => Store.Range h fuel e f s1) entries f s

end StoreOps

/-! ## Specification-level notions for the store -/

section StoreSpec
variable {α : Type}

/-- Every address held by the word is below `N`. -/
def HEntry.below (N : Nat) : HEntry α → Prop
  | .hamt p => p < N
  | .collision p => p < N
  | _ => True

/-- Every address held by the object is below `N`. -/
def Obj.below (N : Nat) : Obj α → Prop
  | .node _ es => ∀ x ∈ es, x.below N
  | .bucket _ => True

/-- The store has no dangling address: every address held by an object is the
address of an allocated object. -/
def Store.Closed (h : Store α) : Prop :=
  ∀ (a : Nat) (o : Obj α), h[a]? = some o → o.below h.length

/-- The store `h2` keeps every object that `h1` has at an address below `N`,
and has no fewer objects. -/
def Store.Frame (N : Nat) (h1 h2 : Store α) : Prop :=
  h1.length ≤ h2.length ∧ ∀ a, a < N → h2[a]? = h1[a]?

end StoreSpec

section StoreSpec2
variable {α : Type} [Value α]

/-- Stores reachable from the initial store by `Insert` and `remove`, called
on any node with any arguments. -/
inductive Store.Reachable : Store α → Prop where
  | init : Store.Reachable Store.init
  | insert {h h2 : Store α} (fuel m shift key : Nat) (v : α) (n : Int) (m2 : Nat) (n2 : Int) :
      Store.Reachable h → h.Insert fuel m shift key v n = some (h2, m2, n2) →
      Store.Reachable h2
  | remove {h h2 : Store α} (fuel m shift key : Nat) (v : α) (hc : Bool) (m2 : Nat)
      (hc2 : Bool) :
      Store.Reachable h → h.remove fuel m shift key v hc = some (h2, m2, hc2) →
      Store.Reachable h2

/-- The store `h2` preserves the store `h`: every object of `h` is unchanged
in `h2`, and every `Lookup` and every `Range` from an address allocated in `h`
gives in `h2` exactly the result it gives in `h`. -/
def Store.Preserved (h h2 : Store α) : Prop :=
  (∀ a : Nat, a < h.length → h2[a]? = h[a]?) ∧
  (∀ (fuel r key : Nat) (p : α), r < h.length →
    h2.Lookup fuel r key p = h.Lookup fuel r key p) ∧
  (∀ (σ : Type) (f : σ → α → σ × Bool) (fuel r : Nat) (s : σ), r < h.length →
    h2.Range fuel r f s = h.Range fuel r f s)

end StoreSpec2

/-! ## hash_64.go -/

section StrHashDef

/-- The loop `for i := 0; i < len(s); i++` of `StrHash` from index `i` on (the
list is `s[i:]`): each byte updates `hash = (uint(s[i]) ^ hash) * prime`, a
multiplication on 64-bit `uint`. -/
def strHashLoop (prime : Nat) : List UInt8 → Nat → Nat
  | [], hash => hash
  | b :: rest, hash => strHashLoop prime rest (((b.toNat ^^^ hash) * prime) % 2 ^ 64)

/-- `func StrHash(s string) uint` of `hash_64.go`; a Go string is its sequence
of bytes. -/
def StrHash (s : List UInt8) : Nat :=
  let prime := 0x100000001B3
  let hash := 0xCBF29CE484222325
  strHashLoop prime s hash

/-- The bytes of a string constant (Go source text is UTF-8). -/
def bytes (s : String) : List UInt8 := s.toUTF8.data.toList

end StrHashDef

/-! ## array.go -/

section ArrayOps
variable {β : Type}

/-- `type arrayValue struct { index uint; value interface{} }`; the payload
is an `interface{}`, either nil (`none`) or a value of type `β`. -/
structure arrayValue (β : Type) where
  index : Nat
  value : Option β

/-- `arrayValue.Hash` and `arrayValue.Equal`. -/
instance (β : Type) : Value (arrayValue β) where
  Hash e := e.index
  Equal e otherv := decide (e.index = otherv.index)

/-- `arrayValue` obeys the hash/equality contract. -/
instance (β : Type) : Contract (arrayValue β) where
  equal_refl a := by simp [Equal]
  equal_symm a b h := by
    simp only [Equal, decide_eq_true_eq] at h ⊢
    exact h.symm
  equal_trans a b c h1 h2 := by
    simp only [Equal, decide_eq_true_eq] at h1 h2 ⊢
    exact h1.trans h2
  equal_hash a b h := by
    simp only [Equal, decide_eq_true_eq] at h
    exact h

/-- The conversion `uint(index)` of an `int` on the 64-bit platform. -/
def toUint (index : Int) : Nat := (index % 2 ^ 64).toNat

/-- `type Array struct { l int; h *HAMT }` -/
structure Array (β : Type) where
  l : Int
  h : HAMT (arrayValue β)

/-- `var EmptyArray = &Array{0, EmptyHAMT}` -/
def EmptyArray : Array β := ⟨0, EmptyHAMT⟩

/-- `func (a *Array) Len() int` -/
def Array.Len (a : Array β) : Int := a.l

/-- `func (a *Array) Get(index int) interface{}` -/
def Array.Get (a : Array β) (index : Int) : Option β :=
  let e : arrayValue β := ⟨toUint index, none⟩
  match Lookup a.h e.index e with
  | some e => e.value
  | none => none

/-- `func (a *Array) Set(index int, value interface{}) *Array` -/
def Array.Set (a : Array β) (index : Int) (value : Option β) : Array β :=
  let uindex := toUint index
  let e : arrayValue β := ⟨uindex, value⟩
  let len2 := a.l + 1
  let r := Insert a.h 0 uindex e len2
  ⟨r.2, r.1⟩

/-- `func (a *Array) Del(index int) *Array`: the receiver when `Remove`
returned the root it was given (`h2 == a.h`). -/
def Array.Del (a : Array β) (index : Int) : Array β :=
  let e : arrayValue β := ⟨toUint index, none⟩
  match (remove a.h 0 e.index e false).1 with
  | none => a
  | some h2 => ⟨a.l - 1, h2⟩

/-- `func stringArray(m *HAMT) string`.  The closure variables `first` and
`sb` are the visitor state; `fmt.Fprint(&sb, v)` appends `str v`, the text of
`v` (for an `arrayValue`, `fmt.Sprint(e.value)`). -/
def stringArray {α : Type} [Value α] (str : α → String) (m : HAMT α) : String :=
  let r := Range m (fun (st : Bool × String) (v : α) =>
    (((false, (if st.1 then st.2 else st.2 ++ ", ") ++ str v) : Bool × String), true))
    (true, "[")
  r.1.2 ++ "]"

/-- `func (a *Array) String() string`, with the text of a payload given by
`sprint` (`fmt.Sprint`). -/
def Array.String (sprint : Option β → String) (a : Array β) : String :=
  stringArray (fun e : arrayValue β => sprint e.value) a.h

end ArrayOps

/-! ## strmap.go -/

section StrMapOps
variable {β : Type}

/-- `type StrMap struct { l int; m *HAMT }`; the payload of an entry is an
`interface{}`, either nil (`none`) or a value of type `β`. -/
structure StrMap (β : Type) where
  l : Int
  m : HAMT (StrKeyValue (Option β))

/-- `var EmptyStrMap = &StrMap{0, EmptyHAMT}` -/
def EmptyStrMap : StrMap β := ⟨0, EmptyHAMT⟩

/-- `func (m *StrMap) Len() int` -/
def StrMap.Len (m : StrMap β) : Int := m.l

/-- `func (m *StrMap) Get(key string) interface{}` -/
def StrMap.Get (m : StrMap β) (key : String) : Option β :=
  let v : StrKeyValue (Option β) := ⟨StrHash (bytes key), key, none⟩
  match Lookup m.m v.H v with
  | some v2 => v2.V
  | none => none

/-- `func (m *StrMap) GetCheck(key string) (interface{}, bool)` -/
def StrMap.GetCheck (m : StrMap β) (key : String) : Option β × Bool :=
  let v : StrKeyValue (Option β) := ⟨StrHash (bytes key), key, none⟩
  match Lookup m.m v.H v with
  | some v2 => (v2.V, true)
  | none => (none, false)

/-- `func (m *StrMap) Has(key string) bool` -/
def StrMap.Has (m : StrMap β) (key : String) : Bool :=
  let v : StrKeyValue (Option β) := ⟨StrHash (bytes key), key, none⟩
  (Lookup m.m v.H v).isSome

/-- `func (m *StrMap) Set(key string, value interface{}) *StrMap` -/
def StrMap.Set (m : StrMap β) (key : String) (value : Option β) : StrMap β :=
  let v : StrKeyValue (Option β) := ⟨StrHash (bytes key), key, value⟩
  let len2 := m.l + 1
  let r := Insert m.m 0 v.H v len2
  ⟨r.2, r.1⟩

/-- `func (m *StrMap) Del(key string) *StrMap`: the receiver when `Remove`
returned the root it was given (`m2 == m.m`). -/
def StrMap.Del (m : StrMap β) (key : String) : StrMap β :=
  let v : StrKeyValue (Option β) := ⟨StrHash (bytes key), key, none⟩
  match (remove m.m 0 v.H v false).1 with
  | none => m
  | some m2 => if m.l = 1 then EmptyStrMap else ⟨m.l - 1, m2⟩

/-- `func (m *StrMap) Range(f func(key string, value interface{}) bool)` -/
def StrMap.Range {σ : Type} (m : StrMap β) (f : σ → String → Option β → σ × Bool)
    (s : σ) : σ :=
  (Immutable.Range m.m (fun st (kv : StrKeyValue (Option β)) => f st kv.K kv.V) s).1

end StrMapOps

/-! ## Specification-level notions for the wrappers -/

section WrapperSpec
variable {β : Type}

/-- The values of Go `int` on the 64-bit platform. -/
def isInt (i : Int) : Prop := -2 ^ 63 ≤ i ∧ i < 2 ^ 63

/-- Arrays reachable from `EmptyArray` by `Set` and `Del`. -/
inductive Array.Reachable : Array β → Prop where
  | empty : Array.Reachable EmptyArray
  | set (a : Array β) (i : Int) (v : Option β) : Array.Reachable a → Array.Reachable (a.Set i v)
  | del (a : Array β) (i : Int) : Array.Reachable a → Array.Reachable (a.Del i)

/-- Maps reachable from `EmptyStrMap` by `Set` and `Del`. -/
inductive StrMap.Reachable : StrMap β → Prop where
  | empty : StrMap.Reachable EmptyStrMap
  | set (m : StrMap β) (k : String) (v : Option β) :
      StrMap.Reachable m → StrMap.Reachable (m.Set k v)
  | del (m : StrMap β) (k : String) : StrMap.Reachable m → StrMap.Reachable (m.Del k)

/-- The element `Set` stores for key `k` and value `v`, and (with `v` nil) the
probe the read operations build for `k`. -/
def strEntry (k : String) (v : Option β) : StrKeyValue (Option β) :=
  ⟨StrHash (bytes k), k, v⟩

/-- The visitor that records the key and value of every entry. -/
def collectKV (st : List (String × Option β)) (k : String) (v : Option β) :
    List (String × Option β) × Bool :=
  (st ++ [(k, v)], true)

/-- The visitor that records every element. -/
def collect {α : Type} (st : List α) (v : α) : List α × Bool := (st ++ [v], true)

end WrapperSpec

/-! ## Evaluation forms

`Insert`, `remove`, `Lookup` and `makeHamtBranch` recurse on the size of a
node or on the distance of `shift` from the word size.  The functions below
recurse on a step count instead, so that they can be evaluated on a concrete
trie; theorems `Insert_eval`, `remove_eval`, `lookupLoop_eval` and
`makeHamtBranch_eval` show that with the step count taken from the trie they
are the functions above. -/

section EvalDefs
variable {α : Type} [Value α]

mutual
/-- Number of node levels at and below a node. -/
def HAMT.depth : HAMT α → Nat
  | .mk _ es => depthOf es + 1
/-- Largest number of node levels below a sequence of slots. -/
def depthOf : List (Entry α) → Nat
  | [] => 0
  | e :: rest => max e.depth (depthOf rest)
/-- Number of node levels below one slot. -/
def Entry.depth : Entry α → Nat
  | .value _ => 0
  | .hamt m => m.depth
  | .collision _ => 0
end

/-- `makeHamtBranch` with a bound on the iterations of its loop. -/
def makeHamtBranchN : Nat → Nat → Nat → Nat → α → α → Entry α
  | 0, _, _, _, v1, v2 => .collision [v1, v2]
  | steps + 1, shift, key1, key2, v1, v2 =>
    if chunk key1 shift = chunk key2 shift then
      if shift ≥ 64 then .collision [v1, v2]
      else .hamt (.mk (1 <<< chunk key1 shift)
        [makeHamtBranchN steps (shift + hamtBits) key1 key2 v1 v2])
    else
      .hamt (.mk ((1 <<< chunk key1 shift) ||| (1 <<< chunk key2 shift))
        (if chunk key1 shift < chunk key2 shift then [.value v1, .value v2]
         else [.value v2, .value v1]))

/-- `Lookup` with a bound on the levels visited. -/
def lookupLoopN : Nat → HAMT α → Nat → Nat → α → Option α
  | 0, _, _, _, _ => none
  | steps + 1, m, shift, key, v =>
    match m.slot (chunk key shift) with
    | none => none
    | some (.hamt c) => lookupLoopN steps c (shift + hamtBits) key v
    | some (.collision c) => c.find? (fun v1 => Equal v1 v)
    | some (.value e) => if Equal e v then some e else none

/-- `Insert` with a bound on the levels visited. -/
def InsertN : Nat → HAMT α → Nat → Nat → α → Int → HAMT α × Int
  | 0, m, _, _, _, n => (m, n)
  | steps + 1, m, shift, key, v, n =>
    if m.bmap.testBit (chunk key shift) = false then
      (.mk (m.bmap ||| (1 <<< chunk key shift))
        (m.entries.take (rank m.bmap (chunk key shift)) ++
          .value v :: m.entries.drop (rank m.bmap (chunk key shift))), n)
    else
      match m.entries[rank m.bmap (chunk key shift)]? with
      | some (.hamt c) =>
        (.mk m.bmap (m.entries.set (rank m.bmap (chunk key shift))
          (.hamt (InsertN steps c (shift + hamtBits) key v n).1)),
          (InsertN steps c (shift + hamtBits) key v n).2)
      | some (.collision c) =>
        (.mk m.bmap (m.entries.set (rank m.bmap (chunk key shift))
          (.collision (withValue c v n).1)), (withValue c v n).2)
      | some (.value e) =>
        if Hash e = key ∧ Equal e v = true then
          (.mk m.bmap (m.entries.set (rank m.bmap (chunk key shift)) (.value v)), n - 1)
        else
          (.mk m.bmap (m.entries.set (rank m.bmap (chunk key shift))
            (makeHamtBranchN 12 (shift + hamtBits) (Hash e) key e v)), n)
      | none => (m, n)

/-- `remove` with a bound on the levels visited. -/
def removeN : Nat → HAMT α → Nat → Nat → α → Bool → Option (HAMT α) × Bool
  | 0, _, _, _, _, hc => (none, hc)
  | steps + 1, m, shift, key, v2, hc =>
    if m.bmap.testBit (chunk key shift) = true then
      match m.entries[rank m.bmap (chunk key shift)]? with
      | some (.hamt c) =>
        match removeN steps c (shift + hamtBits) key v2 hc with
        | (some m3, hc1) =>
          if m3.entries.length = 1 ∧ hc1 = false then
            match m3.entries with
            | [.hamt _] =>
              (some (.mk m.bmap (m.entries.set (rank m.bmap (chunk key shift)) (.hamt m3))), hc1)
            | [x] => (some (.mk m.bmap (m.entries.set (rank m.bmap (chunk key shift)) x)), hc1)
            | _ =>
              (some (.mk m.bmap (m.entries.set (rank m.bmap (chunk key shift)) (.hamt m3))), hc1)
          else
            (some (.mk m.bmap (m.entries.set (rank m.bmap (chunk key shift)) (.hamt m3))), hc1)
        | (none, hc1) => (none, hc1)
      | some (.collision c) =>
        match withoutValue c v2 with
        | (c2, true) =>
          match c2 with
          | [x] =>
            (some (.mk m.bmap (m.entries.set (rank m.bmap (chunk key shift)) (.value x))), hc)
          | _ =>
            (some (.mk m.bmap (m.entries.set (rank m.bmap (chunk key shift)) (.collision c2))),
              true)
        | (_, false) => (none, hc)
      | some (.value e) =>
        if Equal e v2 = true then
          (some (if m.entries.length = 1 then EmptyHAMT
            else .mk (andNot m.bmap (1 <<< chunk key shift))
              (m.entries.take (rank m.bmap (chunk key shift)) ++
                m.entries.drop (rank m.bmap (chunk key shift) + 1))), hc)
        else (none, hc)
      | none => (none, hc)
    else (none, hc)

end EvalDefs

section ArrayExample

/-- `fmt.Sprint` of an `interface{}` that is nil or holds a string. -/
def sprintStr : Option String → String
  | some s => s
  | none => "<nil>"

/-- The array `a1` of `Example_array`. -/
def exampleA1 : Array String :=
  ((EmptyArray.Set 0 (some "A")).Set 1 (some "B")).Set 2 (some "C")

/-- The array `a2` of `Example_array`. -/
def exampleA2 : Array String := (exampleA1.Del 1).Set 911 (some "D")

/-- `Example_array` on the explicit store: the three `Set`, then `Del(1)` and
`Set(911, "D")` on the root of `a1`; the result is the final store with the
roots of `a1` and `a2`. -/
def exampleStore : Option (Store (arrayValue String) × Nat × Nat) :=
  (Store.init.Insert 2 Store.emptyAddr 0 0 ⟨0, some "A"⟩ 1).bind fun r1 =>
  (r1.1.Insert 2 r1.2.1 0 1 ⟨1, some "B"⟩ 2).bind fun r2 =>
  (r2.1.Insert 2 r2.2.1 0 2 ⟨2, some "C"⟩ 3).bind fun r3 =>
  (r3.1.Remove 2 r3.2.1 1 ⟨1, none⟩).bind fun r4 =>
  (r4.1.Insert 2 r4.2 0 911 ⟨911, some "D"⟩ 3).bind fun r5 =>
  some (r5.1, r3.2.1, r5.2.1)

end ArrayExample

/-! ## The node invariant -/

section NodeInvDef
variable {α : Type} [Value α]

/-- Node invariant, for a node at level `shift` and every node below it:
`len(entries) == popcount(bmap)`, and the slot of set bit `i` (the slot at the
index that counts the set bits below `i`) holds elements whose chunk at this
level is `i` only. -/
inductive NodeInv : Nat → HAMT α → Prop where
  | mk (shift : Nat) (m : HAMT α)
      (hlen : OnesCount m.bmap = m.entries.length)
      (hpath : ∀ i < 64, ∀ e, m.slot i = some e →
        ∀ v ∈ e.elements, chunk (Hash v) shift = i)
      (hsub : ∀ i < 64, ∀ c, m.slot i = some (.hamt c) → NodeInv (shift + hamtBits) c) :
      NodeInv shift m

/-- The node invariant for a slot content, when the level below the slot is
`shift`: a child node satisfies it. -/
def EntryNodeInv (shift : Nat) : Entry α → Prop
  | .value _ => True
  | .collision _ => True
  | .hamt m => NodeInv shift m

end NodeInvDef

/-! ## No empty node below the root -/

section FullDef
variable {α : Type}

mutual
/-- Every bucket at or below the node holds at least two elements, and so
does every child node. -/
def HAMT.Full : HAMT α → Prop
  | .mk _ es => FullOf es
/-- `Full` for a sequence of slots. -/
def FullOf : List (Entry α) → Prop
  | [] => True
  | e :: rest => e.Full ∧ FullOf rest
/-- `Full` for one slot. -/
def Entry.Full : Entry α → Prop
  | .value _ => True
  | .hamt m => 2 ≤ m.elements.length ∧ m.Full
  | .collision c => 2 ≤ c.length
end

end FullDef

/-! ## Specification-level notions for the traversal order -/

section OrderDefs
variable {α : Type}

/-- The key path of a hash: its chunks `(h >> 0) & mask`, `(h >> hamtBits) & mask`,
and so on, lowest first; the eleven chunks of a 64-bit word. -/
def keyPath (h : Nat) : List Nat := (List.range 11).map (fun i => chunk h (i * hamtBits))

mutual
/-- Buckets sit in the slots of the last level only: a bucket is in a slot
whose level below, `shift + hamtBits`, is past the word size. -/
def HAMT.Deep : HAMT α → Nat → Prop
  | .mk _ es, shift => DeepOf es (shift + hamtBits)
/-- `Deep` for a sequence of slots; `s` is the level below the slots. -/
def DeepOf : List (Entry α) → Nat → Prop
  | [], _ => True
  | e :: rest, s => e.Deep s ∧ DeepOf rest s
/-- `Deep` for one slot; `s` is the level below the slot. -/
def Entry.Deep : Entry α → Nat → Prop
  | .value _, _ => True
  | .hamt m, s => m.Deep s
  | .collision _, s => 64 ≤ s
end

/-- The tries built from the empty trie by `Insert` alone, each with the list
of the elements inserted, in the order of insertion. -/
inductive Built [Value α] : List α → HAMT α → Prop where
  | empty : Built [] EmptyHAMT
  | insert (vs : List α) (t : HAMT α) (v : α) (n : Int) :
      Built vs t → Built (vs ++ [v]) (Insert t 0 (Hash v) v n).1

/-- First element of the traversal-order scenario: hash 64, key "a". -/
def orderA : StrValue := ⟨64, "a"⟩

/-- Second element: the hash of `orderA`, key "b". -/
def orderB : StrValue := ⟨64, "b"⟩

/-- Third element: its hash differs from that of `orderA` in the chunk of the
last level only (bit 60). -/
def orderX : StrValue := ⟨64 + 2 ^ 60, "x"⟩

/-- Fourth element: hash 0, which shares chunk 0 with `orderA` and has a
smaller chunk at the next level. -/
def orderY : StrValue := ⟨0, "y"⟩

/-- The set after `Add(orderA)`, `Add(orderB)`, `Add(orderX)`, `Del(orderX)`
and `Add(orderY)` on `EmptySet`. -/
def orderSet : Set StrValue :=
  ((((EmptySet.Add orderA).Add orderB).Add orderX).Del orderX).Add orderY

end OrderDefs

/-! ## Specification-level notions for buckets, child nodes and branches -/

section ShapeDefs
variable {α : Type}

mutual
/-- The collision buckets stored at and below a node, in slot order. -/
def HAMT.buckets : HAMT α → List (List α)
  | .mk _ es => bucketsOf es
/-- The collision buckets stored in and below a sequence of slots. -/
def bucketsOf : List (Entry α) → List (List α)
  | [] => []
  | e :: rest => e.buckets ++ bucketsOf rest
/-- The collision buckets stored in and below one slot. -/
def Entry.buckets : Entry α → List (List α)
  | .value _ => []
  | .hamt m => m.buckets
  | .collision c => [c]
end

mutual
/-- The nodes below a node: its child nodes and theirs, the node itself not
included. -/
def HAMT.subnodes : HAMT α → List (HAMT α)
  | .mk _ es => subnodesOf es
/-- The nodes in and below a sequence of slots. -/
def subnodesOf : List (Entry α) → List (HAMT α)
  | [] => []
  | e :: rest => e.subnodes ++ subnodesOf rest
/-- The nodes in and below one slot. -/
def Entry.subnodes : Entry α → List (HAMT α)
  | .value _ => []
  | .hamt m => m :: m.subnodes
  | .collision _ => []
end

/-- A chain of `k` single-slot nodes for the chunks of `key` at the levels
`shift`, `shift + hamtBits`, and so on, around the slot content `x`. -/
def bridge (key : Nat) : Nat → Nat → Entry α → Entry α
  | 0, _, x => x
  | k + 1, shift, x =>
    .hamt (.mk (1 <<< chunk key shift) [bridge key k (shift + hamtBits) x])

mutual
/-- Nodes sit at the levels below the word size only: the node is at level
`shift`, which is below 64, and so for its child nodes one level down. -/
def HAMT.Within : HAMT α → Nat → Prop
  | .mk _ es, shift => shift < 64 ∧ WithinOf es (shift + hamtBits)
/-- `Within` for a sequence of slots; `s` is the level below the slots. -/
def WithinOf : List (Entry α) → Nat → Prop
  | [], _ => True
  | e :: rest, s => e.Within s ∧ WithinOf rest s
/-- `Within` for one slot; `s` is the level below the slot. -/
def Entry.Within : Entry α → Nat → Prop
  | .value _, _ => True
  | .hamt m, s => m.Within s
  | .collision _, _ => True
end

end ShapeDefs

section Reachable64Def
variable {α : Type} [Value α]

/-- Tries reachable from the empty trie by `Insert` and `Remove`, where every
inserted element has a hash that is a 64-bit word, as every Go `uint` is. -/
inductive Reachable64 : HAMT α → Prop where
  | empty : Reachable64 EmptyHAMT
  | insert (t : HAMT α) (v : α) (n : Int) :
      Hash v < 2 ^ 64 → Reachable64 t → Reachable64 (Insert t 0 (Hash v) v n).1
  | remove (t : HAMT α) (v : α) : Reachable64 t → Reachable64 (Remove t (Hash v) v)

end Reachable64Def

/-! ## hamt.go with the index checks of the Go run time

Go checks every index and slice expression against the length of the slice
and panics when it is out of range.  The functions below are `Lookup`,
`Insert` and `remove` with that check explicit: the result is `none` when an
index expression is out of range and `some` of the result otherwise. -/

section CheckedOps
variable {α : Type} [Value α]

/-- The loop of `Lookup`; `none` when `m.entries[bi]` is out of range. -/
def lookupLoopC (m : HAMT α) (shift key : Nat) (v : α) : Option (Option α) :=
  let bitpos := 1 <<< ((key >>> shift) &&& hamtMask)
  if m.bmap &&& bitpos = 0 then
    some none
  else
    match h : m.entries[Bitindex m.bmap bitpos]? with
    | some (.hamt e) => lookupLoopC e (shift + hamtBits) key v
    | some (.collision e) => some (e.find? (fun v1 => Equal v1 v))
    | some (.value e) => some (if Equal e v then some e else none)
    | none => none
termination_by sizeOf m
decreasing_by
  have h1 := List.sizeOf_lt_of_mem (List.getElem?_mem h)
  cases m
  simp only [HAMT.entries] at h1
  simp only [HAMT.mk.sizeOf_spec, Entry.hamt.sizeOf_spec] at h1 ⊢
  omega

/-- `Insert`; `none` when one of `m.entries[:bi]`, `m.entries[bi:]`,
`m2.entries[bi+1:]`, `m2.entries[bi]` or `m.entries[bi]` is out of range. -/
def InsertC (m : HAMT α) (shift key : Nat) (v : α) (resized : Int) : Option (HAMT α × Int) :=
  let bitpos := 1 <<< ((key >>> shift) &&& hamtMask)
  let bi := Bitindex m.bmap bitpos
  if m.bmap &&& bitpos = 0 then
    if bi ≤ m.entries.length then
      some (.mk (m.bmap ||| bitpos) (m.entries.take bi ++ .value v :: m.entries.drop bi),
        resized)
    else
      none
  else
    match h : m.entries[bi]? with
    | some (.hamt e) =>
      match InsertC e (shift + hamtBits) key v resized with
      | some r => some (.mk m.bmap (m.entries.set bi (.hamt r.1)), r.2)
      | none => none
    | some (.collision e) =>
      let r := withValue e v resized
      some (.mk m.bmap (m.entries.set bi (.collision r.1)), r.2)
    | some (.value e) =>
      let key1 := Hash e
      if key1 = key ∧ Equal e v = true then
        some (.mk m.bmap (m.entries.set bi (.value v)), resized - 1)
      else
        some (.mk m.bmap (m.entries.set bi (makeHamtBranch (shift + hamtBits) key1 key e v)),
          resized)
    | none => none
termination_by sizeOf m
decreasing_by
  have h1 := List.sizeOf_lt_of_mem (List.getElem?_mem h)
  cases m
  simp only [HAMT.entries] at h1
  simp only [HAMT.mk.sizeOf_spec, Entry.hamt.sizeOf_spec] at h1 ⊢
  omega

/-- `remove`; `none` when `m.entries[bi]` is out of range.  The other index
expressions of `remove` are guarded by a length test or follow a successful
read of `m.entries[bi]`. -/
def removeC (m : HAMT α) (shift key : Nat) (v2 : α) (hasCollision : Bool) :
    Option (Option (HAMT α) × Bool) :=
  let bitpos := 1 <<< ((key >>> shift) &&& hamtMask)
  if m.bmap &&& bitpos ≠ 0 then
    let bi := Bitindex m.bmap bitpos
    match h : m.entries[bi]? with
    | some (.hamt e) =>
      match removeC e (shift + hamtBits) key v2 hasCollision with
      | some (some m3, hc) =>
        if m3.entries.length = 1 ∧ hc = false then
          match m3.entries with
          | [.hamt _] => some (some (.mk m.bmap (m.entries.set bi (.hamt m3))), hc)
          | [x] => some (some (.mk m.bmap (m.entries.set bi x)), hc)
          | _ => some (some (.mk m.bmap (m.entries.set bi (.hamt m3))), hc)
        else
          some (some (.mk m.bmap (m.entries.set bi (.hamt m3))), hc)
      | some (none, hc) => some (none, hc)
      | none => none
    | some (.collision e) =>
      match withoutValue e v2 with
      | (c2, true) =>
        match c2 with
        | [x] => some (some (.mk m.bmap (m.entries.set bi (.value x))), hasCollision)
        | _ => some (some (.mk m.bmap (m.entries.set bi (.collision c2))), true)
      | (_, false) => some (none, hasCollision)
    | some (.value e) =>
      if Equal e v2 = true then
        let z := m.entries.length
        if z = 1 then
          some (some EmptyHAMT, hasCollision)
        else
          some (some (.mk (andNot m.bmap bitpos)
            (m.entries.take bi ++ m.entries.drop (bi + 1))), hasCollision)
      else
        some (none, hasCollision)
    | none => none
  else
    some (none, hasCollision)
termination_by sizeOf m
decreasing_by
  have h1 := List.sizeOf_lt_of_mem (List.getElem?_mem h)
  cases m
  simp only [HAMT.entries] at h1
  simp only [HAMT.mk.sizeOf_spec, Entry.hamt.sizeOf_spec] at h1 ⊢
  omega

end CheckedOps

/-! ## test_test.go and the scenarios of set_test.go -/

section TestDefs

/-- `type myValue struct { key uint; value string }` -/
structure myValue where
  key : Nat
  value : String
deriving DecidableEq

/-- `myValue.Hash` and `myValue.Equal`, which compares the keys. -/
instance : Value myValue where
  Hash e := e.key
  Equal e b := decide (e.key = b.key)

/-- `myValue` obeys the hash/equality contract. -/
instance : Contract myValue where
  equal_refl a := by simp [Equal]
  equal_symm a b h := by
    simp only [Equal, decide_eq_true_eq] at h ⊢
    exact h.symm
  equal_trans a b c h1 h2 := by
    simp only [Equal, decide_eq_true_eq] at h1 h2 ⊢
    exact h1.trans h2
  equal_hash a b h := by
    simp only [Equal, decide_eq_true_eq] at h
    exact h

/-- The loop of `buildHamtKey` over the integers of the path, with its
variables `key` and `shift`. -/
def buildHamtKeyLoop : List Nat → Nat → Nat → Nat
  | [], key, _ => key
  | index :: rest, key, shift =>
    buildHamtKeyLoop rest (key ||| ((index <<< shift) % 2 ^ 64)) (shift + hamtBits)

/-- `func buildHamtKey(path string) uint`; the path is given as the list of
its integers, the result of `strings.Split` and `strconv.Atoi`. -/
def buildHamtKey (path : List Nat) : Nat := buildHamtKeyLoop path 0 0

/-- `func newValue(path string) *myValue`; the path is given as its text and
as the list of its integers. -/
def newValue (path : String) (indices : List Nat) : myValue :=
  ⟨buildHamtKey indices, path⟩

/-- The set of `TestSetDeleteDeepBranches` after the seven `Add` of its part
"deeper branches". -/
def deepSet : Set myValue :=
  ((((((EmptySet.Add (newValue "1/1" [1, 1])).Add
    (newValue "1/2/1/1/1/1" [1, 2, 1, 1, 1, 1])).Add
    (newValue "1/2/1/1/1/2" [1, 2, 1, 1, 1, 2])).Add
    (newValue "1/2/1/1/1/3" [1, 2, 1, 1, 1, 3])).Add
    (newValue "1/2/1/2/1/1" [1, 2, 1, 2, 1, 1])).Add
    (newValue "1/2/1/2/1/2" [1, 2, 1, 2, 1, 2])).Add
    (newValue "1/2/1/2/1/3" [1, 2, 1, 2, 1, 3])

/-- The set of `TestSetDeleteDeepBranches` after the first five `Del` of its
last loop: two elements are left. -/
def deepTwo : Set myValue :=
  ((((deepSet.Del (newValue "1/2/1/2/1/2" [1, 2, 1, 2, 1, 2])).Del
    (newValue "1/2/1/1/1/1" [1, 2, 1, 1, 1, 1])).Del
    (newValue "1/2/1/1/1/2" [1, 2, 1, 1, 1, 2])).Del
    (newValue "1/2/1/1/1/3" [1, 2, 1, 1, 1, 3])).Del
    (newValue "1/2/1/2/1/1" [1, 2, 1, 2, 1, 1])

/-- The set after the sixth `Del`: the element of path "1/1" is left. -/
def deepOne : Set myValue := deepTwo.Del (newValue "1/2/1/2/1/3" [1, 2, 1, 2, 1, 3])

/-- The trie holding `sampleA` and `sampleC`, which have the same hash. -/
def sampleAC : HAMT (StrKeyValue Nat) := (Insert sampleT 0 (Hash sampleC) sampleC 2).1

end TestDefs

/-! ## Tries built without hash collision -/

section PlainDefs
variable {α : Type}

mutual
/-- The node and every node below it have a bitmap that is a 64-bit word, and
no slot at or below the node holds a collision bucket. -/
def HAMT.Plain : HAMT α → Prop
  | .mk b es => b < 2 ^ 64 ∧ PlainOf es
/-- `Plain` for a sequence of slots. -/
def PlainOf : List (Entry α) → Prop
  | [] => True
  | e :: rest => e.Plain ∧ PlainOf rest
/-- `Plain` for one slot. -/
def Entry.Plain : Entry α → Prop
  | .value _ => True
  | .hamt m => m.Plain
  | .collision _ => False
end

end PlainDefs

section DistinctDefs
variable {α : Type} [Value α]

/-- Tries built from the empty trie by `Insert` and `Remove` of elements with
pairwise distinct hash keys: the hash of an inserted element is a 64-bit word,
and a stored element with the same hash is equal to the inserted one. -/
inductive ReachableD : HAMT α → Prop where
  | empty : ReachableD EmptyHAMT
  | insert (t : HAMT α) (v : α) (n : Int) :
      Hash v < 2 ^ 64 → (∀ x ∈ t.elements, Hash x = Hash v → Equal x v = true) →
      ReachableD t → ReachableD (Insert t 0 (Hash v) v n).1
  | remove (t : HAMT α) (v : α) : ReachableD t → ReachableD (Remove t (Hash v) v)

/-- What `Insert` at level `shift` leaves in the slot of the chunk of the key,
given the former content of the slot (`none` when the bit was clear). -/
def insertSlot (o : Option (Entry α)) (shift key : Nat) (v : α) (resized : Int) : Entry α :=
  match o with
  | none => .value v
  | some e => (insertEntry e shift key v resized).1

/-- The trie and the counter after inserting the elements of a list into a
trie, in the order of the list, each under its hash, with one variable behind
`resized` throughout. -/
def insertAll (t : HAMT α) (n : Int) (l : List α) : HAMT α × Int :=
  l.foldl (fun p v => Insert p.1 0 (Hash v) v p.2) (t, n)

/-- The trie after inserting the elements of a list, in the order of the
list, each under its hash and with a counter of its own. -/
def insertNodes (t : HAMT α) (l : List α) : HAMT α :=
  l.foldl (fun m v => (Insert m 0 (Hash v) v 0).1) t

end DistinctDefs

section DistinctSamples

/-- An element whose hash 71 shares its lowest chunk with the hash 7 of
`sampleA` and differs from it in the next chunk. -/
def sampleE : StrKeyValue Nat := ⟨71, "e", 5⟩

end DistinctSamples

/-! ## Bit-level lemmas -/

section BitLemmas

theorem chunk_lt (key shift : Nat) : chunk key shift < 64 := by
  unfold chunk hamtMask hamtBranches intSize
  exact Nat.lt_of_le_of_lt Nat.and_le_right (by norm_num)

theorem testBit_bit (i j : Nat) : (1 <<< i).testBit j = decide (i = j) := by
  rw [Nat.one_shiftLeft, Nat.testBit_two_pow]

theorem land_bit_eq_zero_iff (b i : Nat) : b &&& (1 <<< i) = 0 ↔ b.testBit i = false := by
  constructor
  · intro h
    have := congrArg (fun x => x.testBit i) h
    simpa [Nat.testBit_and, testBit_bit] using this
  · intro h
    apply Nat.eq_of_testBit_eq
    intro j
    rw [Nat.testBit_and, testBit_bit, Nat.zero_testBit]
    by_cases hj : i = j
    · subst hj; simp [h]
    · simp [hj]

theorem rank_zero (b : Nat) : rank b 0 = 0 := by simp [rank]

theorem rank_succ (b i : Nat) :
    rank b (i + 1) = rank b i + (if b.testBit i then 1 else 0) := by
  simp [rank, List.range_succ, List.countP_append, List.countP_cons]

theorem rank_mono (b : Nat) {i j : Nat} (h : i ≤ j) : rank b i ≤ rank b j := by
  induction j with
  | zero => simp_all
  | succ j ih =>
    rcases Nat.eq_or_lt_of_le h with h1 | h1
    · rw [h1]
    · have := ih (by omega)
      rw [rank_succ]; omega

theorem rank_lt_of_testBit (b : Nat) {i j : Nat} (h : i < j) (hb : b.testBit i = true) :
    rank b i < rank b j := by
  have h1 := rank_mono b (show i + 1 ≤ j by omega)
  rw [rank_succ, hb] at h1
  simp at h1; omega

theorem rank_congr {b c : Nat} {j : Nat} (h : ∀ k < j, b.testBit k = c.testBit k) :
    rank b j = rank c j := by
  induction j with
  | zero => simp [rank_zero]
  | succ j ih =>
    rw [rank_succ, rank_succ, ih (fun k hk => h k (by omega)), h j (by omega)]

theorem OnesCount_eq_rank (b : Nat) : OnesCount b = rank b 64 := by
  simp [OnesCount, rank, intSize, List.countP_eq_length_filter]

theorem rank_land_mask (b i j : Nat) : rank (b &&& ((1 <<< i) - 1)) j = rank b (min i j) := by
  induction j with
  | zero => simp [rank_zero]
  | succ j ih =>
    rw [rank_succ, ih, Nat.testBit_and, Nat.one_shiftLeft, Nat.testBit_two_pow_sub_one]
    by_cases h : j < i
    · have e1 : min i j = j := by omega
      have e2 : min i (j + 1) = j + 1 := by omega
      rw [e1, e2, rank_succ]; simp [h]
    · have e1 : min i j = i := by omega
      have e2 : min i (j + 1) = i := by omega
      rw [e1, e2]; simp [h]

theorem Bitindex_eq_rank (b : Nat) {i : Nat} (hi : i < 64) :
    Bitindex b (1 <<< i) = rank b i := by
  rw [Bitindex, OnesCount_eq_rank, rank_land_mask]
  congr 1; omega

theorem rank_lor (b : Nat) {i : Nat} (hb : b.testBit i = false) (j : Nat) :
    rank (b ||| (1 <<< i)) j = rank b j + (if i < j then 1 else 0) := by
  induction j with
  | zero => simp [rank_zero]
  | succ j ih =>
    rw [rank_succ, rank_succ, ih, Nat.testBit_or, testBit_bit]
    by_cases h1 : i = j
    · subst h1; simp [hb]
    · by_cases h2 : i < j
      · have : i < j + 1 := by omega
        simp [h1, h2, this]; omega
      · have : ¬ i < j + 1 := by omega
        simp [h1, h2, this]

theorem testBit_andNot (b i : Nat) {j : Nat} (hj : j < 64) :
    (andNot b (1 <<< i)).testBit j = (b.testBit j && !decide (i = j)) := by
  rw [andNot, Nat.testBit_and, Nat.testBit_xor, testBit_bit, uintMax, intSize,
    Nat.testBit_two_pow_sub_one]
  simp [hj]

theorem rank_andNot (b : Nat) {i : Nat} (hb : b.testBit i = true) {j : Nat} (hj : j ≤ 64) :
    rank (andNot b (1 <<< i)) j + (if i < j then 1 else 0) = rank b j := by
  induction j with
  | zero => simp [rank_zero]
  | succ j ih =>
    have ih := ih (by omega)
    rw [rank_succ, rank_succ, testBit_andNot b i (show j < 64 by omega)]
    by_cases h1 : i = j
    · subst h1; simp [hb] at ih ⊢; omega
    · by_cases h2 : i < j
      · have : i < j + 1 := by omega
        simp [h1, h2, this] at ih ⊢; omega
      · have : ¬ i < j + 1 := by omega
        simp [h1, h2, this] at ih ⊢; omega

end BitLemmas

/-! ## Slots of a bitmap-indexed node -/

section SlotLemmas
variable {α : Type}

theorem slot_mk (b : Nat) (es : List (Entry α)) (i : Nat) :
    (HAMT.mk b es).slot i = if b.testBit i then es[rank b i]? else none := rfl

theorem HAMT.eta (m : HAMT α) : HAMT.mk m.bmap m.entries = m := by
  cases m; rfl

theorem getElem?_insertAt {β : Type} (es : List β) (r : Nat) (x : β) (hr : r ≤ es.length)
    (k : Nat) :
    (es.take r ++ x :: es.drop r)[k]? =
      if k < r then es[k]? else if k = r then some x else es[k - 1]? := by
  have hl : (es.take r).length = r := by simp [hr]
  by_cases h1 : k < r
  · rw [List.getElem?_append_left (by omega)]
    simp [h1, List.getElem?_take]
  · rw [List.getElem?_append_right (by omega), hl]
    by_cases h2 : k = r
    · subst h2; simp
    · obtain ⟨d, hd⟩ : ∃ d, k - r = d + 1 := ⟨k - r - 1, by omega⟩
      rw [hd]
      simp only [h1, h2, if_false, List.getElem?_cons_succ, List.getElem?_drop]
      congr 1; omega

theorem getElem?_removeAt {β : Type} (es : List β) (r : Nat) (k : Nat) :
    (es.take r ++ es.drop (r + 1))[k]? = if k < r then es[k]? else es[k + 1]? := by
  by_cases hr : r ≤ es.length
  · have hl : (es.take r).length = r := by simp [hr]
    by_cases h1 : k < r
    · rw [List.getElem?_append_left (by omega)]
      simp [h1, List.getElem?_take]
    · rw [List.getElem?_append_right (by omega), hl]
      simp only [h1, if_false, List.getElem?_drop]
      congr 1; omega
  · have h1 : es.take r = es := List.take_of_length_le (by omega)
    have h2 : es.drop (r + 1) = [] := List.drop_of_length_le (by omega)
    rw [h1, h2, List.append_nil]
    by_cases h3 : k < r
    · simp [h3]
    · simp only [h3, if_false]
      rw [List.getElem?_eq_none (by omega), List.getElem?_eq_none (by omega)]

theorem rank_lt_length {b n : Nat} (hlen : OnesCount b = n) {i : Nat}
    (hi : i < 64) (hb : b.testBit i = true) : rank b i < n := by
  rw [← hlen, OnesCount_eq_rank]
  exact rank_lt_of_testBit b hi hb

theorem rank_le_length {b n : Nat} (hlen : OnesCount b = n) {i : Nat}
    (hi : i < 64) : rank b i ≤ n := by
  rw [← hlen, OnesCount_eq_rank]
  exact rank_mono b (by omega)

theorem rank_ne_of_testBit {b i j : Nat} (hi : b.testBit i = true) (hj : b.testBit j = true)
    (hne : i ≠ j) : rank b i ≠ rank b j := by
  rcases Nat.lt_or_gt_of_ne hne with h | h
  · exact Nat.ne_of_lt (rank_lt_of_testBit b h hi)
  · exact Nat.ne_of_gt (rank_lt_of_testBit b h hj)

/-- Every slot index is the rank of a set bit. -/
theorem exists_bit_of_rank {b : Nat} {n k : Nat} (h : k < rank b n) :
    ∃ i, i < n ∧ b.testBit i = true ∧ rank b i = k := by
  induction n with
  | zero => simp [rank_zero] at h
  | succ n ih =>
    rw [rank_succ] at h
    by_cases hk : k < rank b n
    · obtain ⟨i, h1, h2, h3⟩ := ih hk
      exact ⟨i, by omega, h2, h3⟩
    · by_cases hb : b.testBit n = true
      · simp [hb] at h
        exact ⟨n, by omega, hb, by omega⟩
      · simp [hb] at h; omega

theorem OnesCount_lor {b i : Nat} (hi : i < 64) (hb : b.testBit i = false) :
    OnesCount (b ||| (1 <<< i)) = OnesCount b + 1 := by
  rw [OnesCount_eq_rank, OnesCount_eq_rank, rank_lor b hb]; simp [hi]

theorem OnesCount_andNot {b i : Nat} (hi : i < 64) (hb : b.testBit i = true) :
    OnesCount (andNot b (1 <<< i)) + 1 = OnesCount b := by
  rw [OnesCount_eq_rank, OnesCount_eq_rank, ← rank_andNot b hb (Nat.le_refl 64)]; simp [hi]

/-- Slots of the node built by the empty-slot case of `Insert`. -/
theorem slot_insertAt {b : Nat} {es : List (Entry α)} (hlen : OnesCount b = es.length)
    {i : Nat} (hi : i < 64) (hb : b.testBit i = false) (x : Entry α) (j : Nat) :
    (HAMT.mk (b ||| (1 <<< i)) (es.take (rank b i) ++ x :: es.drop (rank b i))).slot j =
      if j = i then some x else (HAMT.mk b es).slot j := by
  rw [slot_mk, slot_mk, Nat.testBit_or, testBit_bit, rank_lor b hb,
    getElem?_insertAt _ _ _ (rank_le_length hlen hi)]
  by_cases hji : j = i
  · subst hji; simp [hb]
  · have hij : ¬ i = j := fun h => hji h.symm
    simp only [hij, hji, decide_False, Bool.or_false, if_false]
    by_cases hbj : b.testBit j = true
    · simp only [hbj, if_true]
      rcases Nat.lt_or_gt_of_ne hij with h | h
      · have h1 := rank_mono b (Nat.le_of_lt h)
        have h2 : ¬ rank b j + 1 < rank b i := by omega
        have h3 : ¬ rank b j + 1 = rank b i := by omega
        simp [h, h2, h3]
      · have h1 := rank_lt_of_testBit b h hbj
        have h2 : ¬ i < j := by omega
        simp [h2, h1]
    · simp [hbj]

/-- Slots of a node after overwriting the slot of a set bit. -/
theorem slot_set {b : Nat} {es : List (Entry α)} (hlen : OnesCount b = es.length)
    {i : Nat} (hi : i < 64) (hb : b.testBit i = true) (x : Entry α) (j : Nat) :
    (HAMT.mk b (es.set (rank b i) x)).slot j =
      if j = i then some x else (HAMT.mk b es).slot j := by
  rw [slot_mk, slot_mk, List.getElem?_set]
  by_cases hji : j = i
  · subst hji; simp [hb, rank_lt_length hlen hi hb]
  · simp only [hji, if_false]
    by_cases hbj : b.testBit j = true
    · have := rank_ne_of_testBit hb hbj (fun h => hji h.symm)
      simp [hbj, this]
    · simp [hbj]

/-- Slots of the node built by the single-element case of `remove`. -/
theorem slot_removeAt {b : Nat} {es : List (Entry α)}
    {i : Nat} (hb : b.testBit i = true) {j : Nat} (hj : j < 64) :
    (HAMT.mk (andNot b (1 <<< i)) (es.take (rank b i) ++ es.drop (rank b i + 1))).slot j =
      if j = i then none else (HAMT.mk b es).slot j := by
  rw [slot_mk, slot_mk, testBit_andNot b i hj, getElem?_removeAt]
  by_cases hji : j = i
  · subst hji; simp
  · have hij : ¬ i = j := fun h => hji h.symm
    simp only [hij, hji, decide_False, Bool.not_false, Bool.and_true, if_false]
    by_cases hbj : b.testBit j = true
    · simp only [hbj, if_true]
      have hr := rank_andNot b hb (Nat.le_of_lt hj)
      rcases Nat.lt_or_gt_of_ne hij with h | h
      · have h1 := rank_lt_of_testBit b h hb
        simp only [h, if_true] at hr
        have h2 : ¬ rank (andNot b (1 <<< i)) j < rank b i := by omega
        simp only [h2, if_false]
        congr 1
      · have h1 := rank_lt_of_testBit b h hbj
        have h2 : ¬ i < j := by omega
        simp only [h2, if_false, Nat.add_zero] at hr
        simp [hr, h1]
    · simp [hbj]

end SlotLemmas

/-! ## Unfolding equations of the operations -/

section Unfold
variable {α : Type} [Value α]

theorem chunk_eq (key shift : Nat) : key >>> shift &&& hamtMask = chunk key shift := rfl

theorem lookupLoop_slot (m : HAMT α) (shift key : Nat) (v : α) :
    lookupLoop m shift key v =
      match m.slot (chunk key shift) with
      | none => none
      | some e => lookupEntry e (shift + hamtBits) key v := by
  rw [lookupLoop]
  have hbi := Bitindex_eq_rank m.bmap (chunk_lt key shift)
  simp only [chunk_eq, land_bit_eq_zero_iff, HAMT.slot]
  by_cases hb : m.bmap.testBit (chunk key shift) = true
  · simp only [hb, if_true, Bool.true_eq_false, if_false]
    split <;> rename_i h <;> rw [hbi] at h <;> simp [h, lookupEntry]
  · simp [hb]

theorem Insert_eq (m : HAMT α) (shift key : Nat) (v : α) (n : Int) :
    Insert m shift key v n =
      if m.bmap.testBit (chunk key shift) = false then
        (.mk (m.bmap ||| (1 <<< chunk key shift))
          (m.entries.take (rank m.bmap (chunk key shift)) ++
            .value v :: m.entries.drop (rank m.bmap (chunk key shift))), n)
      else
        match m.entries[rank m.bmap (chunk key shift)]? with
        | some e => (.mk m.bmap (m.entries.set (rank m.bmap (chunk key shift))
            (insertEntry e shift key v n).1), (insertEntry e shift key v n).2)
        | none => (m, n) := by
  rw [Insert]
  have hbi := Bitindex_eq_rank m.bmap (chunk_lt key shift)
  simp only [chunk_eq, land_bit_eq_zero_iff]
  by_cases hb : m.bmap.testBit (chunk key shift) = false
  · rw [if_pos hb, if_pos hb, hbi]
  · rw [if_neg hb, if_neg hb]
    split <;> rename_i h <;> rw [hbi] at h <;> simp only [h, insertEntry, hbi]
    · split <;> rfl
    · cases m; rfl

theorem remove_eq (m : HAMT α) (shift key : Nat) (v2 : α) (hc : Bool) :
    remove m shift key v2 hc =
      if m.bmap.testBit (chunk key shift) = true then
        match m.entries[rank m.bmap (chunk key shift)]? with
        | some e =>
          match removeEntry e shift key v2 hc with
          | (.same, hc1) => (none, hc1)
          | (.put x, hc1) =>
            (some (.mk m.bmap (m.entries.set (rank m.bmap (chunk key shift)) x)), hc1)
          | (.delete, hc1) =>
            (some (if m.entries.length = 1 then EmptyHAMT
              else .mk (andNot m.bmap (1 <<< chunk key shift))
                (m.entries.take (rank m.bmap (chunk key shift)) ++
                  m.entries.drop (rank m.bmap (chunk key shift) + 1))), hc1)
        | none => (none, hc)
      else (none, hc) := by
  rw [remove]
  have hbi := Bitindex_eq_rank m.bmap (chunk_lt key shift)
  simp only [chunk_eq, ne_eq, land_bit_eq_zero_iff]
  by_cases hb : m.bmap.testBit (chunk key shift) = true
  · rw [if_pos (by simp [hb]), if_pos hb]
    split <;> rename_i h <;> rw [hbi] at h <;> simp only [h, removeEntry, hbi]
    · split <;> rename_i h2
      · split
        · split <;> rfl
        · rfl
      · rfl
    · split <;> rename_i h2
      · split <;> rfl
      · rfl
    · split
      · split <;> simp_all
      · rfl
  · simp [hb]
end Unfold

/-! ## Structural lemmas: induction, stored elements -/

section Structure
variable {α : Type}

theorem HAMT.entries_mk (b : Nat) (es : List (Entry α)) : (HAMT.mk b es).entries = es := rfl

theorem HAMT.bmap_mk (b : Nat) (es : List (Entry α)) : (HAMT.mk b es).bmap = b := rfl

theorem HAMT.sizeOf_child_lt {m c : HAMT α} (h : Entry.hamt c ∈ m.entries) :
    sizeOf c < sizeOf m := by
  have h1 := List.sizeOf_lt_of_mem h
  cases m
  simp only [HAMT.entries] at h1
  simp only [HAMT.mk.sizeOf_spec, Entry.hamt.sizeOf_spec] at h1 ⊢
  omega

/-- Induction over the nesting of nodes. -/
theorem HAMT.induct {P : HAMT α → Prop}
    (step : ∀ m, (∀ c, Entry.hamt c ∈ m.entries → P c) → P m) (m : HAMT α) : P m := by
  generalize hn : sizeOf m = n
  induction n using Nat.strong_induction_on generalizing m with
  | _ n ih =>
    apply step
    intro c hc
    exact ih (sizeOf c) (hn ▸ HAMT.sizeOf_child_lt hc) c rfl

theorem slot_mem {m : HAMT α} {i : Nat} {e : Entry α} (h : m.slot i = some e) :
    e ∈ m.entries := by
  unfold HAMT.slot at h
  split at h
  · exact List.getElem?_mem h
  · cases h

theorem slot_testBit {m : HAMT α} {i : Nat} {e : Entry α} (h : m.slot i = some e) :
    m.bmap.testBit i = true := by
  unfold HAMT.slot at h
  split at h
  · assumption
  · cases h

theorem slot_getElem? {m : HAMT α} {i : Nat} {e : Entry α} (h : m.slot i = some e) :
    m.entries[rank m.bmap i]? = some e := by
  unfold HAMT.slot at h
  split at h
  · exact h
  · cases h

theorem slot_of_getElem? {m : HAMT α} {i : Nat} {e : Entry α}
    (hb : m.bmap.testBit i = true) (h : m.entries[rank m.bmap i]? = some e) :
    m.slot i = some e := by
  simp [HAMT.slot, hb, h]

theorem slot_eq_none_of_testBit {m : HAMT α} {i : Nat} (hb : m.bmap.testBit i = false) :
    m.slot i = none := by
  simp [HAMT.slot, hb]

/-- Under the length invariant every set bit below 64 has a slot. -/
theorem slot_isSome {m : HAMT α} (hlen : OnesCount m.bmap = m.entries.length) {i : Nat}
    (hi : i < 64) (hb : m.bmap.testBit i = true) :
    ∃ e, m.slot i = some e ∧ m.entries[rank m.bmap i]? = some e := by
  have h := rank_lt_length hlen hi hb
  refine ⟨m.entries[rank m.bmap i], ?_, ?_⟩
  · simp [HAMT.slot, hb, h]
  · simp [h]

/-- Under the length invariant every slot is the slot of a bit below 64. -/
theorem exists_slot_of_mem {m : HAMT α} (hlen : OnesCount m.bmap = m.entries.length)
    {e : Entry α} (he : e ∈ m.entries) : ∃ i, i < 64 ∧ m.slot i = some e := by
  obtain ⟨k, hk, hke⟩ := List.getElem_of_mem he
  have hk2 : k < rank m.bmap 64 := by rw [← OnesCount_eq_rank, hlen]; exact hk
  obtain ⟨i, hi, hb, hr⟩ := exists_bit_of_rank hk2
  refine ⟨i, hi, ?_⟩
  simp [HAMT.slot, hb, hr, hk, hke]

theorem slot_EmptyHAMT (i : Nat) : (EmptyHAMT : HAMT α).slot i = none := by
  simp [HAMT.slot, EmptyHAMT, HAMT.bmap]

/-- Slots of a single-slot node. -/
theorem slot_single {i : Nat} (hi : i < 64) (x : Entry α) (j : Nat) :
    (HAMT.mk (1 <<< i) [x]).slot j = if j = i then some x else none := by
  have h0 : OnesCount 0 = ([] : List (Entry α)).length := by simp [OnesCount]
  have h := slot_insertAt h0 hi (Nat.zero_testBit i) x j
  simp only [Nat.zero_or, rank, Nat.zero_testBit, List.countP_false, List.take_nil,
    List.drop_nil, List.nil_append] at h
  simpa [HAMT.slot, HAMT.bmap, HAMT.entries] using h

theorem OnesCount_bit {i : Nat} (hi : i < 64) : OnesCount (1 <<< i) = 1 := by
  have := OnesCount_lor (b := 0) hi (Nat.zero_testBit i)
  simpa [OnesCount, intSize] using this

theorem rank_bit (i j : Nat) : rank (1 <<< i) j = if i < j then 1 else 0 := by
  have := rank_lor 0 (Nat.zero_testBit i) j
  simpa [rank] using this

/-- Slots of the two-slot node built at the end of `makeHamtBranch`. -/
theorem slot_pair {i1 i2 : Nat} (h1 : i1 < 64) (h2 : i2 < 64) (hne : i1 ≠ i2)
    (x1 x2 : Entry α) (j : Nat) :
    (HAMT.mk ((1 <<< i1) ||| (1 <<< i2)) (if i1 < i2 then [x1, x2] else [x2, x1])).slot j =
      if j = i2 then some x2 else if j = i1 then some x1 else none := by
  have hb : (1 <<< i1).testBit i2 = false := by rw [testBit_bit]; simp [hne]
  have hl : OnesCount (1 <<< i1) = [x1].length := by rw [OnesCount_bit h1]; rfl
  have h := slot_insertAt hl h2 hb x2 j
  rw [slot_single h1] at h
  rw [← h, rank_bit]
  by_cases hlt : i1 < i2 <;> simp [hlt]

end Structure

section Elements
variable {α : Type}

theorem HAMT.elements_mk (b : Nat) (es : List (Entry α)) :
    (HAMT.mk b es).elements = elementsOf es := by
  rw [HAMT.elements]

theorem HAMT.elements_eq (m : HAMT α) : m.elements = elementsOf m.entries := by
  cases m; rw [HAMT.elements, HAMT.entries]

theorem elementsOf_nil : elementsOf ([] : List (Entry α)) = [] := by
  rw [elementsOf]

theorem elementsOf_cons (e : Entry α) (es : List (Entry α)) :
    elementsOf (e :: es) = e.elements ++ elementsOf es := by
  rw [elementsOf]

theorem Entry.elements_value (v : α) : (Entry.value v).elements = [v] := by
  rw [Entry.elements]

theorem Entry.elements_collision (c : List α) : (Entry.collision c).elements = c := by
  rw [Entry.elements]

theorem Entry.elements_hamt (m : HAMT α) : (Entry.hamt m).elements = m.elements := by
  rw [Entry.elements]

theorem elementsOf_append (a b : List (Entry α)) :
    elementsOf (a ++ b) = elementsOf a ++ elementsOf b := by
  induction a with
  | nil => simp [elementsOf_nil]
  | cons e a ih => simp [elementsOf_cons, ih]

theorem mem_elementsOf {es : List (Entry α)} {v : α} :
    v ∈ elementsOf es ↔ ∃ e ∈ es, v ∈ e.elements := by
  induction es with
  | nil => simp [elementsOf_nil]
  | cons e es ih => simp [elementsOf_cons, ih]

theorem elements_EmptyHAMT : (EmptyHAMT : HAMT α).elements = [] := by
  rw [EmptyHAMT, HAMT.elements_mk, elementsOf_nil]

/-- Splitting the stored elements around slot index `r`. -/
theorem elementsOf_split {es : List (Entry α)} {r : Nat} {e : Entry α}
    (h : es[r]? = some e) :
    elementsOf es = elementsOf (es.take r) ++ e.elements ++ elementsOf (es.drop (r + 1)) := by
  have hr : r < es.length := by
    rcases Nat.lt_or_ge r es.length with h1 | h1
    · exact h1
    · rw [List.getElem?_eq_none h1] at h; cases h
  have h2 : es = es.take r ++ e :: es.drop (r + 1) := by
    have h3 : es[r] = e := by
      rw [List.getElem?_eq_getElem hr] at h; exact Option.some.inj h
    rw [← h3, List.getElem_cons_drop, List.take_append_drop]
  conv_lhs => rw [h2]
  rw [elementsOf_append, elementsOf_cons, List.append_assoc]

theorem elementsOf_set {es : List (Entry α)} {r : Nat} {e : Entry α}
    (h : es[r]? = some e) (x : Entry α) :
    elementsOf (es.set r x) =
      elementsOf (es.take r) ++ x.elements ++ elementsOf (es.drop (r + 1)) := by
  have hr : r < es.length := by
    rcases Nat.lt_or_ge r es.length with h1 | h1
    · exact h1
    · rw [List.getElem?_eq_none h1] at h; cases h
  rw [List.set_eq_take_cons_drop x hr, elementsOf_append, elementsOf_cons, List.append_assoc]

theorem elementsOf_insertAt (es : List (Entry α)) (r : Nat) (x : Entry α) :
    elementsOf (es.take r ++ x :: es.drop r) =
      elementsOf (es.take r) ++ x.elements ++ elementsOf (es.drop r) := by
  rw [elementsOf_append, elementsOf_cons, List.append_assoc]

theorem elementsOf_take_drop (es : List (Entry α)) (r : Nat) :
    elementsOf es = elementsOf (es.take r) ++ elementsOf (es.drop r) := by
  rw [← elementsOf_append, List.take_append_drop]

theorem slot_elements_subset {m : HAMT α} {i : Nat} {e : Entry α} (h : m.slot i = some e)
    {v : α} (hv : v ∈ e.elements) : v ∈ m.elements := by
  rw [HAMT.elements_eq, mem_elementsOf]
  exact ⟨e, slot_mem h, hv⟩

theorem exists_slot_of_mem_elements {m : HAMT α} (hlen : OnesCount m.bmap = m.entries.length)
    {v : α} (hv : v ∈ m.elements) :
    ∃ i, i < 64 ∧ ∃ e, m.slot i = some e ∧ v ∈ e.elements := by
  rw [HAMT.elements_eq, mem_elementsOf] at hv
  obtain ⟨e, he, hve⟩ := hv
  obtain ⟨i, hi, hs⟩ := exists_slot_of_mem hlen he
  exact ⟨i, hi, e, hs, hve⟩

end Elements

/-! ## Collision buckets -/

section Buckets
variable {α : Type} [Value α]

theorem withValue_nil (v : α) (n : Int) : withValue ([] : List α) v n = ([v], n) := by
  simp [withValue]

theorem withValue_cons (x : α) (c : List α) (v : α) (n : Int) :
    withValue (x :: c) v n =
      if Equal x v = true then (v :: c, n - 1)
      else (x :: (withValue c v n).1, (withValue c v n).2) := by
  by_cases h : Equal x v = true
  · simp [withValue, List.findIdx_cons, h]
  · simp only [withValue, List.findIdx_cons, h, cond_false, List.length_cons,
      Nat.add_lt_add_iff_right, if_false]
    split <;> simp

theorem withoutValue_nil (v : α) : withoutValue ([] : List α) v = ([], false) := by
  simp [withoutValue]

theorem withoutValue_cons (x : α) (c : List α) (v : α) :
    withoutValue (x :: c) v =
      if Equal x v = true then (c, true)
      else (x :: (withoutValue c v).1, (withoutValue c v).2) := by
  by_cases h : Equal x v = true
  · simp [withoutValue, List.findIdx_cons, h]
  · simp only [withoutValue, List.findIdx_cons, h, cond_false, List.length_cons,
      Nat.add_lt_add_iff_right, if_false]
    split <;> simp

end Buckets

section BucketLaws
variable {α : Type} [Value α]

theorem Contract.equal_false_symm [Contract α] {a b : α} (h : Equal a b = false) :
    Equal b a = false := by
  by_contra h1
  have h2 := Contract.equal_symm b a (by simpa using h1)
  rw [h] at h2; cases h2

/-- Equal probes are indistinguishable to `Equal` on the left. -/
theorem Contract.equal_congr [Contract α] {p q : α} (h : Equal p q = true) (x : α) :
    Equal x p = Equal x q := by
  by_cases h1 : Equal x p = true
  · rw [h1, Contract.equal_trans x p q h1 h]
  · by_cases h2 : Equal x q = true
    · exact absurd (Contract.equal_trans x q p h2 (Contract.equal_symm p q h)) h1
    · simp only [Bool.not_eq_true] at h1 h2; rw [h1, h2]

/-- An element equal to `v` is not equal to a probe that `v` is not equal to. -/
theorem Contract.not_equal_of_equal [Contract α] {x v p : α} (hx : Equal x v = true)
    (h : Equal v p = false) : Equal x p = false := by
  by_contra h1
  have h2 : Equal x p = true := by simpa using h1
  have h3 := Contract.equal_trans v x p (Contract.equal_symm x v hx) h2
  rw [h] at h3; cases h3

theorem withValue_find_self [Contract α] (c : List α) (v : α) (n : Int) :
    (withValue c v n).1.find? (fun v1 => Equal v1 v) = some v := by
  induction c with
  | nil => simp [withValue_nil, Contract.equal_refl]
  | cons x c ih =>
    rw [withValue_cons]
    by_cases h : Equal x v = true
    · simp [h, Contract.equal_refl]
    · simp [h, ih]

theorem withValue_find_other [Contract α] (c : List α) {v p : α} (n : Int)
    (h : Equal v p = false) :
    (withValue c v n).1.find? (fun v1 => Equal v1 p) = c.find? (fun v1 => Equal v1 p) := by
  induction c with
  | nil => simp [withValue_nil, h]
  | cons x c ih =>
    rw [withValue_cons]
    by_cases hx : Equal x v = true
    · simp [hx, h, Contract.not_equal_of_equal hx h]
    · simp [hx, ih, List.find?_cons]

theorem withValue_counter (c : List α) (v : α) (n : Int) :
    (withValue c v n).2 = if (c.find? (fun v1 => Equal v1 v)).isSome then n - 1 else n := by
  induction c with
  | nil => simp [withValue_nil]
  | cons x c ih =>
    rw [withValue_cons]
    by_cases hx : Equal x v = true
    · simp [hx]
    · simp [hx, ih, List.find?_cons]

theorem withValue_length (c : List α) (v : α) (n : Int) :
    ((withValue c v n).1.length : Int) + n = c.length + 1 + (withValue c v n).2 := by
  induction c with
  | nil => simp [withValue_nil]
  | cons x c ih =>
    rw [withValue_cons]
    by_cases hx : Equal x v = true
    · rw [if_pos hx]; simp only [List.length_cons]; push_cast; omega
    · rw [if_neg hx]; simp only [List.length_cons]; push_cast; omega

theorem withValue_mem (c : List α) (v : α) (n : Int) {w : α}
    (hw : w ∈ (withValue c v n).1) : w = v ∨ w ∈ c := by
  induction c with
  | nil => simpa [withValue_nil] using hw
  | cons x c ih =>
    rw [withValue_cons] at hw
    by_cases hx : Equal x v = true
    · rw [if_pos hx, List.mem_cons] at hw
      rcases hw with h | h
      · exact Or.inl h
      · exact Or.inr (List.mem_cons_of_mem _ h)
    · rw [if_neg hx, List.mem_cons] at hw
      rcases hw with h | h
      · subst h; exact Or.inr (List.mem_cons_self _ _)
      · rcases ih h with h1 | h1
        · exact Or.inl h1
        · exact Or.inr (List.mem_cons_of_mem _ h1)

theorem withValue_pairwise [Contract α] (c : List α) (v : α) (n : Int)
    (hc : c.Pairwise (fun a b => Equal a b = false)) :
    (withValue c v n).1.Pairwise (fun a b => Equal a b = false) := by
  induction c with
  | nil => simp [withValue_nil]
  | cons x c ih =>
    rw [List.pairwise_cons] at hc
    rw [withValue_cons]
    by_cases hx : Equal x v = true
    · rw [if_pos hx, List.pairwise_cons]
      refine ⟨fun y hy => ?_, hc.2⟩
      exact Contract.not_equal_of_equal (Contract.equal_symm x v hx) (hc.1 y hy)
    · rw [if_neg hx, List.pairwise_cons]
      refine ⟨fun y hy => ?_, ih hc.2⟩
      rcases withValue_mem c v n hy with h | h
      · rw [h]; simpa using hx
      · exact hc.1 y h

theorem withoutValue_found (c : List α) (v : α) :
    (withoutValue c v).2 = (c.find? (fun v1 => Equal v1 v)).isSome := by
  induction c with
  | nil => simp [withoutValue_nil]
  | cons x c ih =>
    rw [withoutValue_cons]
    by_cases hx : Equal x v = true
    · simp [hx]
    · simp [hx, ih, List.find?_cons]

theorem withoutValue_sublist (c : List α) (v : α) : (withoutValue c v).1.Sublist c := by
  induction c with
  | nil => simp [withoutValue_nil]
  | cons x c ih =>
    rw [withoutValue_cons]
    by_cases hx : Equal x v = true
    · simp [hx]
    · simp [hx, ih]

theorem withoutValue_length (c : List α) (v : α) (h : (withoutValue c v).2 = true) :
    (withoutValue c v).1.length + 1 = c.length := by
  induction c with
  | nil => simp [withoutValue_nil] at h
  | cons x c ih =>
    rw [withoutValue_cons] at h ⊢
    by_cases hx : Equal x v = true
    · simp [hx]
    · rw [if_neg hx] at h ⊢
      simp [ih h]

theorem withoutValue_find_self [Contract α] (c : List α) (v : α)
    (hc : c.Pairwise (fun a b => Equal a b = false)) :
    (withoutValue c v).1.find? (fun v1 => Equal v1 v) = none := by
  induction c with
  | nil => simp [withoutValue_nil]
  | cons x c ih =>
    rw [List.pairwise_cons] at hc
    rw [withoutValue_cons]
    by_cases hx : Equal x v = true
    · rw [if_pos hx]
      simp only [List.find?_eq_none]
      intro y hy
      have := Contract.not_equal_of_equal (Contract.equal_symm x v hx) (hc.1 y hy)
      simpa using Contract.equal_false_symm this
    · simp [hx, ih hc.2, List.find?_cons]

theorem withoutValue_find_other [Contract α] (c : List α) {v p : α}
    (h : Equal v p = false) :
    (withoutValue c v).1.find? (fun v1 => Equal v1 p) = c.find? (fun v1 => Equal v1 p) := by
  induction c with
  | nil => simp [withoutValue_nil]
  | cons x c ih =>
    rw [withoutValue_cons]
    by_cases hx : Equal x v = true
    · simp [hx, Contract.not_equal_of_equal hx h]
    · simp [hx, ih, List.find?_cons]

end BucketLaws

/-! ## Branch synthesis -/

section Branch
variable {α : Type}

theorem makeHamtBranch_eq (shift key1 key2 : Nat) (v1 v2 : α) :
    makeHamtBranch shift key1 key2 v1 v2 =
      if chunk key1 shift = chunk key2 shift then
        if shift ≥ 64 then .collision [v1, v2]
        else .hamt (.mk (1 <<< chunk key1 shift)
          [makeHamtBranch (shift + hamtBits) key1 key2 v1 v2])
      else
        .hamt (.mk ((1 <<< chunk key1 shift) ||| (1 <<< chunk key2 shift))
          (if chunk key1 shift < chunk key2 shift then [.value v1, .value v2]
           else [.value v2, .value v1])) := by
  rw [makeHamtBranch]
  simp only [chunk_eq, hamtBranches, intSize]
  split
  · rfl
  · split <;> rfl

/-- Induction over the levels visited by the loop of `makeHamtBranch`. -/
theorem shift_induct {P : Nat → Prop} (base : ∀ s, s ≥ 64 → P s)
    (step : ∀ s, s < 64 → P (s + hamtBits) → P s) (s : Nat) : P s := by
  generalize hn : 64 - s = n
  induction n using Nat.strong_induction_on generalizing s with
  | _ n ih =>
    by_cases h : s ≥ 64
    · exact base s h
    · apply step s (by omega)
      apply ih (64 - (s + hamtBits)) _ _ rfl
      simp only [hamtBits, hamtBranches, intSize]; omega

theorem makeHamtBranch_elements (shift key1 key2 : Nat) (v1 v2 : α) :
    (makeHamtBranch shift key1 key2 v1 v2).elements = [v1, v2] ∨
    (makeHamtBranch shift key1 key2 v1 v2).elements = [v2, v1] := by
  induction shift using shift_induct with
  | base s hs =>
    rw [makeHamtBranch_eq]
    by_cases hc : chunk key1 s = chunk key2 s
    · rw [if_pos hc, if_pos hs]; left; rw [Entry.elements_collision]
    · rw [if_neg hc]
      by_cases hlt : chunk key1 s < chunk key2 s
      · left; simp [hlt, Entry.elements_hamt, HAMT.elements_mk, elementsOf_cons,
          elementsOf_nil, Entry.elements_value]
      · right; simp [hlt, Entry.elements_hamt, HAMT.elements_mk, elementsOf_cons,
          elementsOf_nil, Entry.elements_value]
  | step s hs ih =>
    rw [makeHamtBranch_eq]
    by_cases hc : chunk key1 s = chunk key2 s
    · rw [if_pos hc, if_neg (by omega)]
      simpa [Entry.elements_hamt, HAMT.elements_mk, elementsOf_cons, elementsOf_nil] using ih
    · rw [if_neg hc]
      by_cases hlt : chunk key1 s < chunk key2 s
      · left; simp [hlt, Entry.elements_hamt, HAMT.elements_mk, elementsOf_cons,
          elementsOf_nil, Entry.elements_value]
      · right; simp [hlt, Entry.elements_hamt, HAMT.elements_mk, elementsOf_cons,
          elementsOf_nil, Entry.elements_value]

theorem makeHamtBranch_mem (shift key1 key2 : Nat) (v1 v2 : α) (w : α) :
    w ∈ (makeHamtBranch shift key1 key2 v1 v2).elements ↔ w = v1 ∨ w = v2 := by
  rcases makeHamtBranch_elements shift key1 key2 v1 v2 with h | h <;> rw [h] <;> simp
  exact Or.comm

theorem makeHamtBranch_length (shift key1 key2 : Nat) (v1 v2 : α) :
    (makeHamtBranch shift key1 key2 v1 v2).elements.length = 2 := by
  rcases makeHamtBranch_elements shift key1 key2 v1 v2 with h | h <;> rw [h] <;> rfl

end Branch

section BranchLaws
variable {α : Type} [Value α]

theorem Inv.hlen {shift : Nat} {m : HAMT α} (h : Inv shift m) :
    OnesCount m.bmap = m.entries.length := by
  cases h; assumption

theorem Inv.hpath {shift : Nat} {m : HAMT α} (h : Inv shift m) {i : Nat} (hi : i < 64)
    {e : Entry α} (hs : m.slot i = some e) {v : α} (hv : v ∈ e.elements) :
    chunk (Hash v) shift = i := by
  cases h with
  | mk _ _ _ hpath _ _ => exact hpath i hi e hs v hv

theorem Inv.entryInv {shift : Nat} {m : HAMT α} (h : Inv shift m) {i : Nat} (hi : i < 64)
    {e : Entry α} (hs : m.slot i = some e) : EntryInv (shift + hamtBits) e := by
  cases h with
  | mk _ _ _ _ hcoll hsub =>
    cases e with
    | value v => trivial
    | collision c => exact hcoll i hi c hs
    | hamt c => exact hsub i hi c hs

/-- Building the invariant from a description of the slots. -/
theorem Inv.of_slots {shift : Nat} {m : HAMT α} (hlen : OnesCount m.bmap = m.entries.length)
    (h : ∀ i < 64, ∀ e, m.slot i = some e →
      (∀ v ∈ e.elements, chunk (Hash v) shift = i) ∧ EntryInv (shift + hamtBits) e) :
    Inv shift m :=
  Inv.mk shift m hlen (fun i hi e hs => (h i hi e hs).1)
    (fun i hi _ hs => (h i hi _ hs).2) (fun i hi _ hs => (h i hi _ hs).2)

theorem Inv_EmptyHAMT (shift : Nat) : Inv shift (EmptyHAMT : HAMT α) := by
  apply Inv.of_slots
  · simp [EmptyHAMT, HAMT.bmap, HAMT.entries, OnesCount]
  · intro i _ e hs
    rw [slot_EmptyHAMT] at hs; cases hs

theorem Inv_single {shift i : Nat} (hi : i < 64) {x : Entry α}
    (hx1 : ∀ v ∈ x.elements, chunk (Hash v) shift = i) (hx2 : EntryInv (shift + hamtBits) x) :
    Inv shift (HAMT.mk (1 <<< i) [x]) := by
  apply Inv.of_slots
  · rw [HAMT.bmap_mk, HAMT.entries_mk, OnesCount_bit hi]; rfl
  · intro j _ e hs
    rw [slot_single hi] at hs
    split at hs
    · rename_i hj; cases hs; subst hj; exact ⟨hx1, hx2⟩
    · cases hs

theorem OnesCount_pair {i1 i2 : Nat} (h1 : i1 < 64) (h2 : i2 < 64) (hne : i1 ≠ i2) :
    OnesCount ((1 <<< i1) ||| (1 <<< i2)) = 2 := by
  rw [OnesCount_lor h2 (by rw [testBit_bit]; simp [hne]), OnesCount_bit h1]

theorem Inv_pair {shift i1 i2 : Nat} (h1 : i1 < 64) (h2 : i2 < 64) (hne : i1 ≠ i2)
    {v1 v2 : α} (hv1 : chunk (Hash v1) shift = i1) (hv2 : chunk (Hash v2) shift = i2) :
    Inv shift (HAMT.mk ((1 <<< i1) ||| (1 <<< i2))
      (if i1 < i2 then [.value v1, .value v2] else [.value v2, .value v1])) := by
  apply Inv.of_slots
  · rw [HAMT.bmap_mk, HAMT.entries_mk, OnesCount_pair h1 h2 hne]
    split <;> rfl
  · intro j _ e hs
    rw [slot_pair h1 h2 hne] at hs
    split at hs
    · rename_i hj; cases hs; subst hj
      exact ⟨by simp [Entry.elements_value, hv2], trivial⟩
    · split at hs
      · rename_i hj; cases hs; subst hj
        exact ⟨by simp [Entry.elements_value, hv1], trivial⟩
      · cases hs

/-- The branch built for two unequal elements satisfies the invariant of the
level it is built for. -/
theorem makeHamtBranch_inv (shift : Nat) (v1 v2 : α) (hne : Equal v1 v2 = false) :
    EntryInv shift (makeHamtBranch shift (Hash v1) (Hash v2) v1 v2) := by
  induction shift using shift_induct with
  | base s hs =>
    rw [makeHamtBranch_eq]
    by_cases hc : chunk (Hash v1) s = chunk (Hash v2) s
    · rw [if_pos hc, if_pos hs]; simp [EntryInv, hne]
    · rw [if_neg hc]
      exact Inv_pair (chunk_lt _ _) (chunk_lt _ _) hc rfl rfl
  | step s hs ih =>
    rw [makeHamtBranch_eq]
    by_cases hc : chunk (Hash v1) s = chunk (Hash v2) s
    · rw [if_pos hc, if_neg (by omega)]
      refine Inv_single (chunk_lt _ _) ?_ ih
      intro v hv
      rw [makeHamtBranch_mem] at hv
      rcases hv with h | h
      · rw [h]
      · rw [h, hc]
    · rw [if_neg hc]
      exact Inv_pair (chunk_lt _ _) (chunk_lt _ _) hc rfl rfl

theorem lookupEntry_single {i : Nat} (hi : i < 64) (x : Entry α) (shift key : Nat) (p : α) :
    lookupEntry (.hamt (.mk (1 <<< i) [x])) shift key p =
      if chunk key shift = i then lookupEntry x (shift + hamtBits) key p else none := by
  rw [lookupEntry, lookupLoop_slot, slot_single hi]
  by_cases h : chunk key shift = i <;> simp [h]

theorem lookupEntry_pair {i1 i2 : Nat} (h1 : i1 < 64) (h2 : i2 < 64) (hne : i1 ≠ i2)
    (v1 v2 : α) (shift key : Nat) (p : α) :
    lookupEntry (.hamt (.mk ((1 <<< i1) ||| (1 <<< i2))
      (if i1 < i2 then [.value v1, .value v2] else [.value v2, .value v1]))) shift key p =
      if chunk key shift = i2 then (if Equal v2 p = true then some v2 else none)
      else if chunk key shift = i1 then (if Equal v1 p = true then some v1 else none)
      else none := by
  rw [lookupEntry, lookupLoop_slot, slot_pair h1 h2 hne]
  by_cases h : chunk key shift = i2
  · simp [h, lookupEntry]
  · by_cases h' : chunk key shift = i1
    · have h3 : ¬ i1 = i2 := hne
      simp [h', h3, lookupEntry]
    · simp [h, h', lookupEntry]

/-- `Lookup` finds the second element of a synthesized branch under its key. -/
theorem makeHamtBranch_lookup_second (shift key1 key2 : Nat) (v1 v2 : α)
    (hne : Equal v1 v2 = false) (hrefl : Equal v2 v2 = true) :
    lookupEntry (makeHamtBranch shift key1 key2 v1 v2) shift key2 v2 = some v2 := by
  induction shift using shift_induct with
  | base s hs =>
    rw [makeHamtBranch_eq]
    by_cases hc : chunk key1 s = chunk key2 s
    · rw [if_pos hc, if_pos hs]; simp [lookupEntry, hne, hrefl]
    · rw [if_neg hc, lookupEntry_pair (chunk_lt _ _) (chunk_lt _ _) hc]
      simp [hrefl]
  | step s hs ih =>
    rw [makeHamtBranch_eq]
    by_cases hc : chunk key1 s = chunk key2 s
    · rw [if_pos hc, if_neg (by omega), lookupEntry_single (chunk_lt _ _), if_pos hc.symm]
      exact ih
    · rw [if_neg hc, lookupEntry_pair (chunk_lt _ _) (chunk_lt _ _) hc]
      simp [hrefl]

/-- `Lookup` finds the first element of a synthesized branch under its key. -/
theorem makeHamtBranch_lookup_first (shift key1 key2 : Nat) (v1 v2 p : α)
    (hp : Equal v1 p = true) :
    lookupEntry (makeHamtBranch shift key1 key2 v1 v2) shift key1 p = some v1 := by
  induction shift using shift_induct with
  | base s hs =>
    rw [makeHamtBranch_eq]
    by_cases hc : chunk key1 s = chunk key2 s
    · rw [if_pos hc, if_pos hs]; simp [lookupEntry, hp]
    · rw [if_neg hc, lookupEntry_pair (chunk_lt _ _) (chunk_lt _ _) hc]
      simp [hc, hp]
  | step s hs ih =>
    rw [makeHamtBranch_eq]
    by_cases hc : chunk key1 s = chunk key2 s
    · rw [if_pos hc, if_neg (by omega), lookupEntry_single (chunk_lt _ _), if_pos rfl]
      exact ih
    · rw [if_neg hc, lookupEntry_pair (chunk_lt _ _) (chunk_lt _ _) hc]
      simp [hc, hp]

/-- A probe equal to neither element finds nothing in a synthesized branch. -/
theorem makeHamtBranch_lookup_none (shift key1 key2 key : Nat) (v1 v2 p : α)
    (h1 : Equal v1 p = false) (h2 : Equal v2 p = false) :
    lookupEntry (makeHamtBranch shift key1 key2 v1 v2) shift key p = none := by
  induction shift using shift_induct with
  | base s hs =>
    rw [makeHamtBranch_eq]
    by_cases hc : chunk key1 s = chunk key2 s
    · rw [if_pos hc, if_pos hs]; simp [lookupEntry, h1, h2]
    · rw [if_neg hc, lookupEntry_pair (chunk_lt _ _) (chunk_lt _ _) hc]
      simp [h1, h2]
  | step s hs ih =>
    rw [makeHamtBranch_eq]
    by_cases hc : chunk key1 s = chunk key2 s
    · rw [if_pos hc, if_neg (by omega), lookupEntry_single (chunk_lt _ _)]
      split
      · exact ih
      · rfl
    · rw [if_neg hc, lookupEntry_pair (chunk_lt _ _) (chunk_lt _ _) hc]
      simp [h1, h2]

end BranchLaws

/-! ## Node-level preservation of the invariant -/

section NodeInv
variable {α : Type} [Value α]

theorem Inv_set {shift : Nat} {m : HAMT α} (h : Inv shift m) {i : Nat} (hi : i < 64)
    (hb : m.bmap.testBit i = true) {x : Entry α}
    (hx1 : ∀ v ∈ x.elements, chunk (Hash v) shift = i)
    (hx2 : EntryInv (shift + hamtBits) x) :
    Inv shift (.mk m.bmap (m.entries.set (rank m.bmap i) x)) := by
  have hlen := h.hlen
  apply Inv.of_slots
  · rw [HAMT.bmap_mk, HAMT.entries_mk, List.length_set]; exact hlen
  · intro j hj e hs
    rw [slot_set hlen hi hb, HAMT.eta] at hs
    split at hs
    · rename_i hji; cases hs; subst hji; exact ⟨hx1, hx2⟩
    · exact ⟨fun v hv => h.hpath hj hs hv, h.entryInv hj hs⟩

theorem Inv_insertAt {shift : Nat} {m : HAMT α} (h : Inv shift m) {i : Nat} (hi : i < 64)
    (hb : m.bmap.testBit i = false) {x : Entry α}
    (hx1 : ∀ v ∈ x.elements, chunk (Hash v) shift = i)
    (hx2 : EntryInv (shift + hamtBits) x) :
    Inv shift (.mk (m.bmap ||| (1 <<< i))
      (m.entries.take (rank m.bmap i) ++ x :: m.entries.drop (rank m.bmap i))) := by
  have hlen := h.hlen
  apply Inv.of_slots
  · rw [HAMT.bmap_mk, HAMT.entries_mk, OnesCount_lor hi hb, hlen]
    have := rank_le_length hlen hi
    simp only [List.length_append, List.length_take, List.length_cons, List.length_drop]
    omega
  · intro j hj e hs
    rw [slot_insertAt hlen hi hb, HAMT.eta] at hs
    split at hs
    · rename_i hji; cases hs; subst hji; exact ⟨hx1, hx2⟩
    · exact ⟨fun v hv => h.hpath hj hs hv, h.entryInv hj hs⟩

theorem Inv_removeAt {shift : Nat} {m : HAMT α} (h : Inv shift m) {i : Nat} (hi : i < 64)
    (hb : m.bmap.testBit i = true) :
    Inv shift (.mk (andNot m.bmap (1 <<< i))
      (m.entries.take (rank m.bmap i) ++ m.entries.drop (rank m.bmap i + 1))) := by
  have hlen := h.hlen
  apply Inv.of_slots
  · rw [HAMT.bmap_mk, HAMT.entries_mk]
    have h1 := OnesCount_andNot hi hb
    have h2 := rank_lt_length hlen hi hb
    simp only [List.length_append, List.length_take, List.length_drop]
    omega
  · intro j hj e hs
    rw [slot_removeAt hb hj, HAMT.eta] at hs
    split at hs
    · cases hs
    · exact ⟨fun v hv => h.hpath hj hs hv, h.entryInv hj hs⟩

/-- Case analysis of `Insert` on a node satisfying the invariant. -/
theorem Insert_cases {shift : Nat} {m : HAMT α} (h : Inv shift m) (key : Nat) (v : α)
    (n : Int) :
    (m.bmap.testBit (chunk key shift) = false ∧ m.slot (chunk key shift) = none ∧
      Insert m shift key v n =
        (.mk (m.bmap ||| (1 <<< chunk key shift))
          (m.entries.take (rank m.bmap (chunk key shift)) ++
            .value v :: m.entries.drop (rank m.bmap (chunk key shift))), n)) ∨
    (m.bmap.testBit (chunk key shift) = true ∧ ∃ e, m.slot (chunk key shift) = some e ∧
      m.entries[rank m.bmap (chunk key shift)]? = some e ∧
      Insert m shift key v n =
        (.mk m.bmap (m.entries.set (rank m.bmap (chunk key shift))
          (insertEntry e shift key v n).1), (insertEntry e shift key v n).2)) := by
  by_cases hb : m.bmap.testBit (chunk key shift) = true
  · right
    obtain ⟨e, hs, hg⟩ := slot_isSome h.hlen (chunk_lt key shift) hb
    refine ⟨hb, e, hs, hg, ?_⟩
    rw [Insert_eq, if_neg (by simp [hb]), hg]
  · left
    have hb' : m.bmap.testBit (chunk key shift) = false := by simpa using hb
    refine ⟨hb', slot_eq_none_of_testBit hb', ?_⟩
    rw [Insert_eq, if_pos hb']

/-- Outcome of `remove` at the slot it visits. -/
theorem remove_cases {shift : Nat} {m : HAMT α} (h : Inv shift m) (key : Nat) (v : α)
    (hc : Bool) :
    (m.slot (chunk key shift) = none ∧ remove m shift key v hc = (none, hc)) ∨
    (∃ e, m.slot (chunk key shift) = some e ∧ m.bmap.testBit (chunk key shift) = true ∧
      m.entries[rank m.bmap (chunk key shift)]? = some e ∧
      ((∃ hc1, removeEntry e shift key v hc = (.same, hc1) ∧
          remove m shift key v hc = (none, hc1)) ∨
       (∃ x hc1, removeEntry e shift key v hc = (.put x, hc1) ∧
          remove m shift key v hc =
            (some (.mk m.bmap (m.entries.set (rank m.bmap (chunk key shift)) x)), hc1)) ∨
       (∃ hc1, removeEntry e shift key v hc = (.delete, hc1) ∧
          remove m shift key v hc =
            (some (if m.entries.length = 1 then EmptyHAMT
              else .mk (andNot m.bmap (1 <<< chunk key shift))
                (m.entries.take (rank m.bmap (chunk key shift)) ++
                  m.entries.drop (rank m.bmap (chunk key shift) + 1))), hc1)))) := by
  by_cases hb : m.bmap.testBit (chunk key shift) = true
  · right
    obtain ⟨e, hs, hg⟩ := slot_isSome h.hlen (chunk_lt key shift) hb
    refine ⟨e, hs, hb, hg, ?_⟩
    have hrm := remove_eq m shift key v hc
    rw [if_pos hb, hg] at hrm
    rcases hr : removeEntry e shift key v hc with ⟨ch, hc1⟩
    simp only [hr] at hrm
    cases ch with
    | same => left; exact ⟨hc1, rfl, hrm⟩
    | put x => right; left; exact ⟨x, hc1, rfl, hrm⟩
    | delete => right; right; exact ⟨hc1, rfl, hrm⟩
  · left
    have hb' : m.bmap.testBit (chunk key shift) = false := by simpa using hb
    refine ⟨slot_eq_none_of_testBit hb', ?_⟩
    rw [remove_eq, if_neg hb]

end NodeInv

/-! ## Insert preserves the invariant -/

section InsertInv
variable {α : Type} [Value α] [Contract α]

theorem not_equal_of_insert_else {e v : α}
    (h : ¬ (Hash e = Hash v ∧ Equal e v = true)) : Equal e v = false := by
  by_contra h1
  have h2 : Equal e v = true := by simpa using h1
  exact h ⟨Contract.equal_hash e v h2, h2⟩

theorem insertEntry_inv {e : Entry α} {shift : Nat} {v : α} {n : Int}
    (he : EntryInv (shift + hamtBits) e)
    (ih : ∀ c, e = .hamt c →
      (Inv (shift + hamtBits) (Insert c (shift + hamtBits) (Hash v) v n).1 ∧
        ∀ w ∈ (Insert c (shift + hamtBits) (Hash v) v n).1.elements, w = v ∨ w ∈ c.elements)) :
    EntryInv (shift + hamtBits) (insertEntry e shift (Hash v) v n).1 ∧
      ∀ w ∈ (insertEntry e shift (Hash v) v n).1.elements, w = v ∨ w ∈ e.elements := by
  cases e with
  | hamt c =>
    simp only [insertEntry, EntryInv, Entry.elements_hamt]
    exact ih c rfl
  | collision c =>
    simp only [insertEntry, EntryInv, Entry.elements_collision]
    exact ⟨withValue_pairwise c v n he, fun w hw => withValue_mem c v n hw⟩
  | value e1 =>
    simp only [insertEntry]
    by_cases hr : Hash e1 = Hash v ∧ Equal e1 v = true
    · rw [if_pos hr]
      exact ⟨trivial, fun w hw => Or.inl (by simpa [Entry.elements_value] using hw)⟩
    · rw [if_neg hr]
      refine ⟨makeHamtBranch_inv _ e1 v (not_equal_of_insert_else hr), fun w hw => ?_⟩
      rw [makeHamtBranch_mem] at hw
      rcases hw with h | h
      · right; simp [Entry.elements_value, h]
      · left; exact h

theorem Insert_inv_aux (m : HAMT α) : ∀ (shift : Nat) (v : α) (n : Int), Inv shift m →
    Inv shift (Insert m shift (Hash v) v n).1 ∧
      ∀ w ∈ (Insert m shift (Hash v) v n).1.elements, w = v ∨ w ∈ m.elements := by
  induction m using HAMT.induct with
  | step m ih =>
    intro shift v n h
    have hi := chunk_lt (Hash v) shift
    rcases Insert_cases h (Hash v) v n with ⟨hb, _, heq⟩ | ⟨hb, e, hs, hg, heq⟩
    · rw [heq]
      refine ⟨Inv_insertAt h hi hb (by simp [Entry.elements_value]) trivial, fun w hw => ?_⟩
      rw [HAMT.elements_mk, elementsOf_insertAt, Entry.elements_value] at hw
      rw [HAMT.elements_eq, elementsOf_take_drop m.entries (rank m.bmap (chunk (Hash v) shift))]
      simp only [List.mem_append, List.mem_singleton] at hw ⊢
      tauto
    · rw [heq]
      have hx := @insertEntry_inv α _ _ e shift v n
        (h.entryInv hi hs)
        (fun c hc => ih c (hc ▸ slot_mem hs) (shift + hamtBits) v n
          (by have := h.entryInv hi hs; rw [hc] at this; exact this))
      refine ⟨Inv_set h hi hb (fun w hw => ?_) hx.1, fun w hw => ?_⟩
      · rcases hx.2 w hw with h1 | h1
        · rw [h1]
        · exact h.hpath hi hs h1
      · rw [HAMT.elements_mk, elementsOf_set hg] at hw
        rw [HAMT.elements_eq, elementsOf_split hg]
        simp only [List.mem_append] at hw ⊢
        rcases hw with (h1 | h1) | h1
        · tauto
        · rcases hx.2 w h1 with h2 | h2 <;> tauto
        · tauto

theorem Insert_inv {shift : Nat} {m : HAMT α} (h : Inv shift m) (v : α) (n : Int) :
    Inv shift (Insert m shift (Hash v) v n).1 :=
  (Insert_inv_aux m shift v n h).1

theorem Insert_mem {shift : Nat} {m : HAMT α} (h : Inv shift m) (v : α) (n : Int) {w : α}
    (hw : w ∈ (Insert m shift (Hash v) v n).1.elements) : w = v ∨ w ∈ m.elements :=
  (Insert_inv_aux m shift v n h).2 w hw

end InsertInv

/-! ## Insert and Lookup -/

section InsertLookup
variable {α : Type} [Value α]

theorem lookupEntry_value (e : α) (shift key : Nat) (p : α) :
    lookupEntry (.value e) shift key p = if Equal e p = true then some e else none := rfl

theorem lookupEntry_collision (c : List α) (shift key : Nat) (p : α) :
    lookupEntry (.collision c) shift key p = c.find? (fun v1 => Equal v1 p) := rfl

theorem lookupEntry_hamt (m : HAMT α) (shift key : Nat) (p : α) :
    lookupEntry (.hamt m) shift key p = lookupLoop m shift key p := rfl

variable [Contract α]

theorem Insert_lookup_self_aux (m : HAMT α) : ∀ (shift : Nat) (v : α) (n : Int),
    Inv shift m → lookupLoop (Insert m shift (Hash v) v n).1 shift (Hash v) v = some v := by
  induction m using HAMT.induct with
  | step m ih =>
    intro shift v n h
    have hi := chunk_lt (Hash v) shift
    rcases Insert_cases h (Hash v) v n with ⟨hb, _, heq⟩ | ⟨hb, e, hs, hg, heq⟩
    · rw [heq, lookupLoop_slot, slot_insertAt h.hlen hi hb, if_pos rfl]
      simp [lookupEntry_value, Contract.equal_refl]
    · rw [heq, lookupLoop_slot, slot_set h.hlen hi hb, if_pos rfl]
      simp only
      have he := h.entryInv hi hs
      cases e with
      | hamt c =>
        simp only [insertEntry, lookupEntry_hamt]
        exact ih c (slot_mem hs) _ v n he
      | collision c =>
        simp only [insertEntry, lookupEntry_collision]
        exact withValue_find_self c v n
      | value e1 =>
        simp only [insertEntry]
        by_cases hr : Hash e1 = Hash v ∧ Equal e1 v = true
        · rw [if_pos hr]; simp [lookupEntry_value, Contract.equal_refl]
        · rw [if_neg hr]
          exact makeHamtBranch_lookup_second _ _ _ e1 v (not_equal_of_insert_else hr)
            (Contract.equal_refl v)

theorem Insert_lookup_other_aux (m : HAMT α) : ∀ (shift : Nat) (v : α) (n : Int) (p : α),
    Inv shift m → Equal v p = false →
    lookupLoop (Insert m shift (Hash v) v n).1 shift (Hash p) p =
      lookupLoop m shift (Hash p) p := by
  induction m using HAMT.induct with
  | step m ih =>
    intro shift v n p h hvp
    have hi := chunk_lt (Hash v) shift
    rcases Insert_cases h (Hash v) v n with ⟨hb, hs, heq⟩ | ⟨hb, e, hs, hg, heq⟩
    · rw [heq, lookupLoop_slot, lookupLoop_slot, slot_insertAt h.hlen hi hb, HAMT.eta]
      by_cases hj : chunk (Hash p) shift = chunk (Hash v) shift
      · rw [if_pos hj, hj, hs]; simp [lookupEntry_value, hvp]
      · rw [if_neg hj]
    · rw [heq, lookupLoop_slot, lookupLoop_slot, slot_set h.hlen hi hb, HAMT.eta]
      by_cases hj : chunk (Hash p) shift = chunk (Hash v) shift
      · rw [if_pos hj, hj, hs]
        simp only
        have he := h.entryInv hi hs
        cases e with
        | hamt c =>
          simp only [insertEntry, lookupEntry_hamt]
          exact ih c (slot_mem hs) _ v n p he hvp
        | collision c =>
          simp only [insertEntry, lookupEntry_collision]
          exact withValue_find_other c n hvp
        | value e1 =>
          simp only [insertEntry]
          by_cases hr : Hash e1 = Hash v ∧ Equal e1 v = true
          · rw [if_pos hr]
            simp [lookupEntry_value, hvp, Contract.not_equal_of_equal hr.2 hvp]
          · rw [if_neg hr, lookupEntry_value]
            by_cases he1 : Equal e1 p = true
            · rw [if_pos he1, ← Contract.equal_hash e1 p he1]
              exact makeHamtBranch_lookup_first _ _ _ e1 v p he1
            · rw [if_neg he1]
              exact makeHamtBranch_lookup_none _ _ _ _ e1 v p (by simpa using he1) hvp
      · rw [if_neg hj]

theorem Insert_counter_aux (m : HAMT α) : ∀ (shift : Nat) (v : α) (n : Int),
    Inv shift m →
    (Insert m shift (Hash v) v n).2 =
      if (lookupLoop m shift (Hash v) v).isSome then n - 1 else n := by
  induction m using HAMT.induct with
  | step m ih =>
    intro shift v n h
    have hi := chunk_lt (Hash v) shift
    rcases Insert_cases h (Hash v) v n with ⟨hb, hs, heq⟩ | ⟨hb, e, hs, hg, heq⟩
    · rw [heq, lookupLoop_slot, hs]; rfl
    · rw [heq, lookupLoop_slot, hs]
      simp only
      have he := h.entryInv hi hs
      cases e with
      | hamt c =>
        simp only [insertEntry, lookupEntry_hamt]
        exact ih c (slot_mem hs) _ v n he
      | collision c =>
        simp only [insertEntry, lookupEntry_collision]
        exact withValue_counter c v n
      | value e1 =>
        simp only [insertEntry, lookupEntry_value]
        by_cases hr : Equal e1 v = true
        · simp [hr, Contract.equal_hash e1 v hr]
        · simp [hr]

end InsertLookup

section InsertLength
variable {α : Type} [Value α]

theorem Insert_length_aux (m : HAMT α) : ∀ (shift key : Nat) (v : α) (n : Int),
    Inv shift m →
    ((Insert m shift key v n).1.elements.length : Int) + n =
      m.elements.length + 1 + (Insert m shift key v n).2 := by
  induction m using HAMT.induct with
  | step m ih =>
    intro shift key v n h
    have hi := chunk_lt key shift
    rcases Insert_cases h key v n with ⟨hb, hs, heq⟩ | ⟨hb, e, hs, hg, heq⟩
    · rw [heq, HAMT.elements_mk, elementsOf_insertAt, HAMT.elements_eq,
        elementsOf_take_drop m.entries (rank m.bmap (chunk key shift)), Entry.elements_value]
      simp only [List.length_append, List.length_singleton]
      push_cast; omega
    · rw [heq, HAMT.elements_mk, elementsOf_set hg, HAMT.elements_eq, elementsOf_split hg]
      simp only [List.length_append]
      have he := h.entryInv hi hs
      have key_fact : (((insertEntry e shift key v n).1.elements.length : Nat) : Int) + n =
          e.elements.length + 1 + (insertEntry e shift key v n).2 := by
        cases e with
        | hamt c =>
          simp only [insertEntry, Entry.elements_hamt]
          exact ih c (slot_mem hs) _ key v n he
        | collision c =>
          simp only [insertEntry, Entry.elements_collision]
          exact withValue_length c v n
        | value e1 =>
          simp only [insertEntry]
          by_cases hr : Hash e1 = key ∧ Equal e1 v = true
          · rw [if_pos hr]
            simp only [Entry.elements_value, List.length_singleton]
            push_cast; omega
          · rw [if_neg hr]
            simp only [Entry.elements_value, List.length_singleton, makeHamtBranch_length]
            push_cast; omega
      push_cast; omega

end InsertLength

/-! ## Remove: slot-level case analysis -/

section RemoveEntry
variable {α : Type} [Value α]

theorem removeEntry_hamt_none {c : HAMT α} {shift key : Nat} {v : α} {hc hc1 : Bool}
    (h : remove c (shift + hamtBits) key v hc = (none, hc1)) :
    removeEntry (.hamt c) shift key v hc = (.same, hc1) := by
  simp only [removeEntry, h]

/-- After a removal below a child node the slot holds the new child, or (path
collapse) the sole slot content of the new child when that is not a node. -/
theorem removeEntry_hamt_some {c m3 : HAMT α} {shift key : Nat} {v : α} {hc hc1 : Bool}
    (h : remove c (shift + hamtBits) key v hc = (some m3, hc1)) :
    ∃ x, removeEntry (.hamt c) shift key v hc = (.put x, hc1) ∧
      (x = .hamt m3 ∨ (m3.entries = [x] ∧ ∀ c1, x ≠ .hamt c1)) := by
  simp only [removeEntry, h]
  by_cases hcond : m3.entries.length = 1 ∧ hc1 = false
  · rw [if_pos hcond]
    obtain ⟨x, hx⟩ := List.length_eq_one.mp hcond.1
    rw [hx]
    cases x with
    | hamt c1 => exact ⟨_, rfl, Or.inl rfl⟩
    | collision c1 => exact ⟨_, rfl, Or.inr ⟨rfl, fun _ h => by cases h⟩⟩
    | value y => exact ⟨_, rfl, Or.inr ⟨rfl, fun _ h => by cases h⟩⟩
  · rw [if_neg hcond]
    exact ⟨_, rfl, Or.inl rfl⟩

theorem removeEntry_collision_none {c : List α} {shift key : Nat} {v : α} {hc : Bool}
    (h : (withoutValue c v).2 = false) :
    removeEntry (.collision c) shift key v hc = (.same, hc) := by
  rcases hw : withoutValue c v with ⟨c2, f⟩
  rw [hw] at h
  simp only at h
  subst h
  simp only [removeEntry, hw]

/-- After a removal from a bucket the slot holds the shorter bucket, or the
bare remaining element when one element is left. -/
theorem removeEntry_collision_some {c : List α} {v : α} (shift key : Nat) (hc : Bool)
    (h : (withoutValue c v).2 = true) :
    ∃ x hc1, removeEntry (.collision c) shift key v hc = (.put x, hc1) ∧
      (x = .collision (withoutValue c v).1 ∨
        ∃ y, (withoutValue c v).1 = [y] ∧ x = .value y) := by
  rcases hw : withoutValue c v with ⟨c2, f⟩
  rw [hw] at h
  simp only at h
  subst h
  simp only [removeEntry, hw]
  match c2 with
  | [] => exact ⟨_, _, rfl, Or.inl rfl⟩
  | [y] => exact ⟨_, _, rfl, Or.inr ⟨y, rfl, rfl⟩⟩
  | _ :: _ :: _ => exact ⟨_, _, rfl, Or.inl rfl⟩

theorem removeEntry_value (e : α) (shift key : Nat) (v : α) (hc : Bool) :
    removeEntry (.value e) shift key v hc =
      if Equal e v = true then (.delete, hc) else (.same, hc) := rfl

/-- Only a bare element equal to the probe makes `remove` excise a slot. -/
theorem removeEntry_delete {e : Entry α} {shift key : Nat} {v : α} {hc hc1 : Bool}
    (h : removeEntry e shift key v hc = (.delete, hc1)) :
    ∃ e1, e = .value e1 ∧ Equal e1 v = true := by
  cases e with
  | hamt c =>
    rcases hr : remove c (shift + hamtBits) key v hc with ⟨o, hc2⟩
    cases o with
    | none => rw [removeEntry_hamt_none hr] at h; cases h
    | some m3 =>
      obtain ⟨x, hx, _⟩ := removeEntry_hamt_some hr
      rw [hx] at h; cases h
  | collision c =>
    by_cases hf : (withoutValue c v).2 = true
    · obtain ⟨x, hc2, hx, _⟩ := removeEntry_collision_some shift (key) hc hf
      rw [hx] at h; cases h
    · rw [removeEntry_collision_none (by simpa using hf)] at h; cases h
  | value e1 =>
    rw [removeEntry_value] at h
    by_cases he : Equal e1 v = true
    · exact ⟨e1, rfl, he⟩
    · rw [if_neg he] at h; cases h

end RemoveEntry

/-! ## Remove preserves the invariant -/

section SoleSlot
variable {α : Type}

theorem elements_of_sole {m : HAMT α} {x : Entry α} (hx : m.entries = [x]) :
    m.elements = x.elements := by
  rw [HAMT.elements_eq, hx, elementsOf_cons, elementsOf_nil, List.append_nil]

/-- The only slot of a one-slot node is the slot of its only set bit. -/
theorem slot_eq_none_of_sole {m : HAMT α} (hlen : OnesCount m.bmap = m.entries.length)
    (h1 : m.entries.length = 1) {i j : Nat} (hi : i < 64) (hj : j < 64)
    (hb : m.bmap.testBit i = true) (hne : j ≠ i) : m.slot j = none := by
  by_cases hbj : m.bmap.testBit j = true
  · have r1 := rank_lt_length hlen hi hb
    have r2 := rank_lt_length hlen hj hbj
    have r3 := rank_ne_of_testBit hb hbj (fun h => hne h.symm)
    omega
  · exact slot_eq_none_of_testBit (by simpa using hbj)

end SoleSlot

section RemoveInv
variable {α : Type} [Value α]

theorem EntryInv_of_not_hamt {x : Entry α} (hnh : ∀ c, x ≠ .hamt c) {s s1 : Nat}
    (h : EntryInv s x) : EntryInv s1 x := by
  cases x with
  | hamt c => exact absurd rfl (hnh c)
  | collision c => exact h
  | value y => trivial

theorem entryInv_of_sole {s : Nat} {m : HAMT α} (h : Inv s m) {x : Entry α}
    (hx : m.entries = [x]) (hnh : ∀ c, x ≠ .hamt c) (s1 : Nat) : EntryInv s1 x := by
  obtain ⟨i, hi, hs⟩ := exists_slot_of_mem h.hlen (show x ∈ m.entries by rw [hx]; simp)
  exact EntryInv_of_not_hamt hnh (h.entryInv hi hs)

theorem removeEntry_put_inv {e x : Entry α} {shift key : Nat} {v : α} {hc hc1 : Bool}
    (he : EntryInv (shift + hamtBits) e)
    (ih : ∀ c m3 hc2, e = .hamt c → remove c (shift + hamtBits) key v hc = (some m3, hc2) →
      Inv (shift + hamtBits) m3 ∧ (∀ w ∈ m3.elements, w ∈ c.elements) ∧
        m3.elements.length + 1 = c.elements.length)
    (h : removeEntry e shift key v hc = (.put x, hc1)) :
    EntryInv (shift + hamtBits) x ∧ (∀ w ∈ x.elements, w ∈ e.elements) ∧
      x.elements.length + 1 = e.elements.length := by
  cases e with
  | hamt c =>
    rcases hr : remove c (shift + hamtBits) key v hc with ⟨o, hc2⟩
    cases o with
    | none => rw [removeEntry_hamt_none hr] at h; cases h
    | some m3 =>
      obtain ⟨x1, hx1, hcase⟩ := removeEntry_hamt_some hr
      rw [hx1] at h
      have hxx : x1 = x := by injection h with h1 _; injection h1
      subst hxx
      obtain ⟨i1, i2, i3⟩ := ih c m3 hc2 rfl hr
      rcases hcase with h1 | ⟨h1, h2⟩
      · subst h1
        exact ⟨i1, by simpa [Entry.elements_hamt] using i2,
          by simpa [Entry.elements_hamt] using i3⟩
      · rw [Entry.elements_hamt, ← elements_of_sole h1]
        exact ⟨entryInv_of_sole i1 h1 h2 _, i2, i3⟩
  | collision c =>
    by_cases hf : (withoutValue c v).2 = true
    · obtain ⟨x1, hc2, hx1, hcase⟩ := removeEntry_collision_some shift (key) hc hf
      rw [hx1] at h
      have hxx : x1 = x := by injection h with h1 _; injection h1
      subst hxx
      have hsub := withoutValue_sublist c v
      have hl := withoutValue_length c v hf
      rcases hcase with h1 | ⟨y, h1, h2⟩
      · subst h1
        simp only [EntryInv, Entry.elements_collision]
        exact ⟨List.Pairwise.sublist hsub he, fun w hw => hsub.subset hw, hl⟩
      · subst h2
        simp only [EntryInv, Entry.elements_collision, Entry.elements_value]
        rw [h1] at hsub hl
        exact ⟨trivial, fun w hw => hsub.subset hw, hl⟩
    · rw [removeEntry_collision_none (by simpa using hf)] at h; cases h
  | value e1 =>
    rw [removeEntry_value] at h
    split at h <;> cases h

theorem remove_inv_aux (m : HAMT α) : ∀ (shift key : Nat) (v : α) (hc : Bool) (m2 : HAMT α)
    (hc1 : Bool), Inv shift m → remove m shift key v hc = (some m2, hc1) →
    Inv shift m2 ∧ (∀ w ∈ m2.elements, w ∈ m.elements) ∧
      m2.elements.length + 1 = m.elements.length := by
  induction m using HAMT.induct with
  | step m ih =>
    intro shift key v hc m2 hc1 h hrm
    have hi := chunk_lt key shift
    rcases remove_cases h key v hc with ⟨_, heq⟩ | ⟨e, hs, hb, hg, hcase⟩
    · rw [heq] at hrm; cases hrm
    · have he := h.entryInv hi hs
      rcases hcase with ⟨hc2, _, heq⟩ | ⟨x, hc2, hx, heq⟩ | ⟨hc2, hx, heq⟩
      · rw [heq] at hrm; cases hrm
      · rw [heq] at hrm
        have hm2 : m2 = .mk m.bmap (m.entries.set (rank m.bmap (chunk key shift)) x) := by
          injection hrm with h1 _; injection h1 with h1; exact h1.symm
        subst hm2
        obtain ⟨x1, x2, x3⟩ := removeEntry_put_inv he
          (fun c m3 hc3 hce hr => ih c (hce ▸ slot_mem hs) _ key v hc m3 hc3
            (by rw [hce] at he; exact he) hr) hx
        refine ⟨Inv_set h hi hb (fun w hw => h.hpath hi hs (x2 w hw)) x1, ?_, ?_⟩
        · intro w hw
          rw [HAMT.elements_mk, elementsOf_set hg] at hw
          rw [HAMT.elements_eq, elementsOf_split hg]
          simp only [List.mem_append] at hw ⊢
          rcases hw with (h1 | h1) | h1
          · tauto
          · have := x2 w h1; tauto
          · tauto
        · rw [HAMT.elements_mk, elementsOf_set hg, HAMT.elements_eq, elementsOf_split hg]
          simp only [List.length_append]
          omega
      · rw [heq] at hrm
        have hm2 : m2 = (if m.entries.length = 1 then EmptyHAMT
              else .mk (andNot m.bmap (1 <<< chunk key shift))
                (m.entries.take (rank m.bmap (chunk key shift)) ++
                  m.entries.drop (rank m.bmap (chunk key shift) + 1))) := by
          injection hrm with h1 _; injection h1 with h1; exact h1.symm
        obtain ⟨e1, he1, _⟩ := removeEntry_delete hx
        subst he1
        have hel : m2.elements = elementsOf (m.entries.take (rank m.bmap (chunk key shift)))
            ++ elementsOf (m.entries.drop (rank m.bmap (chunk key shift) + 1)) := by
          rw [hm2]
          by_cases hl : m.entries.length = 1
          · rw [if_pos hl, elements_EmptyHAMT]
            have hr := rank_lt_length h.hlen hi hb
            have hr0 : rank m.bmap (chunk key shift) = 0 := by omega
            rw [hr0, List.take_zero, List.drop_of_length_le (by omega), elementsOf_nil]
            rfl
          · rw [if_neg hl, HAMT.elements_mk, elementsOf_append]
        refine ⟨?_, ?_, ?_⟩
        · rw [hm2]
          by_cases hl : m.entries.length = 1
          · rw [if_pos hl]; exact Inv_EmptyHAMT shift
          · rw [if_neg hl]; exact Inv_removeAt h hi hb
        · intro w hw
          rw [hel] at hw
          rw [HAMT.elements_eq, elementsOf_split hg]
          simp only [List.mem_append] at hw ⊢
          tauto
        · rw [hel, HAMT.elements_eq, elementsOf_split hg, Entry.elements_value]
          simp only [List.length_append, List.length_singleton]
          omega

end RemoveInv

/-! ## Remove and Lookup -/

section RemoveLookup
variable {α : Type} [Value α]

/-- `remove` returns a new node exactly when `Lookup` finds the probe. -/
theorem remove_isSome_aux (m : HAMT α) : ∀ (shift key : Nat) (p : α) (hc : Bool),
    Inv shift m →
    (remove m shift key p hc).1.isSome = (lookupLoop m shift key p).isSome := by
  induction m using HAMT.induct with
  | step m ih =>
    intro shift key p hc h
    have hi := chunk_lt key shift
    rw [lookupLoop_slot]
    rcases remove_cases h key p hc with ⟨hs, heq⟩ | ⟨e, hs, hb, hg, hcase⟩
    · rw [heq, hs]; rfl
    · rw [hs]
      simp only
      have he := h.entryInv hi hs
      have key_fact : ∀ ch hc1, removeEntry e shift key p hc = (ch, hc1) →
          (ch ≠ .same ↔ (lookupEntry e (shift + hamtBits) key p).isSome = true) := by
        intro ch hc1 hre
        cases e with
        | hamt c =>
          have ihc := ih c (slot_mem hs) (shift + hamtBits) key p hc he
          rw [lookupEntry_hamt, ← ihc]
          rcases hr : remove c (shift + hamtBits) key p hc with ⟨o, hc2⟩
          cases o with
          | none =>
            rw [removeEntry_hamt_none hr] at hre
            injection hre with h1 _; subst h1; simp
          | some m3 =>
            obtain ⟨x, hx, _⟩ := removeEntry_hamt_some hr
            rw [hx] at hre
            injection hre with h1 _; subst h1; simp
        | collision c =>
          rw [lookupEntry_collision, ← withoutValue_found]
          by_cases hf : (withoutValue c p).2 = true
          · obtain ⟨x, hc2, hx, _⟩ := removeEntry_collision_some shift (key) hc hf
            rw [hx] at hre
            injection hre with h1 _; subst h1; simp [hf]
          · rw [removeEntry_collision_none (by simpa using hf)] at hre
            injection hre with h1 _; subst h1; simp [hf]
        | value e1 =>
          rw [removeEntry_value] at hre
          rw [lookupEntry_value]
          by_cases heq : Equal e1 p = true
          · rw [if_pos heq] at hre
            injection hre with h1 _; subst h1; simp [heq]
          · rw [if_neg heq] at hre
            injection hre with h1 _; subst h1; simp [heq]
      rcases hcase with ⟨hc2, hx, heq⟩ | ⟨x, hc2, hx, heq⟩ | ⟨hc2, hx, heq⟩
      · rw [heq]
        have := (key_fact _ _ hx).not
        simp only [ne_eq, not_true_eq_false, not_false_eq_true, true_iff] at this
        simpa using this
      · rw [heq]
        have := (key_fact _ _ hx).mp (by simp)
        simp [this]
      · rw [heq]
        have := (key_fact _ _ hx).mp (by simp)
        simp [this]

variable [Contract α]

/-- In a one-slot node whose slot is not a child node, `Lookup` is decided by
the slot content alone. -/
theorem lookupLoop_sole {s : Nat} {m : HAMT α} (h : Inv s m) {x : Entry α}
    (hx : m.entries = [x]) (hnh : ∀ c, x ≠ .hamt c) (p : α) (s1 k1 : Nat) :
    lookupLoop m s (Hash p) p = lookupEntry x s1 k1 p := by
  have hmem : x ∈ m.entries := by rw [hx]; simp
  obtain ⟨i, hi, hs⟩ := exists_slot_of_mem h.hlen hmem
  have hj := chunk_lt (Hash p) s
  rw [lookupLoop_slot]
  by_cases hji : chunk (Hash p) s = i
  · rw [hji, hs]
    cases x with
    | hamt c => exact absurd rfl (hnh c)
    | collision c => rfl
    | value y => rfl
  · rw [slot_eq_none_of_sole h.hlen (by rw [hx]; rfl) hi hj (slot_testBit hs) hji]
    have hall : ∀ y ∈ x.elements, Equal y p = false := by
      intro y hy
      by_contra hyp
      have h1 := Contract.equal_hash y p (by simpa using hyp)
      have h2 := h.hpath hi hs hy
      rw [h1] at h2
      exact hji h2
    cases x with
    | hamt c => exact absurd rfl (hnh c)
    | collision c =>
      rw [lookupEntry_collision]
      symm
      rw [List.find?_eq_none]
      intro y hy
      simpa using hall y (by simpa [Entry.elements_collision] using hy)
    | value y =>
      rw [lookupEntry_value, if_neg]
      simpa using hall y (by simp [Entry.elements_value])

end RemoveLookup

section RemoveLookup2
variable {α : Type}

theorem remove_some_eq {m2 : HAMT α} {o : HAMT α} {hc1 hc2 : Bool}
    (h : ((some o, hc2) : Option (HAMT α) × Bool) = (some m2, hc1)) : m2 = o := by
  injection h with h1 _; injection h1 with h1; exact h1.symm

variable [Value α] [Contract α]

theorem remove_lookup_self_aux (m : HAMT α) : ∀ (shift : Nat) (v : α) (hc : Bool)
    (m2 : HAMT α) (hc1 : Bool), Inv shift m →
    remove m shift (Hash v) v hc = (some m2, hc1) →
    lookupLoop m2 shift (Hash v) v = none := by
  induction m using HAMT.induct with
  | step m ih =>
    intro shift v hc m2 hc1 h hrm
    have hi := chunk_lt (Hash v) shift
    rcases remove_cases h (Hash v) v hc with ⟨_, heq⟩ | ⟨e, hs, hb, hg, hcase⟩
    · rw [heq] at hrm; cases hrm
    · have he := h.entryInv hi hs
      rcases hcase with ⟨hc2, _, heq⟩ | ⟨x, hc2, hx, heq⟩ | ⟨hc2, hx, heq⟩
      · rw [heq] at hrm; cases hrm
      · rw [heq] at hrm
        have hm2 := remove_some_eq hrm
        subst hm2
        rw [lookupLoop_slot, slot_set h.hlen hi hb, if_pos rfl]
        simp only
        cases e with
        | hamt c =>
          rcases hr : remove c (shift + hamtBits) (Hash v) v hc with ⟨o, hc3⟩
          cases o with
          | none => rw [removeEntry_hamt_none hr] at hx; cases hx
          | some m3 =>
            obtain ⟨x1, hx1, hcase⟩ := removeEntry_hamt_some hr
            rw [hx1] at hx
            have hxx : x1 = x := by injection hx with h1 _; injection h1
            subst hxx
            have i1 := ih c (slot_mem hs) _ v hc m3 hc3 he hr
            have i2 := (remove_inv_aux c _ _ v hc m3 hc3 he hr).1
            rcases hcase with h1 | ⟨h1, h2⟩
            · subst h1; exact i1
            · rw [← lookupLoop_sole i2 h1 h2 v]; exact i1
        | collision c =>
          by_cases hf : (withoutValue c v).2 = true
          · obtain ⟨x1, hc3, hx1, hcase⟩ := removeEntry_collision_some shift (Hash v) hc hf
            rw [hx1] at hx
            have hxx : x1 = x := by injection hx with h1 _; injection h1
            subst hxx
            have hfs := withoutValue_find_self c v he
            rcases hcase with h1 | ⟨y, h1, h2⟩
            · subst h1; exact hfs
            · subst h2
              rw [h1] at hfs
              rw [lookupEntry_value]
              by_cases hy : Equal y v = true
              · simp [List.find?_cons, hy] at hfs
              · rw [if_neg hy]
          · rw [removeEntry_collision_none (by simpa using hf)] at hx; cases hx
        | value e1 =>
          rw [removeEntry_value] at hx
          split at hx <;> cases hx
      · rw [heq] at hrm
        have hm2 := remove_some_eq hrm
        subst hm2
        rw [lookupLoop_slot]
        by_cases hl : m.entries.length = 1
        · rw [if_pos hl, slot_EmptyHAMT]
        · rw [if_neg hl, slot_removeAt hb hi, if_pos rfl]

theorem remove_lookup_other_aux (m : HAMT α) : ∀ (shift : Nat) (v : α) (hc : Bool)
    (m2 : HAMT α) (hc1 : Bool) (p : α), Inv shift m → Equal v p = false →
    remove m shift (Hash v) v hc = (some m2, hc1) →
    lookupLoop m2 shift (Hash p) p = lookupLoop m shift (Hash p) p := by
  induction m using HAMT.induct with
  | step m ih =>
    intro shift v hc m2 hc1 p h hvp hrm
    have hi := chunk_lt (Hash v) shift
    have hj := chunk_lt (Hash p) shift
    rcases remove_cases h (Hash v) v hc with ⟨_, heq⟩ | ⟨e, hs, hb, hg, hcase⟩
    · rw [heq] at hrm; cases hrm
    · have he := h.entryInv hi hs
      rcases hcase with ⟨hc2, _, heq⟩ | ⟨x, hc2, hx, heq⟩ | ⟨hc2, hx, heq⟩
      · rw [heq] at hrm; cases hrm
      · rw [heq] at hrm
        have hm2 := remove_some_eq hrm
        subst hm2
        rw [lookupLoop_slot, lookupLoop_slot, slot_set h.hlen hi hb, HAMT.eta]
        by_cases hji : chunk (Hash p) shift = chunk (Hash v) shift
        · rw [if_pos hji, hji, hs]
          simp only
          cases e with
          | hamt c =>
            rcases hr : remove c (shift + hamtBits) (Hash v) v hc with ⟨o, hc3⟩
            cases o with
            | none => rw [removeEntry_hamt_none hr] at hx; cases hx
            | some m3 =>
              obtain ⟨x1, hx1, hcase⟩ := removeEntry_hamt_some hr
              rw [hx1] at hx
              have hxx : x1 = x := by injection hx with h1 _; injection h1
              subst hxx
              have i1 := ih c (slot_mem hs) _ v hc m3 hc3 p he hvp hr
              have i2 := (remove_inv_aux c _ _ v hc m3 hc3 he hr).1
              rw [lookupEntry_hamt, ← i1]
              rcases hcase with h1 | ⟨h1, h2⟩
              · subst h1; rfl
              · rw [← lookupLoop_sole i2 h1 h2 p]
          | collision c =>
            by_cases hf : (withoutValue c v).2 = true
            · obtain ⟨x1, hc3, hx1, hcase⟩ := removeEntry_collision_some shift (Hash v) hc hf
              rw [hx1] at hx
              have hxx : x1 = x := by injection hx with h1 _; injection h1
              subst hxx
              have hfo := withoutValue_find_other c hvp
              rw [lookupEntry_collision, ← hfo]
              rcases hcase with h1 | ⟨y, h1, h2⟩
              · subst h1; rfl
              · subst h2
                rw [h1, lookupEntry_value]
                by_cases hy : Equal y p = true <;> simp [hy]
            · rw [removeEntry_collision_none (by simpa using hf)] at hx; cases hx
          | value e1 =>
            rw [removeEntry_value] at hx
            split at hx <;> cases hx
        · rw [if_neg hji]
      · rw [heq] at hrm
        have hm2 := remove_some_eq hrm
        subst hm2
        obtain ⟨e1, he1, hev⟩ := removeEntry_delete hx
        subst he1
        rw [lookupLoop_slot, lookupLoop_slot]
        by_cases hji : chunk (Hash p) shift = chunk (Hash v) shift
        · rw [hji, hs]
          have hnone : ∀ mm : HAMT α, mm = (if m.entries.length = 1 then EmptyHAMT
              else .mk (andNot m.bmap (1 <<< chunk (Hash v) shift))
                (m.entries.take (rank m.bmap (chunk (Hash v) shift)) ++
                  m.entries.drop (rank m.bmap (chunk (Hash v) shift) + 1))) →
              mm.slot (chunk (Hash v) shift) = none := by
            intro mm hmm
            by_cases hl : m.entries.length = 1
            · rw [hmm, if_pos hl, slot_EmptyHAMT]
            · rw [hmm, if_neg hl, slot_removeAt hb hi, if_pos rfl]
          rw [hnone _ rfl]
          simp [lookupEntry_value, Contract.not_equal_of_equal hev hvp]
        · by_cases hl : m.entries.length = 1
          · rw [if_pos hl, slot_EmptyHAMT, slot_eq_none_of_sole h.hlen hl hi hj hb hji]
          · rw [if_neg hl, slot_removeAt hb hj, if_neg hji, HAMT.eta]

end RemoveLookup2

/-! ## No slot index is out of range under the invariant -/

section InRange
variable {α : Type} [Value α]

/-- Under the invariant, the slot index of a set branch bit is inside
`entries`: the `none` arm of the slot reads is not taken. -/
theorem Inv.Bitindex_lt {shift : Nat} {m : HAMT α} (h : Inv shift m) (key : Nat)
    (hb : m.bmap &&& (1 <<< ((key >>> shift) &&& hamtMask)) ≠ 0) :
    Bitindex m.bmap (1 <<< ((key >>> shift) &&& hamtMask)) < m.entries.length := by
  rw [chunk_eq] at hb ⊢
  rw [Bitindex_eq_rank _ (chunk_lt key shift)]
  have hb2 : m.bmap.testBit (chunk key shift) = true := by
    by_contra hne
    exact hb ((land_bit_eq_zero_iff _ _).mpr (by simpa using hne))
  exact rank_lt_length h.hlen (chunk_lt key shift) hb2

/-- Under the invariant, the insertion index of a clear branch bit is at most
the length of `entries`. -/
theorem Inv.Bitindex_le {shift : Nat} {m : HAMT α} (h : Inv shift m) (key : Nat) :
    Bitindex m.bmap (1 <<< ((key >>> shift) &&& hamtMask)) ≤ m.entries.length := by
  rw [chunk_eq, Bitindex_eq_rank _ (chunk_lt key shift)]
  exact rank_le_length h.hlen (chunk_lt key shift)

/-- The invariant passes to child nodes, one level down. -/
theorem Inv.child {shift : Nat} {m c : HAMT α} (h : Inv shift m)
    (hc : Entry.hamt c ∈ m.entries) : Inv (shift + hamtBits) c := by
  obtain ⟨i, hi, hs⟩ := exists_slot_of_mem h.hlen hc
  exact h.entryInv hi hs

end InRange

/-! ## Reachable tries and membership -/

section ReachableInv
variable {α : Type} [Value α]

theorem Remove_eq (m : HAMT α) (key : Nat) (v : α) :
    Remove m key v = ((remove m 0 key v false).1).getD m := rfl

/-- What `Lookup` returns is a stored element that equals the probe. -/
theorem lookupLoop_some_aux (m : HAMT α) : ∀ (shift key : Nat) (p x : α),
    lookupLoop m shift key p = some x → x ∈ m.elements ∧ Equal x p = true := by
  induction m using HAMT.induct with
  | step m ih =>
    intro shift key p x h
    rw [lookupLoop_slot] at h
    rcases hs : m.slot (chunk key shift) with _ | e
    · rw [hs] at h; cases h
    · rw [hs] at h
      simp only at h
      have hsub : ∀ w ∈ e.elements, w ∈ m.elements := fun w hw => slot_elements_subset hs hw
      cases e with
      | hamt c =>
        rw [lookupEntry_hamt] at h
        obtain ⟨h1, h2⟩ := ih c (slot_mem hs) _ key p x h
        exact ⟨hsub x (by simpa [Entry.elements_hamt] using h1), h2⟩
      | collision c =>
        rw [lookupEntry_collision] at h
        have h1 := List.mem_of_find?_eq_some h
        have h2 := List.find?_some h
        exact ⟨hsub x (by simpa [Entry.elements_collision] using h1), h2⟩
      | value y =>
        rw [lookupEntry_value] at h
        by_cases hy : Equal y p = true
        · rw [if_pos hy] at h
          injection h with h; subst h
          exact ⟨hsub y (by simp [Entry.elements_value]), hy⟩
        · rw [if_neg hy] at h; cases h

variable [Contract α]

/-- `Lookup` depends on the probe only through `Equal`. -/
theorem lookupLoop_congr_aux (m : HAMT α) : ∀ (shift key : Nat) (p q : α),
    Equal p q = true → lookupLoop m shift key p = lookupLoop m shift key q := by
  induction m using HAMT.induct with
  | step m ih =>
    intro shift key p q hpq
    rw [lookupLoop_slot, lookupLoop_slot]
    rcases hs : m.slot (chunk key shift) with _ | e
    · rfl
    · simp only
      cases e with
      | hamt c => exact ih c (slot_mem hs) _ key p q hpq
      | collision c =>
        simp only [lookupEntry_collision]
        congr 1
        funext y
        exact Contract.equal_congr hpq y
      | value y =>
        simp only [lookupEntry_value, Contract.equal_congr hpq y]

/-- A stored element equal to the probe is found by `Lookup`. -/
theorem lookupLoop_isSome_of_mem_aux (m : HAMT α) : ∀ (shift : Nat) (p x : α),
    Inv shift m → x ∈ m.elements → Equal x p = true →
    (lookupLoop m shift (Hash p) p).isSome = true := by
  induction m using HAMT.induct with
  | step m ih =>
    intro shift p x h hx hxp
    obtain ⟨i, hi, e, hs, hxe⟩ := exists_slot_of_mem_elements h.hlen hx
    have hpath := h.hpath hi hs hxe
    rw [Contract.equal_hash x p hxp] at hpath
    rw [lookupLoop_slot, hpath, hs]
    simp only
    have he := h.entryInv hi hs
    cases e with
    | hamt c =>
      exact ih c (slot_mem hs) _ p x he (by simpa [Entry.elements_hamt] using hxe) hxp
    | collision c =>
      rw [lookupEntry_collision, List.find?_isSome]
      exact ⟨x, by simpa [Entry.elements_collision] using hxe, hxp⟩
    | value y =>
      have : x = y := by simpa [Entry.elements_value] using hxe
      subst this
      simp [lookupEntry_value, hxp]

theorem Reachable.inv {t : HAMT α} (h : Reachable t) : Inv 0 t := by
  induction h with
  | empty => exact Inv_EmptyHAMT 0
  | insert t v n _ ih => exact Insert_inv ih v n
  | remove t v _ ih =>
    rw [Remove_eq]
    rcases hr : Immutable.remove t 0 (Hash v) v false with ⟨o, hc⟩
    cases o with
    | none => exact ih
    | some m2 => exact (remove_inv_aux t 0 (Hash v) v false m2 hc ih hr).1

/-- The trie holds an element equal to `v` exactly when `Lookup` finds one. -/
theorem Reachable.lookup_isSome_iff {t : HAMT α} (h : Reachable t) (v : α) :
    (Lookup t (Hash v) v).isSome = true ↔ ∃ x ∈ t.elements, Equal x v = true := by
  constructor
  · intro hl
    obtain ⟨x, hx⟩ := Option.isSome_iff_exists.mp hl
    exact ⟨x, lookupLoop_some_aux t 0 (Hash v) v x hx⟩
  · rintro ⟨x, hx, hxv⟩
    exact lookupLoop_isSome_of_mem_aux t 0 v x h.inv hx hxv

end ReachableInv

/-! ## Range visits the stored elements in order -/

section RangeLaws
variable {α : Type} {σ : Type}

theorem rangeCollision_nil (f : σ → α → σ × Bool) (s : σ) :
    rangeCollision ([] : List α) f s = (s, true) := rfl

theorem rangeCollision_cons (v : α) (c : List α) (f : σ → α → σ × Bool) (s : σ) :
    rangeCollision (v :: c) f s =
      if (f s v).2 = false then ((f s v).1, false) else rangeCollision c f (f s v).1 := rfl

theorem rangeCollision_append (a b : List α) (f : σ → α → σ × Bool) (s : σ) :
    rangeCollision (a ++ b) f s =
      if (rangeCollision a f s).2 = false then ((rangeCollision a f s).1, false)
      else rangeCollision b f (rangeCollision a f s).1 := by
  induction a generalizing s with
  | nil => simp [rangeCollision_nil]
  | cons v a ih =>
    rw [List.cons_append, rangeCollision_cons, rangeCollision_cons]
    by_cases h : (f s v).2 = false
    · simp [h]
    · rw [if_neg h, if_neg h, ih]

theorem Range_mk (b : Nat) (es : List (Entry α)) (f : σ → α → σ × Bool) (s : σ) :
    Range (HAMT.mk b es) f s = rangeEntries es f s := by
  rw [Range]

theorem rangeEntries_eq_aux (f : σ → α → σ × Bool) (es : List (Entry α))
    (ih : ∀ c, Entry.hamt c ∈ es → ∀ s, Range c f s = rangeCollision c.elements f s) :
    ∀ s, rangeEntries es f s = rangeCollision (elementsOf es) f s := by
  induction es with
  | nil => intro s; rw [rangeEntries, elementsOf_nil]; rfl
  | cons e es ihes =>
    intro s
    have ih2 := ihes (fun c hc => ih c (List.mem_cons_of_mem _ hc))
    rw [elementsOf_cons, rangeCollision_append]
    cases e with
    | hamt c =>
      rw [rangeEntries, Entry.elements_hamt, ih c (List.mem_cons_self _ _), ih2]
    | collision c =>
      rw [rangeEntries, Entry.elements_collision, ih2]
    | value y =>
      rw [rangeEntries, Entry.elements_value, ih2, rangeCollision_cons, rangeCollision_nil]
      by_cases hy : (f s y).2 = false
      · simp [hy]
      · simp [hy]

/-- `Range` is the sequential early-exit visit of the stored elements. -/
theorem Range_eq_visit (m : HAMT α) (f : σ → α → σ × Bool) :
    ∀ s, Range m f s = rangeCollision m.elements f s := by
  induction m using HAMT.induct with
  | step m ih =>
    intro s
    cases m with
    | mk b es =>
      rw [Range_mk, HAMT.elements_mk]
      exact rangeEntries_eq_aux f es (fun c hc => ih c hc) s

end RangeLaws

/-! ## Sets -/

section Counting
variable {α : Type}

theorem rangeCollision_count (c : List α) (n : Nat) :
    rangeCollision c countVisitor n = (n + c.length, true) := by
  induction c generalizing n with
  | nil => rfl
  | cons v c ih =>
    rw [rangeCollision_cons]
    simp only [countVisitor, Bool.true_eq_false, if_false, List.length_cons]
    have := ih (n + 1)
    simp only [countVisitor] at this
    rw [this]
    congr 1; omega

/-- `Range` with a visitor that never stops visits every stored element once. -/
theorem HAMT.count_eq (m : HAMT α) : m.count = m.elements.length := by
  rw [HAMT.count, Range_eq_visit, rangeCollision_count]; simp

end Counting

section SetLaws
variable {α : Type} [Value α]

theorem Set.Add_m (s : Set α) (v : α) : (s.Add v).m = (Insert s.m 0 (Hash v) v (s.l + 1)).1 := rfl

theorem Set.Add_l (s : Set α) (v : α) : (s.Add v).l = (Insert s.m 0 (Hash v) v (s.l + 1)).2 := rfl

theorem Set.Del_none {s : Set α} {v : α} (h : (remove s.m 0 (Hash v) v false).1 = none) :
    s.Del v = s := by
  simp only [Set.Del, h]

theorem Set.Del_some {s : Set α} {v : α} {m2 : HAMT α}
    (h : (remove s.m 0 (Hash v) v false).1 = some m2) : s.Del v = ⟨s.l - 1, m2⟩ := by
  simp only [Set.Del, h]

theorem Remove_none {m : HAMT α} {key : Nat} {v : α}
    (h : (remove m 0 key v false).1 = none) : Remove m key v = m := by
  rw [Remove_eq, h]; rfl

theorem Remove_some {m m2 : HAMT α} {key : Nat} {v : α}
    (h : (remove m 0 key v false).1 = some m2) : Remove m key v = m2 := by
  rw [Remove_eq, h]; rfl

variable [Contract α]

/-- A reachable set wraps a reachable trie and its counter is the number of
stored elements. -/
theorem Set.Reachable.spec {s : Set α} (h : Set.Reachable s) :
    Immutable.Reachable s.m ∧ s.l = s.m.elements.length := by
  induction h with
  | empty => exact ⟨Immutable.Reachable.empty, by simp [EmptySet, elements_EmptyHAMT]⟩
  | add s v _ ih =>
    refine ⟨Immutable.Reachable.insert s.m v (s.l + 1) ih.1, ?_⟩
    have := Insert_length_aux s.m 0 (Hash v) v (s.l + 1) ih.1.inv
    rw [Set.Add_l, Set.Add_m]
    have h2 := ih.2
    omega
  | del s v _ ih =>
    rcases hr : Immutable.remove s.m 0 (Hash v) v false with ⟨o, hc⟩
    have hr1 : (Immutable.remove s.m 0 (Hash v) v false).1 = o := by rw [hr]
    cases o with
    | none => rw [Set.Del_none hr1]; exact ih
    | some m2 =>
      rw [Set.Del_some hr1]
      have h1 := remove_inv_aux s.m 0 (Hash v) v false m2 hc ih.1.inv hr
      have h2 := Immutable.Reachable.remove s.m v ih.1
      rw [Remove_some hr1] at h2
      refine ⟨h2, ?_⟩
      have h3 := ih.2
      have h4 := h1.2.2
      simp only
      omega

/-- Looking up a probe equal to the element just inserted returns that element. -/
theorem Insert_lookup_equal {shift : Nat} {m : HAMT α} (h : Inv shift m) (v p : α) (n : Int)
    (hvp : Equal v p = true) :
    lookupLoop (Insert m shift (Hash v) v n).1 shift (Hash p) p = some v := by
  rw [← Contract.equal_hash v p hvp,
    lookupLoop_congr_aux _ shift (Hash v) p v (Contract.equal_symm v p hvp)]
  exact Insert_lookup_self_aux m shift v n h

/-- After adding the elements of a list, `Get` returns the last added element
equal to the probe. -/
theorem Set.Get_foldl_Add (vs : List α) (p : α) :
    (vs.foldl Set.Add EmptySet).Get p = vs.reverse.find? (fun w => Equal w p) ∧
      Set.Reachable (vs.foldl Set.Add (EmptySet : Set α)) := by
  induction vs using List.reverseRecOn with
  | nil =>
    refine ⟨?_, Set.Reachable.empty⟩
    simp only [List.foldl_nil, List.reverse_nil, List.find?_nil, Set.Get, Lookup, EmptySet]
    rw [lookupLoop_slot, slot_EmptyHAMT]
  | append_singleton vs v ih =>
    rw [List.foldl_append, List.foldl_cons, List.foldl_nil, List.reverse_append,
      List.reverse_singleton, List.singleton_append, List.find?_cons]
    refine ⟨?_, Set.Reachable.add _ v ih.2⟩
    have hinv := ih.2.spec.1.inv
    by_cases hvp : Equal v p = true
    · rw [hvp]
      exact Insert_lookup_equal hinv v p _ hvp
    · have hvp' : Equal v p = false := by simpa using hvp
      rw [hvp', ← ih.1]
      exact Insert_lookup_other_aux _ 0 v _ p hinv hvp'

end SetLaws

/-! ## Sample values -/

section Samples

theorem sampleT_reachable : Reachable sampleT :=
  Reachable.insert EmptyHAMT sampleA 1 Reachable.empty

theorem sampleS_reachable : Set.Reachable sampleS :=
  Set.Reachable.add EmptySet sampleA Set.Reachable.empty

theorem sample_AB : Equal sampleA sampleB = true := by decide

theorem sample_AC : Equal sampleA sampleC = false := by decide

theorem sample_CA : Equal sampleC sampleA = false := by decide

theorem sample_AD : Equal sampleA sampleD = false := by decide

theorem sample_DA : Equal sampleD sampleA = false := by decide

theorem Lookup_EmptyHAMT {α : Type} [Value α] (key : Nat) (p : α) :
    Lookup (EmptyHAMT : HAMT α) key p = none := by
  rw [Lookup, lookupLoop_slot, slot_EmptyHAMT]

theorem sampleT_lookup_A : Lookup sampleT (Hash sampleA) sampleA = some sampleA :=
  Insert_lookup_self_aux EmptyHAMT 0 sampleA 1 (Inv_EmptyHAMT 0)

theorem sampleT_lookup_D : Lookup sampleT (Hash sampleD) sampleD = none := by
  rw [Lookup, sampleT, Insert_lookup_other_aux EmptyHAMT 0 sampleA 1 sampleD (Inv_EmptyHAMT 0)
    sample_AD]
  exact Lookup_EmptyHAMT _ _

end Samples

/-! ## Claims C1 to C6 -/

section Claims
variable {α : Type} [Value α] [Contract α]

/-- C1 (round trip).  For every trie `t` reachable from the empty trie by
`Insert` and `Remove`, every element `e` and every initial counter `n`,
`Lookup` on `Insert(t, 0, e.Hash(), e, n)` with `(e.Hash(), e)` returns `e`
itself, the element just inserted. -/
theorem C1_lookup_insert_round_trip (t : HAMT α) (ht : Reachable t) (e : α) (n : Int) :
    Lookup (Insert t 0 (Hash e) e n).1 (Hash e) e = some e :=
  Insert_lookup_self_aux t 0 e n ht.inv

/-- Witness of C1: `sampleT` stores `sampleA`; inserting the equal element
`sampleB` and looking it up returns `sampleB`, not the stored `sampleA`. -/
theorem C1_witness :
    Reachable sampleT ∧
      Lookup (Insert sampleT 0 (Hash sampleB) sampleB 2).1 (Hash sampleB) sampleB =
        some sampleB :=
  ⟨sampleT_reachable, C1_lookup_insert_round_trip sampleT sampleT_reachable sampleB 2⟩

/-- C2 (Insert leaves every other element retrievable).  For every reachable
trie `t`, element `e` and counter `n`: for every probe `p` not equal to `e`,
`Lookup` with `(p.Hash(), p)` gives the same result on `Insert(t, 0, e.Hash(), e, n)`
as on `t`; and after adding any list of elements to the empty set, `Get`
returns for every probe the last added element equal to it, so every added
element is found. -/
theorem C2_insert_keeps_other_elements (t : HAMT α) (ht : Reachable t) (e : α) (n : Int) :
    (∀ p : α, Equal p e = false →
      Lookup (Insert t 0 (Hash e) e n).1 (Hash p) p = Lookup t (Hash p) p) ∧
    (∀ (vs : List α) (p : α),
      (vs.foldl Set.Add EmptySet).Get p = vs.reverse.find? (fun w => Equal w p)) ∧
    (∀ (vs : List α) (v : α), v ∈ vs →
      ∃ w, w ∈ vs ∧ Equal w v = true ∧ (vs.foldl Set.Add EmptySet).Get v = some w) := by
  refine ⟨fun p hp => ?_, fun vs p => (Set.Get_foldl_Add vs p).1, fun vs v hv => ?_⟩
  · exact Insert_lookup_other_aux t 0 e n p ht.inv (Contract.equal_false_symm hp)
  · rw [(Set.Get_foldl_Add vs v).1]
    have hsome : (vs.reverse.find? (fun w => Equal w v)).isSome = true := by
      rw [List.find?_isSome]
      exact ⟨v, List.mem_reverse.mpr hv, Contract.equal_refl v⟩
    obtain ⟨w, hw⟩ := Option.isSome_iff_exists.mp hsome
    have hwv := List.find?_some hw
    exact ⟨w, List.mem_reverse.mp (List.mem_of_find?_eq_some hw), hwv, hw⟩

/-- Witness of C2 at the trie `sampleT` and the inserted element `sampleC`. -/
theorem C2_witness :
    Reachable sampleT ∧
    (∀ p : StrKeyValue Nat, Equal p sampleC = false →
      Lookup (Insert sampleT 0 (Hash sampleC) sampleC 2).1 (Hash p) p =
        Lookup sampleT (Hash p) p) :=
  ⟨sampleT_reachable,
    (C2_insert_keeps_other_elements sampleT sampleT_reachable sampleC 2).1⟩

/-- C3 (size delta of Insert).  For every reachable trie `t`, element `v` and
counter `n`: `Insert(t, 0, v.Hash(), v, &n)` leaves `n - 1` in the counter when
`t` holds an element equal to `v` and leaves `n` otherwise; holding such an
element is the same as `Lookup` finding one; and adding an element equal to
one just added does not change `Len`. -/
theorem C3_insert_size_delta (t : HAMT α) (ht : Reachable t) (v : α) (n : Int) :
    ((∃ x ∈ t.elements, Equal x v = true) → (Insert t 0 (Hash v) v n).2 = n - 1) ∧
    ((¬ ∃ x ∈ t.elements, Equal x v = true) → (Insert t 0 (Hash v) v n).2 = n) ∧
    ((∃ x ∈ t.elements, Equal x v = true) ↔ (Lookup t (Hash v) v).isSome = true) ∧
    (∀ (l : Int) (v2 : α), Equal v v2 = true →
      (((⟨l, t⟩ : Set α).Add v).Add v2).Len = ((⟨l, t⟩ : Set α).Add v).Len) := by
  have hc := Insert_counter_aux t 0 v n ht.inv
  have hiff := ht.lookup_isSome_iff v
  refine ⟨fun h => ?_, fun h => ?_, hiff.symm, fun l v2 hv2 => ?_⟩ <;> rw [Lookup] at hiff
  · rw [hc, if_pos (hiff.mpr h)]
  · rw [hc, if_neg (fun h1 => h (hiff.mp h1))]
  · have hinv := Insert_inv (n := l + 1) ht.inv v
    have h1 := Insert_counter_aux (Insert t 0 (Hash v) v (l + 1)).1 0 v2
      ((Insert t 0 (Hash v) v (l + 1)).2 + 1) hinv
    have h2 := Insert_lookup_equal ht.inv v v2 (l + 1) hv2
    rw [h2] at h1
    simp only [Set.Len, Set.Add_l, Set.Add_m]
    rw [h1]
    simp

/-- Witness of C3 at the trie `sampleT` and the element `sampleB`. -/
theorem C3_witness :
    Reachable sampleT ∧
    ((∃ x ∈ sampleT.elements, Equal x sampleB = true) →
      (Insert sampleT 0 (Hash sampleB) sampleB 5).2 = 5 - 1) :=
  ⟨sampleT_reachable, (C3_insert_size_delta sampleT sampleT_reachable sampleB 5).1⟩

/-- C4 (absent no-op identity).  For every reachable trie `t`, key `k` and
probe `p` with `Lookup(t, k, p)` absent, `remove` returns its receiver (the
`none` result of the embedding), so `Remove(t, k, p)` is `t`; and `Del` of
that probe on a set with root `t` returns the receiver. -/
theorem C4_remove_absent_returns_receiver (t : HAMT α) (ht : Reachable t) (k : Nat) (p : α)
    (h : Lookup t k p = none) :
    (remove t 0 k p false).1 = none ∧ Remove t k p = t ∧
    (k = Hash p → ∀ l : Int, (⟨l, t⟩ : Set α).Del p = ⟨l, t⟩) := by
  have h1 := remove_isSome_aux t 0 k p false ht.inv
  rw [Lookup] at h
  rw [h] at h1
  have h2 : (remove t 0 k p false).1 = none := by
    cases hr : (remove t 0 k p false).1 with
    | none => rfl
    | some m2 => rw [hr] at h1; cases h1
  refine ⟨h2, Remove_none h2, fun hk l => ?_⟩
  subst hk
  exact Set.Del_none (s := ⟨l, t⟩) h2

/-- Witness of C4 at the trie `sampleT` and the absent probe `sampleD`. -/
theorem C4_witness :
    Reachable sampleT ∧ Lookup sampleT (Hash sampleD) sampleD = none ∧
      Remove sampleT (Hash sampleD) sampleD = sampleT :=
  ⟨sampleT_reachable, sampleT_lookup_D,
    (C4_remove_absent_returns_receiver sampleT sampleT_reachable (Hash sampleD) sampleD
      sampleT_lookup_D).2.1⟩

/-- C5 (delete then lookup).  For every reachable trie `t` and element `e`
that `Lookup` finds in `t`, `Remove(t, e.Hash(), e)` returns a node other than
its receiver, `Lookup` for `e` on it is absent, it differs from `t`, and the
number of elements visited by `Range` is lower by exactly one. -/
theorem C5_remove_present (t : HAMT α) (ht : Reachable t) (e : α)
    (h : (Lookup t (Hash e) e).isSome = true) :
    ∃ t2, (remove t 0 (Hash e) e false).1 = some t2 ∧ Remove t (Hash e) e = t2 ∧
      Lookup t2 (Hash e) e = none ∧ t2 ≠ t ∧ t2.count + 1 = t.count ∧
      t2.elements.length + 1 = t.elements.length := by
  have h1 := remove_isSome_aux t 0 (Hash e) e false ht.inv
  rw [Lookup] at h
  rw [h] at h1
  rcases hr : remove t 0 (Hash e) e false with ⟨o, hc⟩
  rw [hr] at h1
  cases o with
  | none => cases h1
  | some t2 =>
    have hr1 : (remove t 0 (Hash e) e false).1 = some t2 := by rw [hr]
    have h3 := remove_inv_aux t 0 (Hash e) e false t2 hc ht.inv hr
    have h4 := remove_lookup_self_aux t 0 e false t2 hc ht.inv hr
    refine ⟨t2, rfl, Remove_some hr1, h4, ?_, ?_, h3.2.2⟩
    · intro heq
      have := h3.2.2
      rw [heq] at this
      omega
    · rw [HAMT.count_eq, HAMT.count_eq]; exact h3.2.2

/-- Witness of C5 at the trie `sampleT` and its element `sampleA`. -/
theorem C5_witness :
    Reachable sampleT ∧ (Lookup sampleT (Hash sampleA) sampleA).isSome = true ∧
    ∃ t2, (remove sampleT 0 (Hash sampleA) sampleA false).1 = some t2 ∧
      Remove sampleT (Hash sampleA) sampleA = t2 ∧
      Lookup t2 (Hash sampleA) sampleA = none ∧ t2 ≠ sampleT ∧
      t2.count + 1 = sampleT.count ∧ t2.elements.length + 1 = sampleT.elements.length :=
  ⟨sampleT_reachable, by rw [sampleT_lookup_A]; rfl,
    C5_remove_present sampleT sampleT_reachable sampleA (by rw [sampleT_lookup_A]; rfl)⟩

/-- C6 (Remove leaves every other element retrievable).  For every reachable
trie `t`, element `e` and probe `p` not equal to `e`, `Lookup` with
`(p.Hash(), p)` gives the same result on `Remove(t, e.Hash(), e)` as on `t`,
whatever `remove` did on the way (excised a slot, shortened or collapsed a
bucket, collapsed a path). -/
theorem C6_remove_keeps_other_elements (t : HAMT α) (ht : Reachable t) (e p : α)
    (hne : Equal p e = false) :
    Lookup (Remove t (Hash e) e) (Hash p) p = Lookup t (Hash p) p := by
  rcases hr : remove t 0 (Hash e) e false with ⟨o, hc⟩
  have hr1 : (remove t 0 (Hash e) e false).1 = o := by rw [hr]
  cases o with
  | none => rw [Remove_none hr1]
  | some t2 =>
    rw [Remove_some hr1]
    exact remove_lookup_other_aux t 0 e false t2 hc p ht.inv (Contract.equal_false_symm hne) hr

/-- Witness of C6 at the trie `sampleT`, removing `sampleA` and probing `sampleD`. -/
theorem C6_witness :
    Reachable sampleT ∧ Equal sampleD sampleA = false ∧
      Lookup (Remove sampleT (Hash sampleA) sampleA) (Hash sampleD) sampleD =
        Lookup sampleT (Hash sampleD) sampleD :=
  ⟨sampleT_reachable, sample_DA,
    C6_remove_keeps_other_elements sampleT sampleT_reachable sampleA sampleD sample_DA⟩

end Claims

/-! ## Claims C7, C9 and C10 -/

section Claims2
variable {α : Type} [Value α] [Contract α]

theorem sampleS_m : sampleS.m = sampleT := rfl

theorem sampleS_l : sampleS.l = 1 := by
  have h := Insert_counter_aux (EmptyHAMT : HAMT (StrKeyValue Nat)) 0 sampleA (0 + 1)
    (Inv_EmptyHAMT 0)
  rw [show lookupLoop (EmptyHAMT : HAMT (StrKeyValue Nat)) 0 (Hash sampleA) sampleA = none
    from Lookup_EmptyHAMT _ _] at h
  rw [sampleS, Set.Add_l]
  exact h

/-- Counterexample to C7 as stated: the set `sampleS` holds `sampleA`;
`sampleA` and `sampleC` have the same hash and are not equal; adding both to
`sampleS` replaces the stored `sampleA` and adds `sampleC`, so `Len` grows from
1 to 2: by one, not by two. -/
theorem C7_counterexample :
    Set.Reachable sampleS ∧ Hash sampleA = Hash sampleC ∧ Equal sampleA sampleC = false ∧
      Equal sampleC sampleA = false ∧ sampleS.Len = 1 ∧
      ((sampleS.Add sampleA).Add sampleC).Len = 2 ∧
      ((sampleS.Add sampleA).Add sampleC).Len ≠ sampleS.Len + 2 := by
  have hinvT : Inv 0 sampleT := sampleT_reachable.inv
  have h1 : (sampleS.Add sampleA).l = 1 := by
    rw [Set.Add_l, sampleS_l, sampleS_m, Insert_counter_aux sampleT 0 sampleA (1 + 1) hinvT]
    rw [show lookupLoop sampleT 0 (Hash sampleA) sampleA = some sampleA from sampleT_lookup_A]
    rfl
  have h2 : ((sampleS.Add sampleA).Add sampleC).l = 2 := by
    rw [Set.Add_l, h1, Set.Add_m, sampleS_m,
      Insert_counter_aux _ 0 sampleC (1 + 1) (Insert_inv hinvT sampleA _),
      Insert_lookup_other_aux sampleT 0 sampleA _ sampleC hinvT sample_AC]
    rw [show lookupLoop sampleT 0 (Hash sampleC) sampleC = none from by
      rw [sampleT, Insert_lookup_other_aux EmptyHAMT 0 sampleA 1 sampleC (Inv_EmptyHAMT 0)
        sample_AC]
      exact Lookup_EmptyHAMT _ _]
    rfl
  refine ⟨sampleS_reachable, rfl, sample_AC, sample_CA, sampleS_l, h2, ?_⟩
  simp only [Set.Len, h2, sampleS_l]
  decide

/-- C7 amended (collision correctness).  For every reachable trie `t` and
elements `v1`, `v2` with the same hash that are not equal: after inserting
`v1` and then `v2`, `Lookup` returns `v1` for `v1` and `v2` for `v2`; when `t`
held no element equal to `v1` or to `v2`, neither insert is counted as a
replace (the counter is unchanged) and the size grew by two (stored elements,
and `Len` of a set with root `t`); after then removing `v1`, `Lookup` for `v2`
still returns `v2` and `Lookup` for `v1` is absent. -/
theorem C7_collision_correctness (t : HAMT α) (ht : Reachable t) (v1 v2 : α)
    (hh : Hash v1 = Hash v2) (hne : Equal v1 v2 = false) (n : Int) :
    Lookup (Insert (Insert t 0 (Hash v1) v1 n).1 0 (Hash v2) v2 (Insert t 0 (Hash v1) v1 n).2).1
      (Hash v1) v1 = some v1 ∧
    Lookup (Insert (Insert t 0 (Hash v1) v1 n).1 0 (Hash v2) v2 (Insert t 0 (Hash v1) v1 n).2).1
      (Hash v2) v2 = some v2 ∧
    (Lookup t (Hash v1) v1 = none → Lookup t (Hash v2) v2 = none →
      (Insert (Insert t 0 (Hash v1) v1 n).1 0 (Hash v2) v2 (Insert t 0 (Hash v1) v1 n).2).2 = n ∧
      (Insert (Insert t 0 (Hash v1) v1 n).1 0 (Hash v2) v2
        (Insert t 0 (Hash v1) v1 n).2).1.elements.length = t.elements.length + 2 ∧
      ∀ l : Int, (((⟨l, t⟩ : Set α).Add v1).Add v2).Len = l + 2) ∧
    Lookup (Remove (Insert (Insert t 0 (Hash v1) v1 n).1 0 (Hash v2) v2
      (Insert t 0 (Hash v1) v1 n).2).1 (Hash v1) v1) (Hash v2) v2 = some v2 ∧
    Lookup (Remove (Insert (Insert t 0 (Hash v1) v1 n).1 0 (Hash v2) v2
      (Insert t 0 (Hash v1) v1 n).2).1 (Hash v1) v1) (Hash v1) v1 = none := by
  have _hh := hh
  have hinv := ht.inv
  have hne' := Contract.equal_false_symm hne
  have hinv1 : ∀ k, Inv 0 (Insert t 0 (Hash v1) v1 k).1 := fun k => Insert_inv hinv v1 k
  have hinv2 : ∀ k j, Inv 0 (Insert (Insert t 0 (Hash v1) v1 k).1 0 (Hash v2) v2 j).1 :=
    fun k j => Insert_inv (hinv1 k) v2 j
  have hl1 : ∀ k j, lookupLoop (Insert (Insert t 0 (Hash v1) v1 k).1 0 (Hash v2) v2 j).1 0
      (Hash v1) v1 = some v1 := by
    intro k j
    rw [Insert_lookup_other_aux _ 0 v2 _ v1 (hinv1 k) hne']
    exact Insert_lookup_self_aux t 0 v1 _ hinv
  have hl2 : ∀ k j, lookupLoop (Insert (Insert t 0 (Hash v1) v1 k).1 0 (Hash v2) v2 j).1 0
      (Hash v2) v2 = some v2 := fun k j => Insert_lookup_self_aux _ 0 v2 _ (hinv1 k)
  have hcount : lookupLoop t 0 (Hash v1) v1 = none → lookupLoop t 0 (Hash v2) v2 = none →
      ∀ k, (Insert t 0 (Hash v1) v1 k).2 = k ∧
        ∀ j, (Insert (Insert t 0 (Hash v1) v1 k).1 0 (Hash v2) v2 j).2 = j := by
    intro a1 a2 k
    refine ⟨?_, fun j => ?_⟩
    · rw [Insert_counter_aux t 0 v1 k hinv, a1]; rfl
    · rw [Insert_counter_aux _ 0 v2 j (hinv1 k),
        Insert_lookup_other_aux t 0 v1 k v2 hinv hne, a2]; rfl
  refine ⟨hl1 _ _, hl2 _ _, fun a1 a2 => ⟨?_, ?_, fun l => ?_⟩, ?_⟩
  · rw [(hcount a1 a2 n).2, (hcount a1 a2 n).1]
  · have e1 := Insert_length_aux t 0 (Hash v1) v1 n hinv
    have e2 := Insert_length_aux (Insert t 0 (Hash v1) v1 n).1 0 (Hash v2) v2
      (Insert t 0 (Hash v1) v1 n).2 (hinv1 n)
    rw [(hcount a1 a2 n).2] at e2
    rw [(hcount a1 a2 n).1] at e1
    omega
  · simp only [Set.Len, Set.Add_l, Set.Add_m]
    rw [(hcount a1 a2 _).2, (hcount a1 a2 _).1]
    omega
  · have hsome := remove_isSome_aux _ 0 (Hash v1) v1 false (hinv2 n (Insert t 0 (Hash v1) v1 n).2)
    rw [hl1] at hsome
    rcases hr : remove (Insert (Insert t 0 (Hash v1) v1 n).1 0 (Hash v2) v2
      (Insert t 0 (Hash v1) v1 n).2).1 0 (Hash v1) v1 false with ⟨o, hc⟩
    rw [hr] at hsome
    cases o with
    | none => cases hsome
    | some t3 =>
      have hr1 : (remove (Insert (Insert t 0 (Hash v1) v1 n).1 0 (Hash v2) v2
        (Insert t 0 (Hash v1) v1 n).2).1 0 (Hash v1) v1 false).1 = some t3 := by rw [hr]
      rw [Remove_some hr1]
      refine ⟨?_, remove_lookup_self_aux _ 0 v1 false t3 hc (hinv2 _ _) hr⟩
      rw [Lookup, remove_lookup_other_aux _ 0 v1 false t3 hc v2 (hinv2 _ _) hne hr]
      exact hl2 _ _

/-- Witness of C7 amended at the empty trie and the colliding elements
`sampleA` and `sampleC`. -/
theorem C7_witness :
    Reachable (EmptyHAMT : HAMT (StrKeyValue Nat)) ∧ Hash sampleA = Hash sampleC ∧
      Equal sampleA sampleC = false ∧
      Lookup (Insert (Insert EmptyHAMT 0 (Hash sampleA) sampleA 1).1 0 (Hash sampleC) sampleC
        (Insert EmptyHAMT 0 (Hash sampleA) sampleA 1).2).1 (Hash sampleA) sampleA =
          some sampleA :=
  ⟨Reachable.empty, rfl, sample_AC,
    (C7_collision_correctness EmptyHAMT Reachable.empty sampleA sampleC rfl sample_AC 1).1⟩

/-- C9 (Len invariant of Set).  For every set reachable from `EmptySet` by
`Add` and `Del`, `Len()` is the number of stored elements, which is the number
of elements `Range` visits; adding a value already present does not change
`Len`, adding an absent one raises it by one, a `Del` of a present value lowers
it by one and a `Del` of an absent value returns the receiver. -/
theorem C9_set_len_invariant (s : Set α) (hs : Set.Reachable s) :
    s.Len = s.m.elements.length ∧
    s.Len = (s.Range countVisitor 0 : Nat) ∧
    (∀ v, (s.Get v).isSome = true → (s.Add v).Len = s.Len) ∧
    (∀ v, s.Get v = none → (s.Add v).Len = s.Len + 1) ∧
    (∀ v, (s.Get v).isSome = true → (s.Del v).Len = s.Len - 1) ∧
    (∀ v, s.Get v = none → s.Del v = s) := by
  obtain ⟨hr, hl⟩ := hs.spec
  have hinv := hr.inv
  refine ⟨hl, ?_, fun v hv => ?_, fun v hv => ?_, fun v hv => ?_, fun v hv => ?_⟩
  · have := HAMT.count_eq s.m
    rw [HAMT.count] at this
    rw [Set.Range, this]; exact hl
  · rw [Set.Get, Lookup] at hv
    simp only [Set.Len, Set.Add_l]
    rw [Insert_counter_aux s.m 0 v _ hinv, if_pos hv]; omega
  · rw [Set.Get, Lookup] at hv
    simp only [Set.Len, Set.Add_l]
    rw [Insert_counter_aux s.m 0 v _ hinv, hv]; rfl
  · rw [Set.Get, Lookup] at hv
    have hsome := remove_isSome_aux s.m 0 (Hash v) v false hinv
    rw [hv] at hsome
    obtain ⟨m2, hm2⟩ := Option.isSome_iff_exists.mp hsome
    rw [Set.Del_some hm2]; rfl
  · rw [Set.Get, Lookup] at hv
    have hsome := remove_isSome_aux s.m 0 (Hash v) v false hinv
    rw [hv] at hsome
    apply Set.Del_none
    cases hx : (remove s.m 0 (Hash v) v false).1 with
    | none => rfl
    | some m2 => rw [hx] at hsome; cases hsome

/-- Witness of C9 at the set `sampleS`. -/
theorem C9_witness :
    Set.Reachable sampleS ∧ sampleS.Len = sampleS.m.elements.length :=
  ⟨sampleS_reachable, (C9_set_len_invariant sampleS sampleS_reachable).1⟩

end Claims2

/-! ## Claim C10: traversal with early exit -/

section RangeClaim
variable {α : Type} {σ : Type}

/-- The record kept by an instrumented visitor during a sequential visit. -/
theorem visitLog_spec (f : σ → α → σ × Bool) : ∀ (l : List α) (s : σ)
    (log0 : List (α × Bool)),
    ∃ calls : List (α × Bool),
      rangeCollision l (visitLog f) (s, log0) =
        (((rangeCollision l f s).1, log0 ++ calls), (rangeCollision l f s).2) ∧
      calls.map Prod.fst <+: l ∧
      ((rangeCollision l f s).2 = true →
        calls.map Prod.fst = l ∧ ∀ c ∈ calls, c.2 = true) ∧
      ((rangeCollision l f s).2 = false →
        ∃ init last, calls = init ++ [last] ∧ last.2 = false ∧ ∀ c ∈ init, c.2 = true) := by
  intro l
  induction l with
  | nil =>
    intro s log0
    refine ⟨[], ?_, ?_, ?_, ?_⟩
    · simp [rangeCollision_nil]
    · simp
    · intro _; simp
    · intro h; simp [rangeCollision_nil] at h
  | cons v l ih =>
    intro s log0
    by_cases hv : (f s v).2 = false
    · refine ⟨[(v, false)], ?_, ?_, ?_, ?_⟩
      · rw [rangeCollision_cons, rangeCollision_cons]
        simp [visitLog, hv]
      · simp [List.prefix_cons_inj]
      · intro h; rw [rangeCollision_cons, if_pos hv] at h; cases h
      · intro _; exact ⟨[], (v, false), rfl, rfl, by simp⟩
    · have hv' : (f s v).2 = true := by simpa using hv
      obtain ⟨calls, h1, h2, h3, h4⟩ := ih (f s v).1 (log0 ++ [(v, true)])
      refine ⟨(v, true) :: calls, ?_, ?_, ?_, ?_⟩
      · rw [rangeCollision_cons, rangeCollision_cons, if_neg hv]
        have e1 : (visitLog f (s, log0) v) = (((f s v).1, log0 ++ [(v, true)]), true) := by
          simp [visitLog, hv']
        rw [e1]
        simp only [Bool.true_eq_false, if_false]
        rw [h1]
        simp
      · simpa [List.prefix_cons_inj] using h2
      · intro h
        rw [rangeCollision_cons, if_neg hv] at h
        obtain ⟨a, b⟩ := h3 h
        refine ⟨by simp [a], ?_⟩
        intro c hc
        rcases List.mem_cons.mp hc with hc1 | hc1
        · rw [hc1]
        · exact b c hc1
      · intro h
        rw [rangeCollision_cons, if_neg hv] at h
        obtain ⟨init, last, a, b, c⟩ := h4 h
        refine ⟨(v, true) :: init, last, by simp [a], b, ?_⟩
        intro x hx
        rcases List.mem_cons.mp hx with hx1 | hx1
        · rw [hx1]
        · exact c x hx1

/-- C10 (traversal early exit).  For every trie `t`, visitor `f` and visitor
state `s`, let `calls` be the record of the calls of `f` made by `Range`, each
with the value `f` returned.  Recording does not change the traversal;
`Range` returns false exactly when some call returned false; every call but
the last returned true, so `f` is not called after it has returned false; the
elements called on are an initial part of the stored elements in slot order;
and when `Range` returns true `f` was called on every stored element. -/
theorem C10_range_early_exit (t : HAMT α) (f : σ → α → σ × Bool) (s : σ) :
    ∃ calls : List (α × Bool),
      Range t (visitLog f) (s, []) = (((Range t f s).1, calls), (Range t f s).2) ∧
      ((Range t f s).2 = false ↔ ∃ c ∈ calls, c.2 = false) ∧
      (∀ c ∈ calls.dropLast, c.2 = true) ∧
      calls.map Prod.fst <+: t.elements ∧
      ((Range t f s).2 = true → calls.map Prod.fst = t.elements) := by
  obtain ⟨calls, h1, h2, h3, h4⟩ := visitLog_spec f t.elements s []
  rw [List.nil_append] at h1
  rw [← Range_eq_visit] at h1 h3 h4
  rw [← Range_eq_visit] at h1
  refine ⟨calls, h1, ?_, ?_, h2, fun h => (h3 h).1⟩
  · constructor
    · intro h
      obtain ⟨init, last, a, b, _⟩ := h4 h
      exact ⟨last, by simp [a], b⟩
    · rintro ⟨c, hc, hcf⟩
      by_contra hne
      have ht : (Range t f s).2 = true := by simpa using hne
      have := (h3 ht).2 c hc
      rw [hcf] at this; cases this
  · intro c hc
    by_cases ht : (Range t f s).2 = true
    · exact (h3 ht).2 c (List.dropLast_subset _ hc)
    · obtain ⟨init, last, a, _, d⟩ := h4 (by simpa using ht)
      rw [a, List.dropLast_concat] at hc
      exact d c hc

end RangeClaim

/-! ## The store: writes go to fresh objects only -/

section StoreFrame
variable {α : Type}

theorem Store.alloc_fst (h : Store α) (o : Obj α) : (h.alloc o).1 = h ++ [o] := rfl

theorem Store.alloc_snd (h : Store α) (o : Obj α) : (h.alloc o).2 = h.length := rfl

theorem Store.alloc_length (h : Store α) (o : Obj α) : (h.alloc o).1.length = h.length + 1 := by
  simp [Store.alloc]

theorem Store.Frame.refl (N : Nat) (h : Store α) : Store.Frame N h h :=
  ⟨Nat.le_refl _, fun _ _ => rfl⟩

theorem Store.Frame.trans {N : Nat} {h1 h2 h3 : Store α} (a : Store.Frame N h1 h2)
    (b : Store.Frame N h2 h3) : Store.Frame N h1 h3 :=
  ⟨Nat.le_trans a.1 b.1, fun x hx => (b.2 x hx).trans (a.2 x hx)⟩

theorem Store.Frame_alloc {N : Nat} (h : Store α) (o : Obj α) (hN : N ≤ h.length) :
    Store.Frame N h (h.alloc o).1 := by
  refine ⟨by rw [Store.alloc_length]; omega, fun a ha => ?_⟩
  rw [Store.alloc_fst, List.getElem?_append_left (by omega)]

theorem Store.setEntry_length {h h2 : Store α} {p i : Nat} {x : HEntry α}
    (hs : h.setEntry p i x = some h2) : h2.length = h.length := by
  unfold Store.setEntry at hs
  split at hs
  · split at hs
    · injection hs with hs; subst hs; simp
    · cases hs
  · cases hs

theorem Store.setEntry_getElem?_ne {h h2 : Store α} {p i : Nat} {x : HEntry α}
    (hs : h.setEntry p i x = some h2) {a : Nat} (ha : a ≠ p) : h2[a]? = h[a]? := by
  unfold Store.setEntry at hs
  split at hs
  · split at hs
    · injection hs with hs; subst hs
      rw [List.getElem?_set_ne (fun hh => ha hh.symm)]
    · cases hs
  · cases hs

theorem Store.Frame_setEntry {N : Nat} {h h2 : Store α} {p i : Nat} {x : HEntry α}
    (hs : h.setEntry p i x = some h2) (hN : N ≤ p) : Store.Frame N h h2 :=
  ⟨by rw [Store.setEntry_length hs], fun a ha =>
    Store.setEntry_getElem?_ne hs (by omega)⟩


/-- The loop of `makeHamtBranch` writes to the tail node only, which is fresh. -/
theorem Store.makeHamtBranchLoop_frame (key1 key2 : Nat) (v1 v2 : α) (N : Nat) :
    ∀ (shift : Nat) (h : Store α) (mHead mTail : Option Nat) (h2 : Store α) (x : HEntry α),
    N ≤ h.length → (∀ tl, mTail = some tl → N ≤ tl) →
    h.makeHamtBranchLoop shift key1 key2 v1 v2 mHead mTail = some (h2, x) →
    Store.Frame N h h2 := by
  intro shift
  induction shift using shift_induct with
  | base s hs =>
    intro h mHead mTail h2 x hN htl hr
    rw [Store.makeHamtBranchLoop] at hr
    simp only [chunk_eq, hamtBranches, intSize] at hr
    split at hr
    · split at hr
      · injection hr with hr; injection hr with e1 _; subst e1
        exact Store.Frame_alloc h _ hN
      · split at hr
        · cases hr
        · rename_i tl _ h3 hset
          injection hr with hr; injection hr with e1 _; subst e1
          exact (Store.Frame_alloc h _ hN).trans (Store.Frame_setEntry hset (htl tl rfl))
      · cases hr
    · split at hr
      · injection hr with hr; injection hr with e1 _; subst e1
        exact Store.Frame_alloc h _ hN
      · split at hr
        · cases hr
        · rename_i tl _ h3 hset
          injection hr with hr; injection hr with e1 _; subst e1
          exact (Store.Frame_alloc h _ hN).trans (Store.Frame_setEntry hset (htl tl rfl))
      · cases hr
  | step s hs ih =>
    intro h mHead mTail h2 x hN htl hr
    rw [Store.makeHamtBranchLoop] at hr
    simp only [chunk_eq, hamtBranches, intSize] at hr
    split at hr
    · rw [if_neg (by omega)] at hr
      split at hr
      · refine (Store.Frame_alloc h _ hN).trans (ih _ _ _ _ _ ?_ ?_ hr)
        · rw [Store.alloc_length]; omega
        · intro tl htl2; injection htl2 with htl2; rw [← htl2, Store.alloc_snd]; exact hN
      · split at hr
        · cases hr
        · rename_i tl _ h3 hset
          refine ((Store.Frame_alloc h _ hN).trans
            (Store.Frame_setEntry hset (htl tl rfl))).trans (ih _ _ _ _ _ ?_ ?_ hr)
          · rw [Store.setEntry_length hset, Store.alloc_length]; omega
          · intro tl2 htl2; injection htl2 with htl2; rw [← htl2, Store.alloc_snd]; exact hN
    · split at hr
      · injection hr with hr; injection hr with e1 _; subst e1
        exact Store.Frame_alloc h _ hN
      · split at hr
        · cases hr
        · rename_i tl _ h3 hset
          injection hr with hr; injection hr with e1 _; subst e1
          exact (Store.Frame_alloc h _ hN).trans (Store.Frame_setEntry hset (htl tl rfl))
      · cases hr

end StoreFrame

section StoreFrameOps
variable {α : Type} [Value α]

theorem Store.withValue_frame {h h2 : Store α} {c1 c2 : Nat} {v : α} {n n2 : Int}
    (hw : h.withValue c1 v n = some (h2, c2, n2)) {N : Nat} (hN : N ≤ h.length) :
    Store.Frame N h h2 ∧ c2 = h.length ∧ h2.length = h.length + 1 := by
  unfold Store.withValue at hw
  split at hw
  · cases hw
  · injection hw with hw
    injection hw with e1 e2
    injection e2 with e2 e3
    subst e1 e2
    exact ⟨Store.Frame_alloc h _ hN, rfl, Store.alloc_length h _⟩

theorem Store.withoutValue_frame {h h2 : Store α} {c1 c2 : Nat} {v : α} {f : Bool}
    (hw : h.withoutValue c1 v = some (h2, c2, f)) {N : Nat} (hN : N ≤ h.length) :
    Store.Frame N h h2 := by
  unfold Store.withoutValue at hw
  split at hw
  · cases hw
  · dsimp only at hw
    split at hw
    · injection hw with hw
      injection hw with e1 e2
      subst e1
      exact Store.Frame_alloc h _ hN
    · injection hw with hw
      injection hw with e1 e2
      subst e1
      exact Store.Frame.refl N h

end StoreFrameOps

section StoreFrameOps2
variable {α : Type} [Value α]

/-- `Insert` on the store writes to objects it allocated itself only. -/
theorem Store.Insert_frame : ∀ (fuel : Nat) (h : Store α) (m shift key : Nat) (v : α)
    (n : Int) (h2 : Store α) (m2 : Nat) (n2 : Int),
    h.Insert fuel m shift key v n = some (h2, m2, n2) →
    ∀ N, N ≤ h.length → Store.Frame N h h2 := by
  intro fuel
  induction fuel with
  | zero => intro h m shift key v n h2 m2 n2 hr; simp [Store.Insert] at hr
  | succ fuel ih =>
    intro h m shift key v n h2 m2 n2 hr N hN
    rw [Store.Insert] at hr
    split at hr
    · cases hr
    · rename_i bmap entries _
      dsimp only at hr
      split at hr
      · split at hr
        · split at hr
          · cases hr
          · rename_i h3 hset
            injection hr with hr; injection hr with e1 _; subst e1
            exact (Store.Frame_alloc h _ hN).trans
              (Store.Frame_setEntry hset (by rw [Store.alloc_snd]; exact hN))
        · cases hr
      · have hA := Store.Frame_alloc h (.node bmap entries) hN
        have hAl := Store.alloc_length h (.node bmap entries)
        have hAs : N ≤ (h.alloc (.node bmap entries)).2 := by rw [Store.alloc_snd]; exact hN
        split at hr
        · cases hr
        · split at hr
          · cases hr
          · rename_i h3 e2 r hrec
            split at hr
            · cases hr
            · rename_i h4 hset
              injection hr with hr; injection hr with e1 _; subst e1
              exact (hA.trans (ih _ _ _ _ _ _ _ _ _ hrec N (by omega))).trans
                (Store.Frame_setEntry hset hAs)
        · split at hr
          · cases hr
          · rename_i h3 c2 r hw
            split at hr
            · cases hr
            · rename_i h4 hset
              injection hr with hr; injection hr with e1 _; subst e1
              exact (hA.trans (Store.withValue_frame hw (by omega)).1).trans
                (Store.Frame_setEntry hset hAs)
        · split at hr
          · split at hr
            · cases hr
            · rename_i h3 hset
              injection hr with hr; injection hr with e1 _; subst e1
              exact hA.trans (Store.Frame_setEntry hset hAs)
          · split at hr
            · cases hr
            · rename_i h3 x hmb
              split at hr
              · cases hr
              · rename_i h4 hset
                injection hr with hr; injection hr with e1 _; subst e1
                exact (hA.trans (Store.makeHamtBranchLoop_frame _ _ _ _ N _ _ _ _ _ _
                  (by omega) (fun _ hh => by cases hh) hmb)).trans
                  (Store.Frame_setEntry hset hAs)
        · injection hr with hr; injection hr with e1 _; subst e1
          exact hA

end StoreFrameOps2

section StoreFrameOps3
variable {α : Type} [Value α]

/-- `remove` on the store writes to objects it allocated itself only. -/
theorem Store.remove_frame : ∀ (fuel : Nat) (h : Store α) (m shift key : Nat) (v : α)
    (hc : Bool) (h2 : Store α) (m2 : Nat) (hc2 : Bool),
    h.remove fuel m shift key v hc = some (h2, m2, hc2) →
    ∀ N, N ≤ h.length → Store.Frame N h h2 := by
  intro fuel
  induction fuel with
  | zero => intro h m shift key v hc h2 m2 hc2 hr; simp [Store.remove] at hr
  | succ fuel ih =>
    intro h m shift key v hc h2 m2 hc2 hr N hN
    rw [Store.remove] at hr
    split at hr
    · cases hr
    · rename_i bmap entries _
      dsimp only at hr
      split at hr
      · split at hr
        · cases hr
        · split at hr
          · cases hr
          · rename_i h1 m3 hc3 hrec
            have hF1 := ih _ _ _ _ _ _ _ _ _ hrec N hN
            split at hr
            · have hA := Store.Frame_alloc h1 (.node bmap entries) (Nat.le_trans hN hF1.1)
              have hAs : N ≤ (h1.alloc (.node bmap entries)).2 := by
                rw [Store.alloc_snd]; exact Nat.le_trans hN hF1.1
              split at hr
              · cases hr
              · split at hr
                · split at hr
                  · split at hr
                    · cases hr
                    · rename_i h3 hset
                      injection hr with hr; injection hr with e1 _; subst e1
                      exact (hF1.trans hA).trans (Store.Frame_setEntry hset hAs)
                  · split at hr
                    · cases hr
                    · rename_i h3 hset
                      injection hr with hr; injection hr with e1 _; subst e1
                      exact (hF1.trans hA).trans (Store.Frame_setEntry hset hAs)
                  · split at hr
                    · cases hr
                    · rename_i h3 hset
                      injection hr with hr; injection hr with e1 _; subst e1
                      exact (hF1.trans hA).trans (Store.Frame_setEntry hset hAs)
                · split at hr
                  · cases hr
                  · rename_i h3 hset
                    injection hr with hr; injection hr with e1 _; subst e1
                    exact (hF1.trans hA).trans (Store.Frame_setEntry hset hAs)
            · injection hr with hr; injection hr with e1 _; subst e1
              exact hF1
        · split at hr
          · cases hr
          · rename_i h1 c2 hw
            have hF1 := Store.withoutValue_frame hw hN
            have hA := Store.Frame_alloc h1 (.node bmap entries) (Nat.le_trans hN hF1.1)
            have hAs : N ≤ (h1.alloc (.node bmap entries)).2 := by
              rw [Store.alloc_snd]; exact Nat.le_trans hN hF1.1
            split at hr
            · cases hr
            · split at hr
              · cases hr
              · rename_i h3 hset
                injection hr with hr; injection hr with e1 _; subst e1
                exact (hF1.trans hA).trans (Store.Frame_setEntry hset hAs)
            · split at hr
              · cases hr
              · rename_i h3 hset
                injection hr with hr; injection hr with e1 _; subst e1
                exact (hF1.trans hA).trans (Store.Frame_setEntry hset hAs)
          · rename_i h1 c2 hw
            injection hr with hr; injection hr with e1 _; subst e1
            exact Store.withoutValue_frame hw hN
        · split at hr
          · split at hr
            · injection hr with hr; injection hr with e1 _; subst e1
              exact Store.Frame.refl N h
            · injection hr with hr; injection hr with e1 _; subst e1
              exact Store.Frame_alloc h _ hN
          · injection hr with hr; injection hr with e1 _; subst e1
            exact Store.Frame.refl N h
        · injection hr with hr; injection hr with e1 _; subst e1
          exact Store.Frame.refl N h
      · injection hr with hr; injection hr with e1 _; subst e1
        exact Store.Frame.refl N h

theorem Store.Remove_frame {fuel : Nat} {h h2 : Store α} {m key m2 : Nat} {v : α}
    (hr : h.Remove fuel m key v = some (h2, m2)) : Store.Frame h.length h h2 := by
  unfold Store.Remove at hr
  split at hr
  · cases hr
  · rename_i h1 m3 hc hrm
    injection hr with hr; injection hr with e1 _; subst e1
    exact Store.remove_frame _ _ _ _ _ _ _ _ _ _ hrm _ (Nat.le_refl _)

end StoreFrameOps3

/-! ## The store: reads from old roots are unchanged -/

section StoreRead
variable {α : Type}

theorem Store.node_congr {h1 h2 : Store α} {a : Nat} (hh : h2[a]? = h1[a]?) :
    h2.node a = h1.node a := by
  unfold Store.node; rw [hh]

theorem Store.bucket_congr {h1 h2 : Store α} {a : Nat} (hh : h2[a]? = h1[a]?) :
    h2.bucket a = h1.bucket a := by
  unfold Store.bucket; rw [hh]

theorem Store.node_eq_some {h : Store α} {a b : Nat} {es : List (HEntry α)}
    (hn : h.node a = some (b, es)) : h[a]? = some (.node b es) := by
  unfold Store.node at hn
  split at hn
  · rename_i b1 es1 heq
    injection hn with hn; injection hn with e1 e2; subst e1 e2; exact heq
  · cases hn

theorem Store.bucket_eq_some {h : Store α} {a : Nat} {c : List α}
    (hn : h.bucket a = some c) : h[a]? = some (.bucket c) := by
  unfold Store.bucket at hn
  split at hn
  · rename_i c1 heq
    injection hn with hn; subst hn; exact heq
  · cases hn

/-- In a closed store the addresses held by a node are allocated. -/
theorem Store.Closed.entry_below {h : Store α} (hcl : h.Closed) {a b : Nat}
    {es : List (HEntry α)} (hn : h.node a = some (b, es)) {x : HEntry α} (hx : x ∈ es) :
    x.below h.length :=
  hcl a _ (Store.node_eq_some hn) x hx

theorem Store.rangeEntries_congr {σ : Type} {h1 h2 : Store α}
    {child1 child2 : Nat → σ → Option (σ × Bool)} (f : σ → α → σ × Bool) :
    ∀ (es : List (HEntry α)),
    (∀ e, HEntry.hamt e ∈ es → ∀ s, child2 e s = child1 e s) →
    (∀ p, HEntry.collision p ∈ es → h2.bucket p = h1.bucket p) →
    ∀ s, Store.rangeEntries h2 child2 es f s = Store.rangeEntries h1 child1 es f s := by
  intro es
  induction es with
  | nil => intro _ _ s; rfl
  | cons x es ih =>
    intro hch hb s
    have ih2 := ih (fun e he => hch e (List.mem_cons_of_mem _ he))
      (fun p hp => hb p (List.mem_cons_of_mem _ hp))
    cases x with
    | nil => simp only [Store.rangeEntries]; exact ih2 s
    | value v =>
      simp only [Store.rangeEntries]
      split
      · rfl
      · exact ih2 _
    | hamt e =>
      simp only [Store.rangeEntries]
      rw [hch e (List.mem_cons_self _ _) s]
      split
      · rfl
      · split
        · rfl
        · exact ih2 _
    | collision p =>
      simp only [Store.rangeEntries]
      rw [hb p (List.mem_cons_self _ _)]
      split
      · rfl
      · split
        · rfl
        · exact ih2 _


/-- `Range` from an old root reads the same in an extended store. -/
theorem Store.Range_stable {σ : Type} {h1 h2 : Store α} (hcl : h1.Closed)
    (hf : Store.Frame h1.length h1 h2) (f : σ → α → σ × Bool) : ∀ (fuel m : Nat) (s : σ),
    m < h1.length → h2.Range fuel m f s = h1.Range fuel m f s := by
  intro fuel
  induction fuel with
  | zero => intro m s _; rfl
  | succ fuel ih =>
    intro m s hm
    rw [Store.Range, Store.Range, Store.node_congr (hf.2 m hm)]
    rcases hn : h1.node m with _ | ⟨bmap, entries⟩
    · rfl
    · dsimp only
      apply Store.rangeEntries_congr
      · intro e he s1
        exact ih e s1 (hcl.entry_below hn he)
      · intro p hp
        exact Store.bucket_congr (hf.2 p (hcl.entry_below hn hp))

end StoreRead

section StoreRead2
variable {α : Type} [Value α]

/-- `Lookup` from an old root reads the same in an extended store. -/
theorem Store.lookupLoop_stable {h1 h2 : Store α} (hcl : h1.Closed)
    (hf : Store.Frame h1.length h1 h2) : ∀ (fuel m shift key : Nat) (v : α),
    m < h1.length → h2.lookupLoop fuel m shift key v = h1.lookupLoop fuel m shift key v := by
  intro fuel
  induction fuel with
  | zero => intro m shift key v _; rfl
  | succ fuel ih =>
    intro m shift key v hm
    rw [Store.lookupLoop, Store.lookupLoop, Store.node_congr (hf.2 m hm)]
    rcases hn : h1.node m with _ | ⟨bmap, entries⟩
    · rfl
    · dsimp only
      split
      · rfl
      · rcases he : entries[Bitindex bmap (1 <<< (key >>> shift &&& hamtMask))]? with _ | x
        · rfl
        · have hx := hcl.entry_below hn (List.getElem?_mem he)
          cases x with
          | nil => exact ih m _ key v hm
          | value e => rfl
          | hamt e => exact ih e _ key v hx
          | collision p =>
            dsimp only
            rw [Store.bucket_congr (hf.2 p hx)]

end StoreRead2

/-! ## The store stays closed -/

section StoreClosed
variable {α : Type}

theorem HEntry_below_mono {x : HEntry α} {N M : Nat} (h : x.below N) (hNM : N ≤ M) :
    x.below M := by
  cases x with
  | nil => trivial
  | value v => trivial
  | hamt p => exact Nat.lt_of_lt_of_le h hNM
  | collision p => exact Nat.lt_of_lt_of_le h hNM

theorem Obj_below_mono {o : Obj α} {N M : Nat} (h : o.below N) (hNM : N ≤ M) :
    o.below M := by
  cases o with
  | node b es => exact fun x hx => HEntry_below_mono (h x hx) hNM
  | bucket c => trivial

theorem Store.node_lt {h : Store α} {a b : Nat} {es : List (HEntry α)}
    (hn : h.node a = some (b, es)) : a < h.length := by
  have := Store.node_eq_some hn
  by_contra hlt
  rw [List.getElem?_eq_none (by omega)] at this
  cases this

theorem Store.Closed_alloc {h : Store α} (hcl : h.Closed) {o : Obj α}
    (ho : o.below (h.length + 1)) : (h.alloc o).1.Closed := by
  intro a x hx
  rw [Store.alloc_length]
  rw [Store.alloc_fst] at hx
  by_cases ha : a < h.length
  · rw [List.getElem?_append_left ha] at hx
    exact Obj_below_mono (hcl a x hx) (by omega)
  · rw [List.getElem?_append_right (by omega)] at hx
    by_cases ha2 : a - h.length = 0
    · rw [ha2] at hx
      simp only [List.getElem?_cons_zero, Option.some.injEq] at hx
      subst hx; exact ho
    · obtain ⟨k, hk⟩ := Nat.exists_eq_succ_of_ne_zero ha2
      rw [hk] at hx
      simp at hx

theorem Store.Closed_setEntry {h h2 : Store α} (hcl : h.Closed) {p i : Nat} {x : HEntry α}
    (hs : h.setEntry p i x = some h2) (hx : x.below h.length) : h2.Closed := by
  have hlen := Store.setEntry_length hs
  intro a o ho
  rw [hlen]
  by_cases hap : a = p
  · subst hap
    unfold Store.setEntry at hs
    split at hs
    · rename_i b es heq
      split at hs
      · injection hs with hs; subst hs
        have hlt : a < h.length := by
          by_contra hlt
          rw [List.getElem?_eq_none (by omega)] at heq
          cases heq
        rw [List.getElem?_set_self hlt] at ho
        injection ho with ho; subst ho
        intro y hy
        rcases List.mem_or_eq_of_mem_set hy with h1 | h1
        · exact hcl a _ heq y h1
        · rw [h1]; exact hx
      · cases hs
    · cases hs
  · rw [Store.setEntry_getElem?_ne hs hap] at ho
    exact hcl a o ho

theorem Store.below_take_drop {N : Nat} {es : List (HEntry α)}
    (hes : ∀ x ∈ es, x.below N) (bi : Nat) (y : HEntry α) (hy : y.below N) :
    ∀ x ∈ es.take bi ++ y :: es.drop bi, x.below N := by
  intro x hx
  rcases List.mem_append.mp hx with h1 | h1
  · exact hes x (List.mem_of_mem_take h1)
  · rcases List.mem_cons.mp h1 with h2 | h2
    · rw [h2]; exact hy
    · exact hes x (List.mem_of_mem_drop h2)

theorem Store.below_take_drop_succ {N : Nat} {es : List (HEntry α)}
    (hes : ∀ x ∈ es, x.below N) (bi : Nat) :
    ∀ x ∈ es.take bi ++ es.drop (bi + 1), x.below N := by
  intro x hx
  rcases List.mem_append.mp hx with h1 | h1
  · exact hes x (List.mem_of_mem_take h1)
  · exact hes x (List.mem_of_mem_drop h1)

/-- The loop of `makeHamtBranch` keeps the store closed and returns a valid
slot content. -/
theorem Store.makeHamtBranchLoop_closed (key1 key2 : Nat) (v1 v2 : α) :
    ∀ (shift : Nat) (h : Store α) (mHead mTail : Option Nat) (h2 : Store α) (x : HEntry α),
    h.Closed → (∀ hd, mHead = some hd → hd < h.length) →
    h.makeHamtBranchLoop shift key1 key2 v1 v2 mHead mTail = some (h2, x) →
    h2.Closed ∧ x.below h2.length := by
  intro shift
  have hfin : ∀ (h : Store α) (o : Obj α) (k : HEntry α) (mHead mTail : Option Nat)
      (h2 : Store α) (x : HEntry α),
      h.Closed → (∀ hd, mHead = some hd → hd < h.length) → o.below (h.length + 1) →
      k.below (h.length + 1) →
      (match mHead, mTail with
        | none, _ => some ((h.alloc o).1, k)
        | some hd, some tl =>
          match (h.alloc o).1.setEntry tl 0 k with
          | none => none
          | some h3 => some (h3, HEntry.hamt hd)
        | some _, none => none) = some (h2, x) →
      h2.Closed ∧ x.below h2.length := by
    intro h o k mHead mTail h2 x hcl hhd ho hk hr
    have hA := Store.Closed_alloc hcl ho
    split at hr
    · injection hr with hr; injection hr with e1 e2; subst e1 e2
      rw [Store.alloc_length]; exact ⟨hA, hk⟩
    · split at hr
      · cases hr
      · rename_i hd tl _ h3 hset
        injection hr with hr; injection hr with e1 e2; subst e1 e2
        refine ⟨Store.Closed_setEntry hA hset (by rw [Store.alloc_length]; exact hk), ?_⟩
        rw [Store.setEntry_length hset, Store.alloc_length]
        exact Nat.lt_succ_of_lt (hhd hd rfl)
    · cases hr
  let pairNode : Nat → Obj α := fun s =>
    .node ((1 <<< chunk key1 s) ||| (1 <<< chunk key2 s))
      (if chunk key1 s < chunk key2 s then [.value v1, .value v2] else [.value v2, .value v1])
  have hpair : ∀ (s N : Nat), (pairNode s).below N := by
    intro s N y hy
    by_cases hlt : chunk key1 s < chunk key2 s
    · simp only [hlt, if_true, List.mem_cons, List.mem_singleton, List.not_mem_nil,
        or_false] at hy
      rcases hy with h1 | h1 <;> rw [h1] <;> trivial
    · simp only [hlt, if_false, List.mem_cons, List.mem_singleton, List.not_mem_nil,
        or_false] at hy
      rcases hy with h1 | h1 <;> rw [h1] <;> trivial
  induction shift using shift_induct with
  | base s hs =>
    intro h mHead mTail h2 x hcl hhd hr
    rw [Store.makeHamtBranchLoop] at hr
    simp only [chunk_eq, hamtBranches, intSize] at hr
    split at hr
    · exact hfin h (.bucket [v1, v2]) (.collision (h.alloc (.bucket [v1, v2])).2)
        mHead mTail h2 x hcl hhd trivial
        (by rw [Store.alloc_snd]; exact Nat.lt_succ_self _) hr
    · exact hfin h (pairNode s) (.hamt (h.alloc (pairNode s)).2) mHead mTail h2 x hcl hhd
        (hpair s _) (by rw [Store.alloc_snd]; exact Nat.lt_succ_self _) hr
  | step s hs ih =>
    intro h mHead mTail h2 x hcl hhd hr
    rw [Store.makeHamtBranchLoop] at hr
    simp only [chunk_eq, hamtBranches, intSize] at hr
    split at hr
    · rw [if_neg (by omega)] at hr
      have hA : (h.alloc (.node (1 <<< chunk key1 s) [.nil])).1.Closed :=
        Store.Closed_alloc hcl (by intro y hy; simp at hy; rw [hy]; trivial)
      split at hr
      · refine ih _ _ _ _ _ hA ?_ hr
        intro hd hhd2; injection hhd2 with hhd2
        rw [← hhd2, Store.alloc_snd, Store.alloc_length]; exact Nat.lt_succ_self _
      · split at hr
        · cases hr
        · rename_i tl _ h3 hset
          refine ih _ _ _ _ _ (Store.Closed_setEntry hA hset
            (by rw [Store.alloc_snd, Store.alloc_length]; exact Nat.lt_succ_self _)) ?_ hr
          intro hd hhd2
          rw [Store.setEntry_length hset, Store.alloc_length]
          exact Nat.lt_succ_of_lt (hhd hd hhd2)
    · exact hfin h (pairNode s) (.hamt (h.alloc (pairNode s)).2) mHead mTail h2 x hcl hhd
        (hpair s _) (by rw [Store.alloc_snd]; exact Nat.lt_succ_self _) hr

end StoreClosed

section StoreClosedOps
variable {α : Type} [Value α]

theorem Store.withValue_closed {h h2 : Store α} {c1 c2 : Nat} {v : α} {n n2 : Int}
    (hcl : h.Closed) (hw : h.withValue c1 v n = some (h2, c2, n2)) :
    h2.Closed ∧ c2 < h2.length := by
  unfold Store.withValue at hw
  split at hw
  · cases hw
  · injection hw with hw
    injection hw with e1 e2
    injection e2 with e2 e3
    subst e1 e2
    refine ⟨Store.Closed_alloc hcl trivial, ?_⟩
    rw [Store.alloc_snd, Store.alloc_length]; exact Nat.lt_succ_self _

theorem Store.withoutValue_closed {h h2 : Store α} {c1 c2 : Nat} {v : α} {f : Bool}
    (hcl : h.Closed) (hc1 : c1 < h.length) (hw : h.withoutValue c1 v = some (h2, c2, f)) :
    h2.Closed ∧ c2 < h2.length := by
  unfold Store.withoutValue at hw
  split at hw
  · cases hw
  · dsimp only at hw
    split at hw
    · injection hw with hw
      injection hw with e1 e2
      injection e2 with e2 e3
      subst e1 e2
      refine ⟨Store.Closed_alloc hcl trivial, ?_⟩
      rw [Store.alloc_snd, Store.alloc_length]; exact Nat.lt_succ_self _
    · injection hw with hw
      injection hw with e1 e2
      injection e2 with e2 e3
      subst e1 e2
      exact ⟨hcl, hc1⟩

/-- `Insert` keeps the store closed and returns an allocated address. -/
theorem Store.Insert_closed : ∀ (fuel : Nat) (h : Store α) (m shift key : Nat) (v : α)
    (n : Int) (h2 : Store α) (m2 : Nat) (n2 : Int), h.Closed →
    h.Insert fuel m shift key v n = some (h2, m2, n2) →
    h2.Closed ∧ m2 < h2.length := by
  intro fuel
  induction fuel with
  | zero => intro h m shift key v n h2 m2 n2 _ hr; simp [Store.Insert] at hr
  | succ fuel ih =>
    intro h m shift key v n h2 m2 n2 hcl hr
    rw [Store.Insert] at hr
    split at hr
    · cases hr
    · rename_i bmap entries hn
      have hes : ∀ x ∈ entries, x.below h.length := fun x hx => hcl.entry_below hn hx
      have hes1 : ∀ x ∈ entries, x.below (h.length + 1) :=
        fun x hx => HEntry_below_mono (hes x hx) (Nat.le_succ _)
      dsimp only at hr
      split at hr
      · split at hr
        · split at hr
          · cases hr
          · rename_i h3 hset
            injection hr with hr; injection hr with e1 e2; injection e2 with e2 _
            subst e1 e2
            have hA := Store.Closed_alloc hcl (o := .node
              (bmap ||| 1 <<< (key >>> shift &&& hamtMask))
              (entries.take (Bitindex bmap (1 <<< (key >>> shift &&& hamtMask))) ++
                .nil :: entries.drop (Bitindex bmap (1 <<< (key >>> shift &&& hamtMask)))))
              (Store.below_take_drop hes1 _ _ trivial)
            refine ⟨Store.Closed_setEntry hA hset trivial, ?_⟩
            rw [Store.setEntry_length hset, Store.alloc_snd, Store.alloc_length]
            exact Nat.lt_succ_self _
        · cases hr
      · have hA : (h.alloc (.node bmap entries)).1.Closed := Store.Closed_alloc hcl hes1
        have hAl := Store.alloc_length h (.node bmap entries)
        have hAs := Store.alloc_snd h (.node bmap entries)
        split at hr
        · cases hr
        · split at hr
          · cases hr
          · rename_i h3 e2 r hrec
            obtain ⟨c1, c2⟩ := ih _ _ _ _ _ _ _ _ _ hA hrec
            have hfr := Store.Insert_frame _ _ _ _ _ _ _ _ _ _ hrec 0 (Nat.zero_le _)
            split at hr
            · cases hr
            · rename_i h4 hset
              injection hr with hr; injection hr with e1 e2; injection e2 with e2 _
              subst e1 e2
              refine ⟨Store.Closed_setEntry c1 hset c2, ?_⟩
              rw [Store.setEntry_length hset, hAs]
              have := hfr.1
              omega
        · split at hr
          · cases hr
          · rename_i h3 c2 r hw
            obtain ⟨c1, c3⟩ := Store.withValue_closed hA hw
            have hfr := (Store.withValue_frame hw (N := 0) (Nat.zero_le _)).1
            split at hr
            · cases hr
            · rename_i h4 hset
              injection hr with hr; injection hr with e1 e2; injection e2 with e2 _
              subst e1 e2
              refine ⟨Store.Closed_setEntry c1 hset c3, ?_⟩
              rw [Store.setEntry_length hset, hAs]
              have := hfr.1
              omega
        · split at hr
          · split at hr
            · cases hr
            · rename_i h3 hset
              injection hr with hr; injection hr with e1 e2; injection e2 with e2 _
              subst e1 e2
              refine ⟨Store.Closed_setEntry hA hset trivial, ?_⟩
              rw [Store.setEntry_length hset, hAs, hAl]; exact Nat.lt_succ_self _
          · split at hr
            · cases hr
            · rename_i h3 x hmb
              obtain ⟨c1, c2⟩ := Store.makeHamtBranchLoop_closed _ _ _ _ _ _ _ _ _ _ hA
                (fun _ hh => by cases hh) hmb
              have hfr := Store.makeHamtBranchLoop_frame _ _ _ _ 0 _ _ _ _ _ _
                (Nat.zero_le _) (fun _ _ => Nat.zero_le _) hmb
              split at hr
              · cases hr
              · rename_i h4 hset
                injection hr with hr; injection hr with e1 e2; injection e2 with e2 _
                subst e1 e2
                refine ⟨Store.Closed_setEntry c1 hset c2, ?_⟩
                rw [Store.setEntry_length hset, hAs]
                have := hfr.1
                omega
        · injection hr with hr; injection hr with e1 e2; injection e2 with e2 _
          subst e1 e2
          exact ⟨hA, by rw [hAs, hAl]; exact Nat.lt_succ_self _⟩

end StoreClosedOps

section StoreClosedOps2
variable {α : Type} [Value α]

/-- `remove` keeps the store closed and returns an allocated address. -/
theorem Store.remove_closed : ∀ (fuel : Nat) (h : Store α) (m shift key : Nat) (v : α)
    (hc : Bool) (h2 : Store α) (m2 : Nat) (hc2 : Bool), h.Closed →
    h.remove fuel m shift key v hc = some (h2, m2, hc2) →
    h2.Closed ∧ m2 < h2.length := by
  intro fuel
  induction fuel with
  | zero => intro h m shift key v hc h2 m2 hc2 _ hr; simp [Store.remove] at hr
  | succ fuel ih =>
    intro h m shift key v hc h2 m2 hc2 hcl hr
    rw [Store.remove] at hr
    split at hr
    · cases hr
    · rename_i bmap entries hn
      have hm : m < h.length := Store.node_lt hn
      have hes : ∀ x ∈ entries, x.below h.length := fun x hx => hcl.entry_below hn hx
      dsimp only at hr
      split at hr
      · split at hr
        · cases hr
        · rename_i e hget
          split at hr
          · cases hr
          · rename_i h1 m3 hc3 hrec
            obtain ⟨c1, c2⟩ := ih _ _ _ _ _ _ _ _ _ hcl hrec
            have hfr := Store.remove_frame _ _ _ _ _ _ _ _ _ _ hrec 0 (Nat.zero_le _)
            have hes1 : ∀ x ∈ entries, x.below (h1.length + 1) :=
              fun x hx => HEntry_below_mono (hes x hx) (by have := hfr.1; omega)
            have hA : (h1.alloc (.node bmap entries)).1.Closed := Store.Closed_alloc c1 hes1
            have hAl := Store.alloc_length h1 (.node bmap entries)
            have hAs := Store.alloc_snd h1 (.node bmap entries)
            have hm3 : (HEntry.hamt m3 : HEntry α).below (h1.alloc (.node bmap entries)).1.length := by
              rw [hAl]; exact Nat.lt_succ_of_lt c2
            split at hr
            · split at hr
              · cases hr
              · rename_i b3 entries3 hn3
                have hes3 : ∀ x ∈ entries3, x.below (h1.alloc (.node bmap entries)).1.length :=
                  fun x hx => hA.entry_below hn3 hx
                split at hr
                · split at hr
                  · split at hr
                    · cases hr
                    · rename_i h3 hset
                      injection hr with hr; injection hr with e1 e2; injection e2 with e2 _
                      subst e1 e2
                      refine ⟨Store.Closed_setEntry hA hset hm3, ?_⟩
                      rw [Store.setEntry_length hset, hAs, hAl]; exact Nat.lt_succ_self _
                  · split at hr
                    · cases hr
                    · rename_i h3 hset
                      injection hr with hr; injection hr with e1 e2; injection e2 with e2 _
                      subst e1 e2
                      refine ⟨Store.Closed_setEntry hA hset
                        (hes3 _ (List.mem_cons_self _ _)), ?_⟩
                      rw [Store.setEntry_length hset, hAs, hAl]; exact Nat.lt_succ_self _
                  · split at hr
                    · cases hr
                    · rename_i h3 hset
                      injection hr with hr; injection hr with e1 e2; injection e2 with e2 _
                      subst e1 e2
                      refine ⟨Store.Closed_setEntry hA hset hm3, ?_⟩
                      rw [Store.setEntry_length hset, hAs, hAl]; exact Nat.lt_succ_self _
                · split at hr
                  · cases hr
                  · rename_i h3 hset
                    injection hr with hr; injection hr with e1 e2; injection e2 with e2 _
                    subst e1 e2
                    refine ⟨Store.Closed_setEntry hA hset hm3, ?_⟩
                    rw [Store.setEntry_length hset, hAs, hAl]; exact Nat.lt_succ_self _
            · injection hr with hr; injection hr with e1 e2; injection e2 with e2 _
              subst e1 e2
              exact ⟨c1, Nat.lt_of_lt_of_le hm hfr.1⟩
        · rename_i e hget
          have he : e < h.length := hes _ (List.getElem?_mem hget)
          split at hr
          · cases hr
          · rename_i h1 c2 hw
            obtain ⟨c1, c3⟩ := Store.withoutValue_closed hcl he hw
            have hfr := Store.withoutValue_frame hw (N := 0) (Nat.zero_le _)
            have hes1 : ∀ x ∈ entries, x.below (h1.length + 1) :=
              fun x hx => HEntry_below_mono (hes x hx) (by have := hfr.1; omega)
            have hA : (h1.alloc (.node bmap entries)).1.Closed := Store.Closed_alloc c1 hes1
            have hAl := Store.alloc_length h1 (.node bmap entries)
            have hAs := Store.alloc_snd h1 (.node bmap entries)
            split at hr
            · cases hr
            · split at hr
              · cases hr
              · rename_i h3 hset
                injection hr with hr; injection hr with e1 e2; injection e2 with e2 _
                subst e1 e2
                refine ⟨Store.Closed_setEntry hA hset trivial, ?_⟩
                rw [Store.setEntry_length hset, hAs, hAl]; exact Nat.lt_succ_self _
            · split at hr
              · cases hr
              · rename_i h3 hset
                injection hr with hr; injection hr with e1 e2; injection e2 with e2 _
                subst e1 e2
                refine ⟨Store.Closed_setEntry hA hset
                  (by rw [hAl]; exact Nat.lt_succ_of_lt c3), ?_⟩
                rw [Store.setEntry_length hset, hAs, hAl]; exact Nat.lt_succ_self _
          · rename_i h1 c2 hw
            obtain ⟨c1, _⟩ := Store.withoutValue_closed hcl he hw
            have hfr := Store.withoutValue_frame hw (N := 0) (Nat.zero_le _)
            injection hr with hr; injection hr with e1 e2; injection e2 with e2 _
            subst e1 e2
            exact ⟨c1, Nat.lt_of_lt_of_le hm hfr.1⟩
        · split at hr
          · split at hr
            · injection hr with hr; injection hr with e1 e2; injection e2 with e2 _
              subst e1 e2
              exact ⟨hcl, by rw [Store.emptyAddr]; omega⟩
            · injection hr with hr; injection hr with e1 e2; injection e2 with e2 _
              subst e1 e2
              refine ⟨Store.Closed_alloc hcl (o := .node _ _) (Store.below_take_drop_succ
                (fun x hx => HEntry_below_mono (hes x hx) (Nat.le_succ _)) _), ?_⟩
              rw [Store.alloc_snd, Store.alloc_length]; exact Nat.lt_succ_self _
          · injection hr with hr; injection hr with e1 e2; injection e2 with e2 _
            subst e1 e2
            exact ⟨hcl, hm⟩
        · injection hr with hr; injection hr with e1 e2; injection e2 with e2 _
          subst e1 e2
          exact ⟨hcl, hm⟩
      · injection hr with hr; injection hr with e1 e2; injection e2 with e2 _
        subst e1 e2
        exact ⟨hcl, hm⟩

end StoreClosedOps2

/-! ## Claim C8: persistence -/

section InitStore
variable {α : Type}

theorem Store.init_closed : (Store.init : Store α).Closed := by
  intro a o ho
  cases a with
  | zero =>
    simp only [Store.init, List.getElem?_cons_zero, Option.some.injEq] at ho
    subst ho
    intro x hx
    cases hx
  | succ k => simp [Store.init] at ho

end InitStore

section Persistence
variable {α : Type} [Value α]

/-- Every reachable store is closed. -/
theorem Store.Reachable.closed {h : Store α} (hr : Store.Reachable h) : h.Closed := by
  induction hr with
  | init => exact Store.init_closed
  | insert fuel m shift key v n m2 n2 _ hop ih =>
    exact (Store.Insert_closed _ _ _ _ _ _ _ _ _ _ ih hop).1
  | remove fuel m shift key v hc m2 hc2 _ hop ih =>
    exact (Store.remove_closed _ _ _ _ _ _ _ _ _ _ ih hop).1

/-- A store that extends a closed store, keeping its objects, preserves it. -/
theorem Store.Preserved_of_frame {h h2 : Store α} (hcl : h.Closed)
    (hf : Store.Frame h.length h h2) : Store.Preserved h h2 :=
  ⟨hf.2, fun fuel r key p hr => Store.lookupLoop_stable hcl hf fuel r 0 key p hr,
    fun _ f fuel r s hr => Store.Range_stable hcl hf f fuel r s hr⟩

/-- C8 (persistence).  In every store `h` reachable from the initial store by
`Insert` and `remove`, for every root `t`: an `Insert` or a `Remove` on `t`
that returns leaves every object allocated before the call unchanged (it
writes to objects it allocated itself only), so that every `Lookup` and every
`Range` on `t`, and on any other address allocated before the call, yields
in the new store exactly the result it yielded before. -/
theorem C8_persistence (h : Store α) (hr : Store.Reachable h) (t : Nat) :
    (∀ (fuel shift key : Nat) (v : α) (n : Int) (h2 : Store α) (t2 : Nat) (n2 : Int),
      h.Insert fuel t shift key v n = some (h2, t2, n2) → Store.Preserved h h2) ∧
    (∀ (fuel key : Nat) (v : α) (h2 : Store α) (t2 : Nat),
      h.Remove fuel t key v = some (h2, t2) → Store.Preserved h h2) := by
  refine ⟨fun fuel shift key v n h2 t2 n2 hop => ?_, fun fuel key v h2 t2 hop => ?_⟩
  · exact Store.Preserved_of_frame hr.closed
      (Store.Insert_frame _ _ _ _ _ _ _ _ _ _ hop _ (Nat.le_refl _))
  · exact Store.Preserved_of_frame hr.closed (Store.Remove_frame hop)

end Persistence

section PersistenceWitness

theorem sample_store_insert :
    (Store.init : Store (StrKeyValue Nat)).Insert 1 Store.emptyAddr 0 (Hash sampleA) sampleA 1 =
      some ([.node 0 [], .node (1 <<< 7) [.value sampleA]], 1, 1) := by
  rfl

/-- Witness of C8: inserting `sampleA` at the root of the initial store
returns the new root 1 in a store that preserves the initial one. -/
theorem C8_witness :
    Store.Reachable (Store.init : Store (StrKeyValue Nat)) ∧
    (Store.init : Store (StrKeyValue Nat)).Insert 1 Store.emptyAddr 0 (Hash sampleA) sampleA 1 =
      some ([.node 0 [], .node (1 <<< 7) [.value sampleA]], 1, 1) ∧
    Store.Preserved (Store.init : Store (StrKeyValue Nat))
      [.node 0 [], .node (1 <<< 7) [.value sampleA]] :=
  ⟨Store.Reachable.init, sample_store_insert,
    (C8_persistence Store.init Store.Reachable.init Store.emptyAddr).1 1 0 (Hash sampleA)
      sampleA 1 _ 1 1 sample_store_insert⟩

end PersistenceWitness

section StrHashLaws

theorem strHashLoop_append (prime : Nat) (s t : List UInt8) (hash : Nat) :
    strHashLoop prime (s ++ t) hash = strHashLoop prime t (strHashLoop prime s hash) := by
  induction s generalizing hash with
  | nil => rfl
  | cons b rest ih =>
    simp only [List.cons_append, strHashLoop]
    exact ih _

theorem strHashLoop_lt (prime : Nat) (s : List UInt8) (hash : Nat) (h : hash < 2 ^ 64) :
    strHashLoop prime s hash < 2 ^ 64 := by
  induction s generalizing hash with
  | nil => exact h
  | cons b rest ih => exact ih _ (Nat.mod_lt _ (by decide))

/-- Published FNV-1a test vector: the 64-bit hash of "a". -/
theorem StrHash_a : StrHash (bytes "a") = 0xaf63dc4c8601ec8c := by decide
/-- Published FNV-1a test vector: the 64-bit hash of "foobar". -/
theorem StrHash_foobar : StrHash (bytes "foobar") = 0x85944171f73967e8 := by decide

/-- C19 (StrHash is FNV-1a).  On the 64-bit platform `StrHash` of the empty
string is the FNV offset basis `0xCBF29CE484222325`; appending one byte `b`
to `s` gives `((StrHash(s) xor b) * 0x100000001B3) mod 2^64`; the result is a
64-bit word; and these two equations determine it: any function of byte
strings that satisfies them is `StrHash`. -/
theorem C19_strhash_is_fnv1a :
    StrHash [] = 0xCBF29CE484222325 ∧
    (∀ (s : List UInt8) (b : UInt8),
      StrHash (s ++ [b]) = ((StrHash s ^^^ b.toNat) * 0x100000001B3) % 2 ^ 64) ∧
    (∀ s : List UInt8, StrHash s < 2 ^ 64) ∧
    (∀ f : List UInt8 → Nat, f [] = 0xCBF29CE484222325 →
      (∀ (s : List UInt8) (b : UInt8),
        f (s ++ [b]) = ((f s ^^^ b.toNat) * 0x100000001B3) % 2 ^ 64) →
      ∀ s, f s = StrHash s) := by
  have hsnoc : ∀ (s : List UInt8) (b : UInt8),
      StrHash (s ++ [b]) = ((StrHash s ^^^ b.toNat) * 0x100000001B3) % 2 ^ 64 := by
    intro s b
    simp only [StrHash, strHashLoop_append, strHashLoop]
    rw [Nat.xor_comm]
  refine ⟨rfl, hsnoc, fun s => strHashLoop_lt _ s _ (by decide), ?_⟩
  intro f h0 hstep s
  induction s using List.reverseRecOn with
  | nil => rw [h0]; rfl
  | append_singleton s b ih => rw [hstep, hsnoc, ih]

end StrHashLaws

/-! ## The wrappers: Array -/

section ArrayLaws
variable {β : Type}

theorem toUint_inj {i j : Int} (hi : isInt i) (hj : isInt j) (h : toUint i = toUint j) :
    i = j := by
  simp only [isInt] at hi hj
  simp only [toUint] at h
  have h1 : (0 : Int) ≤ i % 2 ^ 64 := Int.emod_nonneg _ (by norm_num)
  have h2 : (0 : Int) ≤ j % 2 ^ 64 := Int.emod_nonneg _ (by norm_num)
  have h3 : i % 2 ^ 64 = j % 2 ^ 64 := by
    have := congrArg (fun n : Nat => (n : Int)) h
    simp only [Int.toNat_of_nonneg h1, Int.toNat_of_nonneg h2] at this
    exact this
  omega

theorem Array.arrSet_h (a : Array β) (i : Int) (v : Option β) :
    (a.Set i v).h = (Insert a.h 0 (Hash (⟨toUint i, v⟩ : arrayValue β)) ⟨toUint i, v⟩ (a.l + 1)).1 :=
  rfl

theorem Array.arrSet_l (a : Array β) (i : Int) (v : Option β) :
    (a.Set i v).l = (Insert a.h 0 (Hash (⟨toUint i, v⟩ : arrayValue β)) ⟨toUint i, v⟩ (a.l + 1)).2 :=
  rfl

theorem Array.arrDel_none {a : Array β} {i : Int}
    (h : (remove a.h 0 (Hash (⟨toUint i, none⟩ : arrayValue β)) ⟨toUint i, none⟩ false).1 = none) :
    a.Del i = a := by
  have h1 : (remove a.h 0 (toUint i) (⟨toUint i, none⟩ : arrayValue β) false).1 = none := h
  simp only [Array.Del, h1]

theorem Array.arrDel_some {a : Array β} {i : Int} {h2 : HAMT (arrayValue β)}
    (h : (remove a.h 0 (Hash (⟨toUint i, none⟩ : arrayValue β)) ⟨toUint i, none⟩ false).1 =
      some h2) :
    a.Del i = ⟨a.l - 1, h2⟩ := by
  have h1 : (remove a.h 0 (toUint i) (⟨toUint i, none⟩ : arrayValue β) false).1 = some h2 := h
  simp only [Array.Del, h1]

theorem Array.arrGet_eq (a : Array β) (j : Int) :
    a.Get j = (Lookup a.h (Hash (⟨toUint j, none⟩ : arrayValue β)) ⟨toUint j, none⟩).bind
      (fun e => e.value) := by
  show (match Lookup a.h (Hash (⟨toUint j, none⟩ : arrayValue β)) ⟨toUint j, none⟩ with
    | some e => e.value
    | none => none) = _
  cases Lookup a.h (Hash (⟨toUint j, none⟩ : arrayValue β)) ⟨toUint j, none⟩ <;> rfl

/-- A reachable array wraps a reachable trie and its counter is the number of
stored entries. -/
theorem Array.Reachable.arrSpec {a : Array β} (h : Array.Reachable a) :
    Immutable.Reachable a.h ∧ a.l = a.h.elements.length := by
  induction h with
  | empty => exact ⟨Immutable.Reachable.empty, by simp [EmptyArray, elements_EmptyHAMT]⟩
  | set a i v _ ih =>
    refine ⟨Immutable.Reachable.insert a.h ⟨toUint i, v⟩ (a.l + 1) ih.1, ?_⟩
    have := Insert_length_aux a.h 0 (Hash (⟨toUint i, v⟩ : arrayValue β)) ⟨toUint i, v⟩
      (a.l + 1) ih.1.inv
    rw [Array.arrSet_l, Array.arrSet_h]
    have h2 := ih.2
    omega
  | del a i _ ih =>
    rcases hr : Immutable.remove a.h 0 (Hash (⟨toUint i, none⟩ : arrayValue β))
      ⟨toUint i, none⟩ false with ⟨o, hc⟩
    have hr1 : (Immutable.remove a.h 0 (Hash (⟨toUint i, none⟩ : arrayValue β))
      ⟨toUint i, none⟩ false).1 = o := by rw [hr]
    cases o with
    | none => rw [Array.arrDel_none hr1]; exact ih
    | some m2 =>
      rw [Array.arrDel_some hr1]
      have h1 := remove_inv_aux a.h 0 _ _ false m2 hc ih.1.inv hr
      have h2 := Immutable.Reachable.remove a.h ⟨toUint i, none⟩ ih.1
      rw [Remove_some hr1] at h2
      refine ⟨h2, ?_⟩
      have h3 := ih.2
      have h4 := h1.2.2
      simp only
      omega

/-- C14 (Array Set/Get law).  For every array `a` reachable from `EmptyArray`
by `Set` and `Del`, all `int` indices `i`, `j` and every value `v` (nil
included): `a.Set(i, v).Get(j)` is `v` when `j == i` and is `a.Get(j)` when
`j != i`; and `Get` of an index at which `a` holds no entry is nil. -/
theorem C14_array_set_get (a : Array β) (ha : Array.Reachable a) (i j : Int)
    (hi : isInt i) (hj : isInt j) (v : Option β) :
    (j = i → (a.Set i v).Get j = v) ∧
    (j ≠ i → (a.Set i v).Get j = a.Get j) ∧
    ((∀ x ∈ a.h.elements, x.index ≠ toUint j) → a.Get j = none) := by
  have hinv := ha.arrSpec.1.inv
  refine ⟨fun hji => ?_, fun hji => ?_, fun hno => ?_⟩
  · subst hji
    rw [Array.arrGet_eq, Array.arrSet_h, Lookup,
      Insert_lookup_equal hinv ⟨toUint j, v⟩ ⟨toUint j, none⟩ _ (by simp [Equal])]
    rfl
  · have hne : Equal (⟨toUint i, v⟩ : arrayValue β) ⟨toUint j, none⟩ = false := by
      simp only [Equal, decide_eq_false_iff_not]
      exact fun h => hji (toUint_inj hj hi h.symm)
    rw [Array.arrGet_eq, Array.arrGet_eq, Array.arrSet_h, Lookup, Lookup,
      Insert_lookup_other_aux a.h 0 _ _ _ hinv hne]
  · rw [Array.arrGet_eq]
    rcases hl : Lookup a.h (Hash (⟨toUint j, none⟩ : arrayValue β)) ⟨toUint j, none⟩ with _ | x
    · rfl
    · obtain ⟨hx, he⟩ := lookupLoop_some_aux a.h 0 _ _ x hl
      simp only [Equal, decide_eq_true_eq] at he
      exact absurd he (hno x hx)

/-- Witness of C14: the empty array is reachable, 0 is an `int`, and after
`Set(0, "A")` on the empty array `Get(0)` is `"A"`. -/
theorem C14_witness :
    Array.Reachable (EmptyArray : Array String) ∧ isInt 0 ∧
    ((EmptyArray : Array String).Set 0 (some "A")).Get 0 = some "A" :=
  ⟨Array.Reachable.empty, by simp [isInt],
    (C14_array_set_get EmptyArray Array.Reachable.empty 0 0 (by simp [isInt]) (by simp [isInt])
      (some "A")).1 rfl⟩

end ArrayLaws

/-! ## The wrappers: StrMap -/

section StrMapLaws
variable {β : Type}

theorem strEntry_equal (k k2 : String) (v v2 : Option β) :
    Equal (strEntry k v) (strEntry k2 v2) = decide (k = k2) := by
  by_cases h : k = k2
  · subst h; simp [Equal, strEntry]
  · simp [Equal, strEntry, h]

theorem StrMap.mapSet_m (m : StrMap β) (k : String) (v : Option β) :
    (m.Set k v).m = (Insert m.m 0 (Hash (strEntry k v)) (strEntry k v) (m.l + 1)).1 := rfl

theorem StrMap.mapSet_l (m : StrMap β) (k : String) (v : Option β) :
    (m.Set k v).l = (Insert m.m 0 (Hash (strEntry k v)) (strEntry k v) (m.l + 1)).2 := rfl

theorem StrMap.mapDel_none {m : StrMap β} {k : String}
    (h : (remove m.m 0 (Hash (strEntry k (none : Option β))) (strEntry k none) false).1 = none) :
    m.Del k = m := by
  have h1 : (remove m.m 0 (StrHash (bytes k))
    (⟨StrHash (bytes k), k, none⟩ : StrKeyValue (Option β)) false).1 = none := h
  simp only [StrMap.Del, h1]

theorem StrMap.mapDel_some {m : StrMap β} {k : String} {m2 : HAMT (StrKeyValue (Option β))}
    (h : (remove m.m 0 (Hash (strEntry k (none : Option β))) (strEntry k none) false).1 =
      some m2) :
    m.Del k = if m.l = 1 then EmptyStrMap else ⟨m.l - 1, m2⟩ := by
  have h1 : (remove m.m 0 (StrHash (bytes k))
    (⟨StrHash (bytes k), k, none⟩ : StrKeyValue (Option β)) false).1 = some m2 := h
  simp only [StrMap.Del, h1]

theorem StrMap.GetCheck_eq (m : StrMap β) (k : String) :
    m.GetCheck k =
      match Lookup m.m (Hash (strEntry k (none : Option β))) (strEntry k none) with
      | some v2 => (v2.V, true)
      | none => (none, false) := rfl

theorem StrMap.mapGet_eq (m : StrMap β) (k : String) : m.Get k = (m.GetCheck k).1 := by
  rw [StrMap.GetCheck_eq]
  show (match Lookup m.m (Hash (strEntry k (none : Option β))) (strEntry k none) with
    | some v2 => v2.V
    | none => none) = _
  cases Lookup m.m (Hash (strEntry k (none : Option β))) (strEntry k none) <;> rfl

theorem StrMap.Has_eq (m : StrMap β) (k : String) :
    m.Has k = (Lookup m.m (Hash (strEntry k (none : Option β))) (strEntry k none)).isSome := rfl

theorem StrMap.Has_eq_GetCheck (m : StrMap β) (k : String) : m.Has k = (m.GetCheck k).2 := by
  rw [StrMap.GetCheck_eq, StrMap.Has_eq]
  cases Lookup m.m (Hash (strEntry k (none : Option β))) (strEntry k none) <;> rfl

theorem StrMap.Has_Empty (k : String) : (EmptyStrMap : StrMap β).Has k = false := by
  rw [StrMap.Has_eq]
  have h : (EmptyStrMap : StrMap β).m = EmptyHAMT := rfl
  rw [h, Lookup_EmptyHAMT]; rfl

theorem StrMap.GetCheck_Empty (k : String) :
    (EmptyStrMap : StrMap β).GetCheck k = (none, false) := by
  rw [StrMap.GetCheck_eq]
  have h : (EmptyStrMap : StrMap β).m = EmptyHAMT := rfl
  rw [h, Lookup_EmptyHAMT]

/-- A reachable map wraps a reachable trie, its counter is the number of
stored entries, and every stored entry carries the hash of its key. -/
theorem StrMap.Reachable.mapSpec {m : StrMap β} (h : StrMap.Reachable m) :
    Immutable.Reachable m.m ∧ m.l = m.m.elements.length ∧
      ∀ x ∈ m.m.elements, x.H = StrHash (bytes x.K) := by
  induction h with
  | empty =>
    exact ⟨Immutable.Reachable.empty, by simp [EmptyStrMap, elements_EmptyHAMT],
      by simp [EmptyStrMap, elements_EmptyHAMT]⟩
  | set m k v _ ih =>
    refine ⟨Immutable.Reachable.insert m.m (strEntry k v) (m.l + 1) ih.1, ?_, ?_⟩
    · have := Insert_length_aux m.m 0 (Hash (strEntry k v)) (strEntry k v) (m.l + 1) ih.1.inv
      rw [StrMap.mapSet_l, StrMap.mapSet_m]
      have h2 := ih.2.1
      omega
    · intro x hx
      rw [StrMap.mapSet_m] at hx
      rcases Insert_mem ih.1.inv (strEntry k v) (m.l + 1) hx with h1 | h1
      · subst h1; rfl
      · exact ih.2.2 x h1
  | del m k _ ih =>
    rcases hr : Immutable.remove m.m 0 (Hash (strEntry k (none : Option β)))
      (strEntry k none) false with ⟨o, hc⟩
    have hr1 : (Immutable.remove m.m 0 (Hash (strEntry k (none : Option β)))
      (strEntry k none) false).1 = o := by rw [hr]
    cases o with
    | none => rw [StrMap.mapDel_none hr1]; exact ih
    | some m2 =>
      rw [StrMap.mapDel_some hr1]
      by_cases hl : m.l = 1
      · rw [if_pos hl]
        exact ⟨Immutable.Reachable.empty, by simp [EmptyStrMap, elements_EmptyHAMT],
          by simp [EmptyStrMap, elements_EmptyHAMT]⟩
      · rw [if_neg hl]
        have h1 := remove_inv_aux m.m 0 _ _ false m2 hc ih.1.inv hr
        have h2 := Immutable.Reachable.remove m.m (strEntry k none) ih.1
        rw [Remove_some hr1] at h2
        refine ⟨h2, ?_, fun x hx => ih.2.2 x (h1.2.1 x hx)⟩
        have h3 := ih.2.1
        have h4 := h1.2.2
        simp only
        omega

/-- The entry `Set` stored is what the read operations find under its key. -/
theorem StrMap.GetCheck_Set_self {m : StrMap β} (hm : StrMap.Reachable m) (k : String)
    (v : Option β) : (m.Set k v).GetCheck k = (v, true) := by
  rw [StrMap.GetCheck_eq, StrMap.mapSet_m, Lookup,
    Insert_lookup_equal hm.mapSpec.1.inv (strEntry k v) (strEntry k none) _
      (by rw [strEntry_equal]; simp)]
  rfl

/-- `Set` leaves the entries of the other keys as they are. -/
theorem StrMap.GetCheck_Set_other {m : StrMap β} (hm : StrMap.Reachable m) {k k2 : String}
    (hk : k2 ≠ k) (v : Option β) : (m.Set k v).GetCheck k2 = m.GetCheck k2 := by
  have hne : Equal (strEntry k v) (strEntry k2 (none : Option β)) = false := by
    rw [strEntry_equal]; simpa using fun h => hk h.symm
  rw [StrMap.GetCheck_eq, StrMap.GetCheck_eq, StrMap.mapSet_m, Lookup, Lookup,
    Insert_lookup_other_aux m.m 0 _ _ _ hm.mapSpec.1.inv hne]

/-- The counter after `Set`. -/
theorem StrMap.Len_Set {m : StrMap β} (hm : StrMap.Reachable m) (k : String) (v : Option β) :
    (m.Set k v).Len = if m.Has k = true then m.Len else m.Len + 1 := by
  have h := Insert_counter_aux m.m 0 (strEntry k v) (m.l + 1) hm.mapSpec.1.inv
  have hc : lookupLoop m.m 0 (Hash (strEntry k v)) (strEntry k v) =
      lookupLoop m.m 0 (Hash (strEntry k (none : Option β))) (strEntry k none) :=
    lookupLoop_congr_aux m.m 0 _ _ _ (by rw [strEntry_equal]; simp)
  rw [hc] at h
  show (Insert m.m 0 (Hash (strEntry k v)) (strEntry k v) (m.l + 1)).2 = _
  rw [h, StrMap.Has_eq, Lookup]
  simp only [StrMap.Len]
  split <;> simp

/-- C16 (StrMap Set/Get law).  For every map `m` reachable from `EmptyStrMap`
by `Set` and `Del`, all keys `k`, `k2` and all values `v`, `w` (nil
included): `m.Set(k, v).Get(k2)` is `v` when `k2 == k`, and the latest value
wins, `m.Set(k, w).Set(k, v).Get(k)` is `v`; it is `m.Get(k2)` when `k2 != k`,
whether or not the two keys have the same `StrHash`; and `m.Set(k, v).Len()`
is `m.Len()` when `m.Has(k)` and `m.Len() + 1` otherwise. -/
theorem C16_strmap_set_get (m : StrMap β) (hm : StrMap.Reachable m) (k k2 : String)
    (v w : Option β) :
    (k2 = k → (m.Set k v).Get k2 = v) ∧
    ((m.Set k w).Set k v).Get k = v ∧
    (k2 ≠ k → (m.Set k v).Get k2 = m.Get k2) ∧
    (k2 ≠ k → StrHash (bytes k2) = StrHash (bytes k) → (m.Set k v).Get k2 = m.Get k2) ∧
    (m.Set k v).Len = (if m.Has k = true then m.Len else m.Len + 1) := by
  have hother : k2 ≠ k → (m.Set k v).Get k2 = m.Get k2 := fun hk => by
    rw [StrMap.mapGet_eq, StrMap.mapGet_eq, StrMap.GetCheck_Set_other hm hk]
  refine ⟨fun hk => ?_, ?_, hother, fun hk _ => hother hk, StrMap.Len_Set hm k v⟩
  · subst hk
    rw [StrMap.mapGet_eq, StrMap.GetCheck_Set_self hm]
  · rw [StrMap.mapGet_eq, StrMap.GetCheck_Set_self (StrMap.Reachable.set m k w hm)]

/-- Witness of C16: the empty map is reachable; setting "Hello" twice leaves
the later value. -/
theorem C16_witness :
    StrMap.Reachable (EmptyStrMap : StrMap Nat) ∧
    (((EmptyStrMap : StrMap Nat).Set "Hello" (some 123)).Set "Hello" (some 456)).Get "Hello" =
      some 456 :=
  ⟨StrMap.Reachable.empty,
    (C16_strmap_set_get EmptyStrMap StrMap.Reachable.empty "Hello" "Hello" (some 456)
      (some 123)).2.1⟩

end StrMapLaws

/-! ## Lookup finds the stored element itself -/

section LookupUnique
variable {α : Type} [Value α] [Contract α]

theorem find?_eq_of_pairwise {c : List α} (hp : c.Pairwise (fun a b => Equal a b = false))
    {x p : α} (hx : x ∈ c) (hxp : Equal x p = true) :
    c.find? (fun w => Equal w p) = some x := by
  induction c with
  | nil => cases hx
  | cons y c ih =>
    rw [List.pairwise_cons] at hp
    rw [List.find?_cons]
    rcases List.mem_cons.mp hx with h | h
    · subst h; rw [hxp]
    · have hyx : Equal y x = false := hp.1 x h
      have hyp : Equal y p = false := by
        by_contra hne
        have hyp : Equal y p = true := by simpa using hne
        have := Contract.equal_trans y p x hyp (Contract.equal_symm x p hxp)
        rw [hyx] at this; cases this
      rw [hyp]
      exact ih hp.2 h

/-- A stored element equal to the probe is the element `Lookup` returns. -/
theorem lookupLoop_eq_of_mem_aux (m : HAMT α) : ∀ (shift : Nat) (p x : α),
    Inv shift m → x ∈ m.elements → Equal x p = true →
    lookupLoop m shift (Hash p) p = some x := by
  induction m using HAMT.induct with
  | step m ih =>
    intro shift p x h hx hxp
    obtain ⟨i, hi, e, hs, hxe⟩ := exists_slot_of_mem_elements h.hlen hx
    have hpath := h.hpath hi hs hxe
    rw [Contract.equal_hash x p hxp] at hpath
    rw [lookupLoop_slot, hpath, hs]
    simp only
    have he := h.entryInv hi hs
    cases e with
    | hamt c =>
      exact ih c (slot_mem hs) _ p x he (by simpa [Entry.elements_hamt] using hxe) hxp
    | collision c =>
      rw [lookupEntry_collision]
      exact find?_eq_of_pairwise he (by simpa [Entry.elements_collision] using hxe) hxp
    | value y =>
      have : x = y := by simpa [Entry.elements_value] using hxe
      subst this
      simp [lookupEntry_value, hxp]

end LookupUnique

section CollectLaws
variable {α : Type}

theorem rangeCollision_collect {γ : Type} (g : α → γ) (l : List α) (st : List γ) :
    rangeCollision l (fun (s : List γ) (v : α) => ((s ++ [g v], true) : List γ × Bool)) st =
      (st ++ l.map g, true) := by
  induction l generalizing st with
  | nil => simp [rangeCollision_nil]
  | cons v l ih =>
    rw [rangeCollision_cons]
    simp only [Bool.true_eq_false, if_false]
    rw [ih]
    simp

/-- `Range` with the recording visitor yields the stored elements in slot
order. -/
theorem Range_collect [Value α] (m : HAMT α) :
    Range m collect [] = (m.elements, true) := by
  rw [Range_eq_visit]
  have := rangeCollision_collect (fun v : α => v) m.elements []
  simpa [collect] using this

end CollectLaws

/-! ## The wrappers: StrMap.Del and StrMap.GetCheck -/

section StrMapDel
variable {β : Type}

theorem StrMap.Range_collectKV (m : StrMap β) :
    m.Range collectKV [] = m.m.elements.map (fun kv => (kv.K, kv.V)) := by
  rw [StrMap.Range, Range_eq_visit]
  have := rangeCollision_collect (fun kv : StrKeyValue (Option β) => (kv.K, kv.V))
    m.m.elements []
  simp only [collectKV]
  rw [this]
  simp

/-- What `Del` does when the key has an entry. -/
theorem StrMap.Del_present {m : StrMap β} (hm : StrMap.Reachable m) {k : String}
    (hk : m.Has k = true) :
    ∃ m2 hc, remove m.m 0 (Hash (strEntry k (none : Option β))) (strEntry k none) false =
        (some m2, hc) ∧
      m.Del k = (if m.l = 1 then EmptyStrMap else ⟨m.l - 1, m2⟩) := by
  have h1 := remove_isSome_aux m.m 0 (Hash (strEntry k (none : Option β))) (strEntry k none)
    false hm.mapSpec.1.inv
  rw [StrMap.Has_eq, Lookup] at hk
  rw [hk] at h1
  rcases hr : remove m.m 0 (Hash (strEntry k (none : Option β))) (strEntry k none) false
    with ⟨o, hc⟩
  rw [hr] at h1
  cases o with
  | none => cases h1
  | some m2 => exact ⟨m2, hc, rfl, StrMap.mapDel_some (by rw [hr])⟩

theorem lookupLoop_none_of_elements_nil {α : Type} [Value α] {m : HAMT α}
    (h : m.elements = []) (shift key : Nat) (p : α) : lookupLoop m shift key p = none := by
  rcases hl : lookupLoop m shift key p with _ | x
  · rfl
  · have := (lookupLoop_some_aux m shift key p x hl).1
    rw [h] at this; cases this

/-- The read operations on the other keys after `Del` of a present key. -/
theorem StrMap.GetCheck_Del_other {m : StrMap β} (hm : StrMap.Reachable m) {k k2 : String}
    (hk : m.Has k = true) (hk2 : k2 ≠ k) : (m.Del k).GetCheck k2 = m.GetCheck k2 := by
  obtain ⟨m2, hc, hr, hd⟩ := StrMap.Del_present hm hk
  have hne : Equal (strEntry k (none : Option β)) (strEntry k2 (none : Option β)) = false := by
    rw [strEntry_equal]; simpa using fun h => hk2 h.symm
  have hlk := remove_lookup_other_aux m.m 0 _ false m2 hc _ hm.mapSpec.1.inv hne hr
  have hinv := remove_inv_aux m.m 0 _ _ false m2 hc hm.mapSpec.1.inv hr
  rw [hd, StrMap.GetCheck_eq, StrMap.GetCheck_eq]
  by_cases hl : m.l = 1
  · rw [if_pos hl]
    have hnil : m2.elements = [] := by
      have h3 := hm.mapSpec.2.1
      have h4 := hinv.2.2
      have : m2.elements.length = 0 := by omega
      exact List.length_eq_zero.mp this
    have he : (EmptyStrMap : StrMap β).m = EmptyHAMT := rfl
    rw [he, Lookup_EmptyHAMT, Lookup, ← hlk, lookupLoop_none_of_elements_nil hnil]
  · rw [if_neg hl]
    simp only [Lookup]
    rw [hlk]

/-- C17 (StrMap Del law).  For every map `m` reachable from `EmptyStrMap` and
every key `k`: if `m.Has(k)` then `m.Del(k)` differs from `m`, has `Has(k)`
false and `Len() == m.Len() - 1`, gives every other key the value (and the
presence) it has in `m`, and is `EmptyStrMap` when `m.Len()` was 1; if not
`m.Has(k)` then `m.Del(k)` is the receiver `m`.  In the example, from empty,
`Set("Hello", 456).Set("Sun", 9)` has size 2 with both keys present, and
`Del("Hello")` of it has size 1, lacks "Hello", and `Range` over it visits
"Sun" with 9 only. -/
theorem C17_strmap_del (m : StrMap β) (hm : StrMap.Reachable m) (k : String) :
    (m.Has k = true →
      m.Del k ≠ m ∧ (m.Del k).Has k = false ∧ (m.Del k).Len = m.Len - 1 ∧
      (∀ k2, k2 ≠ k → (m.Del k).Get k2 = m.Get k2 ∧ (m.Del k).GetCheck k2 = m.GetCheck k2) ∧
      (m.Len = 1 → m.Del k = EmptyStrMap)) ∧
    (m.Has k = false → m.Del k = m) ∧
    (((EmptyStrMap : StrMap Nat).Set "Hello" (some 456)).Set "Sun" (some 9)).Len = 2 ∧
    (((EmptyStrMap : StrMap Nat).Set "Hello" (some 456)).Set "Sun" (some 9)).Get "Hello" =
      some 456 ∧
    (((EmptyStrMap : StrMap Nat).Set "Hello" (some 456)).Set "Sun" (some 9)).Get "Sun" =
      some 9 ∧
    ((((EmptyStrMap : StrMap Nat).Set "Hello" (some 456)).Set "Sun" (some 9)).Del "Hello").Len
      = 1 ∧
    ((((EmptyStrMap : StrMap Nat).Set "Hello" (some 456)).Set "Sun" (some 9)).Del "Hello").Has
      "Hello" = false ∧
    ((((EmptyStrMap : StrMap Nat).Set "Hello" (some 456)).Set "Sun" (some 9)).Del "Hello").Range
      collectKV [] = [("Sun", some 9)] := by
  have general : ∀ {γ : Type} (m : StrMap γ) (hm : StrMap.Reachable m) (k : String),
      m.Has k = true →
      m.Del k ≠ m ∧ (m.Del k).Has k = false ∧ (m.Del k).Len = m.Len - 1 ∧
      (∀ k2, k2 ≠ k → (m.Del k).Get k2 = m.Get k2 ∧ (m.Del k).GetCheck k2 = m.GetCheck k2) ∧
      (m.Len = 1 → m.Del k = EmptyStrMap) := by
    intro γ m hm k hk
    obtain ⟨m2, hc, hr, hd⟩ := StrMap.Del_present hm hk
    have hself := remove_lookup_self_aux m.m 0 _ false m2 hc hm.mapSpec.1.inv hr
    refine ⟨?_, ?_, ?_, fun k2 hk2 => ?_, fun hl => ?_⟩
    · intro he
      have := congrArg StrMap.l he
      rw [hd] at this
      by_cases hl : m.l = 1
      · rw [if_pos hl] at this
        simp only [EmptyStrMap] at this
        omega
      · rw [if_neg hl] at this
        simp only at this
        omega
    · rw [hd]
      by_cases hl : m.l = 1
      · rw [if_pos hl]; exact StrMap.Has_Empty k
      · rw [if_neg hl, StrMap.Has_eq]
        simp only [Lookup]
        rw [hself]; rfl
    · rw [hd]
      by_cases hl : m.l = 1
      · rw [if_pos hl]; simp only [StrMap.Len, EmptyStrMap]; omega
      · rw [if_neg hl]; rfl
    · have := StrMap.GetCheck_Del_other hm hk hk2
      exact ⟨by rw [StrMap.mapGet_eq, StrMap.mapGet_eq, this], this⟩
    · rw [hd]; exact if_pos hl
  have absent : m.Has k = false → m.Del k = m := by
    intro hk
    have h1 := remove_isSome_aux m.m 0 (Hash (strEntry k (none : Option β))) (strEntry k none)
      false hm.mapSpec.1.inv
    rw [StrMap.Has_eq, Lookup] at hk
    rw [hk] at h1
    apply StrMap.mapDel_none
    cases h : (remove m.m 0 (Hash (strEntry k (none : Option β))) (strEntry k none) false).1
    · rfl
    · rw [h] at h1; cases h1
  -- the example
  have r0 : StrMap.Reachable (EmptyStrMap : StrMap Nat) := StrMap.Reachable.empty
  have r1 := StrMap.Reachable.set _ "Hello" (some 456) r0
  have r2 := StrMap.Reachable.set _ "Sun" (some 9) r1
  have hHS : ("Hello" : String) ≠ "Sun" := by decide
  have hSH : ("Sun" : String) ≠ "Hello" := by decide
  have l1 : ((EmptyStrMap : StrMap Nat).Set "Hello" (some 456)).Len = 1 := by
    rw [StrMap.Len_Set r0, StrMap.Has_Empty]; rfl
  have g1 : ((EmptyStrMap : StrMap Nat).Set "Hello" (some 456)).GetCheck "Sun" =
      (none, false) := by
    rw [StrMap.GetCheck_Set_other r0 hSH, StrMap.GetCheck_Empty]
  have l2 : (((EmptyStrMap : StrMap Nat).Set "Hello" (some 456)).Set "Sun" (some 9)).Len = 2 := by
    rw [StrMap.Len_Set r1, StrMap.Has_eq_GetCheck, g1, l1]; rfl
  have gH : (((EmptyStrMap : StrMap Nat).Set "Hello" (some 456)).Set "Sun" (some 9)).GetCheck
      "Hello" = (some 456, true) := by
    rw [StrMap.GetCheck_Set_other r1 hHS, StrMap.GetCheck_Set_self r0]
  have gS := StrMap.GetCheck_Set_self r1 "Sun" (some 9)
  have hasH : (((EmptyStrMap : StrMap Nat).Set "Hello" (some 456)).Set "Sun" (some 9)).Has
      "Hello" = true := by
    rw [StrMap.Has_eq_GetCheck, gH]
  obtain ⟨d1, d2, d3, d4, _⟩ := general _ r2 "Hello" hasH
  have r3 := StrMap.Reachable.del _ "Hello" r2
  have l3 : ((((EmptyStrMap : StrMap Nat).Set "Hello" (some 456)).Set "Sun" (some 9)).Del
      "Hello").Len = 1 := by rw [d3, l2]; rfl
  refine ⟨general m hm k, absent, l2, by rw [StrMap.mapGet_eq, gH], by rw [StrMap.mapGet_eq, gS],
    l3, d2, ?_⟩
  -- the only entry left is the one stored for "Sun"
  have hlen := r3.mapSpec.2.1
  rw [show ((((EmptyStrMap : StrMap Nat).Set "Hello" (some 456)).Set "Sun" (some 9)).Del
    "Hello").l = 1 from l3] at hlen
  have hlook : Lookup (((EmptyStrMap : StrMap Nat).Set "Hello" (some 456)).Set "Sun"
      (some 9)).m (Hash (strEntry "Sun" (none : Option Nat))) (strEntry "Sun" none) =
      some (strEntry "Sun" (some 9)) := by
    rw [StrMap.mapSet_m, Lookup]
    exact Insert_lookup_equal r1.mapSpec.1.inv _ _ _ (by rw [strEntry_equal]; simp)
  obtain ⟨m2, hc, hr, hd⟩ := StrMap.Del_present r2 hasH
  have hne : Equal (strEntry "Hello" (none : Option Nat)) (strEntry "Sun" (none : Option Nat))
      = false := by rw [strEntry_equal]; simp
  have hlk := remove_lookup_other_aux _ 0 _ false m2 hc _ r2.mapSpec.1.inv hne hr
  have hl2 : (((EmptyStrMap : StrMap Nat).Set "Hello" (some 456)).Set "Sun" (some 9)).l ≠ 1 := by
    have := l2; simp only [StrMap.Len] at this; omega
  rw [if_neg hl2] at hd
  rw [StrMap.Range_collectKV]
  rw [hd] at hlen ⊢
  simp only at hlen ⊢
  rw [Lookup, ← hlk] at hlook
  have hmem := (lookupLoop_some_aux m2 0 _ _ _ hlook).1
  have hcard : m2.elements.length = 1 := by omega
  obtain ⟨x, hx⟩ := List.length_eq_one.mp hcard
  rw [hx] at hmem ⊢
  have : strEntry "Sun" (some 9) = x := by simpa using hmem
  subst this
  rfl

/-- Witness of C17: the map holding "Hello" is reachable and has "Hello";
deleting it gives `EmptyStrMap`. -/
theorem C17_witness :
    StrMap.Reachable ((EmptyStrMap : StrMap Nat).Set "Hello" (some 123)) ∧
    ((EmptyStrMap : StrMap Nat).Set "Hello" (some 123)).Has "Hello" = true ∧
    ((EmptyStrMap : StrMap Nat).Set "Hello" (some 123)).Len = 1 ∧
    ((EmptyStrMap : StrMap Nat).Set "Hello" (some 123)).Del "Hello" = EmptyStrMap :=
  have r1 := StrMap.Reachable.set _ "Hello" (some 123)
    (StrMap.Reachable.empty : StrMap.Reachable (EmptyStrMap : StrMap Nat))
  have hh : ((EmptyStrMap : StrMap Nat).Set "Hello" (some 123)).Has "Hello" = true := by
    rw [StrMap.Has_eq_GetCheck, StrMap.GetCheck_Set_self StrMap.Reachable.empty]
  have hl : ((EmptyStrMap : StrMap Nat).Set "Hello" (some 123)).Len = 1 := by
    rw [StrMap.Len_Set StrMap.Reachable.empty, StrMap.Has_Empty]; rfl
  ⟨r1, hh, hl, ((C17_strmap_del _ r1 "Hello").1 hh).2.2.2.2 hl⟩

end StrMapDel

section StrMapGetCheck
variable {β : Type}

/-- C18 (GetCheck reports presence independently of the stored value).  For
every reachable map `m` and key `k`: when `m` holds an entry for `k`,
`GetCheck(k)` is `(v, true)` with `v` the value stored in that entry, nil or
not; when it holds none, `GetCheck(k)` is `(nil, false)`; so the boolean is
true exactly when `k` has an entry; the boolean equals `Has(k)` and the value
equals `Get(k)`; and after `Set(k, nil)`, `GetCheck(k)` is `(nil, true)`. -/
theorem C18_strmap_getcheck (m : StrMap β) (hm : StrMap.Reachable m) (k : String) :
    (∀ x ∈ m.m.elements, x.K = k → m.GetCheck k = (x.V, true)) ∧
    ((∀ x ∈ m.m.elements, x.K ≠ k) → m.GetCheck k = (none, false)) ∧
    ((m.GetCheck k).2 = true ↔ ∃ x ∈ m.m.elements, x.K = k) ∧
    (m.GetCheck k).2 = m.Has k ∧
    (m.GetCheck k).1 = m.Get k ∧
    (m.Set k none).GetCheck k = (none, true) := by
  have hpresent : ∀ x ∈ m.m.elements, x.K = k → m.GetCheck k = (x.V, true) := by
    intro x hx hxk
    have hH := hm.mapSpec.2.2 x hx
    have he : Equal x (strEntry k (none : Option β)) = true := by
      simp [Equal, strEntry, hH, hxk]
    rw [StrMap.GetCheck_eq, Lookup,
      lookupLoop_eq_of_mem_aux m.m 0 _ x hm.mapSpec.1.inv hx he]
  have habsent : (∀ x ∈ m.m.elements, x.K ≠ k) → m.GetCheck k = (none, false) := by
    intro hno
    rw [StrMap.GetCheck_eq]
    rcases hl : Lookup m.m (Hash (strEntry k (none : Option β))) (strEntry k none) with _ | x
    · rfl
    · obtain ⟨hx, he⟩ := lookupLoop_some_aux m.m 0 _ _ x hl
      simp only [Equal, strEntry, Bool.and_eq_true, decide_eq_true_eq] at he
      exact absurd he.2 (hno x hx)
  refine ⟨hpresent, habsent, ?_, (StrMap.Has_eq_GetCheck m k).symm, (StrMap.mapGet_eq m k).symm,
    StrMap.GetCheck_Set_self hm k none⟩
  constructor
  · intro h
    by_contra hne
    have := habsent (fun x hx hxk => hne ⟨x, hx, hxk⟩)
    rw [this] at h; cases h
  · rintro ⟨x, hx, hxk⟩
    rw [hpresent x hx hxk]

/-- Witness of C18: on the reachable empty map, after `Set("k", nil)` the
result of `GetCheck("k")` is `(nil, true)`. -/
theorem C18_witness :
    StrMap.Reachable (EmptyStrMap : StrMap Nat) ∧
    ((EmptyStrMap : StrMap Nat).Set "k" none).GetCheck "k" = (none, true) ∧
    (EmptyStrMap : StrMap Nat).GetCheck "k" = (none, false) :=
  ⟨StrMap.Reachable.empty,
    (C18_strmap_getcheck EmptyStrMap StrMap.Reachable.empty "k").2.2.2.2.2,
    StrMap.GetCheck_Empty "k"⟩

end StrMapGetCheck

/-! ## The evaluation forms are the operations -/

section EvalDepth
variable {α : Type}

theorem depth_le_depthOf {es : List (Entry α)} {e : Entry α} (h : e ∈ es) :
    e.depth ≤ depthOf es := by
  induction es with
  | nil => cases h
  | cons x es ih =>
    rw [depthOf]
    rcases List.mem_cons.mp h with h1 | h1
    · subst h1; exact Nat.le_max_left _ _
    · exact Nat.le_trans (ih h1) (Nat.le_max_right _ _)

theorem HAMT.depth_child_lt {m c : HAMT α} (h : Entry.hamt c ∈ m.entries) :
    c.depth < m.depth := by
  cases m with
  | mk b es =>
    have := depth_le_depthOf (show Entry.hamt c ∈ es from h)
    rw [Entry.depth] at this
    rw [HAMT.depth]
    omega

theorem HAMT.depth_pos (m : HAMT α) : 0 < m.depth := by
  cases m with
  | mk b es => rw [HAMT.depth]; omega

theorem makeHamtBranchN_eq (key1 key2 : Nat) (v1 v2 : α) : ∀ (steps shift : Nat),
    1 ≤ steps → 64 ≤ shift + 6 * (steps - 1) →
    makeHamtBranchN steps shift key1 key2 v1 v2 = makeHamtBranch shift key1 key2 v1 v2 := by
  intro steps
  induction steps with
  | zero => intro shift h; omega
  | succ steps ih =>
    intro shift _ h2
    rw [makeHamtBranchN, makeHamtBranch_eq]
    by_cases hc : chunk key1 shift = chunk key2 shift
    · rw [if_pos hc, if_pos hc]
      by_cases hs : shift ≥ 64
      · rw [if_pos hs, if_pos hs]
      · rw [if_neg hs, if_neg hs, ih]
        · omega
        · simp only [hamtBits, hamtBranches, intSize]; omega
    · rw [if_neg hc, if_neg hc]

/-- `makeHamtBranch` in evaluation form. -/
theorem makeHamtBranch_eval (shift key1 key2 : Nat) (v1 v2 : α) :
    makeHamtBranch shift key1 key2 v1 v2 = makeHamtBranchN 12 shift key1 key2 v1 v2 :=
  (makeHamtBranchN_eq key1 key2 v1 v2 12 shift (by omega) (by omega)).symm

end EvalDepth

section EvalLaws
variable {α : Type} [Value α]

theorem lookupLoopN_eq : ∀ (steps : Nat) (m : HAMT α) (shift key : Nat) (v : α),
    m.depth ≤ steps → lookupLoopN steps m shift key v = lookupLoop m shift key v := by
  intro steps
  induction steps with
  | zero => intro m shift key v h; have := m.depth_pos; omega
  | succ steps ih =>
    intro m shift key v h
    rw [lookupLoopN, lookupLoop_slot]
    rcases hs : m.slot (chunk key shift) with _ | e
    · rfl
    · cases e with
      | hamt c =>
        simp only [lookupEntry_hamt]
        exact ih c _ key v (by have := HAMT.depth_child_lt (slot_mem hs); omega)
      | collision c => simp only [lookupEntry_collision]
      | value y => simp only [lookupEntry_value]

/-- `Lookup` in evaluation form. -/
theorem lookupLoop_eval (m : HAMT α) (shift key : Nat) (v : α) :
    lookupLoop m shift key v = lookupLoopN m.depth m shift key v :=
  (lookupLoopN_eq m.depth m shift key v (Nat.le_refl _)).symm

theorem InsertN_eq : ∀ (steps : Nat) (m : HAMT α) (shift key : Nat) (v : α) (n : Int),
    m.depth ≤ steps → InsertN steps m shift key v n = Insert m shift key v n := by
  intro steps
  induction steps with
  | zero => intro m shift key v n h; have := m.depth_pos; omega
  | succ steps ih =>
    intro m shift key v n h
    rw [InsertN, Insert_eq]
    by_cases hb : m.bmap.testBit (chunk key shift) = false
    · rw [if_pos hb, if_pos hb]
    · rw [if_neg hb, if_neg hb]
      rcases hg : m.entries[rank m.bmap (chunk key shift)]? with _ | e
      · rfl
      · cases e with
        | hamt c =>
          have hd := HAMT.depth_child_lt (List.getElem?_mem hg)
          simp only [insertEntry]
          rw [ih c _ key v n (by omega)]
        | collision c => simp only [insertEntry]
        | value y =>
          simp only [insertEntry, makeHamtBranch_eval]
          split <;> rfl

/-- `Insert` in evaluation form. -/
theorem Insert_eval (m : HAMT α) (shift key : Nat) (v : α) (n : Int) :
    Insert m shift key v n = InsertN m.depth m shift key v n :=
  (InsertN_eq m.depth m shift key v n (Nat.le_refl _)).symm

theorem removeN_eq : ∀ (steps : Nat) (m : HAMT α) (shift key : Nat) (v : α) (hc : Bool),
    m.depth ≤ steps → removeN steps m shift key v hc = remove m shift key v hc := by
  intro steps
  induction steps with
  | zero => intro m shift key v hc h; have := m.depth_pos; omega
  | succ steps ih =>
    intro m shift key v hc h
    rw [removeN, remove_eq]
    by_cases hb : m.bmap.testBit (chunk key shift) = true
    · rw [if_pos hb, if_pos hb]
      rcases hg : m.entries[rank m.bmap (chunk key shift)]? with _ | e
      · rfl
      · cases e with
        | hamt c =>
          have hd := HAMT.depth_child_lt (List.getElem?_mem hg)
          simp only [removeEntry]
          rw [ih c _ key v hc (by omega)]
          rcases remove c (shift + hamtBits) key v hc with ⟨o, hc1⟩
          cases o with
          | none => rfl
          | some m3 =>
            simp only
            by_cases hcond : m3.entries.length = 1 ∧ hc1 = false
            · rw [if_pos hcond, if_pos hcond]
              rcases m3.entries with _ | ⟨x, _ | ⟨y, rest⟩⟩
              · rfl
              · cases x <;> rfl
              · cases x <;> rfl
            · rw [if_neg hcond, if_neg hcond]
        | collision c =>
          simp only [removeEntry]
          rcases withoutValue c v with ⟨c2, f⟩
          cases f with
          | false => rfl
          | true =>
            simp only
            rcases c2 with _ | ⟨x, _ | ⟨y, rest⟩⟩ <;> rfl
        | value y =>
          simp only [removeEntry]
          split <;> rfl
    · rw [if_neg hb, if_neg hb]

/-- `remove` in evaluation form. -/
theorem remove_eval (m : HAMT α) (shift key : Nat) (v : α) (hc : Bool) :
    remove m shift key v hc = removeN m.depth m shift key v hc :=
  (removeN_eq m.depth m shift key v hc (Nat.le_refl _)).symm

end EvalLaws

/-! ## Claim C15: the array example -/

section ArrayExampleLaws

theorem exampleA1_eq : exampleA1 =
    ⟨3, .mk 7 [.value ⟨0, some "A"⟩, .value ⟨1, some "B"⟩, .value ⟨2, some "C"⟩]⟩ := by
  simp only [exampleA1, Array.Set, Insert_eval]
  rfl

theorem exampleA2_eq : exampleA2 =
    ⟨3, .mk 32773 [.value ⟨0, some "A"⟩, .value ⟨2, some "C"⟩, .value ⟨911, some "D"⟩]⟩ := by
  simp only [exampleA2, exampleA1_eq, Array.Set, Array.Del, Insert_eval, remove_eval]
  rfl

theorem exampleStore_eq : exampleStore.map (fun r => (r.2.1, r.2.2)) = some (3, 5) := by
  rfl

/-- C15 (array example).  From `EmptyArray`, `Set(0,"A").Set(1,"B").Set(2,"C")`
gives `a1`, which `Range` traverses as A, B, C and which prints as
`[A, B, C]`; `a1.Del(1).Set(911,"D")` gives `a2`, traversed as A, C, D,
printed as `[A, C, D]`, with `Len` 3.  On the explicit store, after all five
operations the root of `a1` still traverses as A, B, C and the root of `a2`
as A, C, D. -/
theorem C15_array_example :
    (Range exampleA1.h collect []).1.map (fun e => e.value) = [some "A", some "B", some "C"] ∧
    exampleA1.String sprintStr = "[A, B, C]" ∧
    (Range exampleA2.h collect []).1.map (fun e => e.value) = [some "A", some "C", some "D"] ∧
    exampleA2.String sprintStr = "[A, C, D]" ∧
    exampleA2.Len = 3 ∧
    (exampleStore.bind fun r => r.1.Range 2 r.2.1 collect []) =
      some ([⟨0, some "A"⟩, ⟨1, some "B"⟩, ⟨2, some "C"⟩], true) ∧
    (exampleStore.bind fun r => r.1.Range 2 r.2.2 collect []) =
      some ([⟨0, some "A"⟩, ⟨2, some "C"⟩, ⟨911, some "D"⟩], true) := by
  refine ⟨?_, ?_, ?_, ?_, ?_, ?_, ?_⟩
  · rw [exampleA1_eq]; rfl
  · rw [exampleA1_eq]; rfl
  · rw [exampleA2_eq]; rfl
  · rw [exampleA2_eq]; rfl
  · rw [exampleA2_eq]; rfl
  · rfl
  · rfl

end ArrayExampleLaws

/-! ## The node invariant is preserved -/

section NodeInvLaws
variable {α : Type} [Value α]

theorem NodeInv.len_eq {shift : Nat} {m : HAMT α} (h : NodeInv shift m) :
    OnesCount m.bmap = m.entries.length := by
  cases h; assumption

theorem NodeInv.path {shift : Nat} {m : HAMT α} (h : NodeInv shift m) {i : Nat} (hi : i < 64)
    {e : Entry α} (hs : m.slot i = some e) {v : α} (hv : v ∈ e.elements) :
    chunk (Hash v) shift = i := by
  cases h with
  | mk _ _ _ hpath _ => exact hpath i hi e hs v hv

theorem NodeInv.entry {shift : Nat} {m : HAMT α} (h : NodeInv shift m) {i : Nat} (hi : i < 64)
    {e : Entry α} (hs : m.slot i = some e) : EntryNodeInv (shift + hamtBits) e := by
  cases h with
  | mk _ _ _ _ hsub =>
    cases e with
    | value v => trivial
    | collision c => trivial
    | hamt c => exact hsub i hi c hs

theorem NodeInv.ofSlots {shift : Nat} {m : HAMT α}
    (hlen : OnesCount m.bmap = m.entries.length)
    (h : ∀ i < 64, ∀ e, m.slot i = some e →
      (∀ v ∈ e.elements, chunk (Hash v) shift = i) ∧ EntryNodeInv (shift + hamtBits) e) :
    NodeInv shift m :=
  NodeInv.mk shift m hlen (fun i hi e hs => (h i hi e hs).1) (fun i hi _ hs => (h i hi _ hs).2)

/-- The invariant used for the lookup laws contains the node invariant. -/
theorem Inv.toNodeInv (m : HAMT α) : ∀ shift, Inv shift m → NodeInv shift m := by
  induction m using HAMT.induct with
  | step m ih =>
    intro shift h
    apply NodeInv.ofSlots h.hlen
    intro i hi e hs
    refine ⟨fun v hv => h.hpath hi hs hv, ?_⟩
    have he := h.entryInv hi hs
    cases e with
    | value v => trivial
    | collision c => trivial
    | hamt c => exact ih c (slot_mem hs) _ he

theorem NodeInv_EmptyHAMT (shift : Nat) : NodeInv shift (EmptyHAMT : HAMT α) := by
  apply NodeInv.ofSlots
  · simp [EmptyHAMT, HAMT.bmap, HAMT.entries, OnesCount]
  · intro i _ e hs
    rw [slot_EmptyHAMT] at hs; cases hs

theorem NodeInv_single {shift i : Nat} (hi : i < 64) {x : Entry α}
    (hx1 : ∀ v ∈ x.elements, chunk (Hash v) shift = i)
    (hx2 : EntryNodeInv (shift + hamtBits) x) :
    NodeInv shift (HAMT.mk (1 <<< i) [x]) := by
  apply NodeInv.ofSlots
  · rw [HAMT.bmap_mk, HAMT.entries_mk, OnesCount_bit hi]; rfl
  · intro j _ e hs
    rw [slot_single hi] at hs
    split at hs
    · rename_i hj; cases hs; subst hj; exact ⟨hx1, hx2⟩
    · cases hs

theorem NodeInv_pair {shift i1 i2 : Nat} (h1 : i1 < 64) (h2 : i2 < 64) (hne : i1 ≠ i2)
    {v1 v2 : α} (hv1 : chunk (Hash v1) shift = i1) (hv2 : chunk (Hash v2) shift = i2) :
    NodeInv shift (HAMT.mk ((1 <<< i1) ||| (1 <<< i2))
      (if i1 < i2 then [.value v1, .value v2] else [.value v2, .value v1])) := by
  apply NodeInv.ofSlots
  · rw [HAMT.bmap_mk, HAMT.entries_mk, OnesCount_pair h1 h2 hne]
    split <;> rfl
  · intro j _ e hs
    rw [slot_pair h1 h2 hne] at hs
    split at hs
    · rename_i hj; cases hs; subst hj
      exact ⟨by simp [Entry.elements_value, hv2], trivial⟩
    · split at hs
      · rename_i hj; cases hs; subst hj
        exact ⟨by simp [Entry.elements_value, hv1], trivial⟩
      · cases hs

/-- Every node of the branch `makeHamtBranch` builds for two elements, each
under its hash, satisfies the node invariant of its level. -/
theorem makeHamtBranch_nodeInv (shift : Nat) (v1 v2 : α) :
    EntryNodeInv shift (makeHamtBranch shift (Hash v1) (Hash v2) v1 v2) := by
  induction shift using shift_induct with
  | base s hs =>
    rw [makeHamtBranch_eq]
    by_cases hc : chunk (Hash v1) s = chunk (Hash v2) s
    · rw [if_pos hc, if_pos hs]; trivial
    · rw [if_neg hc]
      exact NodeInv_pair (chunk_lt _ _) (chunk_lt _ _) hc rfl rfl
  | step s hs ih =>
    rw [makeHamtBranch_eq]
    by_cases hc : chunk (Hash v1) s = chunk (Hash v2) s
    · rw [if_pos hc, if_neg (by omega)]
      refine NodeInv_single (chunk_lt _ _) ?_ ih
      intro v hv
      rw [makeHamtBranch_mem] at hv
      rcases hv with h | h
      · rw [h]
      · rw [h, hc]
    · rw [if_neg hc]
      exact NodeInv_pair (chunk_lt _ _) (chunk_lt _ _) hc rfl rfl

theorem NodeInv_set {shift : Nat} {m : HAMT α} (h : NodeInv shift m) {i : Nat} (hi : i < 64)
    (hb : m.bmap.testBit i = true) {x : Entry α}
    (hx1 : ∀ v ∈ x.elements, chunk (Hash v) shift = i)
    (hx2 : EntryNodeInv (shift + hamtBits) x) :
    NodeInv shift (.mk m.bmap (m.entries.set (rank m.bmap i) x)) := by
  have hlen := h.len_eq
  apply NodeInv.ofSlots
  · rw [HAMT.bmap_mk, HAMT.entries_mk, List.length_set]; exact hlen
  · intro j hj e hs
    rw [slot_set hlen hi hb, HAMT.eta] at hs
    split at hs
    · rename_i hji; cases hs; subst hji; exact ⟨hx1, hx2⟩
    · exact ⟨fun v hv => h.path hj hs hv, h.entry hj hs⟩

theorem NodeInv_insertAt {shift : Nat} {m : HAMT α} (h : NodeInv shift m) {i : Nat}
    (hi : i < 64) (hb : m.bmap.testBit i = false) {x : Entry α}
    (hx1 : ∀ v ∈ x.elements, chunk (Hash v) shift = i)
    (hx2 : EntryNodeInv (shift + hamtBits) x) :
    NodeInv shift (.mk (m.bmap ||| (1 <<< i))
      (m.entries.take (rank m.bmap i) ++ x :: m.entries.drop (rank m.bmap i))) := by
  have hlen := h.len_eq
  apply NodeInv.ofSlots
  · rw [HAMT.bmap_mk, HAMT.entries_mk, OnesCount_lor hi hb, hlen]
    have := rank_le_length hlen hi
    simp only [List.length_append, List.length_take, List.length_cons, List.length_drop]
    omega
  · intro j hj e hs
    rw [slot_insertAt hlen hi hb, HAMT.eta] at hs
    split at hs
    · rename_i hji; cases hs; subst hji; exact ⟨hx1, hx2⟩
    · exact ⟨fun v hv => h.path hj hs hv, h.entry hj hs⟩

theorem NodeInv_removeAt {shift : Nat} {m : HAMT α} (h : NodeInv shift m) {i : Nat}
    (hi : i < 64) (hb : m.bmap.testBit i = true) :
    NodeInv shift (.mk (andNot m.bmap (1 <<< i))
      (m.entries.take (rank m.bmap i) ++ m.entries.drop (rank m.bmap i + 1))) := by
  have hlen := h.len_eq
  apply NodeInv.ofSlots
  · rw [HAMT.bmap_mk, HAMT.entries_mk]
    have h1 := OnesCount_andNot hi hb
    have h2 := rank_lt_length hlen hi hb
    simp only [List.length_append, List.length_take, List.length_drop]
    omega
  · intro j hj e hs
    rw [slot_removeAt hb hj, HAMT.eta] at hs
    split at hs
    · cases hs
    · exact ⟨fun v hv => h.path hj hs hv, h.entry hj hs⟩

/-- Case analysis of `Insert` on a node with one slot per set bit. -/
theorem Insert_cases_len {m : HAMT α} (hlen : OnesCount m.bmap = m.entries.length)
    (shift key : Nat) (v : α) (n : Int) :
    (m.bmap.testBit (chunk key shift) = false ∧ m.slot (chunk key shift) = none ∧
      Insert m shift key v n =
        (.mk (m.bmap ||| (1 <<< chunk key shift))
          (m.entries.take (rank m.bmap (chunk key shift)) ++
            .value v :: m.entries.drop (rank m.bmap (chunk key shift))), n)) ∨
    (m.bmap.testBit (chunk key shift) = true ∧ ∃ e, m.slot (chunk key shift) = some e ∧
      m.entries[rank m.bmap (chunk key shift)]? = some e ∧
      Insert m shift key v n =
        (.mk m.bmap (m.entries.set (rank m.bmap (chunk key shift))
          (insertEntry e shift key v n).1), (insertEntry e shift key v n).2)) := by
  by_cases hb : m.bmap.testBit (chunk key shift) = true
  · right
    obtain ⟨e, hs, hg⟩ := slot_isSome hlen (chunk_lt key shift) hb
    refine ⟨hb, e, hs, hg, ?_⟩
    rw [Insert_eq, if_neg (by simp [hb]), hg]
  · left
    have hb' : m.bmap.testBit (chunk key shift) = false := by simpa using hb
    refine ⟨hb', slot_eq_none_of_testBit hb', ?_⟩
    rw [Insert_eq, if_pos hb']

/-- Outcome of `remove` at the slot it visits, on a node with one slot per
set bit. -/
theorem remove_cases_len {m : HAMT α} (hlen : OnesCount m.bmap = m.entries.length)
    (shift key : Nat) (v : α) (hc : Bool) :
    (m.slot (chunk key shift) = none ∧ remove m shift key v hc = (none, hc)) ∨
    (∃ e, m.slot (chunk key shift) = some e ∧ m.bmap.testBit (chunk key shift) = true ∧
      m.entries[rank m.bmap (chunk key shift)]? = some e ∧
      ((∃ hc1, removeEntry e shift key v hc = (.same, hc1) ∧
          remove m shift key v hc = (none, hc1)) ∨
       (∃ x hc1, removeEntry e shift key v hc = (.put x, hc1) ∧
          remove m shift key v hc =
            (some (.mk m.bmap (m.entries.set (rank m.bmap (chunk key shift)) x)), hc1)) ∨
       (∃ hc1, removeEntry e shift key v hc = (.delete, hc1) ∧
          remove m shift key v hc =
            (some (if m.entries.length = 1 then EmptyHAMT
              else .mk (andNot m.bmap (1 <<< chunk key shift))
                (m.entries.take (rank m.bmap (chunk key shift)) ++
                  m.entries.drop (rank m.bmap (chunk key shift) + 1))), hc1)))) := by
  by_cases hb : m.bmap.testBit (chunk key shift) = true
  · right
    obtain ⟨e, hs, hg⟩ := slot_isSome hlen (chunk_lt key shift) hb
    refine ⟨e, hs, hb, hg, ?_⟩
    have hrm := remove_eq m shift key v hc
    rw [if_pos hb, hg] at hrm
    rcases hr : removeEntry e shift key v hc with ⟨ch, hc1⟩
    simp only [hr] at hrm
    cases ch with
    | same => left; exact ⟨hc1, rfl, hrm⟩
    | put x => right; left; exact ⟨x, hc1, rfl, hrm⟩
    | delete => right; right; exact ⟨hc1, rfl, hrm⟩
  · left
    have hb' : m.bmap.testBit (chunk key shift) = false := by simpa using hb
    refine ⟨slot_eq_none_of_testBit hb', ?_⟩
    rw [remove_eq, if_neg hb]

theorem insertEntry_nodeInv {e : Entry α} {shift : Nat} {v : α} {n : Int}
    (ih : ∀ c, e = .hamt c →
      (NodeInv (shift + hamtBits) (Insert c (shift + hamtBits) (Hash v) v n).1 ∧
        ∀ w ∈ (Insert c (shift + hamtBits) (Hash v) v n).1.elements, w = v ∨ w ∈ c.elements)) :
    EntryNodeInv (shift + hamtBits) (insertEntry e shift (Hash v) v n).1 ∧
      ∀ w ∈ (insertEntry e shift (Hash v) v n).1.elements, w = v ∨ w ∈ e.elements := by
  cases e with
  | hamt c =>
    simp only [insertEntry, EntryNodeInv, Entry.elements_hamt]
    exact ih c rfl
  | collision c =>
    simp only [insertEntry, EntryNodeInv, Entry.elements_collision]
    exact ⟨trivial, fun w hw => withValue_mem c v n hw⟩
  | value e1 =>
    simp only [insertEntry]
    by_cases hr : Hash e1 = Hash v ∧ Equal e1 v = true
    · rw [if_pos hr]
      exact ⟨trivial, fun w hw => Or.inl (by simpa [Entry.elements_value] using hw)⟩
    · rw [if_neg hr]
      refine ⟨makeHamtBranch_nodeInv _ e1 v, fun w hw => ?_⟩
      rw [makeHamtBranch_mem] at hw
      rcases hw with h | h
      · right; simp [Entry.elements_value, h]
      · left; exact h

theorem Insert_nodeInv_aux (m : HAMT α) : ∀ (shift : Nat) (v : α) (n : Int),
    NodeInv shift m →
    NodeInv shift (Insert m shift (Hash v) v n).1 ∧
      ∀ w ∈ (Insert m shift (Hash v) v n).1.elements, w = v ∨ w ∈ m.elements := by
  induction m using HAMT.induct with
  | step m ih =>
    intro shift v n h
    have hi := chunk_lt (Hash v) shift
    rcases Insert_cases_len h.len_eq shift (Hash v) v n with ⟨hb, _, heq⟩ | ⟨hb, e, hs, hg, heq⟩
    · rw [heq]
      refine ⟨NodeInv_insertAt h hi hb (by simp [Entry.elements_value]) trivial,
        fun w hw => ?_⟩
      rw [HAMT.elements_mk, elementsOf_insertAt, Entry.elements_value] at hw
      rw [HAMT.elements_eq, elementsOf_take_drop m.entries (rank m.bmap (chunk (Hash v) shift))]
      simp only [List.mem_append, List.mem_singleton] at hw ⊢
      tauto
    · rw [heq]
      have hx := @insertEntry_nodeInv α _ e shift v n
        (fun c hc => ih c (hc ▸ slot_mem hs) (shift + hamtBits) v n
          (by have := h.entry hi hs; rw [hc] at this; exact this))
      refine ⟨NodeInv_set h hi hb (fun w hw => ?_) hx.1, fun w hw => ?_⟩
      · rcases hx.2 w hw with h1 | h1
        · rw [h1]
        · exact h.path hi hs h1
      · rw [HAMT.elements_mk, elementsOf_set hg] at hw
        rw [HAMT.elements_eq, elementsOf_split hg]
        simp only [List.mem_append] at hw ⊢
        rcases hw with (h1 | h1) | h1
        · tauto
        · rcases hx.2 w h1 with h2 | h2 <;> tauto
        · tauto

theorem entryNodeInv_of_not_hamt {x : Entry α} (hnh : ∀ c, x ≠ .hamt c) (s : Nat) :
    EntryNodeInv s x := by
  cases x with
  | hamt c => exact absurd rfl (hnh c)
  | collision c => trivial
  | value y => trivial

theorem removeEntry_put_nodeInv {e x : Entry α} {shift key : Nat} {v : α} {hc hc1 : Bool}
    (ih : ∀ c m3 hc2, e = .hamt c → remove c (shift + hamtBits) key v hc = (some m3, hc2) →
      NodeInv (shift + hamtBits) m3 ∧ (∀ w ∈ m3.elements, w ∈ c.elements))
    (h : removeEntry e shift key v hc = (.put x, hc1)) :
    EntryNodeInv (shift + hamtBits) x ∧ (∀ w ∈ x.elements, w ∈ e.elements) := by
  cases e with
  | hamt c =>
    rcases hr : remove c (shift + hamtBits) key v hc with ⟨o, hc2⟩
    cases o with
    | none => rw [removeEntry_hamt_none hr] at h; cases h
    | some m3 =>
      obtain ⟨x1, hx1, hcase⟩ := removeEntry_hamt_some hr
      rw [hx1] at h
      have hxx : x1 = x := by injection h with h1 _; injection h1
      subst hxx
      obtain ⟨i1, i2⟩ := ih c m3 hc2 rfl hr
      rcases hcase with h1 | ⟨h1, h2⟩
      · subst h1
        exact ⟨i1, by simpa [Entry.elements_hamt] using i2⟩
      · rw [Entry.elements_hamt, ← elements_of_sole h1]
        exact ⟨entryNodeInv_of_not_hamt h2 _, i2⟩
  | collision c =>
    by_cases hf : (withoutValue c v).2 = true
    · obtain ⟨x1, hc2, hx1, hcase⟩ := removeEntry_collision_some shift (key) hc hf
      rw [hx1] at h
      have hxx : x1 = x := by injection h with h1 _; injection h1
      subst hxx
      have hsub := withoutValue_sublist c v
      rcases hcase with h1 | ⟨y, h1, h2⟩
      · subst h1
        simp only [EntryNodeInv, Entry.elements_collision]
        exact ⟨trivial, fun w hw => hsub.subset hw⟩
      · subst h2
        simp only [EntryNodeInv, Entry.elements_collision, Entry.elements_value]
        rw [h1] at hsub
        exact ⟨trivial, fun w hw => hsub.subset hw⟩
    · rw [removeEntry_collision_none (by simpa using hf)] at h; cases h
  | value e1 =>
    rw [removeEntry_value] at h
    split at h <;> cases h

theorem remove_nodeInv_aux (m : HAMT α) : ∀ (shift key : Nat) (v : α) (hc : Bool)
    (m2 : HAMT α) (hc1 : Bool), NodeInv shift m → remove m shift key v hc = (some m2, hc1) →
    NodeInv shift m2 ∧ (∀ w ∈ m2.elements, w ∈ m.elements) := by
  induction m using HAMT.induct with
  | step m ih =>
    intro shift key v hc m2 hc1 h hrm
    have hi := chunk_lt key shift
    rcases remove_cases_len h.len_eq shift key v hc with ⟨_, heq⟩ | ⟨e, hs, hb, hg, hcase⟩
    · rw [heq] at hrm; cases hrm
    · have he := h.entry hi hs
      rcases hcase with ⟨hc2, _, heq⟩ | ⟨x, hc2, hx, heq⟩ | ⟨hc2, hx, heq⟩
      · rw [heq] at hrm; cases hrm
      · rw [heq] at hrm
        have hm2 : m2 = .mk m.bmap (m.entries.set (rank m.bmap (chunk key shift)) x) := by
          injection hrm with h1 _; injection h1 with h1; exact h1.symm
        subst hm2
        obtain ⟨x1, x2⟩ := removeEntry_put_nodeInv
          (fun c m3 hc3 hce hr => ih c (hce ▸ slot_mem hs) _ key v hc m3 hc3
            (by rw [hce] at he; exact he) hr) hx
        refine ⟨NodeInv_set h hi hb (fun w hw => h.path hi hs (x2 w hw)) x1, ?_⟩
        intro w hw
        rw [HAMT.elements_mk, elementsOf_set hg] at hw
        rw [HAMT.elements_eq, elementsOf_split hg]
        simp only [List.mem_append] at hw ⊢
        rcases hw with (h1 | h1) | h1
        · tauto
        · have := x2 w h1; tauto
        · tauto
      · rw [heq] at hrm
        have hm2 : m2 = (if m.entries.length = 1 then EmptyHAMT
              else .mk (andNot m.bmap (1 <<< chunk key shift))
                (m.entries.take (rank m.bmap (chunk key shift)) ++
                  m.entries.drop (rank m.bmap (chunk key shift) + 1))) := by
          injection hrm with h1 _; injection h1 with h1; exact h1.symm
        have hel : m2.elements = elementsOf (m.entries.take (rank m.bmap (chunk key shift)))
            ++ elementsOf (m.entries.drop (rank m.bmap (chunk key shift) + 1)) := by
          rw [hm2]
          by_cases hl : m.entries.length = 1
          · rw [if_pos hl, elements_EmptyHAMT]
            have hr := rank_lt_length h.len_eq hi hb
            have hr0 : rank m.bmap (chunk key shift) = 0 := by omega
            rw [hr0, List.take_zero, List.drop_of_length_le (by omega), elementsOf_nil]
            rfl
          · rw [if_neg hl, HAMT.elements_mk, elementsOf_append]
        refine ⟨?_, ?_⟩
        · rw [hm2]
          by_cases hl : m.entries.length = 1
          · rw [if_pos hl]; exact NodeInv_EmptyHAMT shift
          · rw [if_neg hl]; exact NodeInv_removeAt h hi hb
        · intro w hw
          rw [hel] at hw
          rw [HAMT.elements_eq, elementsOf_split hg]
          simp only [List.mem_append] at hw ⊢
          tauto

end NodeInvLaws

/-! ## Claim C20: the node invariant -/

section NodeInvClaim
variable {α : Type} [Value α]

theorem Remove_nodeInv {m : HAMT α} (h : NodeInv 0 m) (key : Nat) (v : α) :
    NodeInv 0 (Remove m key v) := by
  rw [Remove_eq]
  rcases hr : remove m 0 key v false with ⟨o, hc⟩
  cases o with
  | none => exact h
  | some m2 => exact (remove_nodeInv_aux m 0 key v false m2 hc h hr).1

theorem Reachable.nodeInv {t : HAMT α} (h : Reachable t) : NodeInv 0 t := by
  induction h with
  | empty => exact NodeInv_EmptyHAMT 0
  | insert t v n _ ih => exact (Insert_nodeInv_aux t 0 v n ih).1
  | remove t v _ ih => exact Remove_nodeInv ih (Hash v) v

/-- What the node invariant says of one node, index by index. -/
theorem NodeInv.index {shift : Nat} {m : HAMT α} (h : NodeInv shift m) :
    m.entries.length = OnesCount m.bmap ∧
    ∀ i < m.entries.length, ∃ k < 64, m.bmap.testBit k = true ∧ rank m.bmap k = i ∧
      ∀ e, m.entries[i]? = some e →
        (∀ v ∈ e.elements, chunk (Hash v) shift = k) ∧
        (∀ c, e = .hamt c → NodeInv (shift + hamtBits) c) := by
  refine ⟨h.len_eq.symm, fun i hi => ?_⟩
  have hi2 : i < rank m.bmap 64 := by rw [← OnesCount_eq_rank, h.len_eq]; exact hi
  obtain ⟨k, hk, hb, hr⟩ := exists_bit_of_rank hi2
  refine ⟨k, hk, hb, hr, fun e he => ?_⟩
  have hs : m.slot k = some e := slot_of_getElem? hb (by rw [hr]; exact he)
  refine ⟨fun v hv => h.path hk hs hv, fun c hc => ?_⟩
  have := h.entry hk hs
  rw [hc] at this
  exact this

/-- C20 (node invariant).  In every trie reachable from the empty trie by
`Insert` and `Remove`, every node satisfies `len(entries) == popcount(bmap)`
and slot `i` holds the content routed by the `i`-th set bit of `bmap` counted
from the low end: for every index `i` there is a set bit `k` with `i` set bits
below it, every element stored in or below slot `i` has chunk `k` at the level
of the node, and a child node in slot `i` satisfies the invariant one level
down.  `Insert`, `remove` (and `Remove`) and `makeHamtBranch` each preserve
the invariant. -/
theorem C20_node_invariant :
    (∀ t : HAMT α, Reachable t → NodeInv 0 t) ∧
    (∀ (shift : Nat) (m : HAMT α), NodeInv shift m →
      m.entries.length = OnesCount m.bmap ∧
      ∀ i < m.entries.length, ∃ k < 64, m.bmap.testBit k = true ∧ rank m.bmap k = i ∧
        ∀ e, m.entries[i]? = some e →
          (∀ v ∈ e.elements, chunk (Hash v) shift = k) ∧
          (∀ c, e = .hamt c → NodeInv (shift + hamtBits) c)) ∧
    (∀ (shift : Nat) (m : HAMT α) (v : α) (n : Int), NodeInv shift m →
      NodeInv shift (Insert m shift (Hash v) v n).1) ∧
    (∀ (shift : Nat) (m : HAMT α) (key : Nat) (v : α) (hc : Bool) (m2 : HAMT α) (hc2 : Bool),
      NodeInv shift m → remove m shift key v hc = (some m2, hc2) → NodeInv shift m2) ∧
    (∀ (m : HAMT α) (key : Nat) (v : α), NodeInv 0 m → NodeInv 0 (Remove m key v)) ∧
    (∀ (shift : Nat) (v1 v2 : α),
      EntryNodeInv shift (makeHamtBranch shift (Hash v1) (Hash v2) v1 v2)) :=
  ⟨fun _ ht => ht.nodeInv, fun _ _ h => h.index,
    fun shift m v n h => (Insert_nodeInv_aux m shift v n h).1,
    fun shift m key v hc m2 hc2 h hr => (remove_nodeInv_aux m shift key v hc m2 hc2 h hr).1,
    fun _ key v h => Remove_nodeInv h key v,
    fun shift v1 v2 => makeHamtBranch_nodeInv shift v1 v2⟩

end NodeInvClaim

/-! ## No empty node below the root -/

section FullLaws
variable {α : Type}

theorem HAMT.Full_iff (m : HAMT α) : m.Full ↔ FullOf m.entries := by
  cases m; rw [HAMT.Full]; rfl

theorem FullOf_iff (es : List (Entry α)) : FullOf es ↔ ∀ e ∈ es, e.Full := by
  induction es with
  | nil => simp [FullOf]
  | cons e es ih => simp [FullOf, ih]

theorem Entry.Full_value (v : α) : (Entry.value v).Full := by
  rw [Entry.Full]; trivial

theorem Entry.Full_collision (c : List α) : (Entry.collision c).Full ↔ 2 ≤ c.length := by
  rw [Entry.Full]

theorem Entry.Full_hamt (m : HAMT α) :
    (Entry.hamt m).Full ↔ 2 ≤ m.elements.length ∧ m.Full := by
  rw [Entry.Full]

theorem Full_EmptyHAMT : (EmptyHAMT : HAMT α).Full := by
  rw [HAMT.Full_iff]; simp [EmptyHAMT, HAMT.entries, FullOf]

/-- A slot that is `Full` holds an element. -/
theorem Entry.Full.pos {e : Entry α} (h : e.Full) : 1 ≤ e.elements.length := by
  cases e with
  | value v => simp [Entry.elements_value]
  | collision c => rw [Entry.Full_collision] at h; rw [Entry.elements_collision]; omega
  | hamt m => rw [Entry.Full_hamt] at h; rw [Entry.elements_hamt]; omega

/-- A slot that is `Full` and holds one element holds it bare. -/
theorem Entry.Full.eq_value {e : Entry α} (h : e.Full) {x : α} (hx : e.elements = [x]) :
    e = .value x := by
  cases e with
  | value v => simpa [Entry.elements_value] using hx
  | collision c =>
    rw [Entry.Full_collision] at h; rw [Entry.elements_collision] at hx
    rw [hx] at h; simp at h
  | hamt m =>
    rw [Entry.Full_hamt] at h; rw [Entry.elements_hamt] at hx
    rw [hx] at h; simp at h

theorem FullOf.slots_le {es : List (Entry α)} (h : FullOf es) :
    es.length ≤ (elementsOf es).length := by
  induction es with
  | nil => simp
  | cons e es ih =>
    rw [FullOf] at h
    rw [elementsOf_cons, List.length_append, List.length_cons]
    have := h.1.pos
    have := ih h.2
    omega

theorem HAMT.Full.entries_le {m : HAMT α} (h : m.Full) :
    m.entries.length ≤ m.elements.length := by
  rw [HAMT.elements_eq]
  exact FullOf.slots_le ((HAMT.Full_iff m).mp h)

/-- A `Full` node that holds one element is a single bare element. -/
theorem HAMT.Full.sole {m : HAMT α} (h : m.Full) {x : α} (hx : m.elements = [x]) :
    m.entries = [.value x] := by
  have h1 := h.entries_le
  rw [hx] at h1
  rw [HAMT.elements_eq] at hx
  rcases hes : m.entries with _ | ⟨e, _ | ⟨e2, rest⟩⟩
  · rw [hes, elementsOf_nil] at hx; cases hx
  · rw [hes, elementsOf_cons, elementsOf_nil, List.append_nil] at hx
    have hf := (FullOf_iff _).mp ((HAMT.Full_iff m).mp h) e (by rw [hes]; simp)
    rw [hf.eq_value hx]
  · rw [hes] at h1; simp at h1

theorem FullOf_set {es : List (Entry α)} (h : FullOf es) (r : Nat) {x : Entry α}
    (hx : x.Full) : FullOf (es.set r x) := by
  rw [FullOf_iff] at h ⊢
  intro e he
  rcases List.mem_or_eq_of_mem_set he with h1 | h1
  · exact h e h1
  · rw [h1]; exact hx

theorem FullOf_insertAt {es : List (Entry α)} (h : FullOf es) (r : Nat) {x : Entry α}
    (hx : x.Full) : FullOf (es.take r ++ x :: es.drop r) := by
  rw [FullOf_iff] at h ⊢
  intro e he
  rcases List.mem_append.mp he with h1 | h1
  · exact h e (List.mem_of_mem_take h1)
  · rcases List.mem_cons.mp h1 with h2 | h2
    · rw [h2]; exact hx
    · exact h e (List.mem_of_mem_drop h2)

theorem FullOf_removeAt {es : List (Entry α)} (h : FullOf es) (r : Nat) :
    FullOf (es.take r ++ es.drop (r + 1)) := by
  rw [FullOf_iff] at h ⊢
  intro e he
  rcases List.mem_append.mp he with h1 | h1
  · exact h e (List.mem_of_mem_take h1)
  · exact h e (List.mem_of_mem_drop h1)

/-- Every node of a synthesized branch holds its two elements. -/
theorem makeHamtBranch_full (shift key1 key2 : Nat) (v1 v2 : α) :
    (makeHamtBranch shift key1 key2 v1 v2).Full := by
  induction shift using shift_induct with
  | base s hs =>
    rw [makeHamtBranch_eq]
    by_cases hc : chunk key1 s = chunk key2 s
    · rw [if_pos hc, if_pos hs, Entry.Full_collision]; simp
    · rw [if_neg hc, Entry.Full_hamt, HAMT.Full_iff]
      by_cases hlt : chunk key1 s < chunk key2 s <;>
        simp [hlt, HAMT.elements_mk, elementsOf_cons, elementsOf_nil, Entry.elements_value,
          HAMT.entries, FullOf, Entry.Full_value]
  | step s hs ih =>
    have hl := makeHamtBranch_length (s + hamtBits) key1 key2 v1 v2
    rw [makeHamtBranch_eq]
    by_cases hc : chunk key1 s = chunk key2 s
    · rw [if_pos hc, if_neg (by omega), Entry.Full_hamt, HAMT.Full_iff]
      simp only [HAMT.elements_mk, elementsOf_cons, elementsOf_nil, List.append_nil,
        HAMT.entries, FullOf, and_true]
      exact ⟨by omega, ih⟩
    · rw [if_neg hc, Entry.Full_hamt, HAMT.Full_iff]
      by_cases hlt : chunk key1 s < chunk key2 s <;>
        simp [hlt, HAMT.elements_mk, elementsOf_cons, elementsOf_nil, Entry.elements_value,
          HAMT.entries, FullOf, Entry.Full_value]

end FullLaws

section FullInsert
variable {α : Type} [Value α]

theorem withValue_length_ge (c : List α) (v : α) (n : Int) :
    c.length ≤ (withValue c v n).1.length := by
  unfold withValue
  simp only
  split
  · simp
  · simp

/-- `Insert` keeps every node full and loses no element. -/
theorem Insert_full_aux (m : HAMT α) : ∀ (shift key : Nat) (v : α) (n : Int), m.Full →
    (Insert m shift key v n).1.Full ∧
      m.elements.length ≤ (Insert m shift key v n).1.elements.length := by
  induction m using HAMT.induct with
  | step m ih =>
    intro shift key v n h
    have hes := (HAMT.Full_iff m).mp h
    rw [Insert_eq]
    by_cases hb : m.bmap.testBit (chunk key shift) = false
    · rw [if_pos hb]
      refine ⟨?_, ?_⟩
      · rw [HAMT.Full_iff]
        exact FullOf_insertAt hes _ (Entry.Full_value v)
      · rw [HAMT.elements_mk, elementsOf_insertAt, HAMT.elements_eq,
          elementsOf_take_drop m.entries (rank m.bmap (chunk key shift))]
        simp only [List.length_append]
        omega
    · rw [if_neg hb]
      rcases hg : m.entries[rank m.bmap (chunk key shift)]? with _ | e
      · exact ⟨h, Nat.le_refl _⟩
      · simp only
        have he : e.Full := (FullOf_iff _).mp hes e (List.getElem?_mem hg)
        have hx : (insertEntry e shift key v n).1.Full ∧
            e.elements.length ≤ (insertEntry e shift key v n).1.elements.length := by
          cases e with
          | hamt c =>
            rw [Entry.Full_hamt] at he
            obtain ⟨i1, i2⟩ := ih c (List.getElem?_mem hg) (shift + hamtBits) key v n he.2
            simp only [insertEntry, Entry.Full_hamt, Entry.elements_hamt]
            exact ⟨⟨by omega, i1⟩, i2⟩
          | collision c =>
            rw [Entry.Full_collision] at he
            have := withValue_length_ge c v n
            simp only [insertEntry, Entry.Full_collision, Entry.elements_collision]
            exact ⟨by omega, this⟩
          | value y =>
            simp only [insertEntry]
            split
            · exact ⟨Entry.Full_value v, by simp [Entry.elements_value]⟩
            · refine ⟨makeHamtBranch_full _ _ _ _ _, ?_⟩
              rw [makeHamtBranch_length, Entry.elements_value]
              simp
        refine ⟨?_, ?_⟩
        · rw [HAMT.Full_iff]
          exact FullOf_set hes _ hx.1
        · rw [HAMT.elements_mk, elementsOf_set hg, HAMT.elements_eq, elementsOf_split hg]
          simp only [List.length_append]
          omega

end FullInsert

section FullRemove
variable {α : Type} [Value α]

/-- What `remove`, entered with `*hasCollision` false, leaves in the slot it
visits is full, holds one element less, and holds two elements or more when
`*hasCollision` is set. -/
theorem removeEntry_put_full {e x : Entry α} {shift key : Nat} {v : α} {hc1 : Bool}
    (he : e.Full)
    (ih : ∀ c m3 hc3, e = .hamt c → remove c (shift + hamtBits) key v false = (some m3, hc3) →
      m3.Full ∧ m3.elements.length + 1 = c.elements.length ∧
        (hc3 = true → 2 ≤ m3.elements.length))
    (h : removeEntry e shift key v false = (.put x, hc1)) :
    x.Full ∧ x.elements.length + 1 = e.elements.length ∧
      (hc1 = true → 2 ≤ x.elements.length) := by
  cases e with
  | hamt c =>
    rw [Entry.Full_hamt] at he
    simp only [removeEntry] at h
    rcases hr : remove c (shift + hamtBits) key v false with ⟨o, hc3⟩
    rw [hr] at h
    cases o with
    | none => simp only at h; cases h
    | some m3 =>
      simp only at h
      obtain ⟨i1, i2, i3⟩ := ih c m3 hc3 rfl hr
      have hes := (FullOf_iff _).mp ((HAMT.Full_iff m3).mp i1)
      by_cases hcond : m3.entries.length = 1 ∧ hc3 = false
      · rw [if_pos hcond] at h
        obtain ⟨y, hy⟩ := List.length_eq_one.mp hcond.1
        have hyf : y.Full := hes y (by rw [hy]; simp)
        have hel := elements_of_sole hy
        rw [hy] at h
        cases y with
        | hamt c1 =>
          simp only at h
          injection h with h1 h2
          injection h1 with h1
          subst h1 h2
          rw [Entry.Full_hamt] at hyf
          rw [Entry.elements_hamt] at hel
          rw [Entry.Full_hamt, Entry.elements_hamt, Entry.elements_hamt]
          exact ⟨⟨by rw [hel]; exact hyf.1, i1⟩, i2, fun _ => by rw [hel]; exact hyf.1⟩
        | collision c1 =>
          simp only at h
          injection h with h1 h2
          injection h1 with h1
          subst h1 h2
          rw [Entry.elements_hamt, ← hel]
          exact ⟨hyf, i2, fun hh => by rw [hcond.2] at hh; cases hh⟩
        | value y1 =>
          simp only at h
          injection h with h1 h2
          injection h1 with h1
          subst h1 h2
          rw [Entry.elements_hamt, ← hel]
          exact ⟨hyf, i2, fun hh => by rw [hcond.2] at hh; cases hh⟩
      · rw [if_neg hcond] at h
        injection h with h1 h2
        injection h1 with h1
        subst h1 h2
        have h2 : 2 ≤ m3.elements.length := by
          by_contra hlt
          have h1 : m3.elements.length = 1 := by omega
          obtain ⟨z, hz⟩ := List.length_eq_one.mp h1
          have hsole := i1.sole hz
          have hct : hc3 = true := by
            cases hc3 with
            | true => rfl
            | false => exact absurd ⟨by rw [hsole]; rfl, rfl⟩ hcond
          exact hlt (i3 hct)
        rw [Entry.Full_hamt, Entry.elements_hamt, Entry.elements_hamt]
        exact ⟨⟨h2, i1⟩, i2, fun _ => h2⟩
  | collision c =>
    rw [Entry.Full_collision] at he
    simp only [removeEntry] at h
    rcases hw : withoutValue c v with ⟨c2, f⟩
    rw [hw] at h
    cases f with
    | false => simp only at h; cases h
    | true =>
      have hl := withoutValue_length c v (by rw [hw])
      rw [hw] at hl
      simp only at hl
      rcases c2 with _ | ⟨y, _ | ⟨z, rest⟩⟩
      · simp at hl; omega
      · simp only at h
        injection h with h1 h2
        injection h1 with h1
        subst h1 h2
        rw [Entry.elements_value, Entry.elements_collision]
        exact ⟨Entry.Full_value y, hl, fun hh => by cases hh⟩
      · simp only at h
        injection h with h1 h2
        injection h1 with h1
        subst h1
        rw [Entry.Full_collision, Entry.elements_collision, Entry.elements_collision]
        exact ⟨by simp, hl, fun _ => by simp⟩
  | value y =>
    rw [removeEntry_value] at h
    split at h <;> cases h

/-- `remove`, entered with `*hasCollision` false, keeps every node full. -/
theorem remove_full_aux (m : HAMT α) : ∀ (shift key : Nat) (v : α) (m2 : HAMT α)
    (hc2 : Bool), m.Full → remove m shift key v false = (some m2, hc2) →
    m2.Full ∧ m2.elements.length + 1 = m.elements.length ∧
      (hc2 = true → 2 ≤ m2.elements.length) := by
  induction m using HAMT.induct with
  | step m ih =>
    intro shift key v m2 hc2 h hrm
    have hes := (HAMT.Full_iff m).mp h
    rw [remove_eq] at hrm
    by_cases hb : m.bmap.testBit (chunk key shift) = true
    · rw [if_pos hb] at hrm
      rcases hg : m.entries[rank m.bmap (chunk key shift)]? with _ | e
      · rw [hg] at hrm; cases hrm
      · rw [hg] at hrm
        simp only at hrm
        have he : e.Full := (FullOf_iff _).mp hes e (List.getElem?_mem hg)
        rcases hr : removeEntry e shift key v false with ⟨ch, hc1⟩
        rw [hr] at hrm
        cases ch with
        | same => simp only at hrm; cases hrm
        | put x =>
          simp only at hrm
          injection hrm with h1 h2
          injection h1 with h1
          subst h1 h2
          obtain ⟨x1, x2, x3⟩ := removeEntry_put_full he
            (fun c m3 hc3 hce hr2 => ih c (hce ▸ List.getElem?_mem hg) _ key v m3 hc3
              (by rw [hce, Entry.Full_hamt] at he; exact he.2) hr2) hr
          refine ⟨?_, ?_, fun hh => ?_⟩
          · rw [HAMT.Full_iff]; exact FullOf_set hes _ x1
          · rw [HAMT.elements_mk, elementsOf_set hg, HAMT.elements_eq, elementsOf_split hg]
            simp only [List.length_append]
            omega
          · have := x3 hh
            rw [HAMT.elements_mk, elementsOf_set hg]
            simp only [List.length_append]
            omega
        | delete =>
          simp only at hrm
          injection hrm with h1 h2
          injection h1 with h1
          obtain ⟨e1, he1, _⟩ := removeEntry_delete hr
          subst he1
          have hc1f : hc1 = false := by
            rw [removeEntry_value] at hr
            split at hr <;> (injection hr with _ h3; exact h3.symm)
          have hrl : rank m.bmap (chunk key shift) < m.entries.length := by
            rcases Nat.lt_or_ge (rank m.bmap (chunk key shift)) m.entries.length with h3 | h3
            · exact h3
            · rw [List.getElem?_eq_none h3] at hg; cases hg
          have hel : m2.elements = elementsOf (m.entries.take (rank m.bmap (chunk key shift)))
              ++ elementsOf (m.entries.drop (rank m.bmap (chunk key shift) + 1)) := by
            rw [← h1]
            by_cases hl : m.entries.length = 1
            · rw [if_pos hl, elements_EmptyHAMT]
              have hr0 : rank m.bmap (chunk key shift) = 0 := by omega
              rw [hr0, List.take_zero, List.drop_of_length_le (by omega), elementsOf_nil]
              rfl
            · rw [if_neg hl, HAMT.elements_mk, elementsOf_append]
          refine ⟨?_, ?_, fun hh => ?_⟩
          · rw [← h1]
            by_cases hl : m.entries.length = 1
            · rw [if_pos hl]; exact Full_EmptyHAMT
            · rw [if_neg hl, HAMT.Full_iff]; exact FullOf_removeAt hes _
          · rw [hel, HAMT.elements_eq, elementsOf_split hg, Entry.elements_value]
            simp only [List.length_append, List.length_singleton]
            omega
          · rw [← h2, hc1f] at hh; cases hh
    · rw [if_neg hb] at hrm; cases hrm

/-- Every reachable trie is full: no bucket with fewer than two elements and
no child node with fewer than two elements. -/
theorem Reachable.full {t : HAMT α} (h : Reachable t) : t.Full := by
  induction h with
  | empty => exact Full_EmptyHAMT
  | insert t v n _ ih => exact (Insert_full_aux t 0 (Hash v) v n ih).1
  | remove t v _ ih =>
    rw [Remove_eq]
    rcases hr : Immutable.remove t 0 (Hash v) v false with ⟨o, hc⟩
    cases o with
    | none => exact ih
    | some m2 => exact (remove_full_aux t 0 (Hash v) v m2 hc ih hr).1

end FullRemove

/-! ## Claim C13: emptiness -/

section EmptinessBasics
variable {α : Type}

theorem Empty_iff_entries (t : HAMT α) : t.Empty = true ↔ t.entries = [] := by
  simp [HAMT.Empty]

end EmptinessBasics

section EmptinessFull
variable {α : Type} [Value α]

/-- On a reachable trie no element means no slot. -/
theorem Reachable.empty_iff {t : HAMT α} (ht : Reachable t) :
    t.Empty = true ↔ t.elements = [] := by
  rw [Empty_iff_entries]
  constructor
  · intro h
    rw [HAMT.elements_eq, h, elementsOf_nil]
  · intro h
    have := ht.full.entries_le
    rw [h] at this
    exact List.length_eq_zero.mp (by simpa using this)

end EmptinessFull

section EmptinessClaim
variable {α : Type} [Value α] [Contract α]

/-- Removing the only element of a reachable trie gives the empty node. -/
theorem Reachable.remove_sole {t : HAMT α} (ht : Reachable t) {e p : α}
    (hel : t.elements = [e]) (hep : Equal e p = true) :
    Remove t (Hash p) p = EmptyHAMT := by
  have hent := ht.full.sole hel
  have hinv := ht.inv
  have hlk := lookupLoop_isSome_of_mem_aux t 0 p e hinv (by rw [hel]; simp) hep
  have hrs := remove_isSome_aux t 0 (Hash p) p false hinv
  rw [hlk] at hrs
  rcases remove_cases hinv (Hash p) p false with ⟨_, heq⟩ | ⟨x, _, _, hg, hcase⟩
  · rw [heq] at hrs; cases hrs
  · have hx : x = .value e := by
      rw [hent] at hg
      have := List.getElem?_mem hg
      simpa using this
    subst hx
    rw [removeEntry_value, if_pos hep] at hcase
    rcases hcase with ⟨hc2, h1, _⟩ | ⟨y, hc2, h1, _⟩ | ⟨hc2, _, heq⟩
    · cases h1
    · cases h1
    · apply Remove_some
      rw [heq]
      simp only
      rw [if_pos (by rw [hent]; rfl)]

/-- No result of `Insert` on a reachable trie is empty. -/
theorem Reachable.insert_not_empty {t : HAMT α} (ht : Reachable t) (key : Nat) (v : α)
    (n : Int) : (Insert t 0 key v n).1.Empty = false := by
  have hinv := ht.inv
  rcases Insert_cases hinv key v n with ⟨_, _, heq⟩ | ⟨hb, e, _, hg, heq⟩
  · rw [heq]
    simp [HAMT.Empty, HAMT.entries]
  · rw [heq]
    have hr := rank_lt_length hinv.hlen (chunk_lt key 0) hb
    show ((t.entries.set (rank t.bmap (chunk key 0)) (insertEntry e 0 key v n).1).length
      == 0) = false
    rw [List.length_set]
    exact beq_false_of_ne (by omega)

/-- C13 (emptiness).  For every trie `t` reachable from the empty trie by
`Insert` and `Remove`: `Empty()` is true exactly when `t` holds no element,
that is when `Range` visits nothing; removing the only element of a
one-element trie returns the canonical empty node; and no result of `Insert`
on `t` is empty. -/
theorem C13_emptiness (t : HAMT α) (ht : Reachable t) :
    (t.Empty = true ↔ t.elements = []) ∧
    (t.Empty = true ↔ (Range t collect []).1 = []) ∧
    (t.Empty = true ↔ t.count = 0) ∧
    (∀ e p : α, t.elements = [e] → Equal e p = true →
      Remove t (Hash p) p = EmptyHAMT ∧ (Remove t (Hash p) p).Empty = true) ∧
    (∀ (key : Nat) (v : α) (n : Int), (Insert t 0 key v n).1.Empty = false) := by
  refine ⟨ht.empty_iff, ?_, ?_, fun e p hel hep => ?_, ht.insert_not_empty⟩
  · rw [Range_collect]; exact ht.empty_iff
  · rw [HAMT.count_eq, ht.empty_iff]
    exact List.length_eq_zero.symm
  · rw [ht.remove_sole hel hep]
    exact ⟨rfl, rfl⟩

end EmptinessClaim

section EmptinessWitness

theorem sampleT_eq : sampleT = .mk 128 [.value sampleA] := by
  simp only [sampleT, Insert_eval]
  rfl

/-- Witness of C13: the reachable trie holding `sampleA` only is not empty,
and removing `sampleA` from it gives the empty node. -/
theorem C13_witness :
    Reachable sampleT ∧ sampleT.Empty = false ∧ sampleT.elements = [sampleA] ∧
    Remove sampleT (Hash sampleA) sampleA = EmptyHAMT :=
  ⟨sampleT_reachable, by rw [sampleT_eq]; rfl, by rw [sampleT_eq]; rfl,
    ((C13_emptiness sampleT sampleT_reachable).2.2.2.1 sampleA sampleA
      (by rw [sampleT_eq]; rfl) (by decide)).1⟩

end EmptinessWitness

/-! ## Claim C11: traversal order and the lifted bucket -/

section OrderScenario

theorem orderSet_lifted :
    (((EmptySet.Add orderA).Add orderB).Add orderX).Del orderX =
      ⟨2, .mk 1 [.collision [orderA, orderB]]⟩ := by
  simp only [Set.Add, Set.Del, Insert_eval, remove_eval]
  rfl

theorem orderSet_eq : orderSet = ⟨3, .mk 1 [.collision [orderA, orderB, orderY]]⟩ := by
  simp only [orderSet, Set.Add, Set.Del, Insert_eval, remove_eval]
  rfl

theorem orderSet_reachable : Set.Reachable orderSet :=
  Set.Reachable.add _ _ (Set.Reachable.del _ _ (Set.Reachable.add _ _
    (Set.Reachable.add _ _ (Set.Reachable.add _ _ Set.Reachable.empty))))

/-- C11 (traversal order by key path), at the failing input.  On `EmptySet`,
`Add(orderA)`, `Add(orderB)` (same hash 64, so a bucket at the last level),
`Add(orderX)` (a sibling of the bucket) and `Del(orderX)` leave the bucket
lifted into the root slot by the path collapse of `remove`; `Add(orderY)`,
whose hash 0 routes to that slot, is then appended to the bucket.  `Range`
over the reachable result visits `orderA`, `orderB`, `orderY` in this order,
although the key path of `orderY` is strictly before that of `orderA`: the
visit is not in non-decreasing order of key path. -/
theorem C11_failing_input :
    Set.Reachable orderSet ∧
    ((((EmptySet.Add orderA).Add orderB).Add orderX).Del orderX).m =
      .mk 1 [.collision [orderA, orderB]] ∧
    orderSet.m = .mk 1 [.collision [orderA, orderB, orderY]] ∧
    orderSet.Range collect [] = [orderA, orderB, orderY] ∧
    keyPath (Hash orderY) < keyPath (Hash orderA) ∧
    ¬ (orderSet.Range collect []).Pairwise
      (fun a b => keyPath (Hash a) ≤ keyPath (Hash b)) := by
  have hr : orderSet.Range collect [] = [orderA, orderB, orderY] := by
    rw [orderSet_eq]; rfl
  refine ⟨orderSet_reachable, by rw [orderSet_lifted], by rw [orderSet_eq], hr,
    by decide, ?_⟩
  rw [hr]
  decide

end OrderScenario

/-! ## Key prefixes -/

section Prefix

theorem chunk_eq_div_mod (a s : Nat) : chunk a s = a / 2 ^ s % 64 := by
  have h : hamtMask = 2 ^ 6 - 1 := by decide
  rw [chunk, h, Nat.and_pow_two_sub_one_eq_mod, Nat.shiftRight_eq_div_pow]

/-- Two keys that agree on their low `s` bits and on the chunk at level `s`
agree on their low `s + hamtBits` bits. -/
theorem agree_step {a b s : Nat} (h : a % 2 ^ s = b % 2 ^ s)
    (hc : chunk a s = chunk b s) : a % 2 ^ (s + hamtBits) = b % 2 ^ (s + hamtBits) := by
  have h6 : hamtBits = 6 := by decide
  rw [chunk_eq_div_mod, chunk_eq_div_mod] at hc
  rw [h6, Nat.pow_add, Nat.mod_mul, Nat.mod_mul, h]
  norm_num
  rw [hc]

/-- Two 64-bit keys that agree on their low `s` bits, `s` past the word size,
are equal. -/
theorem eq_of_agree {a b s : Nat} (h : a % 2 ^ s = b % 2 ^ s) (hs : 64 ≤ s)
    (ha : a < 2 ^ 64) (hb : b < 2 ^ 64) : a = b := by
  have hp : 2 ^ 64 ≤ 2 ^ s := Nat.pow_le_pow_right (by norm_num) hs
  rwa [Nat.mod_eq_of_lt (Nat.lt_of_lt_of_le ha hp),
    Nat.mod_eq_of_lt (Nat.lt_of_lt_of_le hb hp)] at h

end Prefix

/-! ## Elements of the other slots -/

section IndexBit
variable {α : Type}

/-- The slot at an index is the slot of a set bit. -/
theorem exists_bit_of_index {m : HAMT α} (hlen : OnesCount m.bmap = m.entries.length)
    {j : Nat} {e : Entry α} (hj : m.entries[j]? = some e) :
    ∃ k < 64, m.bmap.testBit k = true ∧ rank m.bmap k = j ∧ m.slot k = some e := by
  have hjl : j < m.entries.length := by
    rcases Nat.lt_or_ge j m.entries.length with h | h
    · exact h
    · rw [List.getElem?_eq_none h] at hj; cases hj
  have hj2 : j < rank m.bmap 64 := by rw [← OnesCount_eq_rank, hlen]; exact hjl
  obtain ⟨k, hk, hb, hr⟩ := exists_bit_of_rank hj2
  exact ⟨k, hk, hb, hr, slot_of_getElem? hb (by rw [hr]; exact hj)⟩

end IndexBit

section OtherSlots
variable {α : Type} [Value α]

/-- An element stored below the slot at an index other than the one chunk
`i` routes to has another chunk than `i`. -/
theorem chunk_ne_of_other_index {shift : Nat} {m : HAMT α} (h : NodeInv shift m)
    {i j : Nat} {e : Entry α} (hj : m.entries[j]? = some e) (hne : j ≠ rank m.bmap i)
    {x : α} (hx : x ∈ e.elements) : chunk (Hash x) shift ≠ i := by
  obtain ⟨k, hk, _, hr, hs⟩ := exists_bit_of_index h.len_eq hj
  rw [h.path hk hs hx]
  intro hki
  exact hne (by rw [← hki, hr])

theorem chunk_ne_of_mem_take {shift : Nat} {m : HAMT α} (h : NodeInv shift m) {i : Nat}
    {x : α} (hx : x ∈ elementsOf (m.entries.take (rank m.bmap i))) :
    chunk (Hash x) shift ≠ i := by
  obtain ⟨e, he, hxe⟩ := mem_elementsOf.mp hx
  obtain ⟨j, hj⟩ := List.getElem?_of_mem he
  rw [List.getElem?_take] at hj
  split at hj
  · rename_i hjl
    exact chunk_ne_of_other_index h hj (by omega) hxe
  · cases hj

theorem chunk_ne_of_mem_drop_succ {shift : Nat} {m : HAMT α} (h : NodeInv shift m) {i : Nat}
    {x : α} (hx : x ∈ elementsOf (m.entries.drop (rank m.bmap i + 1))) :
    chunk (Hash x) shift ≠ i := by
  obtain ⟨e, he, hxe⟩ := mem_elementsOf.mp hx
  obtain ⟨j, hj⟩ := List.getElem?_of_mem he
  rw [List.getElem?_drop] at hj
  exact chunk_ne_of_other_index h hj (by omega) hxe

/-- No element of a node has the chunk of a clear bit. -/
theorem chunk_ne_of_clear {shift : Nat} {m : HAMT α} (h : NodeInv shift m) {i : Nat}
    (hb : m.bmap.testBit i = false) {x : α} (hx : x ∈ m.elements) :
    chunk (Hash x) shift ≠ i := by
  obtain ⟨k, hk, e, hs, hxe⟩ := exists_slot_of_mem_elements h.len_eq hx
  rw [h.path hk hs hxe]
  intro hki
  rw [← hki, slot_testBit hs] at hb
  cases hb

end OtherSlots

/-! ## Where `Insert` puts a new element -/

section BranchOrder
variable {α : Type}

/-- A synthesized branch holds its first element before its second, unless
the keys differ. -/
theorem makeHamtBranch_elements_order (shift key1 key2 : Nat) (v1 v2 : α) :
    (makeHamtBranch shift key1 key2 v1 v2).elements = [v1, v2] ∨
    ((makeHamtBranch shift key1 key2 v1 v2).elements = [v2, v1] ∧ key1 ≠ key2) := by
  induction shift using shift_induct with
  | base s hs =>
    rw [makeHamtBranch_eq]
    by_cases hc : chunk key1 s = chunk key2 s
    · rw [if_pos hc, if_pos hs]; left; rw [Entry.elements_collision]
    · rw [if_neg hc]
      have hk : key1 ≠ key2 := fun hk => hc (by rw [hk])
      by_cases hlt : chunk key1 s < chunk key2 s
      · left; simp [hlt, Entry.elements_hamt, HAMT.elements_mk, elementsOf_cons,
          elementsOf_nil, Entry.elements_value]
      · right; simp [hlt, hk, Entry.elements_hamt, HAMT.elements_mk, elementsOf_cons,
          elementsOf_nil, Entry.elements_value]
  | step s hs ih =>
    rw [makeHamtBranch_eq]
    by_cases hc : chunk key1 s = chunk key2 s
    · rw [if_pos hc, if_neg (by omega)]
      simpa [Entry.elements_hamt, HAMT.elements_mk, elementsOf_cons, elementsOf_nil] using ih
    · rw [if_neg hc]
      have hk : key1 ≠ key2 := fun hk => hc (by rw [hk])
      by_cases hlt : chunk key1 s < chunk key2 s
      · left; simp [hlt, Entry.elements_hamt, HAMT.elements_mk, elementsOf_cons,
          elementsOf_nil, Entry.elements_value]
      · right; simp [hlt, hk, Entry.elements_hamt, HAMT.elements_mk, elementsOf_cons,
          elementsOf_nil, Entry.elements_value]

end BranchOrder

section InsertOrder
variable {α : Type} [Value α]

theorem withValue_append {c : List α} {v : α} (n : Int) (h : ∀ x ∈ c, Equal x v = false) :
    (withValue c v n).1 = c ++ [v] := by
  induction c with
  | nil => rw [withValue_nil]; rfl
  | cons x c ih =>
    have hx : ¬ Equal x v = true := by rw [h x (List.mem_cons_self _ _)]; simp
    rw [withValue_cons, if_neg hx]
    simp only [List.cons_append]
    rw [ih (fun y hy => h y (List.mem_cons_of_mem _ hy))]

theorem hash_ne_of_chunk_ne {a b s i : Nat} (ha : chunk a s ≠ i) (hb : chunk b s = i) :
    a ≠ b := by
  intro h
  rw [h] at ha
  exact ha hb

/-- An element equal to none of the stored ones is inserted into the sequence
of stored elements, after every stored element that has its hash. -/
theorem Insert_shape_aux (m : HAMT α) : ∀ (shift : Nat) (v : α) (n : Int),
    NodeInv shift m → (∀ x ∈ m.elements, Equal x v = false) →
    ∃ a b, m.elements = a ++ b ∧ (Insert m shift (Hash v) v n).1.elements = a ++ v :: b ∧
      ∀ x ∈ b, Hash x ≠ Hash v := by
  induction m using HAMT.induct with
  | step m ih =>
    intro shift v n h hne
    have hi := chunk_lt (Hash v) shift
    rcases Insert_cases_len h.len_eq shift (Hash v) v n with ⟨hb, _, heq⟩ | ⟨hb, e, hs, hg, heq⟩
    · refine ⟨elementsOf (m.entries.take (rank m.bmap (chunk (Hash v) shift))),
        elementsOf (m.entries.drop (rank m.bmap (chunk (Hash v) shift))), ?_, ?_, ?_⟩
      · rw [HAMT.elements_eq]; exact elementsOf_take_drop _ _
      · rw [heq, HAMT.elements_mk, elementsOf_insertAt, Entry.elements_value]
        simp
      · intro x hx
        have hxm : x ∈ m.elements := by
          rw [HAMT.elements_eq, elementsOf_take_drop m.entries
            (rank m.bmap (chunk (Hash v) shift))]
          exact List.mem_append_right _ hx
        exact hash_ne_of_chunk_ne (chunk_ne_of_clear h hb hxm) rfl
    · have hsub : ∀ w ∈ e.elements, w ∈ m.elements := fun w hw => slot_elements_subset hs hw
      have hx : ∃ a b, e.elements = a ++ b ∧
          (insertEntry e shift (Hash v) v n).1.elements = a ++ v :: b ∧
          ∀ x ∈ b, Hash x ≠ Hash v := by
        cases e with
        | hamt c =>
          simp only [insertEntry, Entry.elements_hamt]
          exact ih c (slot_mem hs) (shift + hamtBits) v n (h.entry hi hs)
            (fun x hx => hne x (hsub x (by simpa [Entry.elements_hamt] using hx)))
        | collision c =>
          refine ⟨c, [], by simp [Entry.elements_collision], ?_, by simp⟩
          simp only [insertEntry, Entry.elements_collision]
          exact withValue_append n
            (fun x hx => hne x (hsub x (by simpa [Entry.elements_collision] using hx)))
        | value y =>
          have hy : Equal y v = false := hne y (hsub y (by simp [Entry.elements_value]))
          simp only [insertEntry]
          rw [if_neg (by rw [hy]; simp)]
          rcases makeHamtBranch_elements_order (shift + hamtBits) (Hash y) (Hash v) y v
            with h1 | ⟨h1, h2⟩
          · exact ⟨[y], [], by simp [Entry.elements_value], by rw [h1]; rfl, by simp⟩
          · refine ⟨[], [y], by simp [Entry.elements_value], by rw [h1]; rfl, ?_⟩
            intro x hx
            have : x = y := by simpa using hx
            rw [this]; exact h2
      obtain ⟨a, b, h1, h2, h3⟩ := hx
      refine ⟨elementsOf (m.entries.take (rank m.bmap (chunk (Hash v) shift))) ++ a,
        b ++ elementsOf (m.entries.drop (rank m.bmap (chunk (Hash v) shift) + 1)), ?_, ?_, ?_⟩
      · rw [HAMT.elements_eq, elementsOf_split hg, h1]
        simp
      · rw [heq, HAMT.elements_mk, elementsOf_set hg, h2]
        simp
      · intro x hx
        rcases List.mem_append.mp hx with h4 | h4
        · exact h3 x h4
        · exact hash_ne_of_chunk_ne (chunk_ne_of_mem_drop_succ h h4) rfl

/-- Among the elements of one hash, the inserted element comes last. -/
theorem Insert_filter {shift : Nat} {m : HAMT α} (h : NodeInv shift m) (v : α) (n : Int)
    (hne : ∀ x ∈ m.elements, Equal x v = false) (k : Nat) :
    (Insert m shift (Hash v) v n).1.elements.filter (fun w => decide (Hash w = k)) =
      m.elements.filter (fun w => decide (Hash w = k)) ++
        (if Hash v = k then [v] else []) := by
  obtain ⟨a, b, h1, h2, h3⟩ := Insert_shape_aux m shift v n h hne
  rw [h1, h2, List.filter_append, List.filter_append, List.filter_cons]
  by_cases hk : Hash v = k
  · have hb : b.filter (fun w => decide (Hash w = k)) = [] := by
      rw [List.filter_eq_nil_iff]
      intro x hx
      have := h3 x hx
      rw [hk] at this
      simpa using this
    simp [hk, hb]
  · simp [hk]

/-- A trie built by insertion of pairwise non-equal elements satisfies the
node invariant, holds inserted elements only, and holds the elements of each
hash in the order of their insertion. -/
theorem Built.order {vs : List α} {t : HAMT α} (hb : Built vs t)
    (hne : vs.Pairwise (fun a b => Equal a b = false)) :
    NodeInv 0 t ∧ (∀ x ∈ t.elements, x ∈ vs) ∧
      ∀ k, t.elements.filter (fun w => decide (Hash w = k)) =
        vs.filter (fun w => decide (Hash w = k)) := by
  induction hb with
  | empty =>
    exact ⟨NodeInv_EmptyHAMT 0, by simp [elements_EmptyHAMT], by simp [elements_EmptyHAMT]⟩
  | insert vs t v n _ ih =>
    rw [List.pairwise_append] at hne
    obtain ⟨i1, i2, i3⟩ := ih hne.1
    have hv : ∀ x ∈ t.elements, Equal x v = false :=
      fun x hx => hne.2.2 x (i2 x hx) v (by simp)
    refine ⟨(Insert_nodeInv_aux t 0 v n i1).1, fun x hx => ?_, fun k => ?_⟩
    · rcases (Insert_nodeInv_aux t 0 v n i1).2 x hx with h1 | h1
      · simp [h1]
      · exact List.mem_append_left _ (i2 x h1)
    · rw [Insert_filter i1 v n hv k, i3 k, List.filter_append]
      congr 1
      by_cases hk : Hash v = k <;> simp [hk]

end InsertOrder

/-! ## Buckets of a trie built by insertion -/

section DeepLaws
variable {α : Type}

theorem HAMT.Deep_iff (m : HAMT α) (shift : Nat) :
    m.Deep shift ↔ DeepOf m.entries (shift + hamtBits) := by
  cases m; rw [HAMT.Deep]; rfl

theorem DeepOf_iff (es : List (Entry α)) (s : Nat) : DeepOf es s ↔ ∀ e ∈ es, e.Deep s := by
  induction es with
  | nil => simp [DeepOf]
  | cons e es ih => simp [DeepOf, ih]

theorem Entry.Deep_value (v : α) (s : Nat) : (Entry.value v).Deep s := by
  rw [Entry.Deep]; trivial

theorem Entry.Deep_collision (c : List α) (s : Nat) : (Entry.collision c).Deep s ↔ 64 ≤ s := by
  rw [Entry.Deep]

theorem Entry.Deep_hamt (m : HAMT α) (s : Nat) : (Entry.hamt m).Deep s ↔ m.Deep s := by
  rw [Entry.Deep]

theorem Deep_EmptyHAMT (shift : Nat) : (EmptyHAMT : HAMT α).Deep shift := by
  rw [HAMT.Deep_iff]; simp [EmptyHAMT, HAMT.entries, DeepOf]

theorem DeepOf_set {es : List (Entry α)} {s : Nat} (h : DeepOf es s) (r : Nat) {x : Entry α}
    (hx : x.Deep s) : DeepOf (es.set r x) s := by
  rw [DeepOf_iff] at h ⊢
  intro e he
  rcases List.mem_or_eq_of_mem_set he with h1 | h1
  · exact h e h1
  · rw [h1]; exact hx

theorem DeepOf_insertAt {es : List (Entry α)} {s : Nat} (h : DeepOf es s) (r : Nat)
    {x : Entry α} (hx : x.Deep s) : DeepOf (es.take r ++ x :: es.drop r) s := by
  rw [DeepOf_iff] at h ⊢
  intro e he
  rcases List.mem_append.mp he with h1 | h1
  · exact h e (List.mem_of_mem_take h1)
  · rcases List.mem_cons.mp h1 with h2 | h2
    · rw [h2]; exact hx
    · exact h e (List.mem_of_mem_drop h2)

/-- The branch `makeHamtBranch` builds has its bucket, if any, at the last
level. -/
theorem makeHamtBranch_deep (shift key1 key2 : Nat) (v1 v2 : α) :
    (makeHamtBranch shift key1 key2 v1 v2).Deep shift := by
  induction shift using shift_induct with
  | base s hs =>
    rw [makeHamtBranch_eq]
    by_cases hc : chunk key1 s = chunk key2 s
    · rw [if_pos hc, if_pos hs, Entry.Deep_collision]; exact hs
    · rw [if_neg hc, Entry.Deep_hamt, HAMT.Deep_iff]
      by_cases hlt : chunk key1 s < chunk key2 s <;>
        simp [hlt, HAMT.entries, DeepOf, Entry.Deep_value]
  | step s hs ih =>
    rw [makeHamtBranch_eq]
    by_cases hc : chunk key1 s = chunk key2 s
    · rw [if_pos hc, if_neg (by omega), Entry.Deep_hamt, HAMT.Deep_iff]
      simp only [HAMT.entries, DeepOf, and_true]
      exact ih
    · rw [if_neg hc, Entry.Deep_hamt, HAMT.Deep_iff]
      by_cases hlt : chunk key1 s < chunk key2 s <;>
        simp [hlt, HAMT.entries, DeepOf, Entry.Deep_value]

end DeepLaws

section DeepInsert
variable {α : Type} [Value α]

/-- `Insert` creates and keeps buckets at the last level only. -/
theorem Insert_deep_aux (m : HAMT α) : ∀ (shift key : Nat) (v : α) (n : Int),
    m.Deep shift → (Insert m shift key v n).1.Deep shift := by
  induction m using HAMT.induct with
  | step m ih =>
    intro shift key v n h
    have hes := (HAMT.Deep_iff m shift).mp h
    rw [Insert_eq]
    by_cases hb : m.bmap.testBit (chunk key shift) = false
    · rw [if_pos hb, HAMT.Deep_iff]
      exact DeepOf_insertAt hes _ (Entry.Deep_value v _)
    · rw [if_neg hb]
      rcases hg : m.entries[rank m.bmap (chunk key shift)]? with _ | e
      · exact h
      · simp only
        have he : e.Deep (shift + hamtBits) := (DeepOf_iff _ _).mp hes e (List.getElem?_mem hg)
        rw [HAMT.Deep_iff]
        apply DeepOf_set hes
        cases e with
        | hamt c =>
          rw [Entry.Deep_hamt] at he
          simp only [insertEntry, Entry.Deep_hamt]
          exact ih c (List.getElem?_mem hg) (shift + hamtBits) key v n he
        | collision c =>
          rw [Entry.Deep_collision] at he
          simp only [insertEntry, Entry.Deep_collision]
          exact he
        | value y =>
          simp only [insertEntry]
          split
          · exact Entry.Deep_value v _
          · exact makeHamtBranch_deep _ _ _ _ _

theorem Built.deep {vs : List α} {t : HAMT α} (hb : Built vs t) : t.Deep 0 := by
  induction hb with
  | empty => exact Deep_EmptyHAMT 0
  | insert vs t v n _ ih => exact Insert_deep_aux t 0 (Hash v) v n ih

end DeepInsert

/-! ## The elements of one hash are stored side by side -/

section Contiguous
variable {α : Type} [Value α]

theorem filter_of_split {l pre mid post : List α} {k : Nat} (h : l = pre ++ mid ++ post)
    (h1 : ∀ x ∈ pre, Hash x ≠ k) (h2 : ∀ x ∈ mid, Hash x = k) (h3 : ∀ x ∈ post, Hash x ≠ k) :
    l.filter (fun w => decide (Hash w = k)) = mid := by
  have e1 : pre.filter (fun w => decide (Hash w = k)) = [] := by
    rw [List.filter_eq_nil_iff]; intro x hx; simpa using h1 x hx
  have e3 : post.filter (fun w => decide (Hash w = k)) = [] := by
    rw [List.filter_eq_nil_iff]; intro x hx; simpa using h3 x hx
  have e2 : mid.filter (fun w => decide (Hash w = k)) = mid := by
    rw [List.filter_eq_self]; intro x hx; simpa using h2 x hx
  rw [h, List.filter_append, List.filter_append, e1, e2, e3]
  simp

/-- In a node whose buckets are at the last level and whose elements carry
64-bit hashes that agree with `k` on the bits below the level of the node,
the elements of hash `k` are stored side by side. -/
theorem contiguous_aux (k : Nat) (m : HAMT α) : ∀ (shift : Nat),
    NodeInv shift m → m.Deep shift → (∀ x ∈ m.elements, Hash x < 2 ^ 64) →
    (∀ x ∈ m.elements, Hash x % 2 ^ shift = k % 2 ^ shift) →
    ∃ pre mid post, m.elements = pre ++ mid ++ post ∧
      (∀ x ∈ pre, Hash x ≠ k) ∧ (∀ x ∈ mid, Hash x = k) ∧ (∀ x ∈ post, Hash x ≠ k) := by
  induction m using HAMT.induct with
  | step m ih =>
    intro shift h hd hbound hagree
    have hi := chunk_lt k shift
    by_cases hb : m.bmap.testBit (chunk k shift) = true
    · obtain ⟨e, hs, hg⟩ := slot_isSome h.len_eq hi hb
      have hsub : ∀ w ∈ e.elements, w ∈ m.elements := fun w hw => slot_elements_subset hs hw
      have hag2 : ∀ x ∈ e.elements,
          Hash x % 2 ^ (shift + hamtBits) = k % 2 ^ (shift + hamtBits) :=
        fun x hx => agree_step (hagree x (hsub x hx)) (h.path hi hs hx)
      have hed : e.Deep (shift + hamtBits) :=
        (DeepOf_iff _ _).mp ((HAMT.Deep_iff m shift).mp hd) e (List.getElem?_mem hg)
      have hx : ∃ pre mid post, e.elements = pre ++ mid ++ post ∧
          (∀ x ∈ pre, Hash x ≠ k) ∧ (∀ x ∈ mid, Hash x = k) ∧ (∀ x ∈ post, Hash x ≠ k) := by
        cases e with
        | hamt c =>
          rw [Entry.elements_hamt]
          rw [Entry.Deep_hamt] at hed
          exact ih c (slot_mem hs) (shift + hamtBits) (h.entry hi hs) hed
            (fun x hx => hbound x (hsub x (by simpa [Entry.elements_hamt] using hx)))
            (fun x hx => hag2 x (by simpa [Entry.elements_hamt] using hx))
        | collision c =>
          rw [Entry.Deep_collision] at hed
          rw [Entry.elements_collision] at hag2 hsub ⊢
          have hp : 2 ^ 64 ≤ 2 ^ (shift + hamtBits) := Nat.pow_le_pow_right (by norm_num) hed
          have hall : ∀ x ∈ c, Hash x = k % 2 ^ (shift + hamtBits) := by
            intro x hx
            have := hag2 x hx
            rwa [Nat.mod_eq_of_lt (Nat.lt_of_lt_of_le (hbound x (hsub x hx)) hp)] at this
          by_cases hk : k % 2 ^ (shift + hamtBits) = k
          · exact ⟨[], c, [], by simp, by simp, fun x hx => by rw [hall x hx, hk], by simp⟩
          · exact ⟨c, [], [], by simp, fun x hx => by rw [hall x hx]; exact hk, by simp,
              by simp⟩
        | value y =>
          rw [Entry.elements_value]
          by_cases hy : Hash y = k
          · exact ⟨[], [y], [], by simp, by simp, by simpa using hy, by simp⟩
          · exact ⟨[y], [], [], by simp, by simpa using hy, by simp, by simp⟩
      obtain ⟨pre, mid, post, h1, h2, h3, h4⟩ := hx
      refine ⟨elementsOf (m.entries.take (rank m.bmap (chunk k shift))) ++ pre, mid,
        post ++ elementsOf (m.entries.drop (rank m.bmap (chunk k shift) + 1)), ?_, ?_, h3, ?_⟩
      · rw [HAMT.elements_eq, elementsOf_split hg, h1]
        simp
      · intro x hx
        rcases List.mem_append.mp hx with h5 | h5
        · intro hxk
          exact chunk_ne_of_mem_take h h5 (by rw [hxk])
        · exact h2 x h5
      · intro x hx
        rcases List.mem_append.mp hx with h5 | h5
        · exact h4 x h5
        · intro hxk
          exact chunk_ne_of_mem_drop_succ h h5 (by rw [hxk])
    · refine ⟨m.elements, [], [], by simp, ?_, by simp, by simp⟩
      intro x hx hxk
      exact chunk_ne_of_clear h (by simpa using hb) hx (by rw [hxk])

end Contiguous

/-! ## Claim C12: insertion order within collisions -/

section CollisionOrder
variable {α : Type} [Value α]

/-- Adding the elements of a list to `EmptySet` builds a trie by insertion. -/
theorem Built_foldl_Add (vs : List α) : Built vs (vs.foldl Set.Add EmptySet).m := by
  induction vs using List.reverseRecOn with
  | nil => exact Built.empty
  | append_singleton vs v ih =>
    rw [List.foldl_append, List.foldl_cons, List.foldl_nil]
    exact Built.insert vs _ v _ ih

/-- C12 (insertion order within collisions).  For every trie `t` built from
the empty trie by inserting the pairwise non-equal elements `vs` (in this
order; hashes are 64-bit words) and every hash key `k`: the sequence of
elements `Range` visits is `pre`, then the elements of `vs` whose hash is `k`
in the order of their insertion, then `post`, where no element of `pre` or
`post` has hash `k`.  So the elements sharing one hash key are visited
consecutively and in insertion order.  The same holds of the set obtained
from `EmptySet` by `Add` of the elements of `vs`. -/
theorem C12_collision_insertion_order (vs : List α) (t : HAMT α) (hb : Built vs t)
    (hne : vs.Pairwise (fun a b => Equal a b = false))
    (hbound : ∀ v ∈ vs, Hash v < 2 ^ 64) (k : Nat) :
    (∃ pre post,
      (Range t collect []).1 = pre ++ vs.filter (fun w => decide (Hash w = k)) ++ post ∧
      (∀ x ∈ pre, Hash x ≠ k) ∧ (∀ x ∈ post, Hash x ≠ k)) ∧
    (∃ pre post,
      (vs.foldl Set.Add EmptySet).Range collect [] =
        pre ++ vs.filter (fun w => decide (Hash w = k)) ++ post ∧
      (∀ x ∈ pre, Hash x ≠ k) ∧ (∀ x ∈ post, Hash x ≠ k)) := by
  have key : ∀ t : HAMT α, Built vs t → ∃ pre post,
      (Range t collect []).1 = pre ++ vs.filter (fun w => decide (Hash w = k)) ++ post ∧
      (∀ x ∈ pre, Hash x ≠ k) ∧ (∀ x ∈ post, Hash x ≠ k) := by
    intro t hb
    obtain ⟨h1, h2, h3⟩ := hb.order hne
    obtain ⟨pre, mid, post, e1, e2, e3, e4⟩ := contiguous_aux k t 0 h1 hb.deep
      (fun x hx => hbound x (h2 x hx)) (fun x _ => by simp [Nat.mod_one])
    have hmid := filter_of_split e1 e2 e3 e4
    rw [h3 k] at hmid
    refine ⟨pre, post, ?_, e2, e4⟩
    rw [Range_collect, hmid]
    exact e1
  exact ⟨key t hb, key _ (Built_foldl_Add vs)⟩

end CollisionOrder

section CollisionOrderWitness

theorem sample_built :
    Built [sampleA, sampleC, sampleD]
      (Insert (Insert (Insert EmptyHAMT 0 (Hash sampleA) sampleA 1).1
        0 (Hash sampleC) sampleC 2).1 0 (Hash sampleD) sampleD 3).1 :=
  Built.insert [sampleA, sampleC] _ sampleD 3
    (Built.insert [sampleA] _ sampleC 2 (Built.insert [] _ sampleA 1 Built.empty))

theorem sample_built_range :
    (Range (Insert (Insert (Insert EmptyHAMT 0 (Hash sampleA) sampleA 1).1
        0 (Hash sampleC) sampleC 2).1 0 (Hash sampleD) sampleD 3).1 collect []).1 =
      [sampleA, sampleC, sampleD] := by
  simp only [Insert_eval]
  rfl

/-- Witness of C12: `sampleA`, `sampleC` (same hash 7) and `sampleD` inserted
in this order are pairwise non-equal with 64-bit hashes; `Range` visits
`sampleA`, `sampleC`, `sampleD`, and the elements of hash 7 are visited side
by side in insertion order. -/
theorem C12_witness :
    [sampleA, sampleC, sampleD].Pairwise (fun a b => Equal a b = false) ∧
    (∀ v ∈ [sampleA, sampleC, sampleD], Hash v < 2 ^ 64) ∧
    (Range (Insert (Insert (Insert EmptyHAMT 0 (Hash sampleA) sampleA 1).1
        0 (Hash sampleC) sampleC 2).1 0 (Hash sampleD) sampleD 3).1 collect []).1 =
      [sampleA, sampleC, sampleD] ∧
    ∃ pre post,
      (Range (Insert (Insert (Insert EmptyHAMT 0 (Hash sampleA) sampleA 1).1
        0 (Hash sampleC) sampleC 2).1 0 (Hash sampleD) sampleD 3).1 collect []).1 =
        pre ++ [sampleA, sampleC, sampleD].filter (fun w => decide (Hash w = 7)) ++ post ∧
      (∀ x ∈ pre, Hash x ≠ 7) ∧ (∀ x ∈ post, Hash x ≠ 7) :=
  have hp : [sampleA, sampleC, sampleD].Pairwise (fun a b => Equal a b = false) := by decide
  have hb : ∀ v ∈ [sampleA, sampleC, sampleD], Hash v < 2 ^ 64 := by decide
  ⟨hp, hb, sample_built_range,
    (C12_collision_insertion_order [sampleA, sampleC, sampleD] _ sample_built hp hb 7).1⟩

end CollisionOrderWitness

/-! ## Claim C25: the bucket insert rule -/

section BucketInsert
variable {α : Type} [Value α]

theorem findIdx_lt_iff_exists (c : List α) (v : α) :
    c.findIdx (fun x => Equal x v) < c.length ↔ ∃ x ∈ c, Equal x v = true := by
  rw [List.findIdx_lt_length]

/-- When an element of the bucket equals `v`, `withValue` writes `v` over the
first such element and decrements the counter. -/
theorem withValue_found (c : List α) (v : α) (n : Int)
    (h : c.findIdx (fun x => Equal x v) < c.length) :
    withValue c v n = (c.set (c.findIdx (fun x => Equal x v)) v, n - 1) := by
  unfold withValue
  simp only
  rw [if_pos h]

/-- When no element of the bucket equals `v`, `withValue` appends `v`. -/
theorem withValue_not_found (c : List α) (v : α) (n : Int)
    (h : ¬ c.findIdx (fun x => Equal x v) < c.length) :
    withValue c v n = (c ++ [v], n) := by
  unfold withValue
  simp only
  rw [if_neg h]

/-- C25 (bucket insert rule).  For every bucket `c1`, element `v` and counter
value `n`, with `i` the index `withValue` stops at: if some element of `c1`
equals `v`, then `i` is the position of the first such element, the result has
the length of `c1`, holds `v` at position `i` and the elements of `c1` at every
other position, and the counter is `n - 1`; otherwise the result is `c1` with
`v` appended and the counter is `n`.  On the store, `withValue` writes to a
newly allocated array only: the array of `c1` is read back unchanged. -/
theorem C25_bucket_insert_rule (c1 : List α) (v : α) (n : Int) :
    ((∃ x ∈ c1, Equal x v = true) →
      c1.findIdx (fun x => Equal x v) < c1.length ∧
      (∃ x, c1[c1.findIdx (fun x => Equal x v)]? = some x ∧ Equal x v = true) ∧
      (∀ j < c1.findIdx (fun x => Equal x v), ∀ y, c1[j]? = some y → Equal y v = false) ∧
      (withValue c1 v n).1.length = c1.length ∧
      (withValue c1 v n).1[c1.findIdx (fun x => Equal x v)]? = some v ∧
      (∀ j, j ≠ c1.findIdx (fun x => Equal x v) → (withValue c1 v n).1[j]? = c1[j]?) ∧
      (withValue c1 v n).2 = n - 1) ∧
    ((∀ x ∈ c1, Equal x v = false) → withValue c1 v n = (c1 ++ [v], n)) ∧
    (∀ (h h2 : Store α) (p1 p2 : Nat) (n2 : Int), h.bucket p1 = some c1 →
      h.withValue p1 v n = some (h2, p2, n2) →
      h2.bucket p1 = some c1 ∧ p2 = h.length ∧ h2.bucket p2 = some (withValue c1 v n).1 ∧
        n2 = (withValue c1 v n).2) := by
  refine ⟨fun hex => ?_, fun hall => ?_, fun h h2 p1 p2 n2 hb hw => ?_⟩
  · have hlt := (findIdx_lt_iff_exists c1 v).mpr hex
    rw [withValue_found c1 v n hlt]
    refine ⟨hlt, ⟨c1[c1.findIdx (fun x => Equal x v)], ?_, ?_⟩, fun j hj y hy => ?_, ?_, ?_,
      fun j hj => ?_, rfl⟩
    · exact List.getElem?_eq_getElem hlt
    · exact List.findIdx_getElem (w := hlt)
    · have hjl : j < c1.length := Nat.lt_trans hj hlt
      rw [List.getElem?_eq_getElem hjl] at hy
      injection hy with hy
      have := List.not_of_lt_findIdx hj
      rw [hy] at this
      simpa using this
    · simp
    · simp [hlt]
    · simp only
      rw [List.getElem?_set_ne (Ne.symm hj)]
  · apply withValue_not_found
    intro hlt
    obtain ⟨x, hx, hxv⟩ := (findIdx_lt_iff_exists c1 v).mp hlt
    rw [hall x hx] at hxv
    cases hxv
  · unfold Store.withValue at hw
    rw [hb] at hw
    simp only [Store.alloc, Option.some.injEq, Prod.mk.injEq] at hw
    obtain ⟨h1, h3, h4⟩ := hw
    subst h1 h3 h4
    have hc1 : p1 < h.length := by
      unfold Store.bucket at hb
      rcases Nat.lt_or_ge p1 h.length with hl | hl
      · exact hl
      · rw [List.getElem?_eq_none hl] at hb; cases hb
    refine ⟨?_, rfl, ?_, rfl⟩
    · unfold Store.bucket at hb ⊢
      rw [List.getElem?_append_left hc1]
      exact hb
    · unfold Store.bucket
      rw [List.getElem?_append_right (Nat.le_refl _)]
      simp

end BucketInsert

/-! ## Branch synthesis: the chain of bridging nodes -/

section BridgeLaws
variable {α : Type}

theorem bridge_zero (key shift : Nat) (x : Entry α) : bridge key 0 shift x = x := rfl

theorem bridge_succ (key k shift : Nat) (x : Entry α) :
    bridge key (k + 1) shift x =
      .hamt (.mk (1 <<< chunk key shift) [bridge key k (shift + hamtBits) x]) := rfl

/-- While the chunks of the two keys agree below the word size,
`makeHamtBranch` builds one single-slot node per level. -/
theorem makeHamtBranch_bridge (key1 key2 : Nat) (v1 v2 : α) : ∀ (k shift : Nat),
    (∀ j < k, chunk key1 (shift + j * hamtBits) = chunk key2 (shift + j * hamtBits)) →
    (∀ j < k, shift + j * hamtBits < 64) →
    makeHamtBranch shift key1 key2 v1 v2 =
      bridge key1 k shift (makeHamtBranch (shift + k * hamtBits) key1 key2 v1 v2) := by
  intro k
  induction k with
  | zero => intro shift _ _; simp [bridge_zero]
  | succ k ih =>
    intro shift hag hlt
    have h0 := hag 0 (by omega)
    have l0 := hlt 0 (by omega)
    simp only [Nat.zero_mul, Nat.add_zero] at h0 l0
    rw [makeHamtBranch_eq, if_pos h0, if_neg (by omega), bridge_succ]
    rw [ih (shift + hamtBits)
      (fun j hj => by
        have := hag (j + 1) (by omega)
        rwa [Nat.add_mul, Nat.one_mul, Nat.add_comm (j * hamtBits), ← Nat.add_assoc] at this)
      (fun j hj => by
        have := hlt (j + 1) (by omega)
        rwa [Nat.add_mul, Nat.one_mul, Nat.add_comm (j * hamtBits), ← Nat.add_assoc] at this)]
    rw [Nat.add_mul, Nat.one_mul, Nat.add_comm (k * hamtBits), ← Nat.add_assoc]

/-- The chunk of a 64-bit key at a level past the word size is 0. -/
theorem chunk_eq_zero_of_lt {key s : Nat} (hk : key < 2 ^ 64) (hs : 64 ≤ s) :
    chunk key s = 0 := by
  rw [chunk_eq_div_mod]
  have hp : 2 ^ 64 ≤ 2 ^ s := Nat.pow_le_pow_right (by norm_num) hs
  rw [Nat.div_eq_of_lt (Nat.lt_of_lt_of_le hk hp)]

/-- The number of levels from `shift` on that lie below the word size. -/
theorem levels_below (shift j : Nat) :
    j < (64 - shift + 5) / 6 ↔ shift + j * hamtBits < 64 := by
  have h6 : hamtBits = 6 := by decide
  rw [h6, Nat.lt_iff_add_one_le, Nat.le_div_iff_mul_le (by norm_num)]
  omega

theorem testBit_pair (i1 i2 j : Nat) :
    ((1 <<< i1) ||| (1 <<< i2)).testBit j = true ↔ j = i1 ∨ j = i2 := by
  rw [Nat.testBit_or, testBit_bit, testBit_bit]
  simp only [Bool.or_eq_true, decide_eq_true_eq]
  constructor
  · rintro (h | h)
    · exact Or.inl h.symm
    · exact Or.inr h.symm
  · rintro (h | h)
    · exact Or.inl h.symm
    · exact Or.inr h.symm

end BridgeLaws

section BridgeLookup
variable {α : Type} [Value α]

/-- `Lookup` passes through a chain of bridging nodes built for a key that
has the chunks of the probe key at the levels of the chain. -/
theorem lookupEntry_bridge (key1 key : Nat) (p : α) (x : Entry α) : ∀ (k shift : Nat),
    (∀ j < k, chunk key (shift + j * hamtBits) = chunk key1 (shift + j * hamtBits)) →
    lookupEntry (bridge key1 k shift x) shift key p =
      lookupEntry x (shift + k * hamtBits) key p := by
  intro k
  induction k with
  | zero => intro shift _; simp [bridge_zero]
  | succ k ih =>
    intro shift hag
    have h0 := hag 0 (by omega)
    simp only [Nat.zero_mul, Nat.add_zero] at h0
    rw [bridge_succ, lookupEntry_single (chunk_lt _ _), if_pos h0]
    rw [ih (shift + hamtBits)
      (fun j hj => by
        have := hag (j + 1) (by omega)
        rwa [Nat.add_mul, Nat.one_mul, Nat.add_comm (j * hamtBits), ← Nat.add_assoc] at this)]
    rw [Nat.add_mul, Nat.one_mul, Nat.add_comm (k * hamtBits), ← Nat.add_assoc]

end BridgeLookup

/-! ## Claims C26 and C27: branch synthesis -/

section BranchClaims
variable {α : Type} [Value α]

/-- C26 (branch synthesis for diverging keys).  For 64-bit keys `key1`, `key2`
whose chunks agree at the `k` levels `shift`, `shift + hamtBits`, and so on,
and differ at the next level `shift + k * hamtBits`: that level, and so
`shift`, is below the key width; `makeHamtBranch(shift, key1, key2, v1, v2)`
is a chain of exactly `k` single-slot nodes, the bitmap of each being the bit
of the shared chunk at its level, that ends in a two-slot node; the bitmap of
that node has exactly the bits of the two differing chunks set, and its slots
hold `v1` and `v2` in ascending order of these chunks; and `Lookup`, entering
the branch at level `shift`, finds `v1` under `key1` and `v2` under `key2`. -/
theorem C26_branch_diverging (shift key1 key2 k : Nat) (v1 v2 : α)
    (hk1 : key1 < 2 ^ 64) (hk2 : key2 < 2 ^ 64)
    (hagree : ∀ j < k, chunk key1 (shift + j * hamtBits) = chunk key2 (shift + j * hamtBits))
    (hdiff : chunk key1 (shift + k * hamtBits) ≠ chunk key2 (shift + k * hamtBits)) :
    shift + k * hamtBits < 64 ∧
    makeHamtBranch shift key1 key2 v1 v2 =
      bridge key1 k shift
        (.hamt (.mk ((1 <<< chunk key1 (shift + k * hamtBits)) |||
            (1 <<< chunk key2 (shift + k * hamtBits)))
          (if chunk key1 (shift + k * hamtBits) < chunk key2 (shift + k * hamtBits)
            then [.value v1, .value v2] else [.value v2, .value v1]))) ∧
    (∀ j, ((1 <<< chunk key1 (shift + k * hamtBits)) |||
        (1 <<< chunk key2 (shift + k * hamtBits))).testBit j = true ↔
      j = chunk key1 (shift + k * hamtBits) ∨ j = chunk key2 (shift + k * hamtBits)) ∧
    (Equal v1 v1 = true →
      lookupEntry (makeHamtBranch shift key1 key2 v1 v2) shift key1 v1 = some v1) ∧
    (Equal v2 v2 = true →
      lookupEntry (makeHamtBranch shift key1 key2 v1 v2) shift key2 v2 = some v2) := by
  have hd : shift + k * hamtBits < 64 := by
    by_contra hge
    have hge : 64 ≤ shift + k * hamtBits := by omega
    exact hdiff (by rw [chunk_eq_zero_of_lt hk1 hge, chunk_eq_zero_of_lt hk2 hge])
  have hlt : ∀ j < k, shift + j * hamtBits < 64 := by
    intro j hj
    have : j * hamtBits ≤ k * hamtBits := Nat.mul_le_mul_right _ (Nat.le_of_lt hj)
    omega
  have heq := makeHamtBranch_bridge key1 key2 v1 v2 k shift hagree hlt
  rw [makeHamtBranch_eq (shift + k * hamtBits), if_neg hdiff] at heq
  refine ⟨hd, heq, fun j => testBit_pair _ _ j, fun h1 => ?_, fun h2 => ?_⟩
  · rw [heq, lookupEntry_bridge key1 key1 v1 _ k shift (fun _ _ => rfl),
      lookupEntry_pair (chunk_lt _ _) (chunk_lt _ _) hdiff, if_neg hdiff, if_pos rfl, if_pos h1]
  · rw [heq, lookupEntry_bridge key1 key2 v2 _ k shift (fun j hj => (hagree j hj).symm),
      lookupEntry_pair (chunk_lt _ _) (chunk_lt _ _) hdiff, if_pos rfl, if_pos h2]

/-- Witness of C26: the keys 1 and `1 + 2 ^ 12` agree at level 6 and differ at
level 12, so the branch built at level 6 is one bridging node above a two-slot
node. -/
theorem C26_witness :
    makeHamtBranch 6 1 (1 + 2 ^ 12) sampleA sampleD =
      .hamt (.mk 1 [.hamt (.mk 3 [.value sampleA, .value sampleD])]) ∧
    lookupEntry (makeHamtBranch 6 1 (1 + 2 ^ 12) sampleA sampleD) 6 (1 + 2 ^ 12) sampleD =
      some sampleD := by
  have h := C26_branch_diverging 6 1 (1 + 2 ^ 12) 1 sampleA sampleD (by norm_num) (by norm_num)
    (by decide) (by decide)
  exact ⟨h.2.1, h.2.2.2.2 (by decide)⟩

end BranchClaims

section BranchClaims2
variable {α : Type}

/-- C27 (branch synthesis for full collisions).  `makeHamtBranch` returns on
every input, within 12 evaluations of the condition of its loop.  When the chunks of
`key1` and `key2` agree at every level from `shift` up to the first one at or
past the key width, which is the case when `key1 == key2`, the result is the
bucket `[v1, v2]` inside one single-slot node for each level from `shift` on
that is below the key width, the bitmap of each being the bit of the shared
chunk; it is the bare bucket when `shift` is at or past the key width. -/
theorem C27_branch_collision (shift key1 key2 : Nat) (v1 v2 : α) :
    makeHamtBranchN 12 shift key1 key2 v1 v2 = makeHamtBranch shift key1 key2 v1 v2 ∧
    (∀ j, j < (64 - shift + 5) / 6 ↔ shift + j * hamtBits < 64) ∧
    ((∀ j ≤ (64 - shift + 5) / 6,
        chunk key1 (shift + j * hamtBits) = chunk key2 (shift + j * hamtBits)) →
      makeHamtBranch shift key1 key2 v1 v2 =
        bridge key1 ((64 - shift + 5) / 6) shift (.collision [v1, v2])) ∧
    makeHamtBranch shift key1 key1 v1 v2 =
      bridge key1 ((64 - shift + 5) / 6) shift (.collision [v1, v2]) ∧
    (64 ≤ shift → chunk key1 shift = chunk key2 shift →
      makeHamtBranch shift key1 key2 v1 v2 = .collision [v1, v2]) := by
  have hmain : ∀ key2 : Nat, (∀ j ≤ (64 - shift + 5) / 6,
        chunk key1 (shift + j * hamtBits) = chunk key2 (shift + j * hamtBits)) →
      makeHamtBranch shift key1 key2 v1 v2 =
        bridge key1 ((64 - shift + 5) / 6) shift (.collision [v1, v2]) := by
    intro key2 hag
    rw [makeHamtBranch_bridge key1 key2 v1 v2 ((64 - shift + 5) / 6) shift
      (fun j hj => hag j (Nat.le_of_lt hj)) (fun j hj => (levels_below shift j).mp hj)]
    have hge : ¬ shift + (64 - shift + 5) / 6 * hamtBits < 64 := fun h =>
      Nat.lt_irrefl _ ((levels_below shift _).mpr h)
    rw [makeHamtBranch_eq, if_pos (hag _ (Nat.le_refl _)), if_pos (by omega)]
  refine ⟨(makeHamtBranch_eval shift key1 key2 v1 v2).symm, levels_below shift, hmain key2,
    hmain key1 (fun _ _ => rfl), fun hs hc => ?_⟩
  rw [makeHamtBranch_eq, if_pos hc, if_pos hs]

end BranchClaims2

/-! ## Buckets and child nodes of a trie -/

section ShapeLaws
variable {α : Type}

theorem HAMT.buckets_eq (m : HAMT α) : m.buckets = bucketsOf m.entries := by
  cases m; rw [HAMT.buckets]; rfl

theorem mem_bucketsOf {es : List (Entry α)} {c : List α} :
    c ∈ bucketsOf es ↔ ∃ e ∈ es, c ∈ e.buckets := by
  induction es with
  | nil => simp [bucketsOf]
  | cons e es ih => simp [bucketsOf, ih]

theorem Entry.buckets_value (v : α) : (Entry.value v).buckets = [] := by
  rw [Entry.buckets]

theorem Entry.buckets_collision (c : List α) : (Entry.collision c).buckets = [c] := by
  rw [Entry.buckets]

theorem Entry.buckets_hamt (m : HAMT α) : (Entry.hamt m).buckets = m.buckets := by
  rw [Entry.buckets]

theorem HAMT.subnodes_eq (m : HAMT α) : m.subnodes = subnodesOf m.entries := by
  cases m; rw [HAMT.subnodes]; rfl

theorem mem_subnodesOf {es : List (Entry α)} {c : HAMT α} :
    c ∈ subnodesOf es ↔ ∃ e ∈ es, c ∈ e.subnodes := by
  induction es with
  | nil => simp [subnodesOf]
  | cons e es ih => simp [subnodesOf, ih]

theorem Entry.subnodes_value (v : α) : (Entry.value v).subnodes = [] := by
  rw [Entry.subnodes]

theorem Entry.subnodes_collision (c : List α) : (Entry.collision c).subnodes = [] := by
  rw [Entry.subnodes]

theorem Entry.subnodes_hamt (m : HAMT α) : (Entry.hamt m).subnodes = m :: m.subnodes := by
  rw [Entry.subnodes]

/-- In a full trie every bucket holds two elements or more. -/
theorem HAMT.Full.bucket_length (m : HAMT α) : m.Full → ∀ c ∈ m.buckets, 2 ≤ c.length := by
  induction m using HAMT.induct with
  | step m ih =>
    intro h c hc
    rw [HAMT.buckets_eq] at hc
    obtain ⟨e, he, hce⟩ := mem_bucketsOf.mp hc
    have hf := (FullOf_iff _).mp ((HAMT.Full_iff m).mp h) e he
    cases e with
    | value v => rw [Entry.buckets_value] at hce; cases hce
    | collision c1 =>
      rw [Entry.buckets_collision] at hce
      rw [Entry.Full_collision] at hf
      have : c = c1 := by simpa using hce
      rw [this]; exact hf
    | hamt c1 =>
      rw [Entry.buckets_hamt] at hce
      rw [Entry.Full_hamt] at hf
      exact ih c1 he hf.2 c hce

/-- In a full trie every node below the root holds two elements or more, and
is full. -/
theorem HAMT.Full.subnode (m : HAMT α) : m.Full →
    ∀ c ∈ m.subnodes, 2 ≤ c.elements.length ∧ c.Full := by
  induction m using HAMT.induct with
  | step m ih =>
    intro h c hc
    rw [HAMT.subnodes_eq] at hc
    obtain ⟨e, he, hce⟩ := mem_subnodesOf.mp hc
    have hf := (FullOf_iff _).mp ((HAMT.Full_iff m).mp h) e he
    cases e with
    | value v => rw [Entry.subnodes_value] at hce; cases hce
    | collision c1 => rw [Entry.subnodes_collision] at hce; cases hce
    | hamt c1 =>
      rw [Entry.subnodes_hamt] at hce
      rw [Entry.Full_hamt] at hf
      rcases List.mem_cons.mp hce with h1 | h1
      · rw [h1]; exact hf
      · exact ih c1 he hf.2 c h1

end ShapeLaws

section BucketInv
variable {α : Type} [Value α]

/-- Under the invariant the elements of every bucket are pairwise not
equal. -/
theorem Inv.bucket_pairwise (m : HAMT α) : ∀ shift, Inv shift m →
    ∀ c ∈ m.buckets, c.Pairwise (fun a b => Equal a b = false) := by
  induction m using HAMT.induct with
  | step m ih =>
    intro shift h c hc
    rw [HAMT.buckets_eq] at hc
    obtain ⟨e, he, hce⟩ := mem_bucketsOf.mp hc
    obtain ⟨i, hi, hs⟩ := exists_slot_of_mem h.hlen he
    have hinv := h.entryInv hi hs
    cases e with
    | value v => rw [Entry.buckets_value] at hce; cases hce
    | collision c1 =>
      rw [Entry.buckets_collision] at hce
      have : c = c1 := by simpa using hce
      rw [this]; exact hinv
    | hamt c1 =>
      rw [Entry.buckets_hamt] at hce
      exact ih c1 he _ hinv c hce

/-- What `remove` does at a bucket from which it removes an element and in
which one element is left: the slot gets that element, bare, and
`*hasCollision` is not set. -/
theorem remove_bucket_to_value {m : HAMT α} {shift key : Nat} {v x : α} {c : List α}
    (hc : Bool) (hb : m.bmap.testBit (chunk key shift) = true)
    (hg : m.entries[rank m.bmap (chunk key shift)]? = some (.collision c))
    (hw : withoutValue c v = ([x], true)) :
    remove m shift key v hc =
      (some (.mk m.bmap (m.entries.set (rank m.bmap (chunk key shift)) (.value x))), hc) := by
  rw [remove_eq, if_pos hb, hg]
  simp only [removeEntry, hw]

/-- What `remove` does at a bucket from which it removes an element and in
which two or more elements are left: the slot gets the shorter bucket and
`*hasCollision` is set. -/
theorem remove_bucket_to_bucket {m : HAMT α} {shift key : Nat} {v : α} {c c2 : List α}
    (hc : Bool) (hb : m.bmap.testBit (chunk key shift) = true)
    (hg : m.entries[rank m.bmap (chunk key shift)]? = some (.collision c))
    (hw : withoutValue c v = (c2, true)) (hl : c2.length ≠ 1) :
    remove m shift key v hc =
      (some (.mk m.bmap (m.entries.set (rank m.bmap (chunk key shift)) (.collision c2))),
        true) := by
  rw [remove_eq, if_pos hb, hg]
  simp only [removeEntry, hw]
  rcases c2 with _ | ⟨y, _ | ⟨z, rest⟩⟩
  · rfl
  · simp at hl
  · rfl

end BucketInv

/-! ## Claim C21: length of collision buckets -/

section BucketLength
variable {α : Type} [Value α] [Contract α]

/-- C21 (collision bucket length).  In every trie reachable from the empty
trie by `Insert` and `Remove`, every collision bucket holds at least 2
elements, and its elements are pairwise not equal.  When `remove` takes an
element out of a bucket and one element is left, the slot of the bucket gets
that element, bare; in particular so for every bucket of two elements; and
when two or more are left, the slot gets the shorter bucket. -/
theorem C21_bucket_length (t : HAMT α) (ht : Reachable t) :
    (∀ c ∈ t.buckets, 2 ≤ c.length ∧ c.Pairwise (fun a b => Equal a b = false)) ∧
    (∀ (m : HAMT α) (shift key : Nat) (v x : α) (c1 : List α) (hc : Bool),
      m.bmap.testBit (chunk key shift) = true →
      m.entries[rank m.bmap (chunk key shift)]? = some (.collision c1) →
      withoutValue c1 v = ([x], true) →
      remove m shift key v hc =
        (some (.mk m.bmap (m.entries.set (rank m.bmap (chunk key shift)) (.value x))), hc)) ∧
    (∀ (a b v : α), Equal a v = true → withoutValue [a, b] v = ([b], true)) ∧
    (∀ (a b v : α), Equal a v = false → Equal b v = true →
      withoutValue [a, b] v = ([a], true)) ∧
    (∀ (m : HAMT α) (shift key : Nat) (v : α) (c1 c2 : List α) (hc : Bool),
      m.bmap.testBit (chunk key shift) = true →
      m.entries[rank m.bmap (chunk key shift)]? = some (.collision c1) →
      withoutValue c1 v = (c2, true) → 2 ≤ c2.length →
      remove m shift key v hc =
        (some (.mk m.bmap (m.entries.set (rank m.bmap (chunk key shift)) (.collision c2))),
          true)) := by
  refine ⟨fun c hc => ⟨HAMT.Full.bucket_length t ht.full c hc,
      Inv.bucket_pairwise t 0 ht.inv c hc⟩,
    fun m shift key v x c1 hc hb hg hw => remove_bucket_to_value hc hb hg hw,
    fun a b v h => ?_, fun a b v h1 h2 => ?_,
    fun m shift key v c1 c2 hc hb hg hw hl =>
      remove_bucket_to_bucket hc hb hg hw (by omega)⟩
  · rw [withoutValue_cons, if_pos h]
  · rw [withoutValue_cons, if_neg (by rw [h1]; simp), withoutValue_cons, if_pos h2]

end BucketLength

section BucketLengthWitness

theorem sampleAC_eq : sampleAC = .mk 128 [bridge 7 10 6 (.collision [sampleA, sampleC])] := by
  rw [sampleAC, sampleT_eq, Insert_eval]
  rfl

theorem sampleAC_reachable : Reachable sampleAC :=
  Reachable.insert sampleT sampleC 2 sampleT_reachable

/-- Witness of C21: the reachable trie holding `sampleA` and `sampleC`, which
have the same hash, has one bucket, of two elements; removing `sampleA` leaves
`sampleC` bare in the only slot of the root. -/
theorem C21_witness :
    Reachable sampleAC ∧ sampleAC.buckets = [[sampleA, sampleC]] ∧
    (∀ c ∈ sampleAC.buckets, 2 ≤ c.length ∧ c.Pairwise (fun a b => Equal a b = false)) ∧
    Remove sampleAC (Hash sampleA) sampleA = .mk 128 [.value sampleC] :=
  ⟨sampleAC_reachable, by rw [sampleAC_eq]; rfl,
    (C21_bucket_length sampleAC sampleAC_reachable).1,
    by rw [sampleAC_eq]; simp only [Remove_eq, remove_eval]; rfl⟩

end BucketLengthWitness

/-! ## Claim C24: path collapse keeps the trie minimal -/

section Minimal
variable {α : Type} [Value α]

/-- C24 (path collapse keeps the trie minimal).  In every trie reachable from
the empty trie by `Insert` and `Remove`, every node other than the root holds
at least two elements, so none has exactly one slot holding a bare element;
and a reachable trie that holds a single element, in particular one left by
`Remove`, is a root whose only slot holds that element directly, with no node
below it. -/
theorem C24_path_collapse_minimal (t : HAMT α) (ht : Reachable t) :
    (∀ c ∈ t.subnodes, 2 ≤ c.elements.length ∧ ∀ e, c.entries ≠ [.value e]) ∧
    (∀ e, t.elements = [e] → t.entries = [.value e] ∧ t.subnodes = [] ∧ t.depth = 1) ∧
    (∀ v e, (Remove t (Hash v) v).elements = [e] →
      (Remove t (Hash v) v).entries = [.value e] ∧ (Remove t (Hash v) v).subnodes = []) := by
  have hsole : ∀ u : HAMT α, Reachable u → ∀ e, u.elements = [e] →
      u.entries = [.value e] ∧ u.subnodes = [] ∧ u.depth = 1 := by
    intro u hu e he
    have h1 := hu.full.sole he
    refine ⟨h1, ?_, ?_⟩
    · rw [HAMT.subnodes_eq, h1]; simp [subnodesOf, Entry.subnodes_value]
    · cases u with
      | mk b es =>
        have h2 : es = [.value e] := h1
        rw [h2]
        simp [HAMT.depth, depthOf, Entry.depth]
  refine ⟨fun c hc => ?_, hsole t ht, fun v e he => ?_⟩
  · have h2 := (HAMT.Full.subnode t ht.full c hc).1
    refine ⟨h2, fun e he => ?_⟩
    rw [elements_of_sole he, Entry.elements_value] at h2
    simp at h2
  · have := hsole _ (Reachable.remove t v ht) e he
    exact ⟨this.1, this.2.1⟩

end Minimal

section MinimalWitness

theorem deepSet_eq : deepSet =
    ⟨7, .mk 2 [.hamt (.mk 6 [.value (newValue "1/1" [1, 1]),
      .hamt (.mk 2 [.hamt (.mk 6 [
        .hamt (.mk 2 [.hamt (.mk 14 [.value (newValue "1/2/1/1/1/1" [1, 2, 1, 1, 1, 1]),
          .value (newValue "1/2/1/1/1/2" [1, 2, 1, 1, 1, 2]),
          .value (newValue "1/2/1/1/1/3" [1, 2, 1, 1, 1, 3])])]),
        .hamt (.mk 2 [.hamt (.mk 14 [.value (newValue "1/2/1/2/1/1" [1, 2, 1, 2, 1, 1]),
          .value (newValue "1/2/1/2/1/2" [1, 2, 1, 2, 1, 2]),
          .value (newValue "1/2/1/2/1/3" [1, 2, 1, 2, 1, 3])])])])])])]⟩ := by
  simp only [deepSet, Set.Add, Insert_eval]
  rfl

theorem deepTwo_eq : deepTwo =
    ⟨2, .mk 2 [.hamt (.mk 6 [.value (newValue "1/1" [1, 1]),
      .value (newValue "1/2/1/2/1/3" [1, 2, 1, 2, 1, 3])])]⟩ := by
  rw [deepTwo, deepSet_eq]
  simp only [Set.Del, remove_eval]
  rfl

theorem deepOne_eq : deepOne = ⟨1, .mk 2 [.value (newValue "1/1" [1, 1])]⟩ := by
  rw [deepOne, deepTwo_eq]
  simp only [Set.Del, remove_eval]
  rfl

theorem deepSet_reachable : Set.Reachable deepSet :=
  Set.Reachable.add _ _ (Set.Reachable.add _ _ (Set.Reachable.add _ _ (Set.Reachable.add _ _
    (Set.Reachable.add _ _ (Set.Reachable.add _ _ (Set.Reachable.add _ _
      Set.Reachable.empty))))))

theorem deepTwo_reachable : Set.Reachable deepTwo :=
  Set.Reachable.del _ _ (Set.Reachable.del _ _ (Set.Reachable.del _ _ (Set.Reachable.del _ _
    (Set.Reachable.del _ _ deepSet_reachable))))

/-- Witness of C24, the scenario of `TestSetDeleteDeepBranches`: after the
seven `Add` the trie has seven nodes below the root; after the first five
`Del` it has one, which holds two elements; after the sixth `Del` the element
of path "1/1" is stored in the only slot of the root. -/
theorem C24_witness :
    Reachable deepTwo.m ∧
    deepSet.m.subnodes.length = 7 ∧
    deepTwo.m.subnodes = [.mk 6 [.value (newValue "1/1" [1, 1]),
      .value (newValue "1/2/1/2/1/3" [1, 2, 1, 2, 1, 3])]] ∧
    Remove deepTwo.m (Hash (newValue "1/2/1/2/1/3" [1, 2, 1, 2, 1, 3]))
      (newValue "1/2/1/2/1/3" [1, 2, 1, 2, 1, 3]) = deepOne.m ∧
    deepOne.m.elements = [newValue "1/1" [1, 1]] ∧
    deepOne.m.entries = [.value (newValue "1/1" [1, 1])] := by
  have hr : Reachable deepTwo.m := deepTwo_reachable.spec.1
  have hrm : Remove deepTwo.m (Hash (newValue "1/2/1/2/1/3" [1, 2, 1, 2, 1, 3]))
      (newValue "1/2/1/2/1/3" [1, 2, 1, 2, 1, 3]) = deepOne.m := by
    rw [deepOne_eq, deepTwo_eq]
    simp only [Remove_eq, remove_eval]
    rfl
  have hel : deepOne.m.elements = [newValue "1/1" [1, 1]] := by rw [deepOne_eq]; rfl
  refine ⟨hr, by rw [deepSet_eq]; rfl, by rw [deepTwo_eq]; rfl, hrm, hel, ?_⟩
  have h := (C24_path_collapse_minimal deepTwo.m hr).2.2
    (newValue "1/2/1/2/1/3" [1, 2, 1, 2, 1, 3]) (newValue "1/1" [1, 1]) (by rw [hrm]; exact hel)
  rw [hrm] at h
  exact h.1

end MinimalWitness

/-! ## Claim C30: traversal completeness -/

section Complete
variable {α : Type} [Value α] [Contract α]

/-- Under the invariant the stored elements are pairwise not equal. -/
theorem Inv.elements_pairwise (m : HAMT α) : ∀ shift, Inv shift m →
    m.elements.Pairwise (fun a b => Equal a b = false) := by
  induction m using HAMT.induct with
  | step m ih =>
    intro shift h
    have hn := Inv.toNodeInv m shift h
    have hsuf : ∀ n r, m.entries.length - r = n →
        (elementsOf (m.entries.drop r)).Pairwise (fun a b => Equal a b = false) := by
      intro n
      induction n with
      | zero =>
        intro r hr
        rw [List.drop_of_length_le (by omega), elementsOf_nil]
        exact List.Pairwise.nil
      | succ n ihn =>
        intro r hr
        have hrl : r < m.entries.length := by omega
        have hg : m.entries[r]? = some m.entries[r] := List.getElem?_eq_getElem hrl
        obtain ⟨k, hk, _, hkr, hs⟩ := exists_bit_of_index h.hlen hg
        rw [List.drop_eq_getElem_cons hrl, elementsOf_cons, List.pairwise_append]
        refine ⟨?_, ihn (r + 1) (by omega), fun a ha b hb => ?_⟩
        · have hinv := h.entryInv hk hs
          rcases he : m.entries[r] with v | c | c
          · rw [Entry.elements_value]; exact List.pairwise_singleton _ _
          · rw [he] at hinv
            rw [Entry.elements_hamt]
            exact ih c (by rw [← he]; exact List.getElem_mem hrl) _ hinv
          · rw [he] at hinv
            rw [Entry.elements_collision]
            exact hinv
        · have h1 := h.hpath hk hs ha
          have h2 : chunk (Hash b) shift ≠ k :=
            chunk_ne_of_mem_drop_succ hn (by rw [hkr]; exact hb)
          by_contra hne
          have heq : Equal a b = true := by simpa using hne
          rw [← Contract.equal_hash a b heq] at h2
          exact h2 h1
    have := hsuf m.entries.length 0 rfl
    rwa [List.drop_zero, ← HAMT.elements_eq] at this

/-- The elements of a reachable trie are distinct. -/
theorem Reachable.elements_nodup {t : HAMT α} (ht : Reachable t) : t.elements.Nodup := by
  have h := Inv.elements_pairwise t 0 ht.inv
  refine List.Pairwise.imp ?_ h
  intro a b hab heq
  rw [heq, Contract.equal_refl] at hab
  cases hab

/-- C30 (traversal completeness).  For every trie reachable from the empty
trie by `Insert` and `Remove`, `Range` with a visitor that always returns
true visits the stored elements, each once: the elements visited are the
stored elements in slot order, no element is visited twice, `Range` returns
true, and the number of visits is the number of stored elements.  An element
`e` is visited if and only if `Lookup(e.Hash(), e)` returns `e`. -/
theorem C30_traversal_complete (t : HAMT α) (ht : Reachable t) :
    Range t collect [] = (t.elements, true) ∧
    (Range t collect []).1.Nodup ∧
    t.count = t.elements.length ∧
    (∀ e, e ∈ (Range t collect []).1 ↔ Lookup t (Hash e) e = some e) := by
  rw [Range_collect]
  refine ⟨rfl, ht.elements_nodup, HAMT.count_eq t, fun e => ⟨fun he => ?_, fun hl => ?_⟩⟩
  · exact lookupLoop_eq_of_mem_aux t 0 e e ht.inv he (Contract.equal_refl e)
  · exact (lookupLoop_some_aux t 0 (Hash e) e e hl).1

end Complete

section CompleteWitness

theorem deepTwo_range :
    Range deepTwo.m collect [] =
      ([newValue "1/1" [1, 1], newValue "1/2/1/2/1/3" [1, 2, 1, 2, 1, 3]], true) := by
  rw [Range_collect, deepTwo_eq]
  rfl

/-- Witness of C30: `Range` over the two-element trie of
`TestSetDeleteDeepBranches` visits its two elements, and `Lookup` finds the
second of them. -/
theorem C30_witness :
    Reachable deepTwo.m ∧
    (Range deepTwo.m collect []).1 =
      [newValue "1/1" [1, 1], newValue "1/2/1/2/1/3" [1, 2, 1, 2, 1, 3]] ∧
    Lookup deepTwo.m (Hash (newValue "1/2/1/2/1/3" [1, 2, 1, 2, 1, 3]))
      (newValue "1/2/1/2/1/3" [1, 2, 1, 2, 1, 3]) =
        some (newValue "1/2/1/2/1/3" [1, 2, 1, 2, 1, 3]) :=
  ⟨deepTwo_reachable.spec.1, by rw [deepTwo_range],
    ((C30_traversal_complete deepTwo.m deepTwo_reachable.spec.1).2.2.2 _).mp
      (by rw [deepTwo_range]; simp)⟩

end CompleteWitness

/-! ## Nodes sit below the word size -/

section WithinLaws
variable {α : Type}

theorem HAMT.Within_iff (m : HAMT α) (shift : Nat) :
    m.Within shift ↔ shift < 64 ∧ WithinOf m.entries (shift + hamtBits) := by
  cases m; rw [HAMT.Within]; rfl

theorem WithinOf_iff (es : List (Entry α)) (s : Nat) :
    WithinOf es s ↔ ∀ e ∈ es, e.Within s := by
  induction es with
  | nil => simp [WithinOf]
  | cons e es ih => simp [WithinOf, ih]

theorem Entry.Within_value (v : α) (s : Nat) : (Entry.value v).Within s := by
  rw [Entry.Within]; trivial

theorem Entry.Within_collision (c : List α) (s : Nat) : (Entry.collision c).Within s := by
  rw [Entry.Within]; trivial

theorem Entry.Within_hamt (m : HAMT α) (s : Nat) : (Entry.hamt m).Within s ↔ m.Within s := by
  rw [Entry.Within]

theorem Within_EmptyHAMT {shift : Nat} (h : shift < 64) : (EmptyHAMT : HAMT α).Within shift := by
  rw [HAMT.Within_iff]
  exact ⟨h, by simp [EmptyHAMT, HAMT.entries, WithinOf]⟩

theorem WithinOf_set {es : List (Entry α)} {s : Nat} (h : WithinOf es s) (r : Nat)
    {x : Entry α} (hx : x.Within s) : WithinOf (es.set r x) s := by
  rw [WithinOf_iff] at h ⊢
  intro e he
  rcases List.mem_or_eq_of_mem_set he with h1 | h1
  · exact h e h1
  · rw [h1]; exact hx

theorem WithinOf_insertAt {es : List (Entry α)} {s : Nat} (h : WithinOf es s) (r : Nat)
    {x : Entry α} (hx : x.Within s) : WithinOf (es.take r ++ x :: es.drop r) s := by
  rw [WithinOf_iff] at h ⊢
  intro e he
  rcases List.mem_append.mp he with h1 | h1
  · exact h e (List.mem_of_mem_take h1)
  · rcases List.mem_cons.mp h1 with h2 | h2
    · rw [h2]; exact hx
    · exact h e (List.mem_of_mem_drop h2)

theorem WithinOf_removeAt {es : List (Entry α)} {s : Nat} (h : WithinOf es s) (r : Nat) :
    WithinOf (es.take r ++ es.drop (r + 1)) s := by
  rw [WithinOf_iff] at h ⊢
  intro e he
  rcases List.mem_append.mp he with h1 | h1
  · exact h e (List.mem_of_mem_take h1)
  · exact h e (List.mem_of_mem_drop h1)

/-- For 64-bit keys the branch `makeHamtBranch` builds has its nodes below
the word size. -/
theorem makeHamtBranch_within (shift key1 key2 : Nat) (v1 v2 : α)
    (hk1 : key1 < 2 ^ 64) (hk2 : key2 < 2 ^ 64) :
    (makeHamtBranch shift key1 key2 v1 v2).Within shift := by
  induction shift using shift_induct with
  | base s hs =>
    have hc : chunk key1 s = chunk key2 s := by
      rw [chunk_eq_zero_of_lt hk1 hs, chunk_eq_zero_of_lt hk2 hs]
    rw [makeHamtBranch_eq, if_pos hc, if_pos hs]
    exact Entry.Within_collision _ _
  | step s hs ih =>
    rw [makeHamtBranch_eq]
    by_cases hc : chunk key1 s = chunk key2 s
    · rw [if_pos hc, if_neg (by omega), Entry.Within_hamt, HAMT.Within_iff]
      refine ⟨hs, ?_⟩
      simp only [HAMT.entries, WithinOf, and_true]
      exact ih
    · rw [if_neg hc, Entry.Within_hamt, HAMT.Within_iff]
      refine ⟨hs, ?_⟩
      by_cases hlt : chunk key1 s < chunk key2 s <;>
        simp [hlt, HAMT.entries, WithinOf, Entry.Within_value]

theorem depthOf_le {es : List (Entry α)} {n : Nat} (h : ∀ e ∈ es, e.depth ≤ n) :
    depthOf es ≤ n := by
  induction es with
  | nil => rw [depthOf]; omega
  | cons e es ih =>
    rw [depthOf]
    exact Nat.max_le.mpr ⟨h e (List.mem_cons_self _ _),
      ih (fun x hx => h x (List.mem_cons_of_mem _ hx))⟩

theorem HAMT.depth_eq (m : HAMT α) : m.depth = depthOf m.entries + 1 := by
  cases m; rw [HAMT.depth]; rfl

/-- A node at level `shift` whose nodes are all below the word size has at
most as many node levels as there are levels from `shift` below 64. -/
theorem HAMT.Within.depth_le (m : HAMT α) : ∀ shift, m.Within shift →
    shift + 6 * m.depth ≤ 69 := by
  induction m using HAMT.induct with
  | step m ih =>
    intro shift h
    rw [HAMT.Within_iff] at h
    have h6 : hamtBits = 6 := by decide
    have hes := (WithinOf_iff _ _).mp h.2
    have hd : depthOf m.entries ≤ (63 - shift) / 6 := by
      apply depthOf_le
      intro e he
      cases e with
      | value v => rw [Entry.depth]; omega
      | collision c => rw [Entry.depth]; omega
      | hamt c =>
        have hc := hes _ he
        rw [Entry.Within_hamt] at hc
        have := ih c he _ hc
        rw [Entry.depth, Nat.le_div_iff_mul_le (by norm_num)]
        omega
    rw [HAMT.depth_eq]
    have := Nat.div_mul_le_self (63 - shift) 6
    have hdm : depthOf m.entries * 6 ≤ (63 - shift) / 6 * 6 := Nat.mul_le_mul_right 6 hd
    omega

theorem mem_elements_of_child {m c : HAMT α} (hc : Entry.hamt c ∈ m.entries) {x : α}
    (hx : x ∈ c.elements) : x ∈ m.elements := by
  rw [HAMT.elements_eq]
  exact mem_elementsOf.mpr ⟨_, hc, by rw [Entry.elements_hamt]; exact hx⟩

theorem mem_elements_of_value {m : HAMT α} {y : α} (hy : Entry.value y ∈ m.entries) :
    y ∈ m.elements := by
  rw [HAMT.elements_eq]
  exact mem_elementsOf.mpr ⟨_, hy, by rw [Entry.elements_value]; simp⟩

end WithinLaws

section WithinOps
variable {α : Type} [Value α]

/-- `Insert` of a 64-bit key into a trie of elements with 64-bit hashes
creates nodes below the word size only. -/
theorem Insert_within_aux (m : HAMT α) : ∀ (shift key : Nat) (v : α) (n : Int),
    key < 2 ^ 64 → (∀ x ∈ m.elements, Hash x < 2 ^ 64) → m.Within shift →
    (Insert m shift key v n).1.Within shift := by
  induction m using HAMT.induct with
  | step m ih =>
    intro shift key v n hk hbound h
    have hw := (HAMT.Within_iff m shift).mp h
    rw [Insert_eq]
    by_cases hb : m.bmap.testBit (chunk key shift) = false
    · rw [if_pos hb, HAMT.Within_iff]
      exact ⟨hw.1, WithinOf_insertAt hw.2 _ (Entry.Within_value v _)⟩
    · rw [if_neg hb]
      rcases hg : m.entries[rank m.bmap (chunk key shift)]? with _ | e
      · exact h
      · simp only
        have hmem := List.getElem?_mem hg
        have he : e.Within (shift + hamtBits) := (WithinOf_iff _ _).mp hw.2 e hmem
        rw [HAMT.Within_iff]
        refine ⟨hw.1, WithinOf_set hw.2 _ ?_⟩
        cases e with
        | hamt c =>
          rw [Entry.Within_hamt] at he
          simp only [insertEntry, Entry.Within_hamt]
          exact ih c hmem (shift + hamtBits) key v n hk
            (fun x hx => hbound x (mem_elements_of_child hmem hx)) he
        | collision c =>
          simp only [insertEntry]
          exact Entry.Within_collision _ _
        | value y =>
          simp only [insertEntry]
          split
          · exact Entry.Within_value v _
          · exact makeHamtBranch_within _ _ _ _ _ (hbound y (mem_elements_of_value hmem)) hk

/-- `remove` creates no node. -/
theorem remove_within_aux (m : HAMT α) : ∀ (shift key : Nat) (v : α) (hc : Bool)
    (m2 : HAMT α) (hc2 : Bool), m.Within shift → remove m shift key v hc = (some m2, hc2) →
    m2.Within shift := by
  induction m using HAMT.induct with
  | step m ih =>
    intro shift key v hc m2 hc2 h hrm
    have hw := (HAMT.Within_iff m shift).mp h
    rw [remove_eq] at hrm
    by_cases hb : m.bmap.testBit (chunk key shift) = true
    · rw [if_pos hb] at hrm
      rcases hg : m.entries[rank m.bmap (chunk key shift)]? with _ | e
      · rw [hg] at hrm; cases hrm
      · rw [hg] at hrm
        simp only at hrm
        have hmem := List.getElem?_mem hg
        have he : e.Within (shift + hamtBits) := (WithinOf_iff _ _).mp hw.2 e hmem
        rcases hr : removeEntry e shift key v hc with ⟨ch, hc1⟩
        rw [hr] at hrm
        cases ch with
        | same => simp only at hrm; cases hrm
        | put x =>
          simp only at hrm
          injection hrm with h1 h2
          injection h1 with h1
          subst h1
          rw [HAMT.Within_iff]
          refine ⟨hw.1, WithinOf_set hw.2 _ ?_⟩
          cases e with
          | value y =>
            rw [removeEntry_value] at hr
            split at hr <;> cases hr
          | collision c =>
            simp only [removeEntry] at hr
            rcases hwv : withoutValue c v with ⟨c2, f⟩
            rw [hwv] at hr
            cases f with
            | false => simp only at hr; cases hr
            | true =>
              rcases c2 with _ | ⟨y, _ | ⟨z, rest⟩⟩
              · simp only at hr
                injection hr with h3 _
                injection h3 with h3
                rw [← h3]; exact Entry.Within_collision _ _
              · simp only at hr
                injection hr with h3 _
                injection h3 with h3
                rw [← h3]; exact Entry.Within_value _ _
              · simp only at hr
                injection hr with h3 _
                injection h3 with h3
                rw [← h3]; exact Entry.Within_collision _ _
          | hamt c =>
            rw [Entry.Within_hamt] at he
            simp only [removeEntry] at hr
            rcases hrc : remove c (shift + hamtBits) key v hc with ⟨o, hc3⟩
            rw [hrc] at hr
            cases o with
            | none => simp only at hr; cases hr
            | some m3 =>
              simp only at hr
              have hm3 := ih c hmem _ key v hc m3 hc3 he hrc
              have hm3e := (WithinOf_iff _ _).mp ((HAMT.Within_iff m3 _).mp hm3).2
              by_cases hcond : m3.entries.length = 1 ∧ hc3 = false
              · rw [if_pos hcond] at hr
                obtain ⟨y, hy⟩ := List.length_eq_one.mp hcond.1
                have hyw : y.Within (shift + hamtBits + hamtBits) := hm3e y (by rw [hy]; simp)
                rw [hy] at hr
                cases y with
                | hamt c1 =>
                  simp only at hr
                  injection hr with h3 _
                  injection h3 with h3
                  rw [← h3, Entry.Within_hamt]; exact hm3
                | collision c1 =>
                  simp only at hr
                  injection hr with h3 _
                  injection h3 with h3
                  rw [← h3]; exact Entry.Within_collision _ _
                | value y1 =>
                  simp only at hr
                  injection hr with h3 _
                  injection h3 with h3
                  rw [← h3]; exact Entry.Within_value _ _
              · rw [if_neg hcond] at hr
                injection hr with h3 _
                injection h3 with h3
                rw [← h3, Entry.Within_hamt]; exact hm3
        | delete =>
          simp only at hrm
          injection hrm with h1 h2
          injection h1 with h1
          rw [← h1]
          by_cases hl : m.entries.length = 1
          · rw [if_pos hl]; exact Within_EmptyHAMT hw.1
          · rw [if_neg hl, HAMT.Within_iff]
            exact ⟨hw.1, WithinOf_removeAt hw.2 _⟩
    · rw [if_neg hb] at hrm; cases hrm

/-- A trie reachable with 64-bit hashes is reachable. -/
theorem Reachable64.reachable {t : HAMT α} (h : Reachable64 t) : Reachable t := by
  induction h with
  | empty => exact Reachable.empty
  | insert t v n _ _ ih => exact Reachable.insert t v n ih
  | remove t v _ ih => exact Reachable.remove t v ih

/-- A trie reachable with 64-bit hashes holds elements with 64-bit hashes and
has its nodes below the word size. -/
theorem Reachable64.within {t : HAMT α} (h : Reachable64 t) :
    (∀ x ∈ t.elements, Hash x < 2 ^ 64) ∧ t.Within 0 := by
  induction h with
  | empty =>
    exact ⟨by simp [elements_EmptyHAMT], Within_EmptyHAMT (by norm_num)⟩
  | insert t v n hv ht ih =>
    refine ⟨fun x hx => ?_, Insert_within_aux t 0 (Hash v) v n hv ih.1 ih.2⟩
    rcases (Insert_nodeInv_aux t 0 v n ht.reachable.nodeInv).2 x hx with h1 | h1
    · rw [h1]; exact hv
    · exact ih.1 x h1
  | remove t v ht ih =>
    rw [Remove_eq]
    rcases hr : Immutable.remove t 0 (Hash v) v false with ⟨o, hc⟩
    cases o with
    | none => exact ih
    | some m2 =>
      exact ⟨fun x hx => ih.1 x
          ((remove_nodeInv_aux t 0 (Hash v) v false m2 hc ht.reachable.nodeInv hr).2 x hx),
        remove_within_aux t 0 (Hash v) v false m2 hc ih.2 hr⟩

end WithinOps

/-! ## Claim C28: bounded depth -/

section BoundedDepth
variable {α : Type} [Value α]

/-- C28 (bounded depth).  `ceil(keyWidth / chunkBits)` is 11.  In every trie
reachable from the empty trie by `Insert` and `Remove` of elements whose
hashes are 64-bit words, every node is at a level below the key width, so
every chain of nested child nodes that starts at the root has at most 11
nodes; and for every key the loop of `Lookup` and the recursions of `Insert`
and `remove` finish within 11 levels: bounded to 11 levels they return what
`Lookup`, `Insert` and `remove` return. -/
theorem C28_bounded_depth (t : HAMT α) (ht : Reachable64 t) :
    (intSize + hamtBits - 1) / hamtBits = 11 ∧
    t.Within 0 ∧
    t.depth ≤ 11 ∧
    (∀ (key : Nat) (v : α), lookupLoopN 11 t 0 key v = Lookup t key v) ∧
    (∀ (key : Nat) (v : α) (n : Int), InsertN 11 t 0 key v n = Insert t 0 key v n) ∧
    (∀ (key : Nat) (v : α) (hc : Bool), removeN 11 t 0 key v hc = remove t 0 key v hc) := by
  have hd : t.depth ≤ 11 := by
    have := HAMT.Within.depth_le t 0 ht.within.2
    omega
  exact ⟨by decide, ht.within.2, hd, fun key v => lookupLoopN_eq 11 t 0 key v hd,
    fun key v n => InsertN_eq 11 t 0 key v n hd,
    fun key v hc => removeN_eq 11 t 0 key v hc hd⟩

end BoundedDepth

section BoundedDepthWitness

theorem sampleAC_reachable64 : Reachable64 sampleAC :=
  Reachable64.insert sampleT sampleC 2 (by decide)
    (Reachable64.insert EmptyHAMT sampleA 1 (by decide) Reachable64.empty)

/-- Witness of C28: the reachable trie holding `sampleA` and `sampleC`, whose
hashes collide, has a chain of 11 nodes from the root to the bucket. -/
theorem C28_witness :
    Reachable64 sampleAC ∧ sampleAC.depth = 11 ∧ sampleAC.depth ≤ 11 ∧
    lookupLoopN 11 sampleAC 0 7 sampleC = some sampleC := by
  have h := C28_bounded_depth sampleAC sampleAC_reachable64
  refine ⟨sampleAC_reachable64, by rw [sampleAC_eq]; rfl, h.2.2.1, ?_⟩
  rw [sampleAC_eq]
  rfl

end BoundedDepthWitness

/-! ## No index is out of range under the node invariant -/

section CheckedLaws
variable {α : Type} [Value α]

theorem testBit_of_land_ne {b i : Nat} (h : b &&& (1 <<< i) ≠ 0) : b.testBit i = true := by
  by_contra hne
  exact h ((land_bit_eq_zero_iff _ _).mpr (by simpa using hne))

/-- Under the node invariant the slot index of a set branch bit is inside
`entries`. -/
theorem NodeInv.slotIndex_lt {shift : Nat} {m : HAMT α} (h : NodeInv shift m) (key : Nat)
    (hb : m.bmap &&& (1 <<< ((key >>> shift) &&& hamtMask)) ≠ 0) :
    Bitindex m.bmap (1 <<< ((key >>> shift) &&& hamtMask)) < m.entries.length := by
  rw [chunk_eq] at hb ⊢
  rw [Bitindex_eq_rank _ (chunk_lt key shift)]
  exact rank_lt_length h.len_eq (chunk_lt key shift) (testBit_of_land_ne hb)

/-- Under the node invariant the insertion index of a branch bit is at most
the length of `entries`. -/
theorem NodeInv.slotIndex_le {shift : Nat} {m : HAMT α} (h : NodeInv shift m) (key : Nat) :
    Bitindex m.bmap (1 <<< ((key >>> shift) &&& hamtMask)) ≤ m.entries.length := by
  rw [chunk_eq, Bitindex_eq_rank _ (chunk_lt key shift)]
  exact rank_le_length h.len_eq (chunk_lt key shift)

/-- The node invariant passes to child nodes, one level down. -/
theorem NodeInv.childNode {shift : Nat} {m c : HAMT α} (h : NodeInv shift m)
    (hc : Entry.hamt c ∈ m.entries) : NodeInv (shift + hamtBits) c := by
  obtain ⟨i, hi, hs⟩ := exists_slot_of_mem h.len_eq hc
  exact h.entry hi hs

/-- Under the node invariant `Lookup` reads no slot out of range. -/
theorem lookupLoopC_eq (m : HAMT α) : ∀ (shift key : Nat) (v : α), NodeInv shift m →
    lookupLoopC m shift key v = some (lookupLoop m shift key v) := by
  induction m using HAMT.induct with
  | step m ih =>
    intro shift key v h
    have hbi := Bitindex_eq_rank m.bmap (chunk_lt key shift)
    rw [lookupLoopC, lookupLoop_slot]
    simp only [chunk_eq, land_bit_eq_zero_iff]
    by_cases hb : m.bmap.testBit (chunk key shift) = false
    · rw [if_pos hb, slot_eq_none_of_testBit hb]
    · rw [if_neg hb]
      have hb2 : m.bmap.testBit (chunk key shift) = true := by simpa using hb
      obtain ⟨e, hs, hg⟩ := slot_isSome h.len_eq (chunk_lt key shift) hb2
      rw [hs]
      simp only
      split <;> rename_i hg2 <;> rw [hbi, hg] at hg2 <;> cases hg2
      · rw [lookupEntry_hamt]
        exact ih _ (List.getElem?_mem hg) _ key v (h.childNode (List.getElem?_mem hg))
      · rw [lookupEntry_collision]
      · rw [lookupEntry_value]

/-- Under the node invariant `Insert` reads and writes no slot out of
range. -/
theorem InsertC_eq (m : HAMT α) : ∀ (shift key : Nat) (v : α) (n : Int), NodeInv shift m →
    InsertC m shift key v n = some (Insert m shift key v n) := by
  induction m using HAMT.induct with
  | step m ih =>
    intro shift key v n h
    have hbi := Bitindex_eq_rank m.bmap (chunk_lt key shift)
    rw [InsertC, Insert_eq]
    simp only [chunk_eq, land_bit_eq_zero_iff]
    by_cases hb : m.bmap.testBit (chunk key shift) = false
    · rw [if_pos hb, if_pos hb, hbi, if_pos (rank_le_length h.len_eq (chunk_lt key shift))]
    · rw [if_neg hb, if_neg hb]
      have hb2 : m.bmap.testBit (chunk key shift) = true := by simpa using hb
      obtain ⟨e, hs, hg⟩ := slot_isSome h.len_eq (chunk_lt key shift) hb2
      rw [hg]
      simp only
      split <;> rename_i hg2 <;> rw [hbi, hg] at hg2 <;> cases hg2
      · rw [ih _ (List.getElem?_mem hg) _ key v n (h.childNode (List.getElem?_mem hg))]
        simp only [insertEntry, hbi]
      · simp only [insertEntry, hbi]
      · simp only [insertEntry, hbi]
        split <;> rfl

/-- Under the node invariant `remove` reads and writes no slot out of
range. -/
theorem removeC_eq (m : HAMT α) : ∀ (shift key : Nat) (v : α) (hc : Bool), NodeInv shift m →
    removeC m shift key v hc = some (remove m shift key v hc) := by
  induction m using HAMT.induct with
  | step m ih =>
    intro shift key v hc h
    have hbi := Bitindex_eq_rank m.bmap (chunk_lt key shift)
    rw [removeC, remove_eq]
    simp only [chunk_eq, ne_eq, land_bit_eq_zero_iff]
    by_cases hb : m.bmap.testBit (chunk key shift) = true
    · rw [if_pos (by simp [hb]), if_pos hb]
      obtain ⟨e, hs, hg⟩ := slot_isSome h.len_eq (chunk_lt key shift) hb
      rw [hg]
      simp only
      split <;> rename_i hg2 <;> rw [hbi, hg] at hg2 <;> cases hg2
      · rw [ih _ (List.getElem?_mem hg) _ key v hc (h.childNode (List.getElem?_mem hg))]
        simp only [removeEntry, hbi]
        rename_i c
        rcases remove c (shift + hamtBits) key v hc with ⟨o, hc1⟩
        cases o with
        | none => rfl
        | some m3 =>
          simp only
          by_cases hcond : m3.entries.length = 1 ∧ hc1 = false
          · rw [if_pos hcond, if_pos hcond]
            rcases m3.entries with _ | ⟨x, _ | ⟨y, rest⟩⟩
            · rfl
            · cases x <;> rfl
            · cases x <;> rfl
          · rw [if_neg hcond, if_neg hcond]
      · simp only [removeEntry, hbi]
        rename_i c
        rcases withoutValue c v with ⟨c2, f⟩
        cases f with
        | false => rfl
        | true =>
          rcases c2 with _ | ⟨y, _ | ⟨z, rest⟩⟩ <;> rfl
      · simp only [removeEntry, hbi]
        split
        · split <;> rfl
        · rfl
    · rw [if_neg (by simp [hb]), if_neg hb]

/-- The index `withValue` writes at is inside the array it allocates. -/
theorem withValue_index_lt (c1 : List α) (v : α) (n : Int) :
    c1.findIdx (fun x => Equal x v) < (withValue c1 v n).1.length ∧
    c1.findIdx (fun x => Equal x v) ≤ c1.length ∧
    (withValue c1 v n).1[c1.findIdx (fun x => Equal x v)]? = some v := by
  have hle : c1.findIdx (fun x => Equal x v) ≤ c1.length := List.findIdx_le_length _
  by_cases h : c1.findIdx (fun x => Equal x v) < c1.length
  · rw [withValue_found c1 v n h]
    simp [h, hle]
  · rw [withValue_not_found c1 v n h]
    have he : c1.findIdx (fun x => Equal x v) = c1.length := by omega
    rw [he]
    simp

end CheckedLaws

/-! ## Claim C29: no out-of-range access -/

section InRangeClaim
variable {α : Type} [Value α]

/-- C29 (no out-of-range access).  For every node `m` that satisfies the node
invariant at its level, and every key: when the branch bit of the key is set
in `m.bmap`, the rank index `Bitindex(bmap, bitpos)` is strictly less than
`len(entries)`, and in every case it is at most `len(entries)`; the same holds
for every child node, which satisfies the invariant one level down.  Hence
`Lookup`, `Insert` and `remove` with the index checks of the Go run time never
fail: they return what `Lookup`, `Insert` and `remove` return.  And for every
bucket, the position `withValue` writes at is inside the array it allocates. -/
theorem C29_no_out_of_range (shift : Nat) (m : HAMT α) (h : NodeInv shift m) (key : Nat) :
    (m.bmap &&& (1 <<< ((key >>> shift) &&& hamtMask)) ≠ 0 →
      Bitindex m.bmap (1 <<< ((key >>> shift) &&& hamtMask)) < m.entries.length) ∧
    Bitindex m.bmap (1 <<< ((key >>> shift) &&& hamtMask)) ≤ m.entries.length ∧
    (∀ c, Entry.hamt c ∈ m.entries → NodeInv (shift + hamtBits) c) ∧
    (∀ v : α, lookupLoopC m shift key v = some (lookupLoop m shift key v)) ∧
    (∀ (v : α) (n : Int), InsertC m shift key v n = some (Insert m shift key v n)) ∧
    (∀ (v : α) (hc : Bool), removeC m shift key v hc = some (remove m shift key v hc)) ∧
    (∀ (c1 : List α) (v : α) (n : Int),
      c1.findIdx (fun x => Equal x v) < (withValue c1 v n).1.length ∧
      c1.findIdx (fun x => Equal x v) ≤ c1.length ∧
      (withValue c1 v n).1[c1.findIdx (fun x => Equal x v)]? = some v) :=
  ⟨h.slotIndex_lt key, h.slotIndex_le key, fun _ hc => h.childNode hc,
    fun v => lookupLoopC_eq m shift key v h, fun v n => InsertC_eq m shift key v n h,
    fun v hc => removeC_eq m shift key v hc h, withValue_index_lt⟩

end InRangeClaim

section InRangeWitness

/-- Witness of C29: on the reachable trie holding `sampleA` and `sampleC`,
the checked `Lookup` of `sampleC` succeeds. -/
theorem C29_witness :
    NodeInv 0 sampleAC ∧ lookupLoopC sampleAC 0 7 sampleC = some (some sampleC) := by
  have hn : NodeInv 0 sampleAC := sampleAC_reachable.nodeInv
  refine ⟨hn, ?_⟩
  rw [(C29_no_out_of_range 0 sampleAC hn 7).2.2.2.1 sampleC, lookupLoop_eval, sampleAC_eq]
  rfl

end InRangeWitness

/-! ## Claims C22 and C23: the lifted bucket -/

section LiftedBucket

theorem orderThree_eq :
    ((EmptySet.Add orderA).Add orderB).Add orderX =
      ⟨3, .mk 1 [bridge 64 9 6
        (.hamt (.mk 3 [.collision [orderA, orderB], .value orderX]))]⟩ := by
  simp only [Set.Add, Insert_eval]
  rfl

/-- C22 (collision bucket key invariant), at the failing input.  `StrValue`
obeys the hash/equality contract.  On `EmptySet`, `Add(orderA)`,
`Add(orderB)`, `Add(orderX)` and `Del(orderX)` give a reachable set whose
bucket `[orderA, orderB]` is in the slot of the root, ten levels above the
last branch level; `Add(orderY)` then gives the reachable set `orderSet`, whose
only bucket holds `orderA` with hash 64 and `orderY` with hash 0: the elements
of the bucket do not share one hash key, and the bucket is not at the last
branch level. -/
theorem C22_failing_input :
    Set.Reachable orderSet ∧
    Set.Reachable ((((EmptySet.Add orderA).Add orderB).Add orderX).Del orderX) ∧
    ((((EmptySet.Add orderA).Add orderB).Add orderX).Del orderX).m.entries =
      [.collision [orderA, orderB]] ∧
    ¬ ((((EmptySet.Add orderA).Add orderB).Add orderX).Del orderX).m.Deep 0 ∧
    orderSet.m.entries = [.collision [orderA, orderB, orderY]] ∧
    orderSet.m.buckets = [[orderA, orderB, orderY]] ∧
    Hash orderA = 64 ∧ Hash orderY = 0 ∧
    ¬ (∀ c ∈ orderSet.m.buckets, ∀ a ∈ c, ∀ b ∈ c, Hash a = Hash b) ∧
    ¬ orderSet.m.Deep 0 := by
  have hd : ∀ c : List StrValue, ¬ (HAMT.mk 1 [Entry.collision c]).Deep 0 := by
    intro c h
    rw [HAMT.Deep_iff] at h
    have h2 := (DeepOf_iff _ _).mp h (.collision c) (by simp [HAMT.entries])
    rw [Entry.Deep_collision] at h2
    simp only [hamtBits, hamtBranches, intSize] at h2
    omega
  refine ⟨orderSet_reachable,
    Set.Reachable.del _ _ (Set.Reachable.add _ _ (Set.Reachable.add _ _
      (Set.Reachable.add _ _ Set.Reachable.empty))),
    by rw [orderSet_lifted]; rfl, by rw [orderSet_lifted]; exact hd _,
    by rw [orderSet_eq]; rfl, by rw [orderSet_eq]; rfl, rfl, rfl, ?_,
    by rw [orderSet_eq]; exact hd _⟩
  intro h
  have hb : orderSet.m.buckets = [[orderA, orderB, orderY]] := by rw [orderSet_eq]; rfl
  have := h [orderA, orderB, orderY] (by rw [hb]; simp) orderA (by simp) orderY (by simp)
  exact absurd this (by decide)

/-- C23 (path-collapse rule of `Remove`), at the failing input.  After
`Add(orderA)`, `Add(orderB)`, `Add(orderX)` on `EmptySet` the node at level 54
has one slot, which holds the child node with the bucket `[orderA, orderB]`
and `orderX`.  `Del(orderX)` calls `remove` on that child: the new child has
exactly one slot, this slot is a collision bucket, and no collision is
signalled.  `remove` on the parent then stores the bucket itself in the slot
of the parent, not the new child node; so does every level above, and the
bucket ends in the slot of the root. -/
theorem C23_failing_input :
    (((EmptySet.Add orderA).Add orderB).Add orderX).m =
      .mk 1 [bridge 64 8 6 (.hamt (.mk 1
        [.hamt (.mk 3 [.collision [orderA, orderB], .value orderX])]))] ∧
    remove (.mk 3 [.collision [orderA, orderB], .value orderX]) 60 (Hash orderX) orderX false =
      (some (.mk 1 [.collision [orderA, orderB]]), false) ∧
    remove (.mk 1 [.hamt (.mk 3 [.collision [orderA, orderB], .value orderX])]) 54
        (Hash orderX) orderX false =
      (some (.mk 1 [.collision [orderA, orderB]]), false) ∧
    remove (.mk 1 [.hamt (.mk 3 [.collision [orderA, orderB], .value orderX])]) 54
        (Hash orderX) orderX false ≠
      (some (.mk 1 [.hamt (.mk 1 [.collision [orderA, orderB]])]), false) ∧
    ((((EmptySet.Add orderA).Add orderB).Add orderX).Del orderX).m =
      .mk 1 [.collision [orderA, orderB]] := by
  have h3 : remove (.mk 1 [.hamt (.mk 3 [.collision [orderA, orderB], .value orderX])]) 54
        (Hash orderX) orderX false =
      (some (.mk 1 [.collision [orderA, orderB]]), false) := by
    rw [remove_eval]; rfl
  refine ⟨by rw [orderThree_eq]; rfl, by rw [remove_eval]; rfl, h3, ?_,
    by rw [orderSet_lifted]⟩
  rw [h3]
  intro h
  cases h

end LiftedBucket

/-! ## Tries without collision bucket -/

section PlainLaws
variable {α : Type}

theorem HAMT.Plain_iff (m : HAMT α) : m.Plain ↔ m.bmap < 2 ^ 64 ∧ PlainOf m.entries := by
  cases m; rw [HAMT.Plain]; rfl

theorem PlainOf_iff (es : List (Entry α)) : PlainOf es ↔ ∀ e ∈ es, e.Plain := by
  induction es with
  | nil => simp [PlainOf]
  | cons e es ih => simp [PlainOf, ih]

theorem Entry.Plain_value (v : α) : (Entry.value v).Plain := by
  rw [Entry.Plain]; trivial

theorem Entry.Plain_collision (c : List α) : ¬ (Entry.collision c).Plain := by
  rw [Entry.Plain]; exact fun h => h

theorem Entry.Plain_hamt (m : HAMT α) : (Entry.hamt m).Plain ↔ m.Plain := by
  rw [Entry.Plain]

theorem Plain_EmptyHAMT : (EmptyHAMT : HAMT α).Plain := by
  rw [HAMT.Plain_iff]
  exact ⟨by simp [EmptyHAMT, HAMT.bmap], by simp [EmptyHAMT, HAMT.entries, PlainOf]⟩

theorem PlainOf_set {es : List (Entry α)} (h : PlainOf es) (r : Nat) {x : Entry α}
    (hx : x.Plain) : PlainOf (es.set r x) := by
  rw [PlainOf_iff] at h ⊢
  intro e he
  rcases List.mem_or_eq_of_mem_set he with h1 | h1
  · exact h e h1
  · rw [h1]; exact hx

theorem PlainOf_insertAt {es : List (Entry α)} (h : PlainOf es) (r : Nat) {x : Entry α}
    (hx : x.Plain) : PlainOf (es.take r ++ x :: es.drop r) := by
  rw [PlainOf_iff] at h ⊢
  intro e he
  rcases List.mem_append.mp he with h1 | h1
  · exact h e (List.mem_of_mem_take h1)
  · rcases List.mem_cons.mp h1 with h2 | h2
    · rw [h2]; exact hx
    · exact h e (List.mem_of_mem_drop h2)

theorem PlainOf_removeAt {es : List (Entry α)} (h : PlainOf es) (r : Nat) :
    PlainOf (es.take r ++ es.drop (r + 1)) := by
  rw [PlainOf_iff] at h ⊢
  intro e he
  rcases List.mem_append.mp he with h1 | h1
  · exact h e (List.mem_of_mem_take h1)
  · exact h e (List.mem_of_mem_drop h1)

theorem bit_lt_word {i : Nat} (hi : i < 64) : 1 <<< i < 2 ^ 64 := by
  rw [Nat.one_shiftLeft]
  exact Nat.pow_lt_pow_right (by norm_num) hi

theorem andNot_le (a b : Nat) : andNot a b ≤ a := by
  rw [andNot]; exact Nat.and_le_left

/-- A plain trie has no bucket. -/
theorem HAMT.Plain.buckets_nil (m : HAMT α) : m.Plain → m.buckets = [] := by
  induction m using HAMT.induct with
  | step m ih =>
    intro h
    rw [List.eq_nil_iff_forall_not_mem]
    intro c hc
    rw [HAMT.buckets_eq] at hc
    obtain ⟨e, he, hce⟩ := mem_bucketsOf.mp hc
    have hp := (PlainOf_iff _).mp ((HAMT.Plain_iff m).mp h).2 e he
    cases e with
    | value v => rw [Entry.buckets_value] at hce; cases hce
    | collision c1 => exact Entry.Plain_collision c1 hp
    | hamt c1 =>
      rw [Entry.buckets_hamt, ih c1 he ((Entry.Plain_hamt c1).mp hp)] at hce
      cases hce

/-- For distinct 64-bit keys that agree below level `shift`, the branch
`makeHamtBranch` builds has no bucket. -/
theorem makeHamtBranch_plain (key1 key2 : Nat) (v1 v2 : α) (hne : key1 ≠ key2)
    (hk1 : key1 < 2 ^ 64) (hk2 : key2 < 2 ^ 64) (shift : Nat) :
    key1 % 2 ^ shift = key2 % 2 ^ shift → (makeHamtBranch shift key1 key2 v1 v2).Plain := by
  induction shift using shift_induct with
  | base s hs =>
    intro hag
    exact absurd (eq_of_agree hag hs hk1 hk2) hne
  | step s hs ih =>
    intro hag
    rw [makeHamtBranch_eq]
    by_cases hc : chunk key1 s = chunk key2 s
    · rw [if_pos hc, if_neg (by omega), Entry.Plain_hamt, HAMT.Plain_iff]
      refine ⟨bit_lt_word (chunk_lt _ _), ?_⟩
      simp only [HAMT.entries, PlainOf, and_true]
      exact ih (agree_step hag hc)
    · rw [if_neg hc, Entry.Plain_hamt, HAMT.Plain_iff]
      refine ⟨Nat.or_lt_two_pow (bit_lt_word (chunk_lt _ _)) (bit_lt_word (chunk_lt _ _)), ?_⟩
      by_cases hlt : chunk key1 s < chunk key2 s <;>
        simp [hlt, HAMT.entries, PlainOf, Entry.Plain_value]

end PlainLaws

section PlainOps
variable {α : Type} [Value α]

/-- `Insert` of an element whose hash collides with no stored element creates
no bucket. -/
theorem Insert_plain_aux (m : HAMT α) : ∀ (shift : Nat) (v : α) (n : Int),
    NodeInv shift m → m.Plain → Hash v < 2 ^ 64 →
    (∀ x ∈ m.elements, Hash x < 2 ^ 64 ∧ Hash x % 2 ^ shift = Hash v % 2 ^ shift ∧
      (Hash x = Hash v → Equal x v = true)) →
    (Insert m shift (Hash v) v n).1.Plain := by
  induction m using HAMT.induct with
  | step m ih =>
    intro shift v n h hp hv hel
    have hi := chunk_lt (Hash v) shift
    have hpp := (HAMT.Plain_iff m).mp hp
    rcases Insert_cases_len h.len_eq shift (Hash v) v n with ⟨hb, _, heq⟩ | ⟨hb, e, hs, hg, heq⟩
    · rw [heq, HAMT.Plain_iff]
      exact ⟨Nat.or_lt_two_pow hpp.1 (bit_lt_word hi),
        PlainOf_insertAt hpp.2 _ (Entry.Plain_value v)⟩
    · rw [heq, HAMT.Plain_iff]
      refine ⟨hpp.1, PlainOf_set hpp.2 _ ?_⟩
      have hmem := List.getElem?_mem hg
      have hep := (PlainOf_iff _).mp hpp.2 e hmem
      have hsub : ∀ w ∈ e.elements, w ∈ m.elements := fun w hw => slot_elements_subset hs hw
      cases e with
      | hamt c =>
        simp only [insertEntry, Entry.Plain_hamt]
        refine ih c hmem _ v n (h.entry hi hs) ((Entry.Plain_hamt c).mp hep) hv ?_
        intro x hx
        have hxm := hsub x (by rw [Entry.elements_hamt]; exact hx)
        have := hel x hxm
        exact ⟨this.1, agree_step this.2.1
          (h.path hi hs (by rw [Entry.elements_hamt]; exact hx)), this.2.2⟩
      | collision c => exact absurd hep (Entry.Plain_collision c)
      | value y =>
        have hy := hel y (hsub y (by simp [Entry.elements_value]))
        simp only [insertEntry]
        split
        · exact Entry.Plain_value v
        · rename_i hcond
          have hne : Hash y ≠ Hash v := fun heq2 => hcond ⟨heq2, hy.2.2 heq2⟩
          exact makeHamtBranch_plain _ _ _ _ hne hy.1 hv _
            (agree_step hy.2.1 (h.path hi hs (by simp [Entry.elements_value])))

/-- `remove` creates no bucket. -/
theorem remove_plain_aux (m : HAMT α) : ∀ (shift key : Nat) (v : α) (hc : Bool)
    (m2 : HAMT α) (hc2 : Bool), m.Plain → remove m shift key v hc = (some m2, hc2) →
    m2.Plain := by
  induction m using HAMT.induct with
  | step m ih =>
    intro shift key v hc m2 hc2 h hrm
    have hw := (HAMT.Plain_iff m).mp h
    rw [remove_eq] at hrm
    by_cases hb : m.bmap.testBit (chunk key shift) = true
    · rw [if_pos hb] at hrm
      rcases hg : m.entries[rank m.bmap (chunk key shift)]? with _ | e
      · rw [hg] at hrm; cases hrm
      · rw [hg] at hrm
        simp only at hrm
        have hmem := List.getElem?_mem hg
        have he : e.Plain := (PlainOf_iff _).mp hw.2 e hmem
        rcases hr : removeEntry e shift key v hc with ⟨ch, hc1⟩
        rw [hr] at hrm
        cases ch with
        | same => simp only at hrm; cases hrm
        | put x =>
          simp only at hrm
          injection hrm with h1 h2
          injection h1 with h1
          subst h1
          rw [HAMT.Plain_iff]
          refine ⟨hw.1, PlainOf_set hw.2 _ ?_⟩
          cases e with
          | value y =>
            rw [removeEntry_value] at hr
            split at hr <;> cases hr
          | collision c => exact absurd he (Entry.Plain_collision c)
          | hamt c =>
            rw [Entry.Plain_hamt] at he
            simp only [removeEntry] at hr
            rcases hrc : remove c (shift + hamtBits) key v hc with ⟨o, hc3⟩
            rw [hrc] at hr
            cases o with
            | none => simp only at hr; cases hr
            | some m3 =>
              simp only at hr
              have hm3 := ih c hmem _ key v hc m3 hc3 he hrc
              have hm3e := (PlainOf_iff _).mp ((HAMT.Plain_iff m3).mp hm3).2
              by_cases hcond : m3.entries.length = 1 ∧ hc3 = false
              · rw [if_pos hcond] at hr
                obtain ⟨y, hy⟩ := List.length_eq_one.mp hcond.1
                have hyw : y.Plain := hm3e y (by rw [hy]; simp)
                rw [hy] at hr
                cases y with
                | hamt c1 =>
                  simp only at hr
                  injection hr with h3 _
                  injection h3 with h3
                  rw [← h3, Entry.Plain_hamt]; exact hm3
                | collision c1 => exact absurd hyw (Entry.Plain_collision c1)
                | value y1 =>
                  simp only at hr
                  injection hr with h3 _
                  injection h3 with h3
                  rw [← h3]; exact Entry.Plain_value _
              · rw [if_neg hcond] at hr
                injection hr with h3 _
                injection h3 with h3
                rw [← h3, Entry.Plain_hamt]; exact hm3
        | delete =>
          simp only at hrm
          injection hrm with h1 h2
          injection h1 with h1
          rw [← h1]
          by_cases hl : m.entries.length = 1
          · rw [if_pos hl]; exact Plain_EmptyHAMT
          · rw [if_neg hl, HAMT.Plain_iff]
            exact ⟨Nat.lt_of_le_of_lt (andNot_le _ _) hw.1, PlainOf_removeAt hw.2 _⟩
    · rw [if_neg hb] at hrm; cases hrm

/-- A trie built without hash collision is reachable. -/
theorem ReachableD.toReachable {t : HAMT α} (h : ReachableD t) : Reachable t := by
  induction h with
  | empty => exact Reachable.empty
  | insert t v n _ _ _ ih => exact Reachable.insert t v n ih
  | remove t v _ ih => exact Reachable.remove t v ih

/-- A trie built without hash collision has no bucket, bitmaps that are 64-bit
words, and elements with 64-bit hashes. -/
theorem ReachableD.plain {t : HAMT α} (h : ReachableD t) :
    t.Plain ∧ ∀ x ∈ t.elements, Hash x < 2 ^ 64 := by
  induction h with
  | empty => exact ⟨Plain_EmptyHAMT, by simp [elements_EmptyHAMT]⟩
  | insert t v n hv hcol ht ih =>
    have hn := ht.toReachable.nodeInv
    refine ⟨Insert_plain_aux t 0 v n hn ih.1 hv
      (fun x hx => ⟨ih.2 x hx, by simp [Nat.mod_one], hcol x hx⟩), fun x hx => ?_⟩
    rcases (Insert_nodeInv_aux t 0 v n hn).2 x hx with h1 | h1
    · rw [h1]; exact hv
    · exact ih.2 x h1
  | remove t v ht ih =>
    rw [Remove_eq]
    rcases hr : Immutable.remove t 0 (Hash v) v false with ⟨o, hc⟩
    cases o with
    | none => exact ih
    | some m2 =>
      exact ⟨remove_plain_aux t 0 (Hash v) v false m2 hc ih.1 hr, fun x hx => ih.2 x
        ((remove_nodeInv_aux t 0 (Hash v) v false m2 hc ht.toReachable.nodeInv hr).2 x hx)⟩

end PlainOps

/-! ## Remove after Insert -/

section UndoBits

theorem testBit_word_high {b j : Nat} (hb : b < 2 ^ 64) (hj : 64 ≤ j) : b.testBit j = false :=
  Nat.testBit_lt_two_pow (Nat.lt_of_lt_of_le hb (Nat.pow_le_pow_right (by norm_num) hj))

theorem testBit_andNot_high (b i : Nat) {j : Nat} (hj : 64 ≤ j) (hi : i < 64) :
    (andNot b (1 <<< i)).testBit j = false := by
  have h1 : ¬ j < 64 := by omega
  have h2 : ¬ i = j := by omega
  rw [andNot, Nat.testBit_and, Nat.testBit_xor, testBit_bit, uintMax, intSize,
    Nat.testBit_two_pow_sub_one]
  simp [h1, h2]

/-- Clearing the bit that was set in a 64-bit bitmap gives the bitmap back. -/
theorem andNot_lor_bit {b i : Nat} (hb : b < 2 ^ 64) (hi : i < 64)
    (hc : b.testBit i = false) : andNot (b ||| (1 <<< i)) (1 <<< i) = b := by
  apply Nat.eq_of_testBit_eq
  intro j
  by_cases hj : j < 64
  · rw [testBit_andNot _ _ hj, Nat.testBit_or, testBit_bit]
    by_cases hij : i = j
    · subst hij; simp [hc]
    · simp [hij]
  · rw [testBit_andNot_high _ _ (by omega) hi, testBit_word_high hb (by omega)]

/-- A 64-bit bitmap with no bit set is 0. -/
theorem eq_zero_of_OnesCount {b : Nat} (hb : b < 2 ^ 64) (h : OnesCount b = 0) : b = 0 := by
  apply Nat.eq_of_testBit_eq
  intro j
  rw [Nat.zero_testBit]
  by_cases hj : j < 64
  · by_contra hne
    have ht : b.testBit j = true := by simpa using hne
    have := rank_lt_of_testBit b hj ht
    rw [← OnesCount_eq_rank, h] at this
    omega
  · exact testBit_word_high hb (by omega)

theorem take_drop_insertAt {β : Type} (es : List β) (r : Nat) (x : β) (hr : r ≤ es.length) :
    (es.take r ++ x :: es.drop r).take r ++ (es.take r ++ x :: es.drop r).drop (r + 1) = es := by
  have hl : (es.take r).length = r := by simp [hr]
  have h1 : (es.take r ++ x :: es.drop r).take r = es.take r := List.take_left' hl
  have h2 : (es.take r ++ x :: es.drop r).drop (r + 1) = es.drop r := by
    rw [← List.drop_drop 1 r, List.drop_left' hl]
    rfl
  rw [h1, h2, List.take_append_drop]

theorem set_of_getElem? {β : Type} {es : List β} {r : Nat} {x : β} (h : es[r]? = some x) :
    es.set r x = es := by
  apply List.ext_getElem?
  intro n
  rw [List.getElem?_set]
  by_cases hn : r = n
  · subst hn
    have hl : r < es.length := by
      rcases Nat.lt_or_ge r es.length with h1 | h1
      · exact h1
      · rw [List.getElem?_eq_none h1] at h; cases h
    simp [hl, h]
  · simp [hn]

end UndoBits

section UndoBranch
variable {α : Type} [Value α]

/-- Removing the second element from the two-slot node that ends a synthesized
branch leaves the node with the first element in its only slot. -/
theorem remove_pair {i1 i2 : Nat} (h1 : i1 < 64) (h2 : i2 < 64) (hne : i1 ≠ i2)
    (v1 v2 : α) (shift key : Nat) (hk : chunk key shift = i2) (he : Equal v2 v2 = true) :
    remove (.mk ((1 <<< i1) ||| (1 <<< i2))
        (if i1 < i2 then [.value v1, .value v2] else [.value v2, .value v1])) shift key v2 false =
      (some (.mk (1 <<< i1) [.value v1]), false) := by
  have hb : (1 <<< i1).testBit i2 = false := by rw [testBit_bit]; simp [hne]
  have hr : rank ((1 <<< i1) ||| (1 <<< i2)) i2 = if i1 < i2 then 1 else 0 := by
    rw [rank_lor _ hb, rank_bit]; simp
  have hbm : andNot ((1 <<< i1) ||| (1 <<< i2)) (1 <<< i2) = 1 <<< i1 :=
    andNot_lor_bit (bit_lt_word h1) h2 hb
  rw [remove_eq, hk]
  simp only [HAMT.bmap_mk, HAMT.entries_mk, hr, hbm]
  rw [if_pos (by rw [Nat.testBit_or, testBit_bit, testBit_bit]; simp)]
  by_cases hlt : i1 < i2
  · simp [hlt, removeEntry_value, he]
  · simp [hlt, removeEntry_value, he]

/-- What `remove` does to the branch `makeHamtBranch` built for `v1` and
`v2`, when asked to remove `v2`: the slot gets `v1` back, bare. -/
theorem removeEntry_makeHamtBranch (key1 key2 : Nat) (v1 v2 : α)
    (h12 : Equal v1 v2 = false) (h22 : Equal v2 v2 = true) (u : Nat) :
    ∀ shift, shift + hamtBits = u →
    removeEntry (makeHamtBranch u key1 key2 v1 v2) shift key2 v2 false =
      (.put (.value v1), false) := by
  induction u using shift_induct with
  | base s hs =>
    intro shift hsh
    rw [makeHamtBranch_eq]
    by_cases hc : chunk key1 s = chunk key2 s
    · rw [if_pos hc, if_pos hs]
      have hw : withoutValue [v1, v2] v2 = ([v1], true) := by
        rw [withoutValue_cons, if_neg (by rw [h12]; simp), withoutValue_cons, if_pos h22]
      simp only [removeEntry, hw]
    · rw [if_neg hc]
      simp only [removeEntry]
      rw [hsh, remove_pair (chunk_lt _ _) (chunk_lt _ _) hc v1 v2 s key2 rfl h22]
      rfl
  | step s hs ih =>
    intro shift hsh
    rw [makeHamtBranch_eq]
    by_cases hc : chunk key1 s = chunk key2 s
    · rw [if_pos hc, if_neg (by omega)]
      have hrm : remove (.mk (1 <<< chunk key1 s)
          [makeHamtBranch (s + hamtBits) key1 key2 v1 v2]) s key2 v2 false =
          (some (.mk (1 <<< chunk key1 s) [.value v1]), false) := by
        rw [remove_eq]
        simp only [HAMT.bmap_mk, HAMT.entries_mk]
        rw [if_pos (by rw [← hc, testBit_bit]; simp), ← hc, rank_bit, if_neg (Nat.lt_irrefl _)]
        simp only [List.getElem?_cons_zero]
        rw [hc, ih s rfl]
        simp
      simp only [removeEntry]
      rw [hsh, hrm]
      rfl
    · rw [if_neg hc]
      simp only [removeEntry]
      rw [hsh, remove_pair (chunk_lt _ _) (chunk_lt _ _) hc v1 v2 s key2 rfl h22]
      rfl

end UndoBranch


section UndoSole
variable {α : Type}

/-- A child node that is `Full` and holds no bucket has, when it has one slot
only, a node in that slot. -/
theorem sole_slot_is_node {c : HAMT α} (hfull : (Entry.hamt c).Full) (hplain : c.Plain)
    {x : Entry α} (hx : c.entries = [x]) : ∃ d, x = .hamt d := by
  cases x with
  | hamt d => exact ⟨d, rfl⟩
  | collision b =>
    exfalso
    have hp := ((HAMT.Plain_iff c).1 hplain).2
    rw [hx, PlainOf_iff] at hp
    exact Entry.Plain_collision b (hp _ (List.mem_singleton.2 rfl))
  | value y =>
    exfalso
    have h2 := ((Entry.Full_hamt c).1 hfull).1
    rw [elements_of_sole hx] at h2
    simp [Entry.elements] at h2

end UndoSole

section UndoMain
variable {α : Type} [Value α]

/-- At every level, removing an element right after inserting it gives the
node back, when the node held no equal element and holds no bucket. -/
theorem remove_Insert_aux (e : α) (he : Equal e e = true) (m : HAMT α) :
    ∀ (shift : Nat) (n : Int), NodeInv shift m → m.Full → m.Plain →
      (∀ x ∈ m.elements, Equal x e = false) →
      remove (Insert m shift (Hash e) e n).1 shift (Hash e) e false = (some m, false) := by
  induction m using HAMT.induct with
  | step m ih =>
    intro shift n hinv hfull hplain hfresh
    have hlen := hinv.len_eq
    have hi := chunk_lt (Hash e) shift
    have hw : m.bmap < 2 ^ 64 := ((HAMT.Plain_iff m).1 hplain).1
    have hrl : rank m.bmap (chunk (Hash e) shift) ≤ m.entries.length := rank_le_length hlen hi
    rcases Insert_cases_len hlen shift (Hash e) e n with ⟨hb, hs, hI⟩ | ⟨hb, x, hs, hg, hI⟩
    · rw [hI, remove_eq]
      simp only [HAMT.bmap_mk, HAMT.entries_mk]
      have hr : rank (m.bmap ||| (1 <<< chunk (Hash e) shift)) (chunk (Hash e) shift) =
          rank m.bmap (chunk (Hash e) shift) := by
        rw [rank_lor _ hb]; simp
      have hget : (m.entries.take (rank m.bmap (chunk (Hash e) shift)) ++
          Entry.value e :: m.entries.drop (rank m.bmap (chunk (Hash e) shift)))[
            rank m.bmap (chunk (Hash e) shift)]? = some (Entry.value e) := by
        have hl : (m.entries.take (rank m.bmap (chunk (Hash e) shift))).length =
            rank m.bmap (chunk (Hash e) shift) := by simp [hrl]
        rw [List.getElem?_append_right (by omega), hl]
        simp
      rw [if_pos (by rw [Nat.testBit_or, testBit_bit]; simp), hr, hget]
      simp only [removeEntry_value, he, if_true]
      by_cases hl1 : (m.entries.take (rank m.bmap (chunk (Hash e) shift)) ++
          Entry.value e :: m.entries.drop (rank m.bmap (chunk (Hash e) shift))).length = 1
      · rw [if_pos hl1]
        have hnil : m.entries = [] := by
          have := hl1
          rw [List.length_append, List.length_cons, List.length_take, List.length_drop] at this
          apply List.length_eq_zero.1
          omega
        have hz : m.bmap = 0 := eq_zero_of_OnesCount hw (by rw [hlen, hnil]; rfl)
        rw [← HAMT.eta m, hnil, hz]
        rfl
      · rw [if_neg hl1, andNot_lor_bit hw hi hb, take_drop_insertAt _ _ _ hrl, HAMT.eta]
    · have hxm : x ∈ m.entries := slot_mem hs
      have hrlt : rank m.bmap (chunk (Hash e) shift) < m.entries.length := by
        rcases Nat.lt_or_ge (rank m.bmap (chunk (Hash e) shift)) m.entries.length with h1 | h1
        · exact h1
        · rw [List.getElem?_eq_none h1] at hg; cases hg
      have hxfull : x.Full := (FullOf_iff _).1 ((HAMT.Full_iff m).1 hfull) x hxm
      have hxplain : x.Plain := (PlainOf_iff _).1 ((HAMT.Plain_iff m).1 hplain).2 x hxm
      have hkey : removeEntry (insertEntry x shift (Hash e) e n).1 shift (Hash e) e false =
          (.put x, false) := by
        cases x with
        | collision b => exact absurd hxplain (Entry.Plain_collision b)
        | value y =>
          have hy : Equal y e = false := hfresh y (mem_elements_of_value hxm)
          simp only [insertEntry]
          rw [if_neg (by rw [hy]; simp)]
          exact removeEntry_makeHamtBranch (Hash y) (Hash e) y e hy he _ shift rfl
        | hamt c =>
          have hcinv : NodeInv (shift + hamtBits) c := hinv.childNode hxm
          have hcfull := ((Entry.Full_hamt c).1 hxfull).2
          have hcplain : c.Plain := (Entry.Plain_hamt c).1 hxplain
          have hrm := ih c hxm (shift + hamtBits) n hcinv hcfull hcplain
            (fun y hy => hfresh y (mem_elements_of_child hxm hy))
          simp only [insertEntry, removeEntry, hrm]
          by_cases hcond : c.entries.length = 1 ∧ True
          · rw [if_pos hcond]
            obtain ⟨z, hz⟩ := List.length_eq_one.mp hcond.1
            obtain ⟨d, hd⟩ := sole_slot_is_node hxfull hcplain hz
            rw [hz, hd]
          · rw [if_neg hcond]
      rw [hI, remove_eq]
      simp only [HAMT.bmap_mk, HAMT.entries_mk]
      rw [if_pos hb, List.getElem?_set_self hrlt]
      simp only [hkey]
      rw [List.set_set, set_of_getElem? hg, HAMT.eta]

end UndoMain

section UndoClaim
variable {α : Type} [Value α] [Contract α]

/-- C32 (Remove undoes Insert): for every trie `t` built from the empty trie by
`Insert` and `Remove` of elements with pairwise distinct hash keys, and every
element `e` whose hash key is not in `t`, removing `e` from
`Insert(t, 0, e.Hash(), e, n)` gives a trie structurally identical to `t`. -/
theorem C32_remove_undoes_insert {t : HAMT α} (ht : ReachableD t) (e : α) (n : Int)
    (hfresh : ∀ x ∈ t.elements, Hash x ≠ Hash e) :
    Remove (Insert t 0 (Hash e) e n).1 (Hash e) e = t := by
  have hr := ht.toReachable
  have hne : ∀ x ∈ t.elements, Equal x e = false := by
    intro x hx
    cases hxe : Equal x e with
    | false => rfl
    | true => exact absurd (Contract.equal_hash x e hxe) (hfresh x hx)
  rw [Remove_eq, remove_Insert_aux e (Contract.equal_refl e) t 0 n hr.nodeInv hr.full
    ht.plain.1 hne]
  rfl

end UndoClaim

section UndoWitness

theorem sampleT_reachableD : ReachableD sampleT :=
  ReachableD.insert EmptyHAMT sampleA 1 (by decide)
    (by intro x hx; rw [elements_EmptyHAMT] at hx; cases hx) ReachableD.empty

theorem sampleT_elements : sampleT.elements = [sampleA] := by
  rw [sampleT_eq]; rfl

/-- Witness of C32 at the trie `sampleT`, which holds `sampleA` of hash 7, and
the element `sampleE` of hash 71: inserting `sampleE` builds a branch below slot
7 of the root, and removing it gives `sampleT` back. -/
theorem C32_witness :
    ReachableD sampleT ∧ (∀ x ∈ sampleT.elements, Hash x ≠ Hash sampleE) ∧
    Remove (Insert sampleT 0 (Hash sampleE) sampleE 1).1 (Hash sampleE) sampleE = sampleT :=
  have hf : ∀ x ∈ sampleT.elements, Hash x ≠ Hash sampleE := by
    rw [sampleT_elements]; decide
  ⟨sampleT_reachableD, hf, C32_remove_undoes_insert sampleT_reachableD sampleE 1 hf⟩

end UndoWitness

/-! ## Insertion order -/

section OrderCounter
variable {α : Type} [Value α]

theorem withValue_fst_counter (c : List α) (v : α) (n n2 : Int) :
    (withValue c v n).1 = (withValue c v n2).1 := by
  induction c with
  | nil => rw [withValue_nil, withValue_nil]
  | cons x c ih =>
    rw [withValue_cons, withValue_cons]
    by_cases hx : Equal x v = true
    · rw [if_pos hx, if_pos hx]
    · rw [if_neg hx, if_neg hx, ih]

/-- The node `Insert` returns does not depend on the value of `*resized`. -/
theorem Insert_fst_counter (m : HAMT α) : ∀ (shift key : Nat) (v : α) (n n2 : Int),
    (Insert m shift key v n).1 = (Insert m shift key v n2).1 := by
  induction m using HAMT.induct with
  | step m ih =>
    intro shift key v n n2
    rw [Insert_eq, Insert_eq]
    by_cases hb : m.bmap.testBit (chunk key shift) = false
    · rw [if_pos hb, if_pos hb]
    · rw [if_neg hb, if_neg hb]
      rcases hg : m.entries[rank m.bmap (chunk key shift)]? with _ | e
      · rfl
      · have he : e ∈ m.entries := List.getElem?_mem hg
        have hie : (insertEntry e shift key v n).1 = (insertEntry e shift key v n2).1 := by
          cases e with
          | hamt c =>
            simp only [insertEntry]
            rw [ih c he (shift + hamtBits) key v n n2]
          | collision c =>
            simp only [insertEntry]
            rw [withValue_fst_counter c v n n2]
          | value y =>
            simp only [insertEntry]
            by_cases hy : Hash y = key ∧ Equal y v = true
            · rw [if_pos hy, if_pos hy]
            · rw [if_neg hy, if_neg hy]
        simp only [hie]

end OrderCounter

section OrderSlots
variable {α : Type}

theorem lor_bit_self {b i : Nat} (hb : b.testBit i = true) : b ||| (1 <<< i) = b := by
  apply Nat.eq_of_testBit_eq
  intro j
  rw [Nat.testBit_or, testBit_bit]
  by_cases hij : i = j
  · subst hij; simp [hb]
  · simp [hij]

/-- Two nodes with the same bitmap, each with as many slots as its bitmap
has set bits, that route every chunk value to the same content, are the same
node. -/
theorem HAMT.ext_slots {m1 m2 : HAMT α} (hb : m1.bmap = m2.bmap)
    (h1 : OnesCount m1.bmap = m1.entries.length) (h2 : OnesCount m2.bmap = m2.entries.length)
    (hs : ∀ i, i < 64 → m1.slot i = m2.slot i) : m1 = m2 := by
  have hes : m1.entries = m2.entries := by
    apply List.ext_getElem?
    intro k
    by_cases hk : k < m1.entries.length
    · have hk2 : k < rank m1.bmap 64 := by rw [← OnesCount_eq_rank, h1]; exact hk
      obtain ⟨i, hi, hbi, hr⟩ := exists_bit_of_rank hk2
      have := hs i hi
      simp only [HAMT.slot, hbi, ← hb, if_true, hr] at this
      exact this
    · have hk1 : m1.entries.length ≤ k := by omega
      have hk2 : m2.entries.length ≤ k := by rw [← h2, ← hb, h1]; exact hk1
      rw [List.getElem?_eq_none hk1, List.getElem?_eq_none hk2]
  rw [← HAMT.eta m1, ← HAMT.eta m2, hb, hes]

end OrderSlots

section OrderInsert
variable {α : Type} [Value α]

theorem Insert_bmap {m : HAMT α} (hlen : OnesCount m.bmap = m.entries.length)
    (shift key : Nat) (v : α) (n : Int) :
    (Insert m shift key v n).1.bmap = m.bmap ||| (1 <<< chunk key shift) := by
  rcases Insert_cases_len hlen shift key v n with ⟨_, _, hI⟩ | ⟨hb, e, _, _, hI⟩
  · rw [hI]; rfl
  · rw [hI, lor_bit_self hb]; rfl

/-- Slots of the node `Insert` returns: the slot of the chunk of the key holds
what `insertSlot` says, every other slot is as before. -/
theorem Insert_slot {m : HAMT α} (hlen : OnesCount m.bmap = m.entries.length)
    (shift key : Nat) (v : α) (n : Int) (j : Nat) :
    (Insert m shift key v n).1.slot j =
      if j = chunk key shift then some (insertSlot (m.slot j) shift key v n)
      else m.slot j := by
  have hi := chunk_lt key shift
  rcases Insert_cases_len hlen shift key v n with ⟨hb, hs, hI⟩ | ⟨hb, e, hs, _, hI⟩
  · rw [hI]
    simp only []
    rw [slot_insertAt hlen hi hb, HAMT.eta]
    by_cases hj : j = chunk key shift
    · rw [if_pos hj, if_pos hj, hj, hs]; rfl
    · rw [if_neg hj, if_neg hj]
  · rw [hI]
    simp only []
    rw [slot_set hlen hi hb, HAMT.eta]
    by_cases hj : j = chunk key shift
    · rw [if_pos hj, if_pos hj, hj, hs]; rfl
    · rw [if_neg hj, if_neg hj]

end OrderInsert

section OrderBranch
variable {α : Type}

/-- The branch `makeHamtBranch` builds for two elements with different keys
that reach the level on the same path does not depend on which of the two
comes first. -/
theorem makeHamtBranch_comm (key1 key2 : Nat) (v1 v2 : α) (hne : key1 ≠ key2)
    (hk1 : key1 < 2 ^ 64) (hk2 : key2 < 2 ^ 64) (shift : Nat) :
    key1 % 2 ^ shift = key2 % 2 ^ shift →
    makeHamtBranch shift key1 key2 v1 v2 = makeHamtBranch shift key2 key1 v2 v1 := by
  induction shift using shift_induct with
  | base s hs =>
    intro hag
    exact absurd (eq_of_agree hag hs hk1 hk2) hne
  | step s hs ih =>
    intro hag
    rw [makeHamtBranch_eq, makeHamtBranch_eq s key2 key1]
    by_cases hc : chunk key1 s = chunk key2 s
    · rw [if_pos hc, if_pos hc.symm, if_neg (by omega), if_neg (by omega),
        ih (agree_step hag hc), hc]
    · have hc2 : ¬ chunk key2 s = chunk key1 s := fun h => hc h.symm
      rw [if_neg hc, if_neg hc2, Nat.lor_comm (1 <<< chunk key2 s)]
      rcases Nat.lt_or_gt_of_ne hc with h | h
      · rw [if_pos h, if_neg (by omega)]
      · rw [if_neg (by omega), if_pos h]

end OrderBranch

section OrderBranchInsert
variable {α : Type} [Value α]

/-- Below the word size `makeHamtBranch` builds what `Insert` of the second
element into the one-slot node of the first element builds. -/
theorem makeHamtBranch_eq_Insert {u : Nat} (hu : u < 64) (v1 v2 : α) (key2 : Nat)
    (hne : Hash v1 ≠ key2) (n : Int) :
    makeHamtBranch u (Hash v1) key2 v1 v2 =
      .hamt (Insert (.mk (1 <<< chunk (Hash v1) u) [.value v1]) u key2 v2 n).1 := by
  rw [makeHamtBranch_eq, Insert_eq]
  simp only [HAMT.bmap_mk, HAMT.entries_mk, rank_bit]
  by_cases hc : chunk (Hash v1) u = chunk key2 u
  · have hb : ¬ (1 <<< chunk (Hash v1) u).testBit (chunk key2 u) = false := by
      rw [testBit_bit]; simp [hc]
    rw [if_pos hc, if_neg (by omega), if_neg hb, if_neg (by omega)]
    simp only [List.getElem?_cons_zero, insertEntry]
    rw [if_neg (fun h => hne h.1)]
    rfl
  · have hb : (1 <<< chunk (Hash v1) u).testBit (chunk key2 u) = false := by
      rw [testBit_bit]; simp [hc]
    rw [if_neg hc, if_pos hb]
    by_cases hlt : chunk (Hash v1) u < chunk key2 u
    · rw [if_pos hlt, if_pos hlt]; rfl
    · rw [if_neg hlt, if_neg hlt]; rfl

end OrderBranchInsert


section OrderComm
variable {α : Type} [Value α]

theorem insertSlot_some (e : Entry α) (shift key : Nat) (v : α) (n : Int) :
    insertSlot (some e) shift key v n = (insertEntry e shift key v n).1 := rfl

theorem insertSlot_none (shift key : Nat) (v : α) (n : Int) :
    insertSlot (none : Option (Entry α)) shift key v n = .value v := rfl

theorem insertEntry_value_ne {y : α} {key : Nat} (h : Hash y ≠ key) (shift : Nat) (v : α)
    (n : Int) :
    (insertEntry (.value y) shift key v n).1 = makeHamtBranch (shift + hamtBits) (Hash y) key y v := by
  simp only [insertEntry]
  rw [if_neg (fun hc => h hc.1)]

theorem insertEntry_hamt (c : HAMT α) (shift key : Nat) (v : α) (n : Int) :
    (insertEntry (.hamt c) shift key v n).1 = .hamt (Insert c (shift + hamtBits) key v n).1 := rfl

end OrderComm

section OrderSingle
variable {α : Type}

theorem Plain_single {i : Nat} (hi : i < 64) (y : α) :
    (HAMT.mk (1 <<< i) [Entry.value y]).Plain := by
  rw [HAMT.Plain_iff]
  refine ⟨bit_lt_word hi, (PlainOf_iff _).2 (fun e he => ?_)⟩
  rw [HAMT.entries_mk, List.mem_singleton] at he
  rw [he]
  exact Entry.Plain_value y

end OrderSingle

section OrderCommMain
variable {α : Type} [Value α]

/-- Two insertions of elements with different hashes commute, at every level,
in a node without bucket that holds neither hash. -/
theorem Insert_comm (a b : α) (hne : Hash a ≠ Hash b) (ha : Hash a < 2 ^ 64)
    (hb : Hash b < 2 ^ 64) (s : Nat) :
    ∀ m : HAMT α, NodeInv s m → m.Plain → Hash a % 2 ^ s = Hash b % 2 ^ s →
      (∀ x ∈ m.elements, Hash x < 2 ^ 64 ∧ Hash x % 2 ^ s = Hash a % 2 ^ s ∧
        Hash x ≠ Hash a ∧ Hash x ≠ Hash b) →
      (Insert (Insert m s (Hash a) a 0).1 s (Hash b) b 0).1 =
        (Insert (Insert m s (Hash b) b 0).1 s (Hash a) a 0).1 := by
  induction s using shift_induct with
  | base s hs =>
    intro m _ _ hag _
    exact absurd (eq_of_agree hag hs ha hb) hne
  | step s hs ih =>
    intro m hinv hplain hag hel
    have hlen := hinv.len_eq
    have hia := (Insert_nodeInv_aux m s a 0 hinv).1
    have hib := (Insert_nodeInv_aux m s b 0 hinv).1
    have hiab := (Insert_nodeInv_aux _ s b 0 hia).1
    have hiba := (Insert_nodeInv_aux _ s a 0 hib).1
    apply HAMT.ext_slots _ hiab.len_eq hiba.len_eq
    · intro j hj
      rw [Insert_slot hia.len_eq, Insert_slot hlen, Insert_slot hib.len_eq, Insert_slot hlen]
      by_cases hab : chunk (Hash a) s = chunk (Hash b) s
      · by_cases hja : j = chunk (Hash a) s
        · have hjb : j = chunk (Hash b) s := hja.trans hab
          simp only [if_pos hjb, if_pos hja]
          congr 1
          rw [insertSlot_some, insertSlot_some]
          have hag2 : Hash a % 2 ^ (s + hamtBits) = Hash b % 2 ^ (s + hamtBits) :=
            agree_step hag hab
          rcases hsl : m.slot j with _ | e
          · rw [insertSlot_none, insertSlot_none, insertEntry_value_ne hne,
              insertEntry_value_ne hne.symm]
            exact makeHamtBranch_comm _ _ a b hne ha hb _ hag2
          · have hem : e ∈ m.entries := slot_mem hsl
            cases e with
            | collision c =>
              exact absurd ((PlainOf_iff _).1 ((HAMT.Plain_iff m).1 hplain).2 _ hem)
                (Entry.Plain_collision c)
            | value y =>
              obtain ⟨hy, hya, hyna, hynb⟩ := hel y (mem_elements_of_value hem)
              have hcy : chunk (Hash y) s = j :=
                hinv.path hj hsl (by rw [Entry.elements_value]; simp)
              have hya2 : Hash y % 2 ^ (s + hamtBits) = Hash a % 2 ^ (s + hamtBits) :=
                agree_step hya (hcy.trans hja)
              by_cases hu : s + hamtBits < 64
              · rw [insertSlot_some, insertSlot_some, insertEntry_value_ne hyna,
                  insertEntry_value_ne hynb, makeHamtBranch_eq_Insert hu y a _ hyna 0,
                  makeHamtBranch_eq_Insert hu y b _ hynb 0, insertEntry_hamt, insertEntry_hamt]
                congr 1
                have hsi : NodeInv (s + hamtBits)
                    (HAMT.mk (1 <<< chunk (Hash y) (s + hamtBits)) [Entry.value y]) := by
                  apply NodeInv_single (chunk_lt _ _)
                  · intro v hv
                    rw [Entry.elements_value, List.mem_singleton] at hv
                    rw [hv]
                  · exact True.intro
                apply ih _ hsi (Plain_single (chunk_lt _ _) y) hag2
                intro x hx
                rw [elements_of_sole (HAMT.entries_mk _ _), Entry.elements_value,
                  List.mem_singleton] at hx
                rw [hx]
                exact ⟨hy, hya2, hyna, hynb⟩
              · exact absurd (eq_of_agree hya2 (by omega) hy ha) hyna
            | hamt c =>
              rw [insertSlot_some, insertSlot_some, insertEntry_hamt, insertEntry_hamt,
                insertEntry_hamt, insertEntry_hamt]
              congr 1
              have hcinv : NodeInv (s + hamtBits) c := hinv.childNode hem
              have hcplain : c.Plain :=
                (Entry.Plain_hamt c).1 ((PlainOf_iff _).1 ((HAMT.Plain_iff m).1 hplain).2 _ hem)
              apply ih c hcinv hcplain hag2
              intro x hx
              obtain ⟨h1, h2, h3, h4⟩ := hel x (mem_elements_of_child hem hx)
              have hcx : chunk (Hash x) s = j :=
                hinv.path hj hsl (by rw [Entry.elements_hamt]; exact hx)
              exact ⟨h1, agree_step h2 (hcx.trans hja), h3, h4⟩
        · have hjb : ¬ j = chunk (Hash b) s := fun h => hja (h.trans hab.symm)
          simp only [if_neg hjb, if_neg hja]
      · by_cases hja : j = chunk (Hash a) s
        · have hjb : ¬ j = chunk (Hash b) s := fun h => hab (hja.symm.trans h)
          simp only [if_neg hjb, if_pos hja]
        · by_cases hjb : j = chunk (Hash b) s
          · simp only [if_pos hjb, if_neg hja]
          · simp only [if_neg hjb, if_neg hja]
    · rw [Insert_bmap hia.len_eq, Insert_bmap hlen, Insert_bmap hib.len_eq, Insert_bmap hlen,
        Nat.lor_assoc, Nat.lor_assoc, Nat.lor_comm (1 <<< chunk (Hash a) s)]

end OrderCommMain


section OrderPerm
variable {α : Type} [Value α]

theorem insertNodes_nil (t : HAMT α) : insertNodes t [] = t := rfl

theorem insertNodes_cons (t : HAMT α) (x : α) (l : List α) :
    insertNodes t (x :: l) = insertNodes (Insert t 0 (Hash x) x 0).1 l := rfl

theorem insertAll_fst (l : List α) : ∀ (t : HAMT α) (n : Int),
    (insertAll t n l).1 = insertNodes t l := by
  induction l with
  | nil => intro t n; rfl
  | cons x l ih =>
    intro t n
    rw [insertNodes_cons, ← Insert_fst_counter t 0 (Hash x) x n 0,
      ← ih (Insert t 0 (Hash x) x n).1 (Insert t 0 (Hash x) x n).2]
    rfl

theorem foldl_Add_m (l : List α) : ∀ s : Set α,
    (l.foldl Set.Add s).m = insertNodes s.m l := by
  induction l with
  | nil => intro s; rfl
  | cons x l ih =>
    intro s
    rw [List.foldl_cons, ih, insertNodes_cons, ← Insert_fst_counter s.m 0 (Hash x) x (s.l + 1) 0]
    rfl

/-- One insertion of an element with a new hash keeps the trie free of
buckets, with elements of 64-bit hashes. -/
theorem Insert_distinct_step {t : HAMT α} {x : α} (hinv : NodeInv 0 t) (hpl : t.Plain)
    (hte : ∀ y ∈ t.elements, Hash y < 2 ^ 64) (hx : Hash x < 2 ^ 64)
    (hfx : ∀ y ∈ t.elements, Hash y ≠ Hash x) :
    NodeInv 0 (Insert t 0 (Hash x) x 0).1 ∧ (Insert t 0 (Hash x) x 0).1.Plain ∧
    (∀ y ∈ (Insert t 0 (Hash x) x 0).1.elements, Hash y < 2 ^ 64) ∧
    (∀ y ∈ (Insert t 0 (Hash x) x 0).1.elements, y = x ∨ y ∈ t.elements) := by
  have h := Insert_nodeInv_aux t 0 x 0 hinv
  refine ⟨h.1, ?_, ?_, h.2⟩
  · exact Insert_plain_aux t 0 x 0 hinv hpl hx
      (fun y hy => ⟨hte y hy, by simp [Nat.mod_one], fun he => absurd he (hfx y hy)⟩)
  · intro y hy
    rcases h.2 y hy with h1 | h1
    · rw [h1]; exact hx
    · exact hte y h1

/-- Inserting the elements of a list with pairwise distinct hashes, none of
them stored yet, gives the same trie in every order. -/
theorem insertNodes_perm {l1 l2 : List α} (hp : l1.Perm l2) :
    ∀ t : HAMT α, NodeInv 0 t → t.Plain → (∀ x ∈ t.elements, Hash x < 2 ^ 64) →
      (∀ v ∈ l1, Hash v < 2 ^ 64) → l1.Pairwise (fun a b => Hash a ≠ Hash b) →
      (∀ v ∈ l1, ∀ x ∈ t.elements, Hash x ≠ Hash v) →
      insertNodes t l1 = insertNodes t l2 := by
  induction hp with
  | nil => intro t _ _ _ _ _ _; rfl
  | cons x _ ih =>
    intro t hinv hpl hte hlw hpw hfr
    rw [insertNodes_cons, insertNodes_cons]
    obtain ⟨h1, h2, h3, h4⟩ := Insert_distinct_step hinv hpl hte
      (hlw x (List.mem_cons_self _ _)) (hfr x (List.mem_cons_self _ _))
    rw [List.pairwise_cons] at hpw
    apply ih _ h1 h2 h3 (fun v hv => hlw v (List.mem_cons_of_mem _ hv)) hpw.2
    intro v hv y hy
    rcases h4 y hy with h5 | h5
    · rw [h5]; exact hpw.1 v hv
    · exact hfr v (List.mem_cons_of_mem _ hv) y h5
  | swap x y l =>
    intro t hinv hpl hte hlw hpw hfr
    rw [insertNodes_cons, insertNodes_cons, insertNodes_cons, insertNodes_cons]
    have hy := hlw y (List.mem_cons_self _ _)
    have hx := hlw x (List.mem_cons_of_mem _ (List.mem_cons_self _ _))
    rw [List.pairwise_cons] at hpw
    have hyx : Hash y ≠ Hash x := hpw.1 x (List.mem_cons_self _ _)
    rw [Insert_comm y x hyx hy hx 0 t hinv hpl (by simp [Nat.mod_one])
      (fun z hz => ⟨hte z hz, by simp [Nat.mod_one], hfr y (List.mem_cons_self _ _) z hz,
        hfr x (List.mem_cons_of_mem _ (List.mem_cons_self _ _)) z hz⟩)]
  | trans h12 _ ih1 ih2 =>
    intro t hinv hpl hte hlw hpw hfr
    rw [ih1 t hinv hpl hte hlw hpw hfr]
    apply ih2 t hinv hpl hte (fun v hv => hlw v (h12.mem_iff.2 hv))
    · exact (h12.pairwise_iff (fun h => Ne.symm h)).1 hpw
    · exact fun v hv => hfr v (h12.mem_iff.2 hv)

/-- C31 (canonical form under insertion order): for every finite list of
elements with pairwise distinct hash keys (64-bit words), inserting them into
the empty trie in any two orders, that is in the order of the list and in the
order of any permutation of it, produces structurally identical tries, whatever
`resized` holds at the start, and so do the sets that `Add` builds from
`EmptySet`. -/
theorem C31_canonical_form (l1 l2 : List α) (hp : l1.Perm l2)
    (hd : l1.Pairwise (fun a b => Hash a ≠ Hash b)) (hw : ∀ v ∈ l1, Hash v < 2 ^ 64)
    (n1 n2 : Int) :
    (insertAll EmptyHAMT n1 l1).1 = (insertAll EmptyHAMT n2 l2).1 ∧
    (l1.foldl Set.Add EmptySet).m = (l2.foldl Set.Add EmptySet).m := by
  have h : insertNodes (EmptyHAMT : HAMT α) l1 = insertNodes EmptyHAMT l2 :=
    insertNodes_perm hp EmptyHAMT (NodeInv_EmptyHAMT 0) Plain_EmptyHAMT
      (fun x hx => by rw [elements_EmptyHAMT] at hx; cases hx) hw hd
      (fun v _ x hx => by rw [elements_EmptyHAMT] at hx; cases hx)
  refine ⟨?_, ?_⟩
  · rw [insertAll_fst, insertAll_fst, h]
  · rw [foldl_Add_m, foldl_Add_m]
    exact h

end OrderPerm


section OrderWitness

/-- Witness of C31 at three elements of hashes 7, 71 and 8, the first two of
which share slot 7 of the root: inserting `sampleA`, `sampleE`, `sampleD` and
inserting `sampleE`, `sampleA`, `sampleD` give the same trie. -/
theorem C31_witness :
    [sampleA, sampleE, sampleD].Perm [sampleE, sampleA, sampleD] ∧
    [sampleA, sampleE, sampleD].Pairwise (fun a b => Hash a ≠ Hash b) ∧
    (∀ v ∈ [sampleA, sampleE, sampleD], Hash v < 2 ^ 64) ∧
    (insertAll EmptyHAMT 0 [sampleA, sampleE, sampleD]).1 =
      (insertAll EmptyHAMT 0 [sampleE, sampleA, sampleD]).1 ∧
    ([sampleA, sampleE, sampleD].foldl Set.Add EmptySet).m =
      ([sampleE, sampleA, sampleD].foldl Set.Add EmptySet).m :=
  have hp : [sampleA, sampleE, sampleD].Perm [sampleE, sampleA, sampleD] :=
    List.Perm.swap sampleE sampleA [sampleD]
  have hd : [sampleA, sampleE, sampleD].Pairwise (fun a b => Hash a ≠ Hash b) := by decide
  have hw : ∀ v ∈ [sampleA, sampleE, sampleD], Hash v < 2 ^ 64 := by decide
  ⟨hp, hd, hw, C31_canonical_form _ _ hp hd hw 0 0⟩

end OrderWitness

/-! ## Claim C33: the branch of two equivalent elements -/

section BranchEquivalent
variable {α : Type}

/-- What `makeHamtBranch` returns is a node or a bucket, never a bare element. -/
theorem makeHamtBranch_ne_value (shift key1 key2 : Nat) (v1 v2 w : α) :
    makeHamtBranch shift key1 key2 v1 v2 ≠ .value w := by
  rw [makeHamtBranch_eq]
  intro h
  split at h
  · split at h <;> cases h
  · cases h

end BranchEquivalent

section BranchEquivalentInput

/-- C33 (`makeHamtBranch` on equivalent elements), counterexample.  `sampleA`
and `sampleB` are equivalent (`Equal` gives true) and both have the hash 7.
Called at level 6 with their hashes as keys, `makeHamtBranch` creates a map: ten
nodes, one below the other, around a bucket that holds both elements.  It does
not return `sampleB`, so the claim fails at these arguments. -/
theorem C33_counterexample :
    Equal sampleA sampleB = true ∧
    makeHamtBranch 6 (Hash sampleA) (Hash sampleB) sampleA sampleB =
      bridge 7 10 6 (.collision [sampleA, sampleB]) ∧
    (∃ m, makeHamtBranch 6 (Hash sampleA) (Hash sampleB) sampleA sampleB = .hamt m) ∧
    ¬ (Equal sampleA sampleB = true →
      makeHamtBranch 6 (Hash sampleA) (Hash sampleB) sampleA sampleB = .value sampleB) := by
  have h : makeHamtBranch 6 (Hash sampleA) (Hash sampleB) sampleA sampleB =
      bridge 7 10 6 (.collision [sampleA, sampleB]) := by
    rw [makeHamtBranch_eval]; rfl
  refine ⟨sample_AB, h, ⟨_, h.trans (bridge_succ 7 9 6 _)⟩, fun hc => ?_⟩
  exact makeHamtBranch_ne_value _ _ _ _ _ _ (hc sample_AB)

end BranchEquivalentInput

section BranchEquivalentInsert
variable {α : Type} [Value α] [Contract α]

/-- C33 (`makeHamtBranch` on equivalent elements), as amended.
`makeHamtBranch` returns no bare element, whatever its arguments: it creates a
branch that holds both `v1` and `v2`, also when they are equivalent.  The
replacement is made by `Insert`: at a slot that holds the element `e` bare,
`Insert` with `key` and `v` puts `v` in the place of `e` and takes one off the
counter when `e.Hash() == key` and `e.Equal(v)`, and creates no node; otherwise
it puts there the branch `makeHamtBranch` makes of `e` and `v` one level down.
With the hash of `v` for key an equivalent `e` is always replaced. -/
theorem C33_equivalent_replaced_by_Insert (shift key1 key2 : Nat) (v1 v2 : α) :
    (∀ w, makeHamtBranch shift key1 key2 v1 v2 ≠ .value w) ∧
    ((makeHamtBranch shift key1 key2 v1 v2).elements = [v1, v2] ∨
      (makeHamtBranch shift key1 key2 v1 v2).elements = [v2, v1]) ∧
    (∀ (m : HAMT α) (s key : Nat) (e v : α) (n : Int),
      m.slot (chunk key s) = some (.value e) →
      Insert m s key v n =
        if Hash e = key ∧ Equal e v = true then
          (.mk m.bmap (m.entries.set (rank m.bmap (chunk key s)) (.value v)), n - 1)
        else
          (.mk m.bmap (m.entries.set (rank m.bmap (chunk key s))
            (makeHamtBranch (s + hamtBits) (Hash e) key e v)), n)) ∧
    (∀ (m : HAMT α) (s : Nat) (e v : α) (n : Int),
      m.slot (chunk (Hash v) s) = some (.value e) → Equal e v = true →
      Insert m s (Hash v) v n =
        (.mk m.bmap (m.entries.set (rank m.bmap (chunk (Hash v) s)) (.value v)), n - 1)) := by
  have h3 : ∀ (m : HAMT α) (s key : Nat) (e v : α) (n : Int),
      m.slot (chunk key s) = some (.value e) →
      Insert m s key v n =
        if Hash e = key ∧ Equal e v = true then
          (.mk m.bmap (m.entries.set (rank m.bmap (chunk key s)) (.value v)), n - 1)
        else
          (.mk m.bmap (m.entries.set (rank m.bmap (chunk key s))
            (makeHamtBranch (s + hamtBits) (Hash e) key e v)), n) := by
    intro m s key e v n hs
    have hb := slot_testBit hs
    rw [Insert_eq, if_neg (by rw [hb]; simp), slot_getElem? hs]
    simp only [insertEntry]
    by_cases hc : Hash e = key ∧ Equal e v = true
    · rw [if_pos hc, if_pos hc]
    · rw [if_neg hc, if_neg hc]
  refine ⟨fun w => makeHamtBranch_ne_value shift key1 key2 v1 v2 w,
    makeHamtBranch_elements shift key1 key2 v1 v2, h3, ?_⟩
  intro m s e v n hs he
  rw [h3 m s (Hash v) e v n hs, if_pos ⟨Contract.equal_hash e v he, he⟩]

end BranchEquivalentInsert

section BranchEquivalentWitness

/-- Witness of C33 as amended: `sampleT` holds `sampleA` bare in slot 7 of its
root, `sampleB` is equivalent to `sampleA`, and `Insert` of `sampleB` under its
hash leaves a root with `sampleB` in that slot, no node below it, and takes one
off the counter. -/
theorem C33_witness :
    sampleT.slot (chunk (Hash sampleB) 0) = some (.value sampleA) ∧
    Equal sampleA sampleB = true ∧
    Insert sampleT 0 (Hash sampleB) sampleB 2 = (.mk 128 [.value sampleB], 1) := by
  have hs : sampleT.slot (chunk (Hash sampleB) 0) = some (.value sampleA) := by
    rw [sampleT_eq]; rfl
  refine ⟨hs, sample_AB, ?_⟩
  rw [(C33_equivalent_replaced_by_Insert 0 0 0 sampleA sampleB).2.2.2 sampleT 0 sampleA sampleB 2
    hs sample_AB, sampleT_eq]
  rfl

end BranchEquivalentWitness

end Immutable
